import Mathlib

/-!
# repocli bulk transfer engine: embedding and verified properties

Shallow embedding of `internal/cmd/repocli/cli.go` and of the store of
`internal/cmd/repoadm/export.go` (Donders-Institute/dr-tools).

* Go strings are Lean `String`s; the Go standard-library path functions the
  code calls (`path.Clean`, `path.Join`, `path.Base`, `filepath.Abs`) are
  modelled on the character lists of the strings, following their documented
  behaviour on a platform whose separator is `/`.
* A Go `error` is an `Option String` holding the message (`none` is `nil`).
* The WebDAV client `cli` and the local operating system are external
  collaborators: they are parameters of the embedding (records of operations
  over an arbitrary state type), and every call the engine issues to them is
  recorded in a log.  The concrete instances `specStore`, `davStore` and
  `posixOS` are used to evaluate the code on concrete inputs.
* A run-time panic of the Go code (index out of range, nil dereference) is an
  explicit outcome of the embedded function.
* The recursive directory operations take a bound on the depth of their
  nested calls; a run that needs more is the outcome `outOfFuel`.
* The walker and its workers are run in one sequential interleaving, and the
  cancellation of the context is a point in the sequence of its polls.  One
  call of `copyOrMoveRepoDir` is also given as a transition system whose
  actors take their steps in any order.
-/

namespace Repocli

/-! ## Strings and paths (Go standard library) -/

namespace strings

/-- Go `strings.HasPrefix`. -/
def HasPrefix (s pre : String) : Bool :=
  pre.data.isPrefixOf s.data

/-- Whether `pat` occurs in `s` as a contiguous block of characters. -/
def containsChars (pat : List Char) : List Char → Bool
  | [] => pat.isEmpty
  | c :: cs => pat.isPrefixOf (c :: cs) || containsChars pat cs

/-- Go `strings.Contains`. -/
def Contains (s substr : String) : Bool :=
  containsChars substr.data s.data

end strings

namespace path

/-- Split a character list at every `/`; the result is never empty. -/
def splitSlash : List Char → List (List Char)
  | [] => [[]]
  | c :: cs =>
    if c = '/' then [] :: splitSlash cs
    else
      match splitSlash cs with
      | [] => [[c]]
      | seg :: rest => (c :: seg) :: rest

/-- One step of the element scan of `path.Clean`; `out` is the stack of kept
elements, last element first. -/
def cleanStep (rooted : Bool) (out : List (List Char)) (seg : List Char) : List (List Char) :=
  if seg = [] then out
  else if seg = ['.'] then out
  else if seg = ['.', '.'] then
    match out with
    | [] => if rooted then [] else [seg]
    | top :: rest => if top = ['.', '.'] then seg :: top :: rest else rest
  else seg :: out

/-- The elements kept by `path.Clean`, in order. -/
def cleanSegs (rooted : Bool) (segs : List (List Char)) : List (List Char) :=
  (segs.foldl (cleanStep rooted) []).reverse

/-- Join elements with single `/` separators. -/
def joinSlash : List (List Char) → List Char
  | [] => []
  | [seg] => seg
  | seg :: rest => seg ++ '/' :: joinSlash rest

/-- Go `path.Clean` on the characters of a path. -/
def cleanChars (p : List Char) : List Char :=
  match p with
  | [] => ['.']
  | c :: _ =>
    let rooted := decide (c = '/')
    let body := joinSlash (cleanSegs rooted (splitSlash p))
    if rooted then '/' :: body
    else if body = [] then ['.'] else body

/-- Go `path.Clean`: the shortest path name equivalent to `p` by purely
lexical processing. -/
def Clean (p : String) : String :=
  ⟨cleanChars p.data⟩

/-- Go `path.Join`: empty elements are ignored, the others are joined with
`/` and the result is cleaned; the result is empty when every element is. -/
def Join (elem : List String) : String :=
  match elem.filter (fun e => e ≠ "") with
  | [] => ""
  | es => Clean ⟨joinSlash (es.map String.data)⟩

/-- Drop the trailing `/` characters of a path. -/
def stripTrailingSlashes (p : List Char) : List Char :=
  (p.reverse.dropWhile (fun c => c = '/')).reverse

/-- The characters after the last `/` of a path. -/
def afterLastSlash (p : List Char) : List Char :=
  (p.reverse.takeWhile (fun c => c ≠ '/')).reverse

/-- Go `path.Base`: the last element of the path. -/
def Base (p : String) : String :=
  if p.data = [] then "."
  else
    let last := afterLastSlash (stripTrailingSlashes p.data)
    if last = [] then "/" else ⟨last⟩

/-- Go `path.IsAbs`. -/
def IsAbs (p : String) : Bool :=
  match p.data with
  | c :: _ => decide (c = '/')
  | [] => false

end path

namespace filepath

/-- Go `filepath.Join` where the separator is `/`. -/
def Join (elem : List String) : String :=
  path.Join elem

/-- Go `filepath.Abs` where the separator is `/`; `lcwd` is the working
directory reported by the operating system. -/
def Abs (lcwd p : String) : String :=
  if path.IsAbs p then path.Clean p else Join [lcwd, p]

end filepath

/-- Go `os.PathSeparator` on the modelled platform. -/
def osPathSeparator : Char := '/'

/-! ## Data model (`cli.go`, lines 24-51) -/

/-- Go `fs.FileInfo`, reduced to the methods the code calls. -/
structure FileInfo where
  /-- Result of `Name()`. -/
  name : String
  /-- Result of `Size()`. -/
  size : Int
  /-- Result of `IsDir()`. -/
  isDir : Bool
  /-- Result of `Mode()`. -/
  mode : Nat
deriving DecidableEq

/-- The absolute path and the `fs.FileInfo` of a file; `info` is `none` for a
nil interface value. -/
structure pathFileInfo where
  path : String
  info : Option FileInfo
deriving DecidableEq

/-- Generic input of a file operation. -/
structure opInput where
  src : pathFileInfo
  dst : pathFileInfo
deriving DecidableEq

/-- The operation options. -/
inductive Op
  | Put
  | Get
  | Move
  | Remove
  | Copy
deriving DecidableEq

/-- A Go `error`: `none` is `nil`, otherwise the text of `Error()`. -/
abbrev GoError := Option String

/-- Equality of results is decidable. -/
instance instDecidableEqExcept {ε α : Type} [DecidableEq ε] [DecidableEq α] :
    DecidableEq (Except ε α)
  | .ok a, .ok b => if h : a = b then isTrue (by rw [h]) else isFalse (fun h1 => h (by cases h1; rfl))
  | .error a, .error b =>
    if h : a = b then isTrue (by rw [h]) else isFalse (fun h1 => h (by cases h1; rfl))
  | .ok _, .error _ => isFalse (fun h => by cases h)
  | .error _, .ok _ => isFalse (fun h => by cases h)

/-! ## Path resolution (`cli.go`, lines 782-789) -/

/-- Resolves `p` into a clean absolute path taking into account `cwd`. -/
def getCleanRepoPath (cwd p : String) : String :=
  if strings.HasPrefix p "/" then path.Clean p else path.Join [cwd, p]

/-- The last rune of a command argument, `cpath[len(cpath)-1]`; `none` is the
index-out-of-range panic of an empty argument. -/
def lastRune (arg : String) : Option Char :=
  arg.data.getLast?

/-- The destination root chosen by `putCmd` for a directory source (lines
211-225): `args0` is resolved locally to a directory whose `FileInfo` is
`lfinfo`. -/
def putDirDst (cwd args0 args1 : String) (lfinfo : FileInfo) : Option String :=
  let p := getCleanRepoPath cwd args1
  match lastRune args0 with
  | none => none
  | some c => if c ≠ osPathSeparator then some (path.Join [p, lfinfo.name]) else some p

/-- The destination root chosen by `getCmd` for a directory source (lines
328-371). -/
def getDirDst (cwd lcwd args0 args1 : String) : Option String :=
  let p := getCleanRepoPath cwd args0
  let lp := filepath.Abs lcwd args1
  match lastRune args0 with
  | none => none
  | some c => if c ≠ '/' then some (filepath.Join [lp, path.Base p]) else some lp

/-- The destination root chosen by `cpCmd` for a directory source (lines
474-505). -/
def cpDirDst (cwd args0 args1 : String) : Option String :=
  let src := getCleanRepoPath cwd args0
  let dst := getCleanRepoPath cwd args1
  match lastRune args0 with
  | none => none
  | some c => if c ≠ '/' then some (path.Join [dst, path.Base src]) else some dst

/-- The destination root chosen by `mvCmd` for a directory source (lines
595-626). -/
def mvDirDst (cwd args0 args1 : String) : Option String :=
  let src := getCleanRepoPath cwd args0
  let dst := getCleanRepoPath cwd args1
  match lastRune args0 with
  | none => none
  | some c => if c ≠ '/' then some (path.Join [dst, path.Base src]) else some dst

/-! ## External collaborators -/

/-- File content: a sequence of byte values. -/
abbrev Bytes := List Nat

/-- Error of a `Read` on a stream: `io.EOF` or another failure. -/
inductive ReadErr
  | eof
  | fail (msg : String)
deriving DecidableEq

/-- One result `(rlen, rerr)` of `reader.Read(buffer)`; `data` holds the
`rlen` bytes placed in the buffer. -/
structure ReadResult where
  data : Bytes
  err : Option ReadErr
deriving DecidableEq

/-- An `io.ReadCloser`: the successive results of its `Read` calls; once the
list is used up a `Read` gives `(0, io.EOF)`. -/
abbrev Reader := List ReadResult

/-- Error of the local operating system; `notExist` is the answer of
`errors.Is(err, os.ErrNotExist)`. -/
structure OsError where
  msg : String
  notExist : Bool
deriving DecidableEq

/-- The methods of the WebDAV client `cli` called by `cli.go`, over a store
state `σ`.  `Stat`, `ReadDir` and `ReadStream` only read the store. -/
structure DavClient (σ : Type) where
  Stat : σ → String → Except String FileInfo
  ReadDir : σ → String → Except String (List FileInfo)
  Mkdir : σ → String → Nat → GoError × σ
  MkdirAll : σ → String → Nat → GoError × σ
  Rename : σ → String → String → Bool → GoError × σ
  Copy : σ → String → String → Bool → GoError × σ
  Remove : σ → String → GoError × σ
  WriteStream : σ → String → Bytes → Nat → GoError × σ
  ReadStream : σ → String → Except String Reader

/-- The local file-system calls made by `cli.go`, over a state `τ`.  `Open`
gives the bytes the opened file delivers to its reader; `OpenFile` is
`os.OpenFile(path, O_WRONLY|O_CREATE, mode)`; `Write` is a `Write` on the file
opened at `path` whose current offset is the given number. -/
structure LocalOS (τ : Type) where
  Stat : τ → String → Except OsError FileInfo
  ReadDir : τ → String → Except String (List FileInfo)
  MkdirAll : τ → String → Nat → GoError × τ
  Open : τ → String → Except String Bytes
  OpenFile : τ → String → Nat → GoError × τ
  Write : τ → String → Nat → Bytes → (Nat × GoError) × τ

/-- A call issued by the engine to a collaborator. -/
inductive Call
  | Stat (p : String)
  | ReadDir (p : String)
  | Mkdir (p : String)
  | MkdirAll (p : String)
  | Rename (src dst : String) (overwrite : Bool)
  | Copy (src dst : String) (overwrite : Bool)
  | Remove (p : String)
  | WriteStream (p : String)
  | ReadStream (p : String)
  | osStat (p : String)
  | osReadDir (p : String)
  | osMkdirAll (p : String)
  | osOpen (p : String)
  | osOpenFile (p : String)
  | osWrite (p : String) (offset len : Nat)
  | pbarChangeMax (max : Int)
  | pbarAdd (n : Int)
deriving DecidableEq

/-- The number of non-directory entries of a listing. -/
def countNonDir (files : List FileInfo) : Nat :=
  (files.filter (fun f => !f.isDir)).length

/-- The number of non-directory entries a listing call has delivered. -/
def countListed (r : Except String (List FileInfo)) : Nat :=
  match r with
  | .ok files => countNonDir files
  | .error _ => 0

/-- Whether a listing failed, as a number. -/
def countFailedListing (r : Except String (List FileInfo)) : Nat :=
  match r with
  | .ok _ => 0
  | .error _ => 1

/-- Whether a call failed, as a number. -/
def countFailed (e : GoError) : Nat :=
  match e with
  | some _ => 1
  | none => 0

/-- Everything a command can observe or change: the two stores, the calls
issued so far (oldest first), the lines written to the error writer, the
dynamic progress bar (`current`, `max`), and the cancellation token: the
`n`-th poll of `ctx.Done()` finds the context cancelled iff `cancelAt` is some
`k` with `k ≤ n`.  `found` counts the non-directory entries of the listings
read so far, `faults` the listings and the directory creations that failed so
far, and `listings` holds the listings of the repository read so far, each
with its path (oldest first); the code reads none of the three. -/
structure World (σ τ : Type) where
  remote : σ
  localfs : τ
  log : List Call
  errSink : List String
  pbarCurrent : Int
  pbarMax : Int
  polls : Nat
  cancelAt : Option Nat
  found : Nat
  faults : Nat
  listings : List (String × Except String (List FileInfo))

/-- Outcome of running a piece of the engine: it returns `a` in world `w`, or
the Go runtime panics, or the recursion budget of the model is used up. -/
inductive Run (α ω : Type)
  | done (a : α) (w : ω)
  | panic (w : ω)
  | outOfFuel
deriving DecidableEq

namespace World

variable {σ τ : Type}

/-- Record a call. -/
def emit (w : World σ τ) (c : Call) : World σ τ :=
  { w with log := w.log ++ [c] }

def cliStat (cli : DavClient σ) (w : World σ τ) (p : String) : Except String FileInfo × World σ τ :=
  (cli.Stat w.remote p, w.emit (.Stat p))

def cliReadDir (cli : DavClient σ) (w : World σ τ) (p : String) :
    Except String (List FileInfo) × World σ τ :=
  (cli.ReadDir w.remote p,
    { w.emit (.ReadDir p) with found := w.found + countListed (cli.ReadDir w.remote p),
                               faults := w.faults + countFailedListing (cli.ReadDir w.remote p),
                               listings := w.listings ++ [(p, cli.ReadDir w.remote p)] })

def cliMkdir (cli : DavClient σ) (w : World σ τ) (p : String) (mode : Nat) : GoError × World σ τ :=
  let r := cli.Mkdir w.remote p mode
  (r.1, { w.emit (.Mkdir p) with remote := r.2, faults := w.faults + countFailed r.1 })

def cliMkdirAll (cli : DavClient σ) (w : World σ τ) (p : String) (mode : Nat) : GoError × World σ τ :=
  let r := cli.MkdirAll w.remote p mode
  (r.1, { w.emit (.MkdirAll p) with remote := r.2, faults := w.faults + countFailed r.1 })

def cliRename (cli : DavClient σ) (w : World σ τ) (src dst : String) (ow : Bool) :
    GoError × World σ τ :=
  let r := cli.Rename w.remote src dst ow
  (r.1, { w.emit (.Rename src dst ow) with remote := r.2 })

def cliCopy (cli : DavClient σ) (w : World σ τ) (src dst : String) (ow : Bool) :
    GoError × World σ τ :=
  let r := cli.Copy w.remote src dst ow
  (r.1, { w.emit (.Copy src dst ow) with remote := r.2 })

def cliRemove (cli : DavClient σ) (w : World σ τ) (p : String) : GoError × World σ τ :=
  let r := cli.Remove w.remote p
  (r.1, { w.emit (.Remove p) with remote := r.2 })

def cliWriteStream (cli : DavClient σ) (w : World σ τ) (p : String) (content : Bytes) (mode : Nat) :
    GoError × World σ τ :=
  let r := cli.WriteStream w.remote p content mode
  (r.1, { w.emit (.WriteStream p) with remote := r.2 })

def cliReadStream (cli : DavClient σ) (w : World σ τ) (p : String) :
    Except String Reader × World σ τ :=
  (cli.ReadStream w.remote p, w.emit (.ReadStream p))

def osStat (os : LocalOS τ) (w : World σ τ) (p : String) : Except OsError FileInfo × World σ τ :=
  (os.Stat w.localfs p, w.emit (.osStat p))

def osReadDir (os : LocalOS τ) (w : World σ τ) (p : String) :
    Except String (List FileInfo) × World σ τ :=
  (os.ReadDir w.localfs p,
    { w.emit (.osReadDir p) with found := w.found + countListed (os.ReadDir w.localfs p),
                                 faults := w.faults + countFailedListing (os.ReadDir w.localfs p) })

def osMkdirAll (os : LocalOS τ) (w : World σ τ) (p : String) (mode : Nat) : GoError × World σ τ :=
  let r := os.MkdirAll w.localfs p mode
  (r.1, { w.emit (.osMkdirAll p) with localfs := r.2, faults := w.faults + countFailed r.1 })

def osOpen (os : LocalOS τ) (w : World σ τ) (p : String) : Except String Bytes × World σ τ :=
  (os.Open w.localfs p, w.emit (.osOpen p))

def osOpenFile (os : LocalOS τ) (w : World σ τ) (p : String) (mode : Nat) : GoError × World σ τ :=
  let r := os.OpenFile w.localfs p mode
  (r.1, { w.emit (.osOpenFile p) with localfs := r.2 })

def osWrite (os : LocalOS τ) (w : World σ τ) (p : String) (offset : Nat) (b : Bytes) :
    (Nat × GoError) × World σ τ :=
  let r := os.Write w.localfs p offset b
  (r.1, { w.emit (.osWrite p offset b.length) with localfs := r.2 })

/-- Progress bar `ChangeMax64`. -/
def pbarChangeMax64 (w : World σ τ) (max : Int) : World σ τ :=
  { w.emit (.pbarChangeMax max) with pbarMax := max }

/-- Progress bar `Add64` (and `Add`). -/
def pbarAdd64 (w : World σ τ) (n : Int) : World σ τ :=
  { w.emit (.pbarAdd n) with pbarCurrent := w.pbarCurrent + n }

/-- One poll of `ctx.Done()` in a `select`: whether the context is cancelled. -/
def ctxDone (w : World σ τ) : Bool × World σ τ :=
  (match w.cancelAt with
   | none => false
   | some k => decide (k ≤ w.polls),
   { w with polls := w.polls + 1 })

/-- The line `fmt.Fprintf(errWriter, ...)` writes; nothing is written when
the error writer is not a valid file. -/
def errWrite (w : World σ τ) (errWriterValid : Bool) (line : String) : World σ τ :=
  if errWriterValid then { w with errSink := w.errSink ++ [line] } else w

end World

/-! ## Single-file operations (`cli.go`, lines 966-1091 and 1321-1353) -/

section Engine

variable {σ τ : Type}

/-- Go `fmt.Sprintf` with the verb `%-Ns`: `s` padded with spaces on the right
to `width` characters. -/
def padRight (width : Nat) (s : List Char) : List Char :=
  s ++ List.replicate (width - s.length) ' '

/-- Shortens a description for the progress bar; `none` is the
slice-bounds-out-of-range panic of `chars[len(origin)-15:]`, whose lower bound
is computed from the length of `origin` in bytes. -/
def prettifyProgressbarDesc (origin : String) : Option String :=
  let maxLen := 33
  if origin.data.length ≤ maxLen then some ⟨padRight 33 origin.data⟩
  else
    let chars := origin.data
    let lo := origin.utf8ByteSize - 15
    if lo ≤ chars.length then
      some ⟨padRight 15 (chars.take 15) ++ "...".data ++ padRight 15 (chars.drop lo)⟩
    else none

/-- Checks if the text of the error contains `404 Not Found`. -/
def is404NotFountError (err : GoError) : Bool :=
  match err with
  | none => false
  | some msg => strings.Contains msg "404 Not Found"

/-- The `error` part of a result. -/
def errOf {ε α : Type} (r : Except ε α) : Option ε :=
  match r with
  | .error e => some e
  | .ok _ => none

/-- Go `%d` of an integer. -/
def fmtInt (n : Int) : String :=
  toString n

/-- Uploads a single local file to the repository. -/
def putRepoFile (cli : DavClient σ) (os : LocalOS τ) (overwrite : Bool)
    (pfinfoLocal pfinfoRepo : pathFileInfo) (showProgress : Bool) (w : World σ τ) :
    Run GoError (World σ τ) :=
  let pre : Bool × World σ τ :=
    if !overwrite then
      let r := w.cliStat cli pfinfoRepo.path
      (!is404NotFountError (errOf r.1), r.2)
    else (false, w)
  if pre.1 then .done none pre.2
  else
    match pre.2.osOpen os pfinfoLocal.path with
    | (.error e, w2) => .done (some ("cannot open local file: " ++ e)) w2
    | (.ok content, w2) =>
      match pfinfoLocal.info with
      | none => .panic w2
      | some info =>
        match prettifyProgressbarDesc info.name with
        | none => .panic w2
        | some _ =>
          -- `showProgress` only selects how the per-file bar is drawn
          let _silent := !showProgress
          match w2.cliWriteStream cli pfinfoRepo.path content info.mode with
          | (some e, w3) =>
            .done (some ("cannot write " ++ pfinfoRepo.path ++ " to the repository: " ++ e)) w3
          | (none, w3) =>
            match w3.cliStat cli pfinfoRepo.path with
            | (.error e, w4) =>
              .done (some ("cannot stat " ++ pfinfoRepo.path ++ " at the repository: " ++ e)) w4
            | (.ok f, w4) =>
              if f.size ≠ info.size then
                .done (some ("file size " ++ pfinfoRepo.path ++ " mis-match: " ++ fmtInt f.size
                  ++ " != " ++ fmtInt info.size)) w4
              else .done none w4

/-- The `Write` of `io.MultiWriter(fileLocal, bar)`: the file is written
first; a short write of the file is reported as `io.ErrShortWrite`; the
per-file bar accepts everything. -/
def multiWriterWrite (os : LocalOS τ) (localPath : String) (offset : Nat) (b : Bytes)
    (w : World σ τ) : (Nat × GoError) × World σ τ :=
  match w.osWrite os localPath offset b with
  | ((n, some e), w1) => ((n, some e), w1)
  | ((n, none), w1) => if n ≠ b.length then ((n, some "short write"), w1) else ((b.length, none), w1)

/-- The copy loop of `getRepoFile` (lines 1058-1072); `offset` is the number
of bytes written to the local file so far. -/
def getRepoFileLoop (os : LocalOS τ) (repoPath localPath : String) :
    Reader → Nat → World σ τ → GoError × World σ τ
  | [], offset, w =>
    match multiWriterWrite os localPath offset [] w with
    | ((wlen, werr), w1) =>
      if werr.isSome || 0 ≠ wlen then
        (some ("failure writing data to " ++ localPath ++ ": %!s(<nil>)"), w1)
      else (none, w1)
  | r :: rest, offset, w =>
    match r.err with
    | some (.fail msg) => (some ("failure reading data from " ++ repoPath ++ ": " ++ msg), w)
    | rerr =>
      match multiWriterWrite os localPath offset r.data w with
      | ((wlen, werr), w1) =>
        if werr.isSome || r.data.length ≠ wlen then
          (some ("failure writing data to " ++ localPath ++ ": %!s(<nil>)"), w1)
        else if rerr = some .eof then (none, w1)
        else getRepoFileLoop os repoPath localPath rest (offset + wlen) w1

/-- Downloads a single file from the repository to a local file. -/
def getRepoFile (cli : DavClient σ) (os : LocalOS τ) (overwrite : Bool)
    (pfinfoRepo pfinfoLocal : pathFileInfo) (showProgress : Bool) (w : World σ τ) :
    Run GoError (World σ τ) :=
  let pre : Bool × World σ τ :=
    if !overwrite then
      let r := w.osStat os pfinfoLocal.path
      (match r.1 with
       | .error e => !e.notExist
       | .ok _ => true, r.2)
    else (false, w)
  if pre.1 then .done none pre.2
  else
    match pfinfoRepo.info with
    | none => .panic pre.2
    | some info =>
      match pre.2.osOpenFile os pfinfoLocal.path info.mode with
      | (some e, w2) => .done (some ("cannot create/write local file: " ++ e)) w2
      | (none, w2) =>
        match prettifyProgressbarDesc (path.Base pfinfoRepo.path) with
        | none => .panic w2
        | some _ =>
          -- `showProgress` only selects how the per-file bar is drawn
          let _silent := !showProgress
          match w2.cliReadStream cli pfinfoRepo.path with
          | (.error e, w3) => .done (some ("cannot open file in repository: " ++ e)) w3
          | (.ok reader, w3) =>
            let r := getRepoFileLoop os pfinfoRepo.path pfinfoLocal.path reader 0 w3
            .done r.1 r.2

/-- The body of a worker of `runOp` for one task received from `ichan` (lines
824-849): the counters `(cntOk, cntErr)` and the world after the task. -/
def runOpTask (cli : DavClient σ) (os : LocalOS τ) (overwrite errWriterValid : Bool) (op : Op)
    (inputs : opInput) (cnt : Nat × Nat) (w : World σ τ) : Run (Nat × Nat) (World σ τ) :=
  let account (err : GoError) (pinc : Int) (w1 : World σ τ) : Run (Nat × Nat) (World σ τ) :=
    match err with
    | some msg =>
      .done (cnt.1, cnt.2 + 1)
        ((w1.errWrite errWriterValid (inputs.src.path ++ " error:" ++ msg ++ "\n")).pbarAdd64 pinc)
    | none => .done (cnt.1 + 1, cnt.2) (w1.pbarAdd64 pinc)
  match op with
  | .Put =>
    match putRepoFile cli os overwrite inputs.src inputs.dst false w with
    | .done err w1 =>
      match inputs.src.info with
      | none => .panic w1
      | some info => account err info.size w1
    | .panic w1 => .panic w1
    | .outOfFuel => .outOfFuel
  | .Get =>
    match getRepoFile cli os overwrite inputs.src inputs.dst false w with
    | .done err w1 =>
      match inputs.src.info with
      | none => .panic w1
      | some info => account err info.size w1
    | .panic w1 => .panic w1
    | .outOfFuel => .outOfFuel
  | .Move =>
    match w.cliRename cli inputs.src.path inputs.dst.path overwrite with
    | (err, w1) => account err 1 w1
  | .Remove =>
    match w.cliRemove cli inputs.src.path with
    | (err, w1) => account err 1 w1
  | .Copy =>
    match w.cliCopy cli inputs.src.path inputs.dst.path overwrite with
    | (_, w1) => account none 1 w1

/-- Switches between `Copy` and `Rename` of the WebDAV client. -/
def cliCopyOrRename (cli : DavClient σ) (overwrite : Bool) (op : Op) (src dst : String)
    (w : World σ τ) : GoError × World σ τ :=
  if op = .Move then w.cliRename cli src dst overwrite
  else w.cliCopy cli src dst overwrite

/-- The value of an `int64` computation whose exact result is `x`
(two-complement wrap-around). -/
def wrapInt64 (x : Int) : Int :=
  (x + 2 ^ 63) % 2 ^ 64 - 2 ^ 63

/-- Number of non-directory files in the given listing. -/
def countFiles (paths : List FileInfo) : Int :=
  paths.foldl (fun count p => if !p.isDir then wrapInt64 (count + 1) else count) 0

/-- Total size of the non-directory files in the given listing. -/
def countSize (paths : List FileInfo) : Int :=
  paths.foldl (fun size p => if !p.isDir then wrapInt64 (size + p.size) else size) 0

/-! ## Directory operations (`cli.go`, lines 1093-1282)

The walker and its four workers are run in one fixed interleaving: a file
handed to the channel is processed by a worker before the walker goes on.  A
worker that finds the context cancelled leaves its loop without processing the
file it received. -/

/-- Counters of one directory call: `cntOk`, `cntErr` collect the counts of the
nested calls, `cntOkFiles`, `cntErrFiles` the sums of the per-worker
counters. -/
structure DirCounts where
  cntOk : Nat
  cntErr : Nat
  cntOkFiles : Nat
  cntErrFiles : Nat
deriving DecidableEq

/-- The loop over the content in `copyOrMoveRepoDir` (lines 1138-1169) with
the work of the workers (lines 1121-1134); `recur` is the nested call. -/
def copyOrMoveLoop (cli : DavClient σ) (overwrite : Bool) (op : Op) (src dst : pathFileInfo)
    (recur : pathFileInfo → pathFileInfo → World σ τ → Run (Nat × Nat × GoError) (World σ τ)) :
    List FileInfo → DirCounts → World σ τ → Run DirCounts (World σ τ)
  | [], c, w => .done c w
  | finfo :: rest, c, w =>
    match w.ctxDone with
    | (true, w1) => .done c w1
    | (false, w1) =>
      let psrc := path.Join [src.path, finfo.name]
      let pdst := path.Join [dst.path, path.Base finfo.name]
      if finfo.isDir then
        match recur ⟨psrc, some finfo⟩ ⟨pdst, none⟩ w1 with
        | .done r w2 =>
          copyOrMoveLoop cli overwrite op src dst recur rest
            { c with cntErr := c.cntErr + r.2.1, cntOk := c.cntOk + r.1 } w2
        | .panic w2 => .panic w2
        | .outOfFuel => .outOfFuel
      else
        match w1.ctxDone with
        | (true, w2) => copyOrMoveLoop cli overwrite op src dst recur rest c w2
        | (false, w2) =>
          match cliCopyOrRename cli overwrite op psrc (path.Join [dst.path, finfo.name]) w2 with
          | (some _, w3) =>
            copyOrMoveLoop cli overwrite op src dst recur rest
              { c with cntErrFiles := c.cntErrFiles + 1 } (w3.pbarAdd64 1)
          | (none, w3) =>
            copyOrMoveLoop cli overwrite op src dst recur rest
              { c with cntOkFiles := c.cntOkFiles + 1 } (w3.pbarAdd64 1)

/-- Copies or moves the directory `src` to `dst` recursively; the result is
`(cntOk, cntErr, err)`.  The first argument bounds the depth of the nested
calls. -/
def copyOrMoveRepoDir (cli : DavClient σ) (overwrite : Bool) :
    Nat → Op → pathFileInfo → pathFileInfo → World σ τ → Run (Nat × Nat × GoError) (World σ τ)
  | 0, _, _, _, _ => .outOfFuel
  | fuel + 1, op, src, dst, w =>
    match w.cliReadDir cli src.path with
    | (.error e, w1) => .done (0, 0, some e) w1
    | (.ok files, w1) =>
      let w2 := w1.pbarChangeMax64 (wrapInt64 (w1.pbarMax + countFiles files))
      match src.info with
      | none => .panic w2
      | some info =>
        let w3 := (w2.cliMkdirAll cli dst.path info.mode).2
        match copyOrMoveLoop cli overwrite op src dst
            (fun s d w0 => copyOrMoveRepoDir cli overwrite fuel op s d w0) files ⟨0, 0, 0, 0⟩ w3 with
        | .done c w4 =>
          let cntErr := c.cntErr + c.cntErrFiles
          let cntOk := c.cntOk + c.cntOkFiles
          if op = .Move ∧ cntErr = 0 then
            match w4.cliRemove cli src.path with
            | (err, w5) => .done (cntOk, cntErr, err) w5
          else .done (cntOk, cntErr, none) w4
        | .panic w4 => .panic w4
        | .outOfFuel => .outOfFuel

/-- The loop over the content in `rmRepoDir` (lines 1248-1265) with the work
of the workers (lines 1229-1244); `recur` is the nested call. -/
def rmLoop (cli : DavClient σ) (repoPath : String)
    (recur : String → World σ τ → Run (Nat × Nat × GoError) (World σ τ)) :
    List FileInfo → DirCounts → World σ τ → Run DirCounts (World σ τ)
  | [], c, w => .done c w
  | f :: rest, c, w =>
    match w.ctxDone with
    | (true, w1) => .done c w1
    | (false, w1) =>
      let p := path.Join [repoPath, f.name]
      if f.isDir then
        match recur p w1 with
        | .done r w2 =>
          rmLoop cli repoPath recur rest
            { c with cntOk := c.cntOk + r.1, cntErr := c.cntErr + r.2.1 } w2
        | .panic w2 => .panic w2
        | .outOfFuel => .outOfFuel
      else
        match w1.ctxDone with
        | (true, w2) => rmLoop cli repoPath recur rest c w2
        | (false, w2) =>
          match w2.cliRemove cli p with
          | (some _, w3) =>
            rmLoop cli repoPath recur rest { c with cntErrFiles := c.cntErrFiles + 1 }
              (w3.pbarAdd64 1)
          | (none, w3) =>
            rmLoop cli repoPath recur rest { c with cntOkFiles := c.cntOkFiles + 1 }
              (w3.pbarAdd64 1)

/-- Removes the directory `repoPath` from the repository recursively; the
result is `(cntOk, cntErr, err)`.  The first argument bounds the depth of the
nested calls. -/
def rmRepoDir (cli : DavClient σ) :
    Nat → String → Bool → World σ τ → Run (Nat × Nat × GoError) (World σ τ)
  | 0, _, _, _ => .outOfFuel
  | fuel + 1, repoPath, recursive, w =>
    if !path.IsAbs repoPath then .done (0, 0, some ("not an absolute path: " ++ repoPath)) w
    else
      match w.cliReadDir cli repoPath with
      | (.error e, w1) => .done (0, 0, some e) w1
      | (.ok files, w1) =>
        if files.length > 0 && !recursive then
          .done (0, 0, some ("directory not empty: " ++ repoPath)) w1
        else
          let w2 := w1.pbarChangeMax64 (wrapInt64 (w1.pbarMax + countFiles files))
          match rmLoop cli repoPath (fun p w0 => rmRepoDir cli fuel p recursive w0) files
              ⟨0, 0, 0, 0⟩ w2 with
          | .done c w3 =>
            match w3.cliRemove cli repoPath with
            | (err, w4) => .done (c.cntOk + c.cntOkFiles, c.cntErr + c.cntErrFiles, err) w4
          | .panic w3 => .panic w3
          | .outOfFuel => .outOfFuel

end Engine

/-! ## The task queue, the walkers and `runOp` (`cli.go`, lines 791-964)

The channel `ichan` is not buffered: a send completes when a worker receives
the task.  In the interleaving of the model the worker that receives a task
processes it before the walker goes on.  An idle worker that finds the context
cancelled leaves its loop (in its `select` the case `ctx.Done()` is taken), so
that a task sent afterwards is never received.

The workers of `runOp` increment its results `cntOk` and `cntErr` without
synchronisation (lines 843-846).  In this interleaving no two workers work at
the same time, so that no increment is lost; the runs in which the workers
take their steps in any order, the read and the write of an increment apart,
are those of `putOpStep` below. -/

section Pipeline

variable {σ τ : Type}

/-- Outcome of a goroutine or of a command: it returns `a` in state `s`, or
it stays blocked forever (on a channel or on a wait group), or the Go runtime
panics, or the recursion budget of the model is used up. -/
inductive Exec (α ω : Type)
  | returned (a : α) (s : ω)
  | blocked (s : ω)
  | panic (s : ω)
  | outOfFuel
deriving DecidableEq

/-- The value an execution returned, if it returned. -/
def Exec.result? {α ω : Type} : Exec α ω → Option α
  | .returned a _ => some a
  | _ => none

/-- The state in which an execution returned, if it returned. -/
def Exec.state? {α ω : Type} : Exec α ω → Option ω
  | .returned _ s => some s
  | _ => none

/-- The state in which an execution ended, when it returned or blocked. -/
def Exec.endState? {α ω : Type} : Exec α ω → Option ω
  | .returned _ s => some s
  | .blocked s => some s
  | _ => none

/-- What a walker and the workers of `runOp` share: the world, the counters
`cntOk` and `cntErr` of `runOp`, the number of workers still in their loop,
the tasks received from `ichan` so far (oldest first) and the number of times
`ichan` was closed. -/
structure Pool (σ τ : Type) where
  world : World σ τ
  cntOk : Nat
  cntErr : Nat
  alive : Nat
  sent : List opInput
  closes : Nat

/-- The statement `ichan <- inputs` of a walker, with the worker of `runOp`
that receives the task (lines 813-850). -/
def chanSend (cli : DavClient σ) (os : LocalOS τ) (overwrite errWriterValid : Bool) (op : Op)
    (inputs : opInput) (st : Pool σ τ) : Exec Unit (Pool σ τ) :=
  if 0 < st.closes then .panic st
  else if st.alive = 0 then .blocked st
  else
    match st.world.ctxDone with
    | (true, w1) => .blocked { st with world := w1, alive := 0 }
    | (false, w1) =>
      match runOpTask cli os overwrite errWriterValid op inputs (st.cntOk, st.cntErr) w1 with
      | .done cnt w2 =>
        .returned () { st with world := w2, cntOk := cnt.1, cntErr := cnt.2,
                               sent := st.sent ++ [inputs] }
      | .panic w2 => .panic { st with world := w2 }
      | .outOfFuel => .outOfFuel

/-- The statement `close(ichan)`; closing a closed channel panics. -/
def closeChan (st : Pool σ τ) : Exec Unit (Pool σ τ) :=
  if st.closes = 0 then .returned () { st with closes := 1 } else .panic st

/-- The loop over the content in `walkLocalDirForPut` (lines 871-905); `send`
is the send on `ichan`, `recur` the nested call. -/
def walkLocalDirForPutLoop (cli : DavClient σ) (send : opInput → Pool σ τ → Exec Unit (Pool σ τ))
    (pfinfoLocal pfinfoRepo : pathFileInfo)
    (recur : pathFileInfo → pathFileInfo → Pool σ τ → Exec Unit (Pool σ τ)) :
    List FileInfo → Pool σ τ → Exec Unit (Pool σ τ)
  | [], st => .returned () st
  | finfo :: rest, st =>
    match st.world.ctxDone with
    | (true, w1) => .returned () { st with world := w1 }
    | (false, w1) =>
      let p := path.Join [pfinfoLocal.path, finfo.name]
      let _pfinfoLocal : pathFileInfo := ⟨p, some finfo⟩
      let _pfinfoRepo : pathFileInfo := ⟨path.Join [pfinfoRepo.path, finfo.name], none⟩
      if finfo.isDir then
        match w1.cliMkdir cli _pfinfoRepo.path finfo.mode with
        | (some _, w2) =>
          walkLocalDirForPutLoop cli send pfinfoLocal pfinfoRepo recur rest { st with world := w2 }
        | (none, w2) =>
          match recur _pfinfoLocal _pfinfoRepo { st with world := w2 } with
          | .returned _ st2 =>
            walkLocalDirForPutLoop cli send pfinfoLocal pfinfoRepo recur rest st2
          | other => other
      else
        match send ⟨_pfinfoLocal, _pfinfoRepo⟩ { st with world := w1 } with
        | .returned _ st2 => walkLocalDirForPutLoop cli send pfinfoLocal pfinfoRepo recur rest st2
        | other => other

/-- Walks through a local directory and creates inputs for putting files from
local to repo.  The first argument bounds the depth of the nested calls. -/
def walkLocalDirForPut (cli : DavClient σ) (os : LocalOS τ)
    (send : opInput → Pool σ τ → Exec Unit (Pool σ τ)) :
    Nat → pathFileInfo → pathFileInfo → Bool → Pool σ τ → Exec Unit (Pool σ τ)
  | 0, _, _, _, _ => .outOfFuel
  | fuel + 1, pfinfoLocal, pfinfoRepo, closeChanOnComplete, st =>
    match st.world.osReadDir os pfinfoLocal.path with
    | (.error _, w1) => .returned () { st with world := w1 }
    | (.ok files, w1) =>
      let w2 := w1.pbarChangeMax64 (wrapInt64 (w1.pbarMax + countSize files))
      match walkLocalDirForPutLoop cli send pfinfoLocal pfinfoRepo
          (fun l r st0 => walkLocalDirForPut cli os send fuel l r false st0) files
          { st with world := w2 } with
      | .returned _ st1 => if closeChanOnComplete then closeChan st1 else .returned () st1
      | other => other

/-- The loop over the content in `walkRepoDirForGet` (lines 925-959). -/
def walkRepoDirForGetLoop (os : LocalOS τ) (send : opInput → Pool σ τ → Exec Unit (Pool σ τ))
    (pfinfoRepo pfinfoLocal : pathFileInfo)
    (recur : pathFileInfo → pathFileInfo → Pool σ τ → Exec Unit (Pool σ τ)) :
    List FileInfo → Pool σ τ → Exec Unit (Pool σ τ)
  | [], st => .returned () st
  | finfo :: rest, st =>
    match st.world.ctxDone with
    | (true, w1) => .returned () { st with world := w1 }
    | (false, w1) =>
      let p := path.Join [pfinfoRepo.path, finfo.name]
      let _pfinfoRepo : pathFileInfo := ⟨p, some finfo⟩
      let _pfinfoLocal : pathFileInfo := ⟨filepath.Join [pfinfoLocal.path, finfo.name], none⟩
      if finfo.isDir then
        match w1.osMkdirAll os _pfinfoLocal.path finfo.mode with
        | (some _, w2) =>
          walkRepoDirForGetLoop os send pfinfoRepo pfinfoLocal recur rest { st with world := w2 }
        | (none, w2) =>
          match recur _pfinfoRepo _pfinfoLocal { st with world := w2 } with
          | .returned _ st2 => walkRepoDirForGetLoop os send pfinfoRepo pfinfoLocal recur rest st2
          | other => other
      else
        match send ⟨_pfinfoRepo, _pfinfoLocal⟩ { st with world := w1 } with
        | .returned _ st2 => walkRepoDirForGetLoop os send pfinfoRepo pfinfoLocal recur rest st2
        | other => other

/-- Walks through a repo directory and creates inputs for getting files from
repo to local.  The first argument bounds the depth of the nested calls. -/
def walkRepoDirForGet (cli : DavClient σ) (os : LocalOS τ)
    (send : opInput → Pool σ τ → Exec Unit (Pool σ τ)) :
    Nat → pathFileInfo → pathFileInfo → Bool → Pool σ τ → Exec Unit (Pool σ τ)
  | 0, _, _, _, _ => .outOfFuel
  | fuel + 1, pfinfoRepo, pfinfoLocal, closeChanOnComplete, st =>
    match st.world.cliReadDir cli pfinfoRepo.path with
    | (.error _, w1) => .returned () { st with world := w1 }
    | (.ok files, w1) =>
      let w2 := w1.pbarChangeMax64 (wrapInt64 (w1.pbarMax + countSize files))
      match walkRepoDirForGetLoop os send pfinfoRepo pfinfoLocal
          (fun r l st0 => walkRepoDirForGet cli os send fuel r l false st0) files
          { st with world := w2 } with
      | .returned _ st1 => if closeChanOnComplete then closeChan st1 else .returned () st1
      | other => other

/-- Performs the file operation `op` on the inputs provided through `ichan`,
with `nworkers` workers; `producer` is the goroutine that feeds `ichan`, given
the send on it.  The result is `(cntOk, cntErr)`, in the interleaving in
which a worker finishes its task, the increment of its counter included,
before another one receives a task.  Workers whose channel is never closed
leave their loop when the context is cancelled and wait forever when it never
is. -/
def runOp (cli : DavClient σ) (os : LocalOS τ) (overwrite : Bool) (errfile : String) (op : Op)
    (producer : (opInput → Pool σ τ → Exec Unit (Pool σ τ)) → Pool σ τ → Exec Unit (Pool σ τ))
    (nworkers : Int) (w : World σ τ) : Exec (Nat × Nat) (Pool σ τ) :=
  let opened : Bool × World σ τ :=
    if errfile ≠ "" then
      match w.osOpenFile os errfile 384 with
      | (some _, w1) => (false, w1)
      | (none, w1) => (true, w1)
    else (true, w)
  let st0 : Pool σ τ := ⟨opened.2, 0, 0, nworkers.toNat, [], 0⟩
  match producer (chanSend cli os overwrite opened.1 op) st0 with
  | .returned _ st =>
    if 0 < st.closes ∨ st.alive = 0 then .returned (st.cntOk, st.cntErr) { st with alive := 0 }
    else
      match st.world.cancelAt with
      | some k =>
        .returned (st.cntOk, st.cntErr)
          { st with alive := 0, world := { st.world with polls := max st.world.polls k } }
      | none => .blocked st
  | .blocked st => .returned (st.cntOk, st.cntErr) st
  | .panic st => .panic st
  | .outOfFuel => .outOfFuel

/-! ## Commands (`cli.go`, lines 154-753; `root.go`, lines 19-36) -/

/-- The package variables the commands read: the remote and the local working
directory, and the values of the flags. -/
structure Config where
  cwd : String
  lcwd : String
  overwrite : Bool
  recursive : Bool
  silent : Bool
  errfile : String
  nthreads : Int
deriving DecidableEq

/-- What a command hands back: the error it returns, and the statistics
`(cntOk, cntErr)` it logs after a bulk operation (`none` when it ran no bulk
operation). -/
structure CmdOut where
  err : GoError
  counts : Option (Nat × Nat)
deriving DecidableEq

/-- Initiates a new progress bar whose initial max is `1`. -/
def initDynamicMaxProgressbar (w : World σ τ) : World σ τ :=
  { w with pbarCurrent := 0, pbarMax := 1 }

/-- The statement `pbar.ChangeMax(pbar.GetMax() - 1)`. -/
def pbarDropPlaceholder (w : World σ τ) : World σ τ :=
  w.pbarChangeMax64 (wrapInt64 (w.pbarMax - 1))

/-- The command `put <local> <repo>` (lines 181-270); `fuel` bounds the depth
of the walk. -/
def putCmd (cli : DavClient σ) (os : LocalOS τ) (cfg : Config) (fuel : Nat) (args0 args1 : String)
    (w : World σ τ) : Exec CmdOut (World σ τ) :=
  let lfpath := filepath.Abs cfg.lcwd args0
  match w.osStat os lfpath with
  | (.error e, w1) => .returned ⟨some e.msg, none⟩ w1
  | (.ok lfinfo, w1) =>
    let pfinfoLocal : pathFileInfo := ⟨lfpath, some lfinfo⟩
    let p := getCleanRepoPath cfg.cwd args1
    match w1.cliStat cli p with
    | (rstat, w2) =>
      if lfinfo.isDir then
        if (match rstat with
            | .ok f => !f.isDir
            | .error _ => false) then
          .returned ⟨some ("destination not a directory: " ++ args1), none⟩ w2
        else
          match putDirDst cfg.cwd args0 args1 lfinfo with
          | none => .panic w2
          | some dst =>
            let pfinfoRepo : pathFileInfo := ⟨dst, none⟩
            let w3 := (w2.cliMkdirAll cli pfinfoRepo.path lfinfo.mode).2
            let w4 := initDynamicMaxProgressbar w3
            match runOp cli os cfg.overwrite cfg.errfile .Put
                (fun send st =>
                  match walkLocalDirForPut cli os send fuel pfinfoLocal pfinfoRepo true st with
                  | .returned _ st1 => .returned () { st1 with world := pbarDropPlaceholder st1.world }
                  | other => other)
                4 w4 with
            | .returned cnt st => .returned ⟨none, some cnt⟩ st.world
            | .blocked st => .blocked st.world
            | .panic st => .panic st.world
            | .outOfFuel => .outOfFuel
      else
        let dst :=
          match rstat with
          | .ok f => if f.isDir then path.Join [p, lfinfo.name] else p
          | .error _ => p
        match putRepoFile cli os cfg.overwrite pfinfoLocal ⟨dst, none⟩ true w2 with
        | .done err w3 => .returned ⟨err, none⟩ w3
        | .panic w3 => .panic w3
        | .outOfFuel => .outOfFuel

/-- The command `get <repo> <local>` (lines 326-417). -/
def getCmd (cli : DavClient σ) (os : LocalOS τ) (cfg : Config) (fuel : Nat) (args0 args1 : String)
    (w : World σ τ) : Exec CmdOut (World σ τ) :=
  let p := getCleanRepoPath cfg.cwd args0
  match w.cliStat cli p with
  | (.error e, w1) => .returned ⟨some e, none⟩ w1
  | (.ok f, w1) =>
    let pfinfoRepo : pathFileInfo := ⟨p, some f⟩
    let lp := filepath.Abs cfg.lcwd args1
    match w1.osStat os lp with
    | (lstat, w2) =>
      if f.isDir then
        if (match lstat with
            | .ok lfinfo => !lfinfo.isDir
            | .error _ => false) then
          .returned ⟨some ("destination not a directory: " ++ args1), none⟩ w2
        else
          match getDirDst cfg.cwd cfg.lcwd args0 args1 with
          | none => .panic w2
          | some dst =>
            let pfinfoLocal : pathFileInfo := ⟨dst, none⟩
            match w2.osMkdirAll os dst f.mode with
            | (some e, w3) => .returned ⟨some e, none⟩ w3
            | (none, w3) =>
              let w4 := initDynamicMaxProgressbar w3
              match runOp cli os cfg.overwrite cfg.errfile .Get
                  (fun send st =>
                    match walkRepoDirForGet cli os send fuel pfinfoRepo pfinfoLocal true st with
                    | .returned _ st1 =>
                      .returned () { st1 with world := pbarDropPlaceholder st1.world }
                    | other => other)
                  4 w4 with
              | .returned cnt st => .returned ⟨none, some cnt⟩ st.world
              | .blocked st => .blocked st.world
              | .panic st => .panic st.world
              | .outOfFuel => .outOfFuel
      else
        let dst :=
          match lstat with
          | .ok lfinfo => if lfinfo.isDir then filepath.Join [lp, path.Base p] else lp
          | .error _ => lp
        match getRepoFile cli os cfg.overwrite pfinfoRepo ⟨dst, none⟩ (!cfg.silent) w2 with
        | .done err w3 => .returned ⟨err, none⟩ w3
        | .panic w3 => .panic w3
        | .outOfFuel => .outOfFuel

/-- The part shared by `cpCmd` (lines 472-546) and `mvCmd` (lines 593-667),
which differ by the operation and by the choice of the destination root. -/
def cpOrMvCmd (cli : DavClient σ) (cfg : Config) (op : Op) (fuel : Nat) (args0 args1 : String)
    (dirDst : Option String) (w : World σ τ) : Exec CmdOut (World σ τ) :=
  let src := getCleanRepoPath cfg.cwd args0
  let dst := getCleanRepoPath cfg.cwd args1
  match w.cliStat cli src with
  | (.error e, w1) => .returned ⟨some e, none⟩ w1
  | (.ok fsrc, w1) =>
    match w1.cliStat cli dst with
    | (dstat, w2) =>
      if fsrc.isDir then
        if (match dstat with
            | .ok fdst => !fdst.isDir
            | .error _ => false) then
          .returned ⟨some ("destination not a directory: " ++ args1), none⟩ w2
        else
          match dirDst with
          | none => .panic w2
          | some root =>
            let pfinfoSrc : pathFileInfo := ⟨src, some fsrc⟩
            let pfinfoDst : pathFileInfo := ⟨root, none⟩
            match w2.cliMkdirAll cli root fsrc.mode with
            | (some e, w3) => .returned ⟨some e, none⟩ w3
            | (none, w3) =>
              let w4 := initDynamicMaxProgressbar w3
              match copyOrMoveRepoDir cli cfg.overwrite fuel op pfinfoSrc pfinfoDst w4 with
              | .done r w5 => .returned ⟨r.2.2, some (r.1, r.2.1)⟩ (pbarDropPlaceholder w5)
              | .panic w5 => .panic w5
              | .outOfFuel => .outOfFuel
      else
        let target :=
          match dstat with
          | .ok fdst => if fdst.isDir then path.Join [dst, path.Base src] else dst
          | .error _ => dst
        match cliCopyOrRename cli cfg.overwrite op src target w2 with
        | (err, w3) => .returned ⟨err, none⟩ w3

/-- The command `cp <repo> <repo>` (lines 472-546). -/
def cpCmd (cli : DavClient σ) (cfg : Config) (fuel : Nat) (args0 args1 : String)
    (w : World σ τ) : Exec CmdOut (World σ τ) :=
  cpOrMvCmd cli cfg .Copy fuel args0 args1 (cpDirDst cfg.cwd args0 args1) w

/-- The command `mv <repo> <repo>` (lines 593-667). -/
def mvCmd (cli : DavClient σ) (cfg : Config) (fuel : Nat) (args0 args1 : String)
    (w : World σ τ) : Exec CmdOut (World σ τ) :=
  cpOrMvCmd cli cfg .Move fuel args0 args1 (mvDirDst cfg.cwd args0 args1) w

/-- The command `rm <repo>` (lines 698-738). -/
def rmCmd (cli : DavClient σ) (cfg : Config) (fuel : Nat) (args0 : String)
    (w : World σ τ) : Exec CmdOut (World σ τ) :=
  let rp := getCleanRepoPath cfg.cwd args0
  match w.cliStat cli rp with
  | (.error e, w1) => .returned ⟨some e, none⟩ w1
  | (.ok f, w1) =>
    if f.isDir then
      let w2 := initDynamicMaxProgressbar w1
      match rmRepoDir cli fuel rp cfg.recursive w2 with
      | .done r w3 => .returned ⟨r.2.2, some (r.1, r.2.1)⟩ (pbarDropPlaceholder w3)
      | .panic w3 => .panic w3
      | .outOfFuel => .outOfFuel
    else
      match w1.cliRemove cli rp with
      | (err, w2) => .returned ⟨err, none⟩ w2

/-- The initial value of the package variables `cwd` (`root.go`, line 35) and
of the flags; `lcwd` is the local working directory of the process. -/
def Config.initial (lcwd : String) : Config :=
  ⟨"/", lcwd, false, false, false, "", 4⟩

/-- The command `cd <repo_dir>` (`shell.go`, lines 26-43): the error it
returns and the package variables afterwards. -/
def cdCmd (cli : DavClient σ) (cfg : Config) (args0 : String) (w : World σ τ) :
    (GoError × Config) × World σ τ :=
  let p := getCleanRepoPath cfg.cwd args0
  match w.cliStat cli p with
  | (.error _, w1) => ((some ("invalid directory: " ++ p), cfg), w1)
  | (.ok f, w1) =>
    if !f.isDir then ((some ("invalid directory: " ++ p), cfg), w1)
    else ((none, { cfg with cwd := p }), w1)

end Pipeline

/-! ## Interleavings of `copyOrMoveRepoDir` (`cli.go`, lines 1094-1190)

One call of `copyOrMoveRepoDir` as a transition system, in which the walker,
each of its four workers and the cancellation of the context take their steps
in any order.  The channel `fchan` is not buffered: the send of the walker and
the receive of a worker are one step, taken when the walker stands at the send
and the worker at the receive.  A nested call is one step of the walker. -/

section Interleavings

variable {σ τ : Type}

/-- Where the walker stands: at the `select` of its loop (line 1140), at the
send on `fchan` with the entry to send (line 1163), at `close(fchan)`
(line 1172), at `wg.Wait()` (line 1175), or it returned or panicked. -/
inductive WalkerAt
  | loopTop
  | sending (finfo : FileInfo)
  | closing
  | waiting
  | returned (r : Nat × Nat × GoError)
  | panicked
deriving DecidableEq

/-- Where a worker stands: at the receive of `range fchan` (line 1122), at its
`select` with the entry it received (line 1123), or it left its loop. -/
inductive WorkerAt
  | receiving
  | selecting (finfo : FileInfo)
  | exited
deriving DecidableEq

/-- Who takes the next step: the cancellation of the context, the walker, or
the worker `id`. -/
inductive Actor
  | cancel
  | walker
  | worker (id : Nat)
deriving DecidableEq

/-- The state of one call of `copyOrMoveRepoDir`: the world, the entries the
loop of the walker has not reached, where the walker and the workers stand,
whether `fchan` is closed, the counters `cntOk`, `cntErr`, and the sums of the
counters `cntOkFiles`, `cntErrFiles` of the workers. -/
structure DirRun (σ τ : Type) where
  world : World σ τ
  files : List FileInfo
  walker : WalkerAt
  workers : List WorkerAt
  closed : Bool
  cntOk : Nat
  cntErr : Nat
  cntOkFiles : Nat
  cntErrFiles : Nat

/-- The call up to the start of the loop of the walker (lines 1096-1136). -/
def copyOrMoveStart (cli : DavClient σ) (src dst : pathFileInfo) (w : World σ τ) : DirRun σ τ :=
  match w.cliReadDir cli src.path with
  | (.error e, w1) => ⟨w1, [], .returned (0, 0, some e), [], false, 0, 0, 0, 0⟩
  | (.ok files, w1) =>
    let w2 := w1.pbarChangeMax64 (wrapInt64 (w1.pbarMax + countFiles files))
    match src.info with
    | none => ⟨w2, files, .panicked, [], false, 0, 0, 0, 0⟩
    | some info =>
      let w3 := (w2.cliMkdirAll cli dst.path info.mode).2
      ⟨w3, files, .loopTop, List.replicate 4 .receiving, false, 0, 0, 0, 0⟩

/-- One step of the actor `a`, `none` when the actor cannot take a step: it
is blocked, or it is done. -/
def copyOrMoveStep (cli : DavClient σ) (overwrite : Bool) (op : Op) (src dst : pathFileInfo)
    (recur : pathFileInfo → pathFileInfo → World σ τ → Run (Nat × Nat × GoError) (World σ τ))
    (a : Actor) (st : DirRun σ τ) : Option (DirRun σ τ) :=
  match a with
  | .cancel =>
    match st.world.cancelAt with
    | none => some { st with world := { st.world with cancelAt := some 0 } }
    | some _ => none
  | .walker =>
    match st.walker with
    | .loopTop =>
      match st.files with
      | [] => some { st with walker := .closing }
      | finfo :: rest =>
        match st.world.ctxDone with
        | (true, w1) => some { st with world := w1, walker := .closing }
        | (false, w1) =>
          if finfo.isDir then
            match recur ⟨path.Join [src.path, finfo.name], some finfo⟩
                ⟨path.Join [dst.path, path.Base finfo.name], none⟩ w1 with
            | .done r w2 =>
              some { st with world := w2, files := rest, cntErr := st.cntErr + r.2.1,
                             cntOk := st.cntOk + r.1 }
            | .panic w2 => some { st with world := w2, walker := .panicked }
            | .outOfFuel => none
          else some { st with world := w1, files := rest, walker := .sending finfo }
    | .sending _ => none
    | .closing => some { st with closed := true, walker := .waiting }
    | .waiting =>
      if st.workers.all (fun k => k == .exited) then
        let cntErr := st.cntErr + st.cntErrFiles
        let cntOk := st.cntOk + st.cntOkFiles
        if op = .Move ∧ cntErr = 0 then
          match st.world.cliRemove cli src.path with
          | (err, w1) => some { st with world := w1, walker := .returned (cntOk, cntErr, err) }
        else some { st with walker := .returned (cntOk, cntErr, none) }
      else none
    | .returned _ => none
    | .panicked => none
  | .worker id =>
    match st.workers.get? id with
    | none => none
    | some .receiving =>
      match st.walker with
      | .sending finfo =>
        some { st with workers := st.workers.set id (.selecting finfo), walker := .loopTop }
      | _ => if st.closed then some { st with workers := st.workers.set id .exited } else none
    | some (.selecting finfo) =>
      match st.world.ctxDone with
      | (true, w1) => some { st with world := w1, workers := st.workers.set id .exited }
      | (false, w1) =>
        match cliCopyOrRename cli overwrite op (path.Join [src.path, finfo.name])
            (path.Join [dst.path, finfo.name]) w1 with
        | (some _, w2) =>
          some { st with world := w2.pbarAdd64 1, cntErrFiles := st.cntErrFiles + 1,
                         workers := st.workers.set id .receiving }
        | (none, w2) =>
          some { st with world := w2.pbarAdd64 1, cntOkFiles := st.cntOkFiles + 1,
                         workers := st.workers.set id .receiving }
    | some .exited => none

/-- The state after the actors of a schedule took their steps in turn; `none`
when one of them could not take its step. -/
def runSchedule (step : Actor → DirRun σ τ → Option (DirRun σ τ)) :
    List Actor → DirRun σ τ → Option (DirRun σ τ)
  | [], st => some st
  | a :: rest, st =>
    match step a st with
    | none => none
    | some st1 => runSchedule step rest st1

end Interleavings

/-- A path element as a listing reports it: not empty, without `/`, and
neither `.` nor `..`. -/
def ValidSeg (seg : List Char) : Prop :=
  seg ≠ [] ∧ '/' ∉ seg ∧ seg ≠ ['.'] ∧ seg ≠ ['.', '.']

instance instDecidableValidSeg (seg : List Char) : Decidable (ValidSeg seg) :=
  inferInstanceAs (Decidable (seg ≠ [] ∧ '/' ∉ seg ∧ seg ≠ ['.'] ∧ seg ≠ ['.', '.']))

/-- A name that is a single path element. -/
def ValidName (n : String) : Prop :=
  ValidSeg n.data

instance instDecidableValidName (n : String) : Decidable (ValidName n) :=
  inferInstanceAs (Decidable (ValidSeg n.data))

/-! ## Concrete collaborators

A store that behaves as section 4.1 of the specification describes
(`specStore`), and a local file system with the POSIX meaning of
`O_WRONLY|O_CREATE` (`posixOS`).  They serve to run the engine on concrete
inputs. -/

/-- An entry of a file tree. -/
inductive Node
  | file (content : Bytes) (mode : Nat)
  | dir (mode : Nat)
deriving DecidableEq

/-- A file tree: the entries by clean absolute path (the root `/` is always a
directory), and the paths on which every operation is refused. -/
structure SpecFS where
  entries : List (String × Node)
  denied : List String
deriving DecidableEq

namespace SpecFS

/-- The parent directory of a clean absolute path. -/
def parent (p : String) : String :=
  path.Join [p, ".."]

/-- The entry at `p`. -/
def find? (fs : SpecFS) (p : String) : Option Node :=
  if p = "/" then some (.dir 493) else fs.entries.lookup p

def isDirAt (fs : SpecFS) (p : String) : Bool :=
  match fs.find? p with
  | some (.dir _) => true
  | _ => false

/-- The `FileInfo` of an entry. -/
def infoOf (name : String) : Node → FileInfo
  | .file content mode => ⟨name, content.length, false, mode⟩
  | .dir mode => ⟨name, 0, true, mode⟩

/-- The entries directly under the directory `p`; their names are single
path elements. -/
def children (fs : SpecFS) (p : String) : List (String × Node) :=
  fs.entries.filter (fun e =>
    e.1 ≠ p && decide (ValidName (path.Base e.1)) && path.Join [p, path.Base e.1] = e.1)

/-- Whether `q` is `p` or lies below `p`. -/
def within (p q : String) : Bool :=
  q = p || (p.data ++ ['/']).isPrefixOf q.data

/-- Remove the entry at `p` and everything below it. -/
def prune (fs : SpecFS) (p : String) : SpecFS :=
  { fs with entries := fs.entries.filter (fun e => !within p e.1) }

/-- The entries at and below `src`, re-rooted at `dst`. -/
def graft (fs : SpecFS) (src dst : String) : List (String × Node) :=
  (fs.entries.filter (fun e => within src e.1)).map
    (fun e => (⟨dst.data ++ e.1.data.drop src.data.length⟩, e.2))

/-- Set the entry at `p`. -/
def put (fs : SpecFS) (p : String) (n : Node) : SpecFS :=
  { fs with entries := (fs.entries.filter (fun e => e.1 ≠ p)) ++ [(p, n)] }

/-- The path `p` and its ancestors up to, not including, the root. -/
def ancestors : Nat → String → List String
  | 0, _ => []
  | n + 1, p => if p = "/" then [] else p :: ancestors n (parent p)

def Stat (fs : SpecFS) (p : String) : Except String FileInfo :=
  if fs.denied.contains p then .error ("403 Forbidden - PROPFIND " ++ p)
  else
    match fs.find? p with
    | none => .error ("404 Not Found - PROPFIND " ++ p)
    | some n => .ok (infoOf (path.Base p) n)

def ReadDir (fs : SpecFS) (p : String) : Except String (List FileInfo) :=
  if fs.denied.contains p then .error ("403 Forbidden - PROPFIND " ++ p)
  else
    match fs.find? p with
    | none => .error ("404 Not Found - PROPFIND " ++ p)
    | some (.file _ _) => .error ("not a directory: " ++ p)
    | some (.dir _) => .ok ((fs.children p).map (fun e => infoOf (path.Base e.1) e.2))

def MkdirAll (fs : SpecFS) (p : String) (mode : Nat) : GoError × SpecFS :=
  let chain := ancestors p.data.length p
  if chain.any (fun a => fs.denied.contains a) then (some ("403 Forbidden - MKCOL " ++ p), fs)
  else if chain.any (fun a => !fs.isDirAt a && (fs.find? a).isSome) then
    (some ("409 Conflict - MKCOL " ++ p), fs)
  else
    (none, chain.reverse.foldl (fun acc a => if acc.isDirAt a then acc else acc.put a (.dir mode)) fs)

def Mkdir (fs : SpecFS) (p : String) (mode : Nat) : GoError × SpecFS :=
  if fs.denied.contains p then (some ("403 Forbidden - MKCOL " ++ p), fs)
  else if fs.isDirAt p then (none, fs)
  else if (fs.find? p).isSome || !fs.isDirAt (parent p) then (some ("409 Conflict - MKCOL " ++ p), fs)
  else (none, fs.put p (.dir mode))

def Remove (fs : SpecFS) (p : String) : GoError × SpecFS :=
  if fs.denied.contains p || p = "/" then (some ("403 Forbidden - DELETE " ++ p), fs)
  else
    match fs.find? p with
    | none => (some ("404 Not Found - DELETE " ++ p), fs)
    | some (.file _ _) => (none, fs.prune p)
    | some (.dir _) =>
      if (fs.children p).isEmpty then (none, fs.prune p)
      else (some ("directory not empty: " ++ p), fs)

/-- Common part of `Rename` and `Copy`; `keep` tells whether the source stays. -/
def transfer (keep : Bool) (verb : String) (fs : SpecFS) (src dst : String) (overwrite : Bool) :
    GoError × SpecFS :=
  if fs.denied.contains src || fs.denied.contains dst then
    (some ("403 Forbidden - " ++ verb ++ " " ++ src), fs)
  else if (fs.find? src).isNone then (some ("404 Not Found - " ++ verb ++ " " ++ src), fs)
  else if !fs.isDirAt (parent dst) then (some ("409 Conflict - " ++ verb ++ " " ++ src), fs)
  else if (fs.find? dst).isSome && !overwrite then (none, fs)
  else if src = dst then (none, fs)
  else
    let moved := fs.graft src dst
    let base := if keep then fs.prune dst else (fs.prune dst).prune src
    (none, { base with entries := base.entries ++ moved })

def Rename (fs : SpecFS) (src dst : String) (overwrite : Bool) : GoError × SpecFS :=
  transfer false "MOVE" fs src dst overwrite

def Copy (fs : SpecFS) (src dst : String) (overwrite : Bool) : GoError × SpecFS :=
  transfer true "COPY" fs src dst overwrite

def WriteStream (fs : SpecFS) (p : String) (content : Bytes) (mode : Nat) : GoError × SpecFS :=
  if fs.denied.contains p then (some ("403 Forbidden - PUT " ++ p), fs)
  else if fs.isDirAt p || !fs.isDirAt (parent p) then (some ("409 Conflict - PUT " ++ p), fs)
  else (none, fs.put p (.file content mode))

def ReadStream (fs : SpecFS) (p : String) : Except String Reader :=
  if fs.denied.contains p then .error ("403 Forbidden - GET " ++ p)
  else
    match fs.find? p with
    | some (.file content _) => .ok [⟨content, none⟩]
    | _ => .error ("404 Not Found - GET " ++ p)

def osStat (fs : SpecFS) (p : String) : Except OsError FileInfo :=
  if fs.denied.contains p then .error ⟨"stat " ++ p ++ ": permission denied", false⟩
  else
    match fs.find? p with
    | none => .error ⟨"stat " ++ p ++ ": no such file or directory", true⟩
    | some n => .ok (infoOf (path.Base p) n)

def osOpen (fs : SpecFS) (p : String) : Except String Bytes :=
  if fs.denied.contains p then .error ("open " ++ p ++ ": permission denied")
  else
    match fs.find? p with
    | some (.file content _) => .ok content
    | some (.dir _) => .ok []
    | none => .error ("open " ++ p ++ ": no such file or directory")

/-- The call `os.OpenFile(p, O_WRONLY|O_CREATE, mode)`: an existing file is
opened as it is, a missing one is created empty. -/
def osOpenFile (fs : SpecFS) (p : String) (mode : Nat) : GoError × SpecFS :=
  if fs.denied.contains p then (some ("open " ++ p ++ ": permission denied"), fs)
  else
    match fs.find? p with
    | some (.file _ _) => (none, fs)
    | some (.dir _) => (some ("open " ++ p ++ ": is a directory"), fs)
    | none =>
      if fs.isDirAt (parent p) then (none, fs.put p (.file [] mode))
      else (some ("open " ++ p ++ ": no such file or directory"), fs)

/-- A `Write` of `b` at `offset`: the bytes of the file in that range are
replaced, the others are kept. -/
def osWrite (fs : SpecFS) (p : String) (offset : Nat) (b : Bytes) : (Nat × GoError) × SpecFS :=
  match fs.find? p with
  | some (.file content mode) =>
    ((b.length, none),
      fs.put p (.file (content.take offset ++ b ++ content.drop (offset + b.length)) mode))
  | _ => ((0, some ("write " ++ p ++ ": bad file descriptor")), fs)

end SpecFS

/-- A WebDAV store behaving as the specification describes: `remove` fails on
a directory that has children, `rename` and `copy` onto an existing
destination without `overwrite` succeed without doing anything, `mkdir` of an
existing directory succeeds. -/
def specStore : DavClient SpecFS where
  Stat := SpecFS.Stat
  ReadDir := SpecFS.ReadDir
  Mkdir := SpecFS.Mkdir
  MkdirAll := SpecFS.MkdirAll
  Rename := SpecFS.Rename
  Copy := SpecFS.Copy
  Remove := SpecFS.Remove
  WriteStream := SpecFS.WriteStream
  ReadStream := SpecFS.ReadStream

/-- The call `DELETE` of WebDAV: a directory is removed with all its content. -/
def SpecFS.RemoveAll (fs : SpecFS) (p : String) : GoError × SpecFS :=
  if fs.denied.contains p || p = "/" then (some ("403 Forbidden - DELETE " ++ p), fs)
  else
    match fs.find? p with
    | none => (some ("404 Not Found - DELETE " ++ p), fs)
    | some _ => (none, fs.prune p)

/-- The store `specStore` with the `remove` of a WebDAV server, which deletes
a directory together with its content. -/
def davStore : DavClient SpecFS :=
  { specStore with Remove := SpecFS.RemoveAll }

/-- A local file system. -/
def posixOS : LocalOS SpecFS where
  Stat := SpecFS.osStat
  ReadDir := SpecFS.ReadDir
  MkdirAll := SpecFS.MkdirAll
  Open := SpecFS.osOpen
  OpenFile := SpecFS.osOpenFile
  Write := SpecFS.osWrite

/-- The local file system `posixOS` on which the directory `dir` can be
inspected but not listed (a directory without read permission). -/
def unlistableOS (dir : String) : LocalOS SpecFS :=
  { posixOS with
    ReadDir := fun fs p =>
      if p = dir then .error ("open " ++ p ++ ": permission denied") else SpecFS.ReadDir fs p }

/-- A world holding the given stores in which nothing has happened yet. -/
def World.init {σ τ : Type} (remote : σ) (localfs : τ) (cancelAt : Option Nat) : World σ τ :=
  ⟨remote, localfs, [], [], 0, 1, 0, cancelAt, 0, 0, []⟩

/-- The calls a run has added to the log of the world `w`. -/
def newCalls {σ τ : Type} (w w1 : World σ τ) : List Call :=
  w1.log.drop w.log.length

/-- The amounts of the progress-bar `Add64` calls of a log, oldest first. -/
def pbarAdds (l : List Call) : List Int :=
  l.filterMap (fun c => match c with
    | .pbarAdd n => some n
    | _ => none)

/-- A clean absolute path: `/` followed by path elements separated by single
`/` characters. -/
def CleanAbs (p : String) : Prop :=
  ∃ segs : List (List Char), (∀ seg ∈ segs, ValidSeg seg) ∧ p.data = '/' :: path.joinSlash segs

/-- Every listing of the store names single path elements. -/
def ListsValidNames {σ : Type} (cli : DavClient σ) : Prop :=
  ∀ (s : σ) (p : String) (files : List FileInfo),
    cli.ReadDir s p = .ok files → ∀ f ∈ files, ValidName f.name

/-- The path of the entry reached from `root` through the names `rel`: `root`
joined with the names in turn. -/
def joinRel (join : List String → String) (root : String) (rel : List String) : String :=
  rel.foldl (fun p n => join [p, n]) root

/-- The non-directory entries below the entries `files` of the directory
`dir`, each with the names that lead to it from `dir`; `sub` gives those below
a sub-directory. -/
def treeFilesLoop (sub : String → Option (List (List String × FileInfo))) (dir : String) :
    List FileInfo → Option (List (List String × FileInfo))
  | [] => some []
  | f :: rest =>
    match (if f.isDir then
        (sub (path.Join [dir, f.name])).map (fun es => es.map (fun e => (f.name :: e.1, e.2)))
      else some [([f.name], f)]), treeFilesLoop sub dir rest with
    | some here, some others => some (here ++ others)
    | _, _ => none

/-- The source tree of a walk: the non-directory entries of the tree below
`dir` as the listing function `list` reports it, each with its path relative
to `dir` (the names that lead to it); `none` when a listing fails or the tree
is deeper than `depth`. -/
def treeFiles (list : String → Except String (List FileInfo)) :
    Nat → String → Option (List (List String × FileInfo))
  | 0, _ => none
  | depth + 1, dir =>
    match list dir with
    | .error _ => none
    | .ok files => treeFilesLoop (treeFiles list depth) dir files

/-- The task of an entry of the source tree: its source is the entry, its
destination path is the destination root joined with the path of the entry
relative to the source root. -/
def taskOf (join : List String → String) (srcRoot dstRoot : String)
    (e : List String × FileInfo) : opInput :=
  ⟨⟨joinRel path.Join srcRoot e.1, some e.2⟩, ⟨joinRel join dstRoot e.1, none⟩⟩

/-- The sum of the sizes of the non-directory entries of a listing. -/
def totalSize (files : List FileInfo) : Int :=
  ((files.filter (fun p => !p.isDir)).map (fun p => p.size)).sum

/-- A pool in which a send is received and processed: the context is not
cancelled, a worker is in its loop and `ichan` is open. -/
def Pool.Ready {σ τ : Type} (st : Pool σ τ) : Prop :=
  st.world.cancelAt = none ∧ 0 < st.alive ∧ st.closes = 0

/-- What a send or a walk started in the pool `st` leaves when the context is
not cancelled.  It is not blocked.  When it returns, the workers and `ichan`
are as before and the context is still not cancelled; the part `listed` of the
world, which the walk lists, is unchanged; the number of faults has not
decreased; the progress maximum exceeds the progress by `size` less than
before, in `int64` arithmetic; and when no listing and no directory creation
failed, the tasks received meanwhile are `tasks`. -/
def Walked {σ τ α : Type} (listed : World σ τ → α) (size : Int) (tasks : Option (List opInput))
    (st : Pool σ τ) : Exec Unit (Pool σ τ) → Prop
  | .blocked _ => False
  | .returned _ st1 =>
    st1.alive = st.alive ∧ st1.closes = st.closes ∧ st1.world.cancelAt = none ∧
    listed st1.world = listed st.world ∧ st.world.faults ≤ st1.world.faults ∧
    (st1.world.pbarMax - st1.world.pbarCurrent + size) % 2 ^ 64
      = (st.world.pbarMax - st.world.pbarCurrent) % 2 ^ 64 ∧
    (st1.world.faults = st.world.faults → ∃ ts, tasks = some ts ∧ st1.sent = st.sent ++ ts)
  | _ => True

/-- The path a call deletes or moves away, if it is a `Remove` or a
`Rename`. -/
def Call.takesAway : Call → Option String
  | .Remove p => some p
  | .Rename src _ _ => some src
  | _ => none

/-- Every `Remove` and `Rename` among the calls `l` acts on a path of more
than `k` characters. -/
def TakesAwayBelow (k : Nat) (l : List Call) : Prop :=
  ∀ c ∈ l, ∀ q, c.takesAway = some q → k < q.data.length

/-- A `Remove` that succeeds deletes the entry: a later `Stat` of the path
does not find it. -/
def RemoveDeletes {σ : Type} (cli : DavClient σ) : Prop :=
  ∀ (s s1 : σ) (p : String), cli.Remove s p = (none, s1) → ∀ f, cli.Stat s1 p ≠ .ok f

/-- Between the worlds `w` and `w1` both stores are unchanged and exactly the
calls `calls` were issued. -/
def Untouched {σ τ : Type} (w w1 : World σ τ) (calls : List Call) : Prop :=
  w1.remote = w.remote ∧ w1.localfs = w.localfs ∧ w1.log = w.log ++ calls

/-- The counters and error a run returned, if it returned. -/
def Run.result? {α ω : Type} : Run α ω → Option α
  | .done a _ => some a
  | _ => none

/-- The world in which a run ended, if it returned. -/
def Run.world? {α ω : Type} : Run α ω → Option ω
  | .done _ w => some w
  | _ => none

/-! ## Concrete inputs -/

/-- A source directory `/s` with a file and a sub-directory holding a file,
and an empty destination directory `/d`. -/
def fsMove : SpecFS :=
  ⟨[("/s", .dir 493), ("/s/a", .file [1, 2, 3] 420), ("/s/sub", .dir 493),
    ("/s/sub/b", .file [4] 420), ("/d", .dir 493)], []⟩

/-- A source directory `/s` with one file `a`, and a destination directory
`/d` that already holds a file `a`. -/
def fsSkip : SpecFS :=
  ⟨[("/s", .dir 493), ("/s/a", .file [1, 2, 3] 420), ("/d", .dir 493),
    ("/d/a", .file [9] 420)], []⟩

/-- A source directory `/s` whose file `sub/b` cannot be renamed to
`/d/sub/b`, because `/d/sub` is a file. -/
def fsFail : SpecFS :=
  ⟨[("/s", .dir 493), ("/s/sub", .dir 493), ("/s/sub/b", .file [4] 420), ("/d", .dir 493),
    ("/d/sub", .file [] 420)], []⟩

/-- A repository with a file `/r/f` of three bytes. -/
def fsRemote : SpecFS :=
  ⟨[("/r", .dir 493), ("/r/f", .file [7, 8, 9] 420)], []⟩

/-- A local tree with a file `/l/f` of five bytes. -/
def fsLocal : SpecFS :=
  ⟨[("/l", .dir 493), ("/l/f", .file [1, 2, 3, 4, 5] 420)], []⟩

/-- The source entry of the directory `/s`. -/
def srcS : pathFileInfo :=
  ⟨"/s", some ⟨"s", 0, true, 493⟩⟩

/-- The source entry of the repository file `/r/f`. -/
def srcRF : pathFileInfo :=
  ⟨"/r/f", some ⟨"f", 3, false, 420⟩⟩

/-- The source entry of the local file `/l/f`. -/
def srcLF : pathFileInfo :=
  ⟨"/l/f", some ⟨"f", 5, false, 420⟩⟩

/-- A local tree `/src` holding `a.txt` of 10 bytes and `sub/b.txt` of 20
bytes. -/
def fsPutLocal : SpecFS :=
  ⟨[("/src", .dir 493), ("/src/a.txt", .file [0, 1, 2, 3, 4, 5, 6, 7, 8, 9] 420),
    ("/src/sub", .dir 493),
    ("/src/sub/b.txt", .file [0, 1, 2, 3, 4, 5, 6, 7, 8, 9, 0, 1, 2, 3, 4, 5, 6, 7, 8, 9] 420)],
    []⟩

/-- A repository with the empty directory `/dst`. -/
def fsPutRemote : SpecFS :=
  ⟨[("/dst", .dir 493)], []⟩

/-- The source entry of the local directory `/src`. -/
def srcPut : pathFileInfo :=
  ⟨"/src", some ⟨"src", 0, true, 493⟩⟩

/-- The goroutine of `putCmd` that walks `/src` into `/dst` and closes the
channel. -/
def walkPut (send : opInput → Pool SpecFS SpecFS → Exec Unit (Pool SpecFS SpecFS))
    (st : Pool SpecFS SpecFS) : Exec Unit (Pool SpecFS SpecFS) :=
  walkLocalDirForPut specStore posixOS send 5 srcPut ⟨"/dst", none⟩ true st

/-- The flags at their defaults, with both working directories at `/`. -/
def cfgDefault : Config :=
  ⟨"/", "/", false, false, false, "", 4⟩

/-- A source directory `/s` with five files, and an empty destination
directory `/d`. -/
def fsFive : SpecFS :=
  ⟨[("/s", .dir 493), ("/s/f1", .file [1] 420), ("/s/f2", .file [2] 420),
    ("/s/f3", .file [3] 420), ("/s/f4", .file [4] 420), ("/s/f5", .file [5] 420),
    ("/d", .dir 493)], []⟩

/-- The steps of a copy of `/s` to `/d` on the store of the specification. -/
def stepFive (a : Actor) (st : DirRun SpecFS SpecFS) : Option (DirRun SpecFS SpecFS) :=
  copyOrMoveStep specStore false .Copy srcS ⟨"/d", none⟩
    (fun s d w => copyOrMoveRepoDir specStore false 5 .Copy s d w) a st

/-- A schedule in which the four workers receive a file each and take no
further step before the walker has passed its `select` for the fifth file; the
context is cancelled then, and the workers go on. -/
def scheduleHang : List Actor :=
  [.walker, .worker 0, .walker, .worker 1, .walker, .worker 2, .walker, .worker 3, .walker,
    .cancel, .worker 0, .worker 1, .worker 2, .worker 3]

/-- The same steps with the workers at work as soon as they received: the
copy returns. -/
def scheduleEager : List Actor :=
  [.walker, .worker 0, .worker 0, .walker, .worker 1, .worker 1, .walker, .worker 2, .worker 2,
    .walker, .worker 3, .worker 3, .walker, .cancel, .worker 0, .worker 0, .walker, .walker,
    .worker 1, .worker 2, .worker 3, .walker]

/-- The destination root of the trailing-separator rule of the specification:
for the source argument `s` as typed, the resolved destination `dst` and the
base name `base` of the resolved source, it is `dst` itself when the last
character of `s` is the separator, and `dst` joined with `base` otherwise. -/
def transferRoot (join : List String → String) (s dst base : String) : String :=
  if lastRune s = some '/' then dst else join [dst, base]

/-- A tree with the directory `/a/dir`, which holds a file `f`, and the empty
directory `/b`. -/
def fsRule : SpecFS :=
  ⟨[("/a", .dir 493), ("/a/dir", .dir 493), ("/a/dir/f", .file [1, 2] 420), ("/b", .dir 493)],
    []⟩

/-- A file name of 34 characters `é`, 68 bytes in UTF-8. -/
def nameWide : String :=
  String.mk (List.replicate 34 (Char.ofNat 233))

/-- A tree with the directory `/l`, which holds a file of 7 bytes named
`nameWide`, and the empty directory `/r`. -/
def fsWide : SpecFS :=
  ⟨[("/l", .dir 493), ("/l/" ++ nameWide, .file [1, 2, 3, 4, 5, 6, 7] 420), ("/r", .dir 493)],
    []⟩

/-- The task of the upload of the file of `fsWide` to the directory `dir` of
the repository, as the walker of `/l` sends it. -/
def taskWide (dir : String) : opInput :=
  ⟨⟨path.Join ["/l", nameWide], some ⟨nameWide, 7, false, 420⟩⟩,
    ⟨path.Join [dir, nameWide], none⟩⟩

/-- A source directory `/s` that holds a file `a`, on which every operation is
refused, and a file `s`, named as the directory itself. -/
def fsOverlap : SpecFS :=
  ⟨[("/s", .dir 493), ("/s/a", .file [1, 2, 3] 420), ("/s/s", .file [4] 420)], ["/s/a"]⟩

/-! ## Interleavings of a walker and `runOp` (`cli.go`, lines 793-910)

The goroutine of `walkLocalDirForPut` and the workers of `runOp` as a
transition system in which each of them takes its steps in any order.  The
channel `ichan` is not buffered: the send of the walker and the receive of a
worker are one step, taken when the walker stands at the send and the worker
at its `select`.  The results `cntOk` and `cntErr` of `runOp` are variables
shared by the workers, and the statement `cntOk += 1` of a worker is a read of
the variable followed by a write: the two are separate steps. -/

section OpInterleavings

variable {σ τ : Type}

/-- The `switch` of a worker of `runOp` on the operation (lines 824-841): the
error of the operation and the progress increment `pinc`. -/
def runOpCall (cli : DavClient σ) (os : LocalOS τ) (overwrite : Bool) (op : Op)
    (inputs : opInput) (w : World σ τ) : Run (GoError × Int) (World σ τ) :=
  match op with
  | .Put =>
    match putRepoFile cli os overwrite inputs.src inputs.dst false w with
    | .done err w1 =>
      match inputs.src.info with
      | none => .panic w1
      | some info => .done (err, info.size) w1
    | .panic w1 => .panic w1
    | .outOfFuel => .outOfFuel
  | .Get =>
    match getRepoFile cli os overwrite inputs.src inputs.dst false w with
    | .done err w1 =>
      match inputs.src.info with
      | none => .panic w1
      | some info => .done (err, info.size) w1
    | .panic w1 => .panic w1
    | .outOfFuel => .outOfFuel
  | .Move =>
    match w.cliRename cli inputs.src.path inputs.dst.path overwrite with
    | (err, w1) => .done (err, 1) w1
  | .Remove =>
    match w.cliRemove cli inputs.src.path with
    | (err, w1) => .done (err, 1) w1
  | .Copy =>
    match w.cliCopy cli inputs.src.path inputs.dst.path overwrite with
    | (_, w1) => .done (none, 1) w1

/-- Where a worker of `runOp` stands: at its `select` (line 814); with the task
it received, before the `switch` (line 824); after the operation, before it
reads the counter it is going to increment (lines 843-846, `failed` tells
which); between the read of the counter, which gave `seen`, and the write of
`seen + 1`; before `pbar.Add64(pinc)` (line 847); or it left its loop. -/
inductive OpWorkerAt
  | selecting
  | working (inputs : opInput)
  | reading (failed : Bool) (pinc : Int)
  | writing (failed : Bool) (seen : Nat) (pinc : Int)
  | adding (pinc : Int)
  | exited
deriving DecidableEq

/-- Where the goroutine of `walkLocalDirForPut` stands: at the start of a call
(line 863), at the `select` of the loop of the innermost call (line 871), at
the send on `ichan` (line 898), or the top-level call returned. -/
inductive PutWalkerAt
  | entering (l r : pathFileInfo) (closeChanOnComplete : Bool)
  | looping
  | sending (inputs : opInput)
  | returned
deriving DecidableEq

/-- A call of `walkLocalDirForPut` in progress: its arguments and the entries
its loop has not reached. -/
structure PutFrame where
  l : pathFileInfo
  r : pathFileInfo
  files : List FileInfo
  closeChanOnComplete : Bool
deriving DecidableEq

/-- The state of the walker and of `runOp`: the world, the calls of the walker
in progress (innermost first), where the walker and the workers stand, whether
`ichan` is closed, the variables `cntOk` and `cntErr`, and whether a goroutine
panicked, which ends the process. -/
structure OpRun (σ τ : Type) where
  world : World σ τ
  stack : List PutFrame
  walker : PutWalkerAt
  workers : List OpWorkerAt
  closed : Bool
  cntOk : Nat
  cntErr : Nat
  crashed : Bool

/-- The state in which the walker starts its top-level call and `runOp` has
started `nworkers` workers. -/
def OpRun.start (l r : pathFileInfo) (nworkers : Nat) (w : World σ τ) : OpRun σ τ :=
  ⟨w, [], .entering l r true, List.replicate nworkers .selecting, false, 0, 0, false⟩

/-- What `runOp` returns: the values of `cntOk` and `cntErr` once `wg.Wait()`
returns, that is once every worker left its loop. -/
def OpRun.result? (st : OpRun σ τ) : Option (Nat × Nat) :=
  if !st.crashed && st.workers.all (fun k => k == .exited) then some (st.cntOk, st.cntErr)
  else none

/-- The walker after a call returned: it is back in the loop of the caller, or
the top-level call returned. -/
def putWalkerAfterCall (stack : List PutFrame) : PutWalkerAt :=
  if stack.isEmpty then .returned else .looping

/-- One step of the walker. -/
def putWalkerStep (cli : DavClient σ) (os : LocalOS τ) (st : OpRun σ τ) : Option (OpRun σ τ) :=
  match st.walker with
  | .entering l r c =>
    match st.world.osReadDir os l.path with
    | (.error _, w1) => some { st with world := w1, walker := putWalkerAfterCall st.stack }
    | (.ok files, w1) =>
      some { st with
        world := w1.pbarChangeMax64 (wrapInt64 (w1.pbarMax + countSize files))
        stack := ⟨l, r, files, c⟩ :: st.stack
        walker := .looping }
  | .looping =>
    match st.stack with
    | [] => none
    | ⟨_, _, [], c⟩ :: below =>
      if c ∧ st.closed then some { st with crashed := true }
      else
        some { st with
          stack := below
          closed := st.closed || c
          walker := putWalkerAfterCall below }
    | ⟨l, r, finfo :: rest, c⟩ :: below =>
      match st.world.ctxDone with
      | (true, w1) => some { st with world := w1, stack := ⟨l, r, [], c⟩ :: below }
      | (false, w1) =>
        let src : pathFileInfo := ⟨path.Join [l.path, finfo.name], some finfo⟩
        let dst : pathFileInfo := ⟨path.Join [r.path, finfo.name], none⟩
        if finfo.isDir then
          match w1.cliMkdir cli dst.path finfo.mode with
          | (some _, w2) => some { st with world := w2, stack := ⟨l, r, rest, c⟩ :: below }
          | (none, w2) =>
            some { st with
              world := w2
              stack := ⟨l, r, rest, c⟩ :: below
              walker := .entering src dst false }
        else
          some { st with
            world := w1
            stack := ⟨l, r, rest, c⟩ :: below
            walker := .sending ⟨src, dst⟩ }
  | .sending _ => if st.closed then some { st with crashed := true } else none
  | .returned => none

/-- One step of the worker `id` of `runOp`. -/
def opWorkerStep (cli : DavClient σ) (os : LocalOS τ) (overwrite errWriterValid : Bool) (op : Op)
    (id : Nat) (st : OpRun σ τ) : Option (OpRun σ τ) :=
  match st.workers.get? id with
  | none => none
  | some .selecting =>
    match st.world.ctxDone with
    | (true, w1) => some { st with world := w1, workers := st.workers.set id .exited }
    | (false, w1) =>
      if st.closed then some { st with world := w1, workers := st.workers.set id .exited }
      else
        match st.walker with
        | .sending inputs =>
          some { st with
            world := w1
            workers := st.workers.set id (.working inputs)
            walker := .looping }
        | _ => none
  | some (.working inputs) =>
    match runOpCall cli os overwrite op inputs st.world with
    | .done (some msg, pinc) w1 =>
      some { st with
        world := w1.errWrite errWriterValid (inputs.src.path ++ " error:" ++ msg ++ "\n")
        workers := st.workers.set id (.reading true pinc) }
    | .done (none, pinc) w1 =>
      some { st with world := w1, workers := st.workers.set id (.reading false pinc) }
    | .panic w1 => some { st with world := w1, crashed := true }
    | .outOfFuel => none
  | some (.reading failed pinc) =>
    some { st with
      workers := st.workers.set id
        (.writing failed (if failed then st.cntErr else st.cntOk) pinc) }
  | some (.writing failed seen pinc) =>
    if failed then
      some { st with cntErr := seen + 1, workers := st.workers.set id (.adding pinc) }
    else some { st with cntOk := seen + 1, workers := st.workers.set id (.adding pinc) }
  | some (.adding pinc) =>
    some { st with world := st.world.pbarAdd64 pinc, workers := st.workers.set id .selecting }
  | some .exited => none

/-- One step of the actor `a` in the upload of a directory, `none` when the
actor cannot take a step: it is blocked, or it is done, or the process is
gone. -/
def putOpStep (cli : DavClient σ) (os : LocalOS τ) (overwrite errWriterValid : Bool)
    (a : Actor) (st : OpRun σ τ) : Option (OpRun σ τ) :=
  if st.crashed then none
  else
    match a with
    | .cancel =>
      match st.world.cancelAt with
      | none => some { st with world := { st.world with cancelAt := some 0 } }
      | some _ => none
    | .walker => putWalkerStep cli os st
    | .worker id => opWorkerStep cli os overwrite errWriterValid .Put id st

/-- The state after the actors of a schedule took their steps in turn; `none`
when one of them could not take its step. -/
def runOpSchedule (step : Actor → OpRun σ τ → Option (OpRun σ τ)) :
    List Actor → OpRun σ τ → Option (OpRun σ τ)
  | [], st => some st
  | a :: rest, st =>
    match step a st with
    | none => none
    | some st1 => runOpSchedule step rest st1

end OpInterleavings

/-- The steps of the upload of `/src` to `/dst` on the store of the
specification. -/
def stepPut (a : Actor) (st : OpRun SpecFS SpecFS) : Option (OpRun SpecFS SpecFS) :=
  putOpStep specStore posixOS false true a st

/-- A schedule of the upload of `/src` with two workers in which each worker
finishes the task it received before the walker goes on. -/
def scheduleInTurn : List Actor :=
  [.walker, .walker, .worker 0, .worker 0, .worker 0, .worker 0, .worker 0,
    .walker, .walker, .walker, .worker 1, .worker 1, .worker 1, .worker 1, .worker 1,
    .walker, .walker, .worker 0, .worker 1]

/-- A schedule of the upload of `/src` with two workers in which both workers
read `cntOk` before either of them writes it. -/
def scheduleRace : List Actor :=
  [.walker, .walker, .worker 0, .walker, .walker, .walker, .worker 1,
    .worker 0, .worker 1, .worker 0, .worker 1, .worker 0, .worker 1, .worker 0, .worker 1,
    .walker, .walker, .worker 0, .worker 1]

end Repocli

namespace Repoadm

/-! ## The bookkeeping store of `repoadm` (`export.go`, lines 28-42 and 412-556)

The store keeps JSON documents in the buckets of a bolt database.  The
database and the JSON encoder are external collaborators; they are modelled
after their documented behaviour:

* a bucket holds its entries in the order of their keys, one entry per key;
  a value is a JSON document, given as a tree and not as text; the model does
  not bound the size of a value (`MaxValueSize`);
* `json.Marshal` writes the fields of a struct in the order of their
  declaration under the names of their tags, and coerces every string to valid
  UTF-8: a byte that is not part of a valid encoding becomes `U+FFFD`;
* `json.Unmarshal` assigns the members of an object to the fields they name
  (an exact match of the name is preferred to a match under case folding),
  ignores the other members, leaves a field as it is on `null` (a slice becomes
  `nil`), and goes on after a member of the wrong type, of which it reports the
  first.  The members of a document are `null`, strings and arrays of strings.

A Go `string` of a stored value is the sequence a `range` over it yields; the
names of buckets and keys are strings without invalid bytes.  A dereference of
a `nil` bucket is the outcome `panic`. -/

/-- One step of a `range` over a Go string: a rune with a valid encoding, or a
byte that is not part of one. -/
inductive StrUnit
  | rune (c : Char)
  | badByte (b : Nat)
deriving DecidableEq

/-- A Go `string` held in a stored value. -/
abbrev GoString := List StrUnit

/-- A Go `error`: `none` is `nil`, `some msg` an error with message `msg`. -/
abbrev GoError := Option String

/-- CollExport maintains a data structure for operating on a repository
collection to be exported; `ViewersRepo = none` is the `nil` slice. -/
structure CollExport where
  Path : GoString
  OU : GoString
  ViewersRepo : Option (List GoString)
deriving DecidableEq

/-- Umap is the data structure maps repo username to local username. -/
structure Umap where
  Email : GoString
  UIDLocal : GoString
  UIDRepo : GoString
deriving DecidableEq

/-- An argument of type `interface{}` of the store: `nil`, a `*Umap` or a
`*CollExport` (the value pointed to). -/
inductive Obj
  | nil
  | umap (u : Umap)
  | coll (c : CollExport)
deriving DecidableEq

/-- A member of a JSON object. -/
inductive JVal
  | null
  | str (s : String)
  | strs (xs : List String)
deriving DecidableEq

/-- The value of a key of a bucket: text that is not JSON (with the message
of the syntax error), or the document `null`, or an object. -/
inductive JDoc
  | malformed (msg : String)
  | null
  | object (fields : List (String × JVal))
deriving DecidableEq

/-- Outcome of a call: it returns, or the Go runtime panics. -/
inductive Outcome (α : Type)
  | returned (a : α)
  | panic
deriving DecidableEq

/-! ### `encoding/json` -/

/-- The JSON string `json.Marshal` writes for a Go string. -/
def toValidUTF8 (s : GoString) : String :=
  ⟨s.map (fun u =>
    match u with
    | .rune c => c
    | .badByte _ => Char.ofNat 65533)⟩

/-- The Go string `json.Unmarshal` reads from a JSON string. -/
def ofJSONString (s : String) : GoString :=
  s.data.map .rune

/-- `json.Marshal` of an argument of the store. -/
def Marshal : Obj → Except String JDoc
  | .nil => .ok .null
  | .umap u =>
    .ok (.object [("email", .str (toValidUTF8 u.Email)),
      ("uidLocal", .str (toValidUTF8 u.UIDLocal)),
      ("uidRepo", .str (toValidUTF8 u.UIDRepo))])
  | .coll c =>
    .ok (.object [("path", .str (toValidUTF8 c.Path)),
      ("ou", .str (toValidUTF8 c.OU)),
      ("viewersRepo",
        match c.ViewersRepo with
        | none => .null
        | some xs => .strs (xs.map toValidUTF8))])

/-- The smallest rune of the case-fold orbit of `c`, for the runes whose orbit
holds an ASCII letter. -/
def foldRune (c : Char) : Char :=
  if 97 ≤ c.toNat ∧ c.toNat ≤ 122 then Char.ofNat (c.toNat - 32)
  else if c.toNat = 383 then 'S'
  else if c.toNat = 8490 then 'K'
  else c

/-- The name under which a member is looked up when no field has its exact
name. -/
def foldName (s : String) : List Char :=
  s.data.map foldRune

/-- The index of the field that the member `key` is assigned to, among the
fields with the given names. -/
def fieldIndex (names : List String) (key : String) : Option Nat :=
  match names.indexOf? key with
  | some i => some i
  | none => names.findIdx? (fun n => foldName n == foldName key)

/-- The first error is the one `json.Unmarshal` reports. -/
def firstErr (e1 e2 : GoError) : GoError :=
  match e1 with
  | some e => some e
  | none => e2

/-- Decoding a member into a field of type `string`. -/
def decodeString (structName field : String) (old : GoString) : JVal → GoString × GoError
  | .str s => (ofJSONString s, none)
  | .null => (old, none)
  | .strs _ =>
    (old, some ("json: cannot unmarshal array into Go struct field " ++ structName ++ "." ++ field
      ++ " of type string"))

/-- Decoding a member into a field of type `[]string`. -/
def decodeStrings (structName field : String) (old : Option (List GoString)) :
    JVal → Option (List GoString) × GoError
  | .strs xs => (some (xs.map ofJSONString), none)
  | .null => (none, none)
  | .str _ =>
    (old, some ("json: cannot unmarshal string into Go struct field " ++ structName ++ "." ++ field
      ++ " of type []string"))

/-- Decoding one member of an object into a `Umap`. -/
def decodeUmapField (st : Umap × GoError) (kv : String × JVal) : Umap × GoError :=
  match fieldIndex ["email", "uidLocal", "uidRepo"] kv.1 with
  | some 0 =>
    let r := decodeString "Umap" "email" st.1.Email kv.2
    ({ st.1 with Email := r.1 }, firstErr st.2 r.2)
  | some 1 =>
    let r := decodeString "Umap" "uidLocal" st.1.UIDLocal kv.2
    ({ st.1 with UIDLocal := r.1 }, firstErr st.2 r.2)
  | some 2 =>
    let r := decodeString "Umap" "uidRepo" st.1.UIDRepo kv.2
    ({ st.1 with UIDRepo := r.1 }, firstErr st.2 r.2)
  | _ => st

/-- Decoding one member of an object into a `CollExport`. -/
def decodeCollField (st : CollExport × GoError) (kv : String × JVal) : CollExport × GoError :=
  match fieldIndex ["path", "ou", "viewersRepo"] kv.1 with
  | some 0 =>
    let r := decodeString "CollExport" "path" st.1.Path kv.2
    ({ st.1 with Path := r.1 }, firstErr st.2 r.2)
  | some 1 =>
    let r := decodeString "CollExport" "ou" st.1.OU kv.2
    ({ st.1 with OU := r.1 }, firstErr st.2 r.2)
  | some 2 =>
    let r := decodeStrings "CollExport" "viewersRepo" st.1.ViewersRepo kv.2
    ({ st.1 with ViewersRepo := r.1 }, firstErr st.2 r.2)
  | _ => st

/-- `json.Unmarshal(v, obj)`: what `obj` points to afterwards, and the error. -/
def Unmarshal (v : JDoc) (obj : Obj) : Obj × GoError :=
  match v, obj with
  | .malformed msg, t => (t, some msg)
  | _, .nil => (.nil, some "json: Unmarshal(nil)")
  | .null, t => (t, none)
  | .object fields, .umap u =>
    let r := fields.foldl decodeUmapField (u, none)
    (.umap r.1, r.2)
  | .object fields, .coll c =>
    let r := fields.foldl decodeCollField (c, none)
    (.coll r.1, r.2)

/-! ### bolt -/

/-- A bucket of the database: its entries in the order of their keys. -/
structure Bucket where
  entries : List (String × JDoc)
deriving DecidableEq

/-- The database: its buckets by name. -/
structure DB where
  buckets : List (String × Bucket)
deriving DecidableEq

/-- The maximum length of a key, in bytes. -/
def MaxKeySize : Nat := 32768

/-- `Bucket.Get`: the value of `key`, `none` if the key does not exist. -/
def Bucket.Get (b : Bucket) (key : String) : Option JDoc :=
  b.entries.lookup key

/-- The order of the keys of a bucket, which is the order of their bytes and
so the order of their runes. -/
def runesLess : List Char → List Char → Bool
  | _, [] => false
  | [], _ :: _ => true
  | a :: as, b :: bs => decide (a.toNat < b.toNat) || (decide (a.toNat = b.toNat) && runesLess as bs)

/-- Whether the key `a` comes before the key `b`. -/
def keyLess (a b : String) : Bool :=
  runesLess a.data b.data

/-- `Bucket.Put`: sets the value of `key`; an existing value is replaced. -/
def Bucket.Put (b : Bucket) (key : String) (v : JDoc) : Except String Bucket :=
  if key.utf8ByteSize = 0 then .error "key required"
  else if MaxKeySize < key.utf8ByteSize then .error "key too large"
  else
    .ok ⟨b.entries.filter (fun e => keyLess e.1 key) ++
      (key, v) :: b.entries.filter (fun e => keyLess key e.1)⟩

/-- `Tx.Bucket`: the bucket of the given name, `none` (`nil`) if it does not
exist. -/
def DB.Bucket (db : DB) (name : String) : Option Repoadm.Bucket :=
  db.buckets.lookup name

/-- The database in which the bucket `name` is `b`. -/
def DB.withBucket (db : DB) (name : String) (b : Repoadm.Bucket) : DB :=
  ⟨db.buckets.map (fun e => if e.1 = name then (name, b) else e)⟩

/-- `Tx.CreateBucketIfNotExists`. -/
def DB.CreateBucketIfNotExists (db : DB) (name : String) : Except String DB :=
  if name = "" then .error "bucket name required"
  else
    match db.Bucket name with
    | some _ => .ok db
    | none => .ok ⟨db.buckets ++ [(name, ⟨[]⟩)]⟩

/-! ### `store` -/

/-- The store provides interface to interact with a local database for
managing/bookkeeping user map and exported collections; `db = none` is the
`nil` connection. -/
structure store where
  path : String
  db : Option DB
deriving DecidableEq

/-- The method `init` initialize two buckets in bolt db, `umap` and `cmap`. -/
def store.init (s : store) : GoError × store :=
  match s.db with
  | none => (some "no connected db", s)
  | some db =>
    match db.CreateBucketIfNotExists "umap" with
    | .error e => (some ("create bucket: " ++ e), s)
    | .ok db1 =>
      match db1.CreateBucketIfNotExists "cmap" with
      | .error e => (some ("create bucket: " ++ e), { s with db := some db1 })
      | .ok db2 => (none, { s with db := some db2 })

/-- The method `get` returns a value of the given key within the given bucket
in the bolt database: the error, and what `obj` points to afterwards. -/
def store.get (s : store) (bucket key : String) (obj : Obj) : Outcome (GoError × Obj) :=
  match s.db with
  | none => .returned (some "no connected db", obj)
  | some db =>
    match db.Bucket bucket with
    | none => .panic
    | some b =>
      match b.Get key with
      | none => .returned (some ("key " ++ key ++ " not in bucket " ++ bucket), obj)
      | some v =>
        match Unmarshal v obj with
        | (obj1, some e) => .returned (some e, obj1)
        | (obj1, none) => .returned (none, obj1)

/-- The statement `objs[k] = v` on a Go map. -/
def mapSet (objs : List (String × Obj)) (k : String) (v : Obj) : List (String × Obj) :=
  (k, v) :: objs.filter (fun e => e.1 != k)

/-- The body of the loop of `getAll` for one entry of the bucket; the state
is the map `objs` and the lines logged. -/
def getAllStep (bucket : String) (st : List (String × Obj) × List String) (kv : String × JDoc) :
    List (String × Obj) × List String :=
  let fresh : Obj :=
    if bucket = "umap" then .umap ⟨[], [], []⟩
    else if bucket = "cmap" then .coll ⟨[], [], none⟩
    else .nil
  match Unmarshal kv.2 fresh with
  | (obj1, some e) => (mapSet st.1 kv.1 obj1, st.2 ++ ["invalid value for " ++ kv.1 ++ ": " ++ e])
  | (obj1, none) => (mapSet st.1 kv.1 obj1, st.2)

/-- The method `getAll`: the error, the map `objs` afterwards, and the lines
logged. -/
def store.getAll (s : store) (bucket : String) (objs : List (String × Obj)) :
    Outcome (GoError × List (String × Obj) × List String) :=
  match s.db with
  | none => .returned (some "no connected db", objs, [])
  | some db =>
    match db.Bucket bucket with
    | none => .panic
    | some b =>
      let r := b.entries.foldl (getAllStep bucket) (objs, [])
      .returned (none, r.1, r.2)

/-- The method `set`: the error, and the store afterwards. -/
def store.set (s : store) (bucket key : String) (obj : Obj) : Outcome (GoError × store) :=
  match s.db with
  | none => .returned (some "no connected db", s)
  | some db =>
    let b := db.Bucket bucket
    match Marshal obj with
    | .error e => .returned (some e, s)
    | .ok v =>
      match b with
      | none => .panic
      | some b =>
        match b.Put key v with
        | .error e => .returned (some e, s)
        | .ok b1 => .returned (none, { s with db := some (db.withBucket bucket b1) })

/-- Whether no byte of the string is outside a valid encoding. -/
def validUTF8 (s : GoString) : Bool :=
  s.all (fun u =>
    match u with
    | .rune _ => true
    | .badByte _ => false)

/-- A `Umap` or a `CollExport` all of whose strings are valid UTF-8. -/
def Obj.Valid : Obj → Prop
  | .nil => False
  | .umap u => validUTF8 u.Email ∧ validUTF8 u.UIDLocal ∧ validUTF8 u.UIDRepo
  | .coll c =>
    validUTF8 c.Path ∧ validUTF8 c.OU ∧
      match c.ViewersRepo with
      | none => True
      | some xs => ∀ x ∈ xs, validUTF8 x

/-- The arguments point to values of the same type. -/
def Obj.SameType : Obj → Obj → Prop
  | .umap _, .umap _ => True
  | .coll _, .coll _ => True
  | _, _ => False

/-- The value is of the type `getAll` decodes the entries of the bucket to. -/
def Obj.TypeOfBucket (bucket : String) : Obj → Prop
  | .umap _ => bucket = "umap"
  | .coll _ => bucket = "cmap"
  | .nil => False

/-- The bucket `bucket` of the store holds one entry for `key`, whose value
is `v`. -/
def Holds (s : store) (bucket key : String) (v : JDoc) : Prop :=
  match s.db with
  | none => False
  | some db =>
    match db.Bucket bucket with
    | none => False
    | some b => b.entries.filter (fun e => e.1 == key) = [(key, v)]

/-- A connected database with the empty buckets `umap` and `cmap`, at the
path of `TestStore`. -/
def storeInit : store :=
  ⟨"/tmp/test.db", some ⟨[("umap", ⟨[]⟩), ("cmap", ⟨[]⟩)]⟩⟩

/-- The Go string of a text without invalid bytes. -/
def goStr (s : String) : GoString :=
  s.data.map .rune

/-- The first `Umap` of `TestStore`. -/
def umap0 : Umap :=
  ⟨goStr "user0@dccn.nl", goStr "user0", goStr "u0000000@ru.nl"⟩

/-- The first `CollExport` of `TestStore`. -/
def coll0 : CollExport :=
  ⟨goStr "/.repo/dccn/ds_0", goStr "dccn", some [goStr "u0000001@ru.nl", goStr "u0000003@ru.nl"]⟩

/-- A `Umap` whose `Email` is the single byte `0xff`. -/
def umapBad : Umap :=
  ⟨[.badByte 255], goStr "user0", goStr "u0000000@ru.nl"⟩

/-- The second `Umap` of `TestStore`. -/
def umap1 : Umap :=
  ⟨goStr "user1@dccn.nl", goStr "user1", goStr "u0000001@ru.nl"⟩

/-- The store `storeInit` after `set("umap", "u0000000@ru.nl", &umap0)`. -/
def storeUmap0 : store :=
  ⟨"/tmp/test.db",
    some ⟨[("umap", ⟨[("u0000000@ru.nl",
        .object [("email", .str "user0@dccn.nl"), ("uidLocal", .str "user0"),
          ("uidRepo", .str "u0000000@ru.nl")])]⟩),
      ("cmap", ⟨[]⟩)]⟩⟩

/-- The store `storeUmap0` after `set("umap", "u0000001@ru.nl", &umap1)`. -/
def storeUmap01 : store :=
  ⟨"/tmp/test.db",
    some ⟨[("umap", ⟨[("u0000000@ru.nl",
        .object [("email", .str "user0@dccn.nl"), ("uidLocal", .str "user0"),
          ("uidRepo", .str "u0000000@ru.nl")]),
        ("u0000001@ru.nl",
        .object [("email", .str "user1@dccn.nl"), ("uidLocal", .str "user1"),
          ("uidRepo", .str "u0000001@ru.nl")])]⟩),
      ("cmap", ⟨[]⟩)]⟩⟩

/-- The store `storeInit` after `set("umap", "ds_0", &coll0)`. -/
def storeCollInUmap : store :=
  ⟨"/tmp/test.db",
    some ⟨[("umap", ⟨[("ds_0",
        .object [("path", .str "/.repo/dccn/ds_0"), ("ou", .str "dccn"),
          ("viewersRepo", .strs ["u0000001@ru.nl", "u0000003@ru.nl"])])]⟩),
      ("cmap", ⟨[]⟩)]⟩⟩

/-- The store `storeInit` after `set("umap", "u0000000@ru.nl", &umapBad)`. -/
def storeUmapBad : store :=
  ⟨"/tmp/test.db",
    some ⟨[("umap", ⟨[("u0000000@ru.nl",
        .object [("email", .str ⟨[Char.ofNat 65533]⟩), ("uidLocal", .str "user0"),
          ("uidRepo", .str "u0000000@ru.nl")])]⟩),
      ("cmap", ⟨[]⟩)]⟩⟩

end Repoadm

/-! ## Verified properties -/

namespace Repocli

section Paths

open path

theorem splitSlash_ne_nil (l : List Char) : splitSlash l ≠ [] := by
  induction l with
  | nil => simp [splitSlash]
  | cons c cs ih =>
    unfold splitSlash
    split
    · simp
    · split <;> simp

theorem splitSlash_append (a b : List Char) :
    splitSlash (a ++ '/' :: b) = splitSlash a ++ splitSlash b := by
  induction a with
  | nil => simp [splitSlash]
  | cons c cs ih =>
    by_cases hc : c = '/'
    · simp [splitSlash, hc, ih]
    · have hcons : splitSlash (c :: (cs ++ '/' :: b))
          = match splitSlash (cs ++ '/' :: b) with
            | [] => [[c]]
            | seg :: rest => (c :: seg) :: rest := by
        simp [splitSlash, hc]
      have hcons2 : splitSlash (c :: cs)
          = match splitSlash cs with
            | [] => [[c]]
            | seg :: rest => (c :: seg) :: rest := by
        simp [splitSlash, hc]
      rw [List.cons_append, hcons, hcons2, ih]
      cases h : splitSlash cs with
      | nil => exact absurd h (splitSlash_ne_nil cs)
      | cons seg rest => simp

theorem splitSlash_of_not_mem (seg : List Char) (h : '/' ∉ seg) : splitSlash seg = [seg] := by
  induction seg with
  | nil => simp [splitSlash]
  | cons c cs ih =>
    have hc : c ≠ '/' := fun hc => h (by simp [hc])
    have hcs : '/' ∉ cs := fun hcs => h (by simp [hcs])
    simp [splitSlash, hc, ih hcs]

theorem joinSlash_cons_cons (a b : List Char) (rest : List (List Char)) :
    joinSlash (a :: b :: rest) = a ++ '/' :: joinSlash (b :: rest) := by
  simp [joinSlash]

theorem splitSlash_joinSlash (segs : List (List Char)) (hne : segs ≠ [])
    (h : ∀ seg ∈ segs, '/' ∉ seg) : splitSlash (joinSlash segs) = segs := by
  induction segs with
  | nil => exact absurd rfl hne
  | cons a rest ih =>
    cases rest with
    | nil => simpa [joinSlash] using splitSlash_of_not_mem a (h a (by simp))
    | cons b rest =>
      rw [joinSlash_cons_cons, splitSlash_append, splitSlash_of_not_mem a (h a (by simp)),
        ih (by simp) (fun seg hseg => h seg (by simp [hseg]))]
      simp

theorem joinSlash_append_singleton (segs : List (List Char)) (n : List Char) :
    joinSlash (segs ++ [n]) = if segs = [] then n else joinSlash segs ++ '/' :: n := by
  induction segs with
  | nil => simp [joinSlash]
  | cons a rest ih =>
    cases rest with
    | nil => simp [joinSlash]
    | cons b rest =>
      simp only [List.cons_append, joinSlash_cons_cons] at ih ⊢
      simp [ih]

theorem cleanStep_valid (rooted : Bool) (out : List (List Char)) (seg : List Char)
    (h : ValidSeg seg) : cleanStep rooted out seg = seg :: out := by
  obtain ⟨h1, -, h3, h4⟩ := h
  simp [cleanStep, h1, h3, h4]

theorem foldl_cleanStep_valid (rooted : Bool) (segs : List (List Char))
    (h : ∀ seg ∈ segs, ValidSeg seg) (out : List (List Char)) :
    segs.foldl (cleanStep rooted) out = segs.reverse ++ out := by
  induction segs generalizing out with
  | nil => simp
  | cons a rest ih =>
    simp only [List.foldl_cons, cleanStep_valid rooted out a (h a (by simp))]
    rw [ih (fun seg hseg => h seg (by simp [hseg]))]
    simp

/-- Joining a clean absolute path with a single path element appends the
element: the result is a clean absolute path, strictly longer than the
directory. -/
theorem join_child (p n : String) (hp : CleanAbs p) (hn : ValidName n) :
    CleanAbs (Join [p, n]) ∧ p.data.length < (Join [p, n]).data.length := by
  obtain ⟨segs, hsegs, hdata⟩ := hp
  have hn1 : n.data ≠ [] := hn.1
  have hpne : p ≠ "" := by
    intro h
    rw [h] at hdata
    simp at hdata
  have hnne : n ≠ "" := by
    intro h
    rw [h] at hn1
    simp at hn1
  have hall : ∀ seg ∈ segs ++ [n.data], ValidSeg seg := by
    intro seg hseg
    rcases List.mem_append.mp hseg with h | h
    · exact hsegs seg h
    · simp at h
      rw [h]
      exact hn
  have hsplit : splitSlash (joinSlash segs ++ '/' :: n.data)
      = (if segs = [] then [[]] else segs) ++ [n.data] := by
    rw [splitSlash_append, splitSlash_of_not_mem n.data hn.2.1]
    by_cases hs : segs = []
    · simp [hs, joinSlash, splitSlash]
    · rw [splitSlash_joinSlash segs hs (fun seg hseg => (hsegs seg hseg).2.1)]
      simp [hs]
  have hjoin : (Join [p, n]).data = '/' :: joinSlash (segs ++ [n.data]) := by
    simp only [Join, List.filter, hpne, hnne, ne_eq, not_false_eq_true, decide_True, Clean,
      List.map, joinSlash_cons_cons, joinSlash, hdata, List.cons_append, cleanChars,
      if_true, splitSlash, hsplit, cleanSegs, List.foldl_cons]
    congr 1
    by_cases hs : segs = []
    · subst hs
      simp [cleanStep, hn.1, hn.2.2.1, hn.2.2.2, joinSlash]
    · simp only [hs, if_false]
      have h0 : cleanStep true [] [] = [] := by simp [cleanStep]
      rw [h0, foldl_cleanStep_valid true _ hall]
      simp
  refine ⟨⟨segs ++ [n.data], hall, hjoin⟩, ?_⟩
  rw [hjoin, hdata, joinSlash_append_singleton]
  by_cases hs : segs = []
  · subst hs
    have : 0 < n.data.length := List.length_pos.mpr hn1
    simpa [joinSlash] using this
  · simp [hs]

end Paths

section Files

variable {σ τ : Type}

/-- C2. Skip honoured: with `overwrite = false`, `putRepoFile` and
`getRepoFile` on a task whose destination exists (its stat succeeds) return
success, the only call they issue is that stat, and both stores are left as
they were. -/
theorem skip_honoured (cli : DavClient σ) (os : LocalOS τ) (src dst : pathFileInfo)
    (showProgress : Bool) (w : World σ τ) :
    (∀ f, cli.Stat w.remote dst.path = .ok f →
      ∃ w1, putRepoFile cli os false src dst showProgress w = .done none w1 ∧
        w1.remote = w.remote ∧ w1.localfs = w.localfs ∧ w1.log = w.log ++ [.Stat dst.path]) ∧
    (∀ f, os.Stat w.localfs dst.path = .ok f →
      ∃ w1, getRepoFile cli os false src dst showProgress w = .done none w1 ∧
        w1.remote = w.remote ∧ w1.localfs = w.localfs ∧ w1.log = w.log ++ [.osStat dst.path]) := by
  constructor
  · intro f hf
    refine ⟨w.emit (.Stat dst.path), ?_, rfl, rfl, rfl⟩
    simp [putRepoFile, World.cliStat, hf, errOf, is404NotFountError]
  · intro f hf
    refine ⟨w.emit (.osStat dst.path), ?_, rfl, rfl, rfl⟩
    simp [getRepoFile, World.osStat, hf]

/-- The skip of C2 on the concrete stores: the existing destinations `/r/f`
and `/l/f` keep their bytes. -/
theorem skip_honoured_witness :
    specStore.Stat fsRemote "/r/f" = .ok ⟨"f", 3, false, 420⟩ ∧
    posixOS.Stat fsLocal "/l/f" = .ok ⟨"f", 5, false, 420⟩ ∧
    (∃ w1, putRepoFile specStore posixOS false srcLF ⟨"/r/f", none⟩ false
        (World.init fsRemote fsLocal none) = .done none w1 ∧
      w1.remote.find? "/r/f" = some (.file [7, 8, 9] 420)) ∧
    (∃ w1, getRepoFile specStore posixOS false srcRF ⟨"/l/f", none⟩ false
        (World.init fsRemote fsLocal none) = .done none w1 ∧
      w1.localfs.find? "/l/f" = some (.file [1, 2, 3, 4, 5] 420)) := by
  have hput := (skip_honoured specStore posixOS srcLF ⟨"/r/f", none⟩ false
    (World.init fsRemote fsLocal none)).1 ⟨"f", 3, false, 420⟩ (by decide)
  have hget := (skip_honoured specStore posixOS srcRF ⟨"/l/f", none⟩ false
    (World.init fsRemote fsLocal none)).2 ⟨"f", 5, false, 420⟩ (by decide)
  refine ⟨by decide, by decide, ?_, ?_⟩
  · obtain ⟨w1, h1, hr, -, -⟩ := hput
    exact ⟨w1, h1, by rw [hr]; decide⟩
  · obtain ⟨w1, h1, -, hl, -⟩ := hget
    exact ⟨w1, h1, by rw [hl]; decide⟩

/-- The part of `putRepoFile` after the skip test, on the world `w0` reached
by that test. -/
theorem putRepoFile_not_skipped (cli : DavClient σ) (os : LocalOS τ) (overwrite : Bool)
    (src dst : pathFileInfo) (showProgress : Bool) (w : World σ τ)
    (hns : overwrite = true ∨ is404NotFountError (errOf (cli.Stat w.remote dst.path)) = true) :
    ∃ w0 : World σ τ, w0.remote = w.remote ∧ w0.localfs = w.localfs ∧
      putRepoFile cli os overwrite src dst showProgress w =
        (match w0.osOpen os src.path with
        | (.error e, w2) => .done (some ("cannot open local file: " ++ e)) w2
        | (.ok content, w2) =>
          match src.info with
          | none => .panic w2
          | some info =>
            match prettifyProgressbarDesc info.name with
            | none => .panic w2
            | some _ =>
              match w2.cliWriteStream cli dst.path content info.mode with
              | (some e, w3) =>
                .done (some ("cannot write " ++ dst.path ++ " to the repository: " ++ e)) w3
              | (none, w3) =>
                match w3.cliStat cli dst.path with
                | (.error e, w4) =>
                  .done (some ("cannot stat " ++ dst.path ++ " at the repository: " ++ e)) w4
                | (.ok f, w4) =>
                  if f.size ≠ info.size then
                    .done (some ("file size " ++ dst.path ++ " mis-match: " ++ fmtInt f.size
                      ++ " != " ++ fmtInt info.size)) w4
                  else .done none w4) := by
  cases overwrite with
  | true => exact ⟨w, rfl, rfl, by simp [putRepoFile]⟩
  | false =>
    have h404 : is404NotFountError (errOf (cli.Stat w.remote dst.path)) = true := by
      rcases hns with h | h
      · exact absurd h (by decide)
      · exact h
    exact ⟨w.emit (.Stat dst.path), rfl, rfl, by simp [putRepoFile, World.cliStat, h404]⟩

/-- C3. Put size check: when `putRepoFile` does not skip, a success means
that the stat issued after the upload reported the size of the source; when
that stat reports another size the result is the size mis-match error, and
when it fails the result is an error. -/
theorem put_size_check (cli : DavClient σ) (os : LocalOS τ) (overwrite : Bool)
    (src dst : pathFileInfo) (showProgress : Bool) (w : World σ τ)
    (hns : overwrite = true ∨ is404NotFountError (errOf (cli.Stat w.remote dst.path)) = true) :
    (∀ w1, putRepoFile cli os overwrite src dst showProgress w = .done none w1 →
      ∃ info f calls, src.info = some info ∧ cli.Stat w1.remote dst.path = .ok f ∧
        f.size = info.size ∧ w1.log = calls ++ [.WriteStream dst.path, .Stat dst.path]) ∧
    (∀ content info s3, os.Open w.localfs src.path = .ok content → src.info = some info →
      prettifyProgressbarDesc info.name ≠ none →
      cli.WriteStream w.remote dst.path content info.mode = (none, s3) →
      (∀ e, cli.Stat s3 dst.path = .error e →
        ∃ w1, putRepoFile cli os overwrite src dst showProgress w =
          .done (some ("cannot stat " ++ dst.path ++ " at the repository: " ++ e)) w1) ∧
      (∀ f, cli.Stat s3 dst.path = .ok f → f.size ≠ info.size →
        ∃ w1, putRepoFile cli os overwrite src dst showProgress w =
          .done (some ("file size " ++ dst.path ++ " mis-match: " ++ fmtInt f.size
            ++ " != " ++ fmtInt info.size)) w1) ∧
      (∀ f, cli.Stat s3 dst.path = .ok f → f.size = info.size →
        ∃ w1, putRepoFile cli os overwrite src dst showProgress w = .done none w1)) := by
  obtain ⟨w0, hr, hl, hrun⟩ := putRepoFile_not_skipped cli os overwrite src dst showProgress w hns
  constructor
  · intro w1 h1
    rw [hrun] at h1
    simp only [World.osOpen] at h1
    cases hopen : os.Open w0.localfs src.path with
    | error e => simp [hopen] at h1
    | ok content =>
      simp only [hopen] at h1
      cases hinfo : src.info with
      | none => simp [hinfo] at h1
      | some info =>
        simp only [hinfo] at h1
        cases hdesc : prettifyProgressbarDesc info.name with
        | none => simp [hdesc] at h1
        | some desc =>
          simp only [hdesc, World.cliWriteStream] at h1
          cases hws : cli.WriteStream (w0.emit (.osOpen src.path)).remote dst.path content info.mode with
          | mk err s3 =>
            cases err with
            | some e => simp [hws] at h1
            | none =>
              simp only [hws, World.cliStat] at h1
              cases hst : cli.Stat s3 dst.path with
              | error e => simp [World.emit, hst] at h1
              | ok f =>
                simp only [World.emit, hst] at h1
                by_cases hsz : f.size = info.size
                · simp only [hsz, ne_eq, not_true_eq_false, if_false, Run.done.injEq,
                    true_and] at h1
                  subst h1
                  exact ⟨info, f, w0.log ++ [.osOpen src.path], rfl, hst, hsz, by simp⟩
                · simp [hsz] at h1
  · intro content info s3 hopen hinfo hdesc hws
    rw [← hl] at hopen
    rw [← hr] at hws
    obtain ⟨desc, hdesc⟩ := Option.ne_none_iff_exists'.mp hdesc
    refine ⟨?_, ?_, ?_⟩
    · intro e hst
      rw [hrun]
      simp [World.osOpen, hopen, hinfo, hdesc, World.cliWriteStream, hws, World.cliStat,
        World.emit, hst]
    · intro f hst hsz
      rw [hrun]
      simp [World.osOpen, hopen, hinfo, hdesc, World.cliWriteStream, hws, World.cliStat,
        World.emit, hst, hsz]
    · intro f hst hsz
      rw [hrun]
      simp [World.osOpen, hopen, hinfo, hdesc, World.cliWriteStream, hws, World.cliStat,
        World.emit, hst, hsz]

/-- The size check of C3 on the concrete stores: the upload of the five bytes
of `/l/f` to the missing `/r/g` succeeds when the source entry says five
bytes, and is a size mis-match when it says seven. -/
theorem put_size_check_witness :
    is404NotFountError (errOf (specStore.Stat fsRemote "/r/g")) = true ∧
    (∃ w1, putRepoFile specStore posixOS false srcLF ⟨"/r/g", none⟩ false
        (World.init fsRemote fsLocal none) = .done none w1 ∧
      ∃ f, specStore.Stat w1.remote "/r/g" = .ok f ∧ f.size = 5) ∧
    (∃ w1, putRepoFile specStore posixOS false ⟨"/l/f", some ⟨"f", 7, false, 420⟩⟩
        ⟨"/r/g", none⟩ false (World.init fsRemote fsLocal none)
      = .done (some "file size /r/g mis-match: 5 != 7") w1) := by
  have h0 := put_size_check specStore posixOS false srcLF ⟨"/r/g", none⟩ false
    (World.init fsRemote fsLocal none) (Or.inr (by decide))
  have h1 := h0.2 [1, 2, 3, 4, 5]
    ⟨"f", 5, false, 420⟩ (SpecFS.WriteStream fsRemote "/r/g" [1, 2, 3, 4, 5] 420).2
    (by decide) rfl (by decide) (by decide)
  have h2 := (put_size_check specStore posixOS false ⟨"/l/f", some ⟨"f", 7, false, 420⟩⟩
    ⟨"/r/g", none⟩ false
    (World.init fsRemote fsLocal none) (Or.inr (by decide))).2 [1, 2, 3, 4, 5]
    ⟨"f", 7, false, 420⟩ (SpecFS.WriteStream fsRemote "/r/g" [1, 2, 3, 4, 5] 420).2
    (by decide) rfl (by decide) (by decide)
  refine ⟨by decide, ?_, ?_⟩
  · obtain ⟨w1, hw⟩ := h1.2.2 ⟨"g", 5, false, 420⟩ (by decide) (by decide)
    obtain ⟨info, f, -, hinfo, hstat, hsize, -⟩ := h0.1 w1 hw
    have hi : info = ⟨"f", 5, false, 420⟩ := by
      have h5 : srcLF.info = some ⟨"f", 5, false, 420⟩ := rfl
      rw [h5] at hinfo
      exact (Option.some.inj hinfo).symm
    exact ⟨w1, hw, f, hstat, by rw [hsize, hi]⟩
  · obtain ⟨w1, hw⟩ := h2.2.1 ⟨"g", 5, false, 420⟩ (by decide) (by decide)
    refine ⟨w1, ?_⟩
    rw [hw]
    have hmsg : "file size " ++ (⟨"/r/g", none⟩ : pathFileInfo).path ++ " mis-match: "
        ++ fmtInt (⟨"g", 5, false, 420⟩ : FileInfo).size ++ " != "
        ++ fmtInt (⟨"f", 7, false, 420⟩ : FileInfo).size
        = "file size /r/g mis-match: 5 != 7" := by decide
    rw [hmsg]

/-- C4, run on a failing input. `getRepoFile` with `overwrite = true`
downloads the three bytes of `/r/f` onto the existing local file `/l/f` of
five bytes: it returns success, it issues no stat of the destination, and the
destination keeps five bytes, the last two being the old ones. -/
theorem get_keeps_longer_destination :
    (getRepoFile specStore posixOS true srcRF ⟨"/l/f", none⟩ false
      (World.init fsRemote fsLocal none)).result? = some none ∧
    (getRepoFile specStore posixOS true srcRF ⟨"/l/f", none⟩ false
      (World.init fsRemote fsLocal none)).world?.map (fun w => w.localfs.find? "/l/f")
      = some (some (.file [7, 8, 9, 4, 5] 420)) ∧
    (getRepoFile specStore posixOS true srcRF ⟨"/l/f", none⟩ false
      (World.init fsRemote fsLocal none)).world?.map (fun w => w.log)
      = some [.osOpenFile "/l/f", .ReadStream "/r/f", .osWrite "/l/f" 0 3, .osWrite "/l/f" 3 0] ∧
    srcRF.info.map (fun i => i.size) = some 3 := by
  decide

end Files

section Workers

variable {σ τ : Type}

/-- C9, run on the failing class of inputs. For the operation `Copy` the
result of `cli.Copy` is dropped: a task whose copy fails increases the success
count, leaves the failure count unchanged and writes nothing to the error
sink. -/
theorem runOp_copy_failure_counted_ok (cli : DavClient σ) (os : LocalOS τ)
    (overwrite errWriterValid : Bool) (inputs : opInput) (cnt : Nat × Nat) (w : World σ τ)
    (e : String) (hfail : (cli.Copy w.remote inputs.src.path inputs.dst.path overwrite).1 = some e) :
    ∃ w1, runOpTask cli os overwrite errWriterValid .Copy inputs cnt w = .done (cnt.1 + 1, cnt.2) w1 ∧
      w1.errSink = w.errSink := by
  have _ := hfail
  exact ⟨_, rfl, rfl⟩

/-- The failing copy of C9 on the concrete store: the source `/r/nope` does
not exist, `cli.Copy` fails, and the task is counted as a success, whereas the
same failure of `cli.Rename` is counted as a failure with its line written. -/
theorem runOp_copy_failure_counted_ok_witness :
    (specStore.Copy fsRemote "/r/nope" "/r/x" false).1 = some "404 Not Found - COPY /r/nope" ∧
    (∃ w1, runOpTask specStore posixOS false true .Copy ⟨⟨"/r/nope", none⟩, ⟨"/r/x", none⟩⟩ (0, 0)
        (World.init fsRemote fsLocal none) = .done (1, 0) w1 ∧ w1.errSink = []) ∧
    (runOpTask specStore posixOS false true .Move ⟨⟨"/r/nope", none⟩, ⟨"/r/x", none⟩⟩ (0, 0)
        (World.init fsRemote fsLocal none)).result? = some (0, 1) ∧
    (runOpTask specStore posixOS false true .Move ⟨⟨"/r/nope", none⟩, ⟨"/r/x", none⟩⟩ (0, 0)
        (World.init fsRemote fsLocal none)).world?.map (fun w => w.errSink)
      = some ["/r/nope error:404 Not Found - MOVE /r/nope\n"] :=
  ⟨by decide,
    runOp_copy_failure_counted_ok specStore posixOS false true ⟨⟨"/r/nope", none⟩, ⟨"/r/x", none⟩⟩
      (0, 0) (World.init fsRemote fsLocal none) "404 Not Found - COPY /r/nope" (by decide),
    by decide, by decide⟩

/-- `multiWriterWrite` does not touch the dynamic progress bar. -/
theorem multiWriterWrite_pbar (os : LocalOS τ) (localPath : String) (offset : Nat) (b : Bytes)
    (w : World σ τ) :
    pbarAdds (multiWriterWrite os localPath offset b w).2.log = pbarAdds w.log ∧
    (multiWriterWrite os localPath offset b w).2.pbarCurrent = w.pbarCurrent := by
  unfold multiWriterWrite World.osWrite
  cases h : os.Write w.localfs localPath offset b with
  | mk a t =>
    cases a with
    | mk n err =>
      cases err with
      | some e => simp [World.emit, pbarAdds]
      | none =>
        by_cases hn : n = b.length
        · simp [hn, World.emit, pbarAdds]
        · simp [hn, World.emit, pbarAdds]

/-- `getRepoFileLoop` does not touch the dynamic progress bar. -/
theorem getRepoFileLoop_pbar (os : LocalOS τ) (repoPath localPath : String) (reader : Reader) :
    ∀ (offset : Nat) (w : World σ τ),
      pbarAdds (getRepoFileLoop os repoPath localPath reader offset w).2.log = pbarAdds w.log ∧
      (getRepoFileLoop os repoPath localPath reader offset w).2.pbarCurrent = w.pbarCurrent := by
  induction reader with
  | nil =>
    intro offset w
    have hm := multiWriterWrite_pbar os localPath offset [] w
    simp only [getRepoFileLoop]
    generalize multiWriterWrite os localPath offset [] w = m at hm
    obtain ⟨⟨wlen, werr⟩, w1⟩ := m
    simp only at hm ⊢
    split <;> exact hm
  | cons r rest ih =>
    intro offset w
    have hm := multiWriterWrite_pbar os localPath offset r.data w
    simp only [getRepoFileLoop]
    generalize multiWriterWrite os localPath offset r.data w = m at hm
    obtain ⟨⟨wlen, werr⟩, w1⟩ := m
    simp only at hm
    split
    · exact ⟨rfl, rfl⟩
    · simp only
      split
      · exact hm
      · split
        · exact hm
        · have h := ih (offset + wlen) w1
          exact ⟨h.1.trans hm.1, h.2.trans hm.2⟩

/-- `putRepoFile` returns when the source entry has its `FileInfo` and a
printable name, and does not touch the dynamic progress bar. -/
theorem putRepoFile_pbar (cli : DavClient σ) (os : LocalOS τ) (overwrite : Bool)
    (src dst : pathFileInfo) (showProgress : Bool) (w : World σ τ) (info : FileInfo)
    (hinfo : src.info = some info) (hdesc : prettifyProgressbarDesc info.name ≠ none) :
    ∃ err w1, putRepoFile cli os overwrite src dst showProgress w = .done err w1 ∧
      pbarAdds w1.log = pbarAdds w.log ∧ w1.pbarCurrent = w.pbarCurrent := by
  obtain ⟨desc, hdesc⟩ := Option.ne_none_iff_exists'.mp hdesc
  have hpre : ∀ w0 : World σ τ,
      ∃ err w1,
        (match w0.osOpen os src.path with
        | (.error e, w2) => Run.done (some ("cannot open local file: " ++ e)) w2
        | (.ok content, w2) =>
          match src.info with
          | none => .panic w2
          | some info =>
            match prettifyProgressbarDesc info.name with
            | none => .panic w2
            | some _ =>
              match w2.cliWriteStream cli dst.path content info.mode with
              | (some e, w3) =>
                .done (some ("cannot write " ++ dst.path ++ " to the repository: " ++ e)) w3
              | (none, w3) =>
                match w3.cliStat cli dst.path with
                | (.error e, w4) =>
                  .done (some ("cannot stat " ++ dst.path ++ " at the repository: " ++ e)) w4
                | (.ok f, w4) =>
                  if f.size ≠ info.size then
                    .done (some ("file size " ++ dst.path ++ " mis-match: " ++ fmtInt f.size
                      ++ " != " ++ fmtInt info.size)) w4
                  else .done none w4) = Run.done err w1 ∧
        pbarAdds w1.log = pbarAdds w0.log ∧ w1.pbarCurrent = w0.pbarCurrent := by
    intro w0
    simp only [World.osOpen, hinfo, hdesc, World.cliWriteStream, World.cliStat]
    cases hopen : os.Open w0.localfs src.path with
    | error e => exact ⟨_, _, rfl, by simp [World.emit, pbarAdds], by simp [World.emit]⟩
    | ok content =>
      simp only
      cases hws : cli.WriteStream (w0.emit (.osOpen src.path)).remote dst.path content info.mode with
      | mk err s3 =>
        cases err with
        | some e =>
          exact ⟨_, _, rfl, by simp [World.emit, pbarAdds], by simp [World.emit]⟩
        | none =>
          simp only
          cases hst : cli.Stat s3 dst.path with
          | error e =>
            simp only [World.emit, hst]
            exact ⟨_, _, rfl, by simp [pbarAdds], by simp⟩
          | ok f =>
            simp only [World.emit, hst]
            by_cases hsz : f.size = info.size
            · simp only [hsz, ne_eq, not_true_eq_false, if_false]
              exact ⟨_, _, rfl, by simp [pbarAdds], by simp⟩
            · simp only [hsz, ne_eq, not_false_eq_true, if_true]
              exact ⟨_, _, rfl, by simp [pbarAdds], by simp⟩
  unfold putRepoFile
  cases overwrite with
  | true => simpa using hpre w
  | false =>
    simp only [Bool.not_false, if_true]
    by_cases h404 : is404NotFountError (errOf (World.cliStat cli w dst.path).1) = true
    · simp only [h404, Bool.not_true, Bool.false_eq_true, if_false]
      obtain ⟨err, w1, h1, h2, h3⟩ := hpre (World.cliStat cli w dst.path).2
      exact ⟨err, w1, h1, by rw [h2]; simp [World.cliStat, World.emit, pbarAdds],
        by rw [h3]; simp [World.cliStat, World.emit]⟩
    · simp only [h404, Bool.not_false, if_true]
      exact ⟨_, _, rfl, by simp [World.cliStat, World.emit, pbarAdds],
        by simp [World.cliStat, World.emit]⟩

/-- `getRepoFile` returns when the source entry has its `FileInfo` and a
printable base name, and does not touch the dynamic progress bar. -/
theorem getRepoFile_pbar (cli : DavClient σ) (os : LocalOS τ) (overwrite : Bool)
    (src dst : pathFileInfo) (showProgress : Bool) (w : World σ τ) (info : FileInfo)
    (hinfo : src.info = some info)
    (hdesc : prettifyProgressbarDesc (path.Base src.path) ≠ none) :
    ∃ err w1, getRepoFile cli os overwrite src dst showProgress w = .done err w1 ∧
      pbarAdds w1.log = pbarAdds w.log ∧ w1.pbarCurrent = w.pbarCurrent := by
  obtain ⟨desc, hdesc⟩ := Option.ne_none_iff_exists'.mp hdesc
  have hpre : ∀ w0 : World σ τ,
      ∃ err w1,
        (match src.info with
        | none => Run.panic w0
        | some info =>
          match w0.osOpenFile os dst.path info.mode with
          | (some e, w2) => .done (some ("cannot create/write local file: " ++ e)) w2
          | (none, w2) =>
            match prettifyProgressbarDesc (path.Base src.path) with
            | none => .panic w2
            | some _ =>
              match w2.cliReadStream cli src.path with
              | (.error e, w3) => .done (some ("cannot open file in repository: " ++ e)) w3
              | (.ok reader, w3) =>
                Run.done (getRepoFileLoop os src.path dst.path reader 0 w3).1
                  (getRepoFileLoop os src.path dst.path reader 0 w3).2) = Run.done err w1 ∧
        pbarAdds w1.log = pbarAdds w0.log ∧ w1.pbarCurrent = w0.pbarCurrent := by
    intro w0
    simp only [hinfo, hdesc, World.osOpenFile, World.cliReadStream]
    cases hof : os.OpenFile w0.localfs dst.path info.mode with
    | mk err t =>
      cases err with
      | some e => exact ⟨_, _, rfl, by simp [World.emit, pbarAdds], by simp [World.emit]⟩
      | none =>
        simp only
        cases hrs : cli.ReadStream (World.emit
            { w0.emit (.osOpenFile dst.path) with localfs := t } (.ReadStream src.path)).remote
            src.path with
        | error e =>
          simp only [World.emit] at hrs
          simp only [World.emit, hrs]
          exact ⟨_, _, rfl, by simp [pbarAdds], by simp⟩
        | ok reader =>
          simp only [World.emit] at hrs
          simp only [World.emit, hrs]
          refine ⟨_, _, rfl, ?_, ?_⟩
          · rw [(getRepoFileLoop_pbar os src.path dst.path reader 0 _).1]
            simp [pbarAdds]
          · rw [(getRepoFileLoop_pbar os src.path dst.path reader 0 _).2]
  unfold getRepoFile
  cases overwrite with
  | true => simpa using hpre w
  | false =>
    simp only [Bool.not_false, if_true]
    split
    · exact ⟨_, _, rfl, by simp [World.osStat, World.emit, pbarAdds],
        by simp [World.osStat, World.emit]⟩
    · obtain ⟨err, w1, h1, h2, h3⟩ := hpre (World.osStat os w dst.path).2
      exact ⟨err, w1, h1, by rw [h2]; simp [World.osStat, World.emit, pbarAdds],
        by rw [h3]; simp [World.osStat, World.emit]⟩

end Workers

section Directories

variable {σ τ : Type}

/-- C8. Non-recursive remove fails fast: `rmRepoDir` with `recursive = false`
on an absolute path whose listing is not empty returns the error `directory
not empty` with the counts `(0, 0)`; the only call it issues is the listing,
the store is unchanged, and a second call gives the same result. -/
theorem rm_nonrecursive_fails_fast (cli : DavClient σ) (fuel : Nat) (repoPath : String)
    (w : World σ τ) (files : List FileInfo) (habs : path.IsAbs repoPath = true)
    (hlist : cli.ReadDir w.remote repoPath = .ok files) (hne : files ≠ []) :
    ∃ w1 w2,
      rmRepoDir cli (fuel + 1) repoPath false w
        = .done (0, 0, some ("directory not empty: " ++ repoPath)) w1 ∧
      rmRepoDir cli (fuel + 1) repoPath false w1
        = .done (0, 0, some ("directory not empty: " ++ repoPath)) w2 ∧
      w1.remote = w.remote ∧ w2.remote = w.remote ∧
      w1.log = w.log ++ [.ReadDir repoPath] ∧
      w2.log = w.log ++ [.ReadDir repoPath, .ReadDir repoPath] ∧
      (∀ p, Call.Remove p ∉ newCalls w w2) := by
  have hlen : 0 < files.length := List.length_pos.mpr hne
  have hstep : ∀ w0 : World σ τ, w0.remote = w.remote →
      rmRepoDir cli (fuel + 1) repoPath false w0
        = .done (0, 0, some ("directory not empty: " ++ repoPath))
          (w0.cliReadDir cli repoPath).2 := by
    intro w0 h0
    simp [rmRepoDir, habs, World.cliReadDir, h0, hlist, hlen]
  refine ⟨(w.cliReadDir cli repoPath).2,
    ((w.cliReadDir cli repoPath).2.cliReadDir cli repoPath).2,
    hstep w rfl, hstep _ rfl, rfl, rfl, rfl, by simp [World.cliReadDir, World.emit], ?_⟩
  intro p hp
  simp [newCalls, World.cliReadDir, World.emit] at hp

/-- The fast failure of C8 on the concrete store: `/s` holds a file and a
sub-directory. -/
theorem rm_nonrecursive_fails_fast_witness :
    path.IsAbs "/s" = true ∧
    specStore.ReadDir fsMove "/s" = .ok [⟨"a", 3, false, 420⟩, ⟨"sub", 0, true, 493⟩] ∧
    ∃ w1 w2,
      rmRepoDir specStore 1 "/s" false (World.init fsMove fsLocal none)
        = .done (0, 0, some "directory not empty: /s") w1 ∧
      rmRepoDir specStore 1 "/s" false w1 = .done (0, 0, some "directory not empty: /s") w2 ∧
      w2.remote = fsMove := by
  obtain ⟨w1, w2, h1, h2, -, h4, -⟩ := rm_nonrecursive_fails_fast specStore 0 "/s"
    (World.init fsMove fsLocal none) [⟨"a", 3, false, 420⟩, ⟨"sub", 0, true, 493⟩]
    (by decide) (by decide) (by decide)
  exact ⟨by decide, by decide, w1, w2, h1, h2, h4⟩

/-- A poll of the context adds no call. -/
theorem ctxDone_log (w : World σ τ) : w.ctxDone.2.log = w.log := rfl

/-- `cliCopyOrRename` issues one call, which takes away nothing or `src`. -/
theorem cliCopyOrRename_log (cli : DavClient σ) (overwrite : Bool) (op : Op) (src dst : String)
    (w : World σ τ) :
    ∃ c : Call, (cliCopyOrRename cli overwrite op src dst w).2.log = w.log ++ [c] ∧
      (c.takesAway = none ∨ c.takesAway = some src) := by
  unfold cliCopyOrRename
  split
  · exact ⟨.Rename src dst overwrite, rfl, Or.inr rfl⟩
  · exact ⟨.Copy src dst overwrite, rfl, Or.inl rfl⟩

theorem TakesAwayBelow.append {k : Nat} {l1 l2 : List Call} (h1 : TakesAwayBelow k l1)
    (h2 : TakesAwayBelow k l2) : TakesAwayBelow k (l1 ++ l2) := by
  intro c hc q hq
  rcases List.mem_append.mp hc with h | h
  · exact h1 c h q hq
  · exact h2 c h q hq

theorem TakesAwayBelow.nil (k : Nat) : TakesAwayBelow k [] := by
  intro c hc
  simp at hc

/-- The calls of the loop of `copyOrMoveRepoDir`: every `Remove` and `Rename`
acts on a path longer than the source directory, when the nested calls only
act on paths at least as long as their own source. -/
theorem copyOrMoveLoop_calls (cli : DavClient σ) (overwrite : Bool) (op : Op)
    (src dst : pathFileInfo)
    (recur : pathFileInfo → pathFileInfo → World σ τ → Run (Nat × Nat × GoError) (World σ τ))
    (hsrc : CleanAbs src.path)
    (hrec : ∀ s d w r w1, CleanAbs s.path → recur s d w = .done r w1 →
      ∃ added, w1.log = w.log ++ added ∧
        ∀ c ∈ added, ∀ q, c.takesAway = some q → s.path.data.length ≤ q.data.length)
    (files : List FileInfo) (hfiles : ∀ f ∈ files, ValidName f.name) :
    ∀ (c : DirCounts) (w : World σ τ) (c1 : DirCounts) (w1 : World σ τ),
      copyOrMoveLoop cli overwrite op src dst recur files c w = .done c1 w1 →
      ∃ added, w1.log = w.log ++ added ∧ TakesAwayBelow src.path.data.length added := by
  induction files with
  | nil =>
    intro c w c1 w1 h
    simp only [copyOrMoveLoop, Run.done.injEq] at h
    exact ⟨[], by rw [← h.2]; simp, TakesAwayBelow.nil _⟩
  | cons finfo rest ih =>
    intro c w c1 w1 h
    have ih' := ih (fun f hf => hfiles f (by simp [hf]))
    have hchild := join_child src.path finfo.name hsrc (hfiles finfo (by simp))
    rw [copyOrMoveLoop] at h
    have hlog0 := ctxDone_log w
    generalize w.ctxDone = cd at h hlog0
    obtain ⟨b, wa⟩ := cd
    simp only at hlog0
    cases b with
    | true =>
      simp only [Run.done.injEq] at h
      exact ⟨[], by rw [← h.2, hlog0]; simp, TakesAwayBelow.nil _⟩
    | false =>
      simp only at h
      split at h
      · -- a directory: the nested call
        split at h
        · rename_i r w2 hr
          obtain ⟨a1, hl1, hp1⟩ := hrec _ _ _ _ _ hchild.1 hr
          obtain ⟨a2, hl2, hp2⟩ := ih' _ _ _ _ h
          refine ⟨a1 ++ a2, by rw [hl2, hl1, hlog0]; simp, ?_⟩
          apply TakesAwayBelow.append _ hp2
          intro c0 hc0 q hq
          exact Nat.lt_of_lt_of_le hchild.2 (hp1 c0 hc0 q hq)
        · exact absurd h (by simp)
        · exact absurd h (by simp)
      · -- a file: the work of a worker
        have hlog1 := ctxDone_log wa
        generalize wa.ctxDone = cd1 at h hlog1
        obtain ⟨b1, wb⟩ := cd1
        simp only at hlog1
        cases b1 with
        | true =>
          simp only at h
          obtain ⟨a2, hl2, hp2⟩ := ih' _ _ _ _ h
          exact ⟨a2, by rw [hl2, hlog1, hlog0], hp2⟩
        | false =>
          simp only at h
          obtain ⟨c0, hl0, hc0⟩ := cliCopyOrRename_log cli overwrite op
            (path.Join [src.path, finfo.name]) (path.Join [dst.path, finfo.name]) wb
          generalize cliCopyOrRename cli overwrite op (path.Join [src.path, finfo.name])
            (path.Join [dst.path, finfo.name]) wb = res at h hl0
          obtain ⟨e, wc⟩ := res
          simp only at hl0
          have hstep : TakesAwayBelow src.path.data.length [c0, Call.pbarAdd 1] := by
            intro c2 hc2 q hq
            simp only [List.mem_cons, List.mem_singleton, List.not_mem_nil, or_false] at hc2
            rcases hc2 with h2 | h2
            · subst h2
              rcases hc0 with h3 | h3
              · rw [h3] at hq
                exact absurd hq (by simp)
              · rw [h3] at hq
                cases hq
                exact hchild.2
            · subst h2
              exact absurd hq (by simp [Call.takesAway])
          cases e with
          | some msg =>
            simp only at h
            obtain ⟨a2, hl2, hp2⟩ := ih' _ _ _ _ h
            refine ⟨[c0, .pbarAdd 1] ++ a2, ?_, TakesAwayBelow.append hstep hp2⟩
            rw [hl2]
            simp [World.pbarAdd64, World.emit, hl0, hlog1, hlog0]
          | none =>
            simp only at h
            obtain ⟨a2, hl2, hp2⟩ := ih' _ _ _ _ h
            refine ⟨[c0, .pbarAdd 1] ++ a2, ?_, TakesAwayBelow.append hstep hp2⟩
            rw [hl2]
            simp [World.pbarAdd64, World.emit, hl0, hlog1, hlog0]

/-- The calls of `copyOrMoveRepoDir`: the log only grows, and every `Remove`
and `Rename` acts on a path longer than the source directory, except a final
`Remove` of the source directory itself, which is issued only when the
operation is `Move` and the failure count is zero. -/
theorem copyOrMoveRepoDir_calls (cli : DavClient σ) (overwrite : Bool)
    (hnames : ListsValidNames cli) (fuel : Nat) :
    ∀ (op : Op) (src dst : pathFileInfo) (w : World σ τ) (r : Nat × Nat × GoError)
      (w1 : World σ τ), CleanAbs src.path →
      copyOrMoveRepoDir cli overwrite fuel op src dst w = .done r w1 →
      ∃ added, w1.log = w.log ++ added ∧
        ∀ c ∈ added, ∀ q, c.takesAway = some q →
          src.path.data.length < q.data.length ∨
            (c = .Remove src.path ∧ op = .Move ∧ r.2.1 = 0) := by
  induction fuel with
  | zero =>
    intro op src dst w r w1 _ h
    simp [copyOrMoveRepoDir] at h
  | succ fuel ih =>
    intro op src dst w r w1 hsrc h
    rw [copyOrMoveRepoDir] at h
    simp only [World.cliReadDir] at h
    cases hlist : cli.ReadDir w.remote src.path with
    | error e =>
      simp only [hlist, Run.done.injEq] at h
      refine ⟨[.ReadDir src.path], by rw [← h.2]; rfl, ?_⟩
      intro c hc q hq
      simp only [List.mem_singleton] at hc
      subst hc
      exact absurd hq (by simp [Call.takesAway])
    | ok files =>
      simp only [hlist] at h
      cases hinfo : src.info with
      | none => simp [hinfo] at h
      | some info =>
        simp only [hinfo] at h
        have hfiles : ∀ f ∈ files, ValidName f.name := hnames _ _ _ hlist
        have hrec : ∀ (s d : pathFileInfo) (w0 : World σ τ) (r0 : Nat × Nat × GoError)
            (w2 : World σ τ), CleanAbs s.path →
            copyOrMoveRepoDir cli overwrite fuel op s d w0 = .done r0 w2 →
            ∃ added, w2.log = w0.log ++ added ∧
              ∀ c ∈ added, ∀ q, c.takesAway = some q → s.path.data.length ≤ q.data.length := by
          intro s d w0 r0 w2 hs hrun
          obtain ⟨added, hl, hp⟩ := ih op s d w0 r0 w2 hs hrun
          refine ⟨added, hl, ?_⟩
          intro c hc q hq
          rcases hp c hc q hq with h1 | ⟨h1, -⟩
          · exact Nat.le_of_lt h1
          · subst h1
            cases hq
            exact Nat.le_refl _
        split at h
        · rename_i c w4 hloop
          obtain ⟨a1, hl1, hp1⟩ := copyOrMoveLoop_calls cli overwrite op src dst _ hsrc hrec files
            hfiles _ _ _ _ hloop
          have hpre : ∀ c0 ∈ [Call.ReadDir src.path,
              Call.pbarChangeMax (wrapInt64 (w.pbarMax + countFiles files)),
              Call.MkdirAll dst.path], c0.takesAway = none := by
            intro c0 hc0
            simp only [List.mem_cons, List.mem_singleton, List.not_mem_nil, or_false] at hc0
            rcases hc0 with h0 | h0 | h0 <;> subst h0 <;> rfl
          have hl4 : w4.log = w.log ++ ([Call.ReadDir src.path,
              Call.pbarChangeMax (wrapInt64 (w.pbarMax + countFiles files)),
              Call.MkdirAll dst.path] ++ a1) := by
            rw [hl1]
            simp [World.cliMkdirAll, World.pbarChangeMax64, World.emit]
          have hbody : ∀ c0 ∈ [Call.ReadDir src.path,
              Call.pbarChangeMax (wrapInt64 (w.pbarMax + countFiles files)),
              Call.MkdirAll dst.path] ++ a1, ∀ q, c0.takesAway = some q →
              src.path.data.length < q.data.length := by
            intro c0 hc0 q hq
            rcases List.mem_append.mp hc0 with h0 | h0
            · rw [hpre c0 h0] at hq
              exact absurd hq (by simp)
            · exact hp1 c0 h0 q hq
          split at h
          · rename_i hmove
            simp only [World.cliRemove, Run.done.injEq] at h
            obtain ⟨hr, hw⟩ := h
            refine ⟨([Call.ReadDir src.path,
              Call.pbarChangeMax (wrapInt64 (w.pbarMax + countFiles files)),
              Call.MkdirAll dst.path] ++ a1) ++ [.Remove src.path], ?_, ?_⟩
            · rw [← hw]
              simp [World.emit, hl4]
            · intro c0 hc0 q hq
              rcases List.mem_append.mp hc0 with h0 | h0
              · exact Or.inl (hbody c0 h0 q hq)
              · simp only [List.mem_singleton] at h0
                refine Or.inr ⟨h0, hmove.1, ?_⟩
                rw [← hr]
                exact hmove.2
          · simp only [Run.done.injEq] at h
            obtain ⟨-, hw⟩ := h
            refine ⟨_, by rw [← hw]; exact hl4, ?_⟩
            intro c0 hc0 q hq
            exact Or.inl (hbody c0 hc0 q hq)
        · exact absurd h (by simp)
        · exact absurd h (by simp)

/-- The guard of the terminal rule of a move: when `copyOrMoveRepoDir` with
`op = Move` returns a failure count greater than zero, none of the calls it
issued is a `Remove` of the source directory or a `Rename` of the source
directory to another place.  The source path is a clean absolute path and the
listings of the store name single path elements.  Nothing is said of a
`Rename` of another entry onto the source directory. -/
theorem move_failure_takes_no_source (cli : DavClient σ) (overwrite : Bool) (fuel : Nat)
    (src dst : pathFileInfo) (w w1 : World σ τ) (cntOk cntErr : Nat) (err : GoError)
    (hnames : ListsValidNames cli) (hsrc : CleanAbs src.path)
    (hrun : copyOrMoveRepoDir cli overwrite fuel .Move src dst w = .done (cntOk, cntErr, err) w1)
    (hfail : 0 < cntErr) :
    Call.Remove src.path ∉ newCalls w w1 ∧
    (∀ c ∈ newCalls w w1, c.takesAway ≠ some src.path) ∧
    w1.log = w.log ++ newCalls w w1 := by
  obtain ⟨added, hl, hp⟩ := copyOrMoveRepoDir_calls cli overwrite hnames fuel .Move src dst w _ w1
    hsrc hrun
  have hnew : newCalls w w1 = added := by simp [newCalls, hl]
  have hmain : ∀ c ∈ newCalls w w1, c.takesAway ≠ some src.path := by
    intro c hc hq
    rw [hnew] at hc
    rcases hp c hc _ hq with h | ⟨-, -, h⟩
    · exact Nat.lt_irrefl _ h
    · simp only at h
      omega
  refine ⟨fun hmem => hmain _ hmem rfl, hmain, by rw [hnew, hl]⟩

/-- The lookup of `p` finds nothing once the entries at and below `p` are
pruned. -/
theorem lookup_prune (p : String) (l : List (String × Node)) :
    (l.filter (fun e => !SpecFS.within p e.1)).lookup p = none := by
  induction l with
  | nil => rfl
  | cons e rest ih =>
    by_cases h : SpecFS.within p e.1 = true
    · simp [List.filter, h, ih]
    · have hne : ¬ (p = e.1) := by
        intro hpe
        apply h
        simp [SpecFS.within, hpe]
      simp only [List.filter, h, Bool.not_false, List.lookup]
      have hbeq : (p == e.1) = false := by simpa using hne
      rw [hbeq]
      exact ih

/-- In `specStore` a `Remove` that succeeds deletes the entry. -/
theorem specStore_removeDeletes : RemoveDeletes specStore := by
  intro s s1 p h f
  have hstat : ∀ fs : SpecFS, fs.denied = s.denied → p ≠ "/" → fs.entries.lookup p = none →
      specStore.Stat fs p ≠ .ok f := by
    intro fs hd hp hl
    simp only [specStore, SpecFS.Stat, SpecFS.find?, hp, if_false, hl]
    split <;> simp
  simp only [specStore, SpecFS.Remove] at h
  split at h
  · simp at h
  · rename_i hguard
    simp only [Bool.or_eq_true, decide_eq_true_eq, not_or] at hguard
    have hprune : specStore.Stat (s.prune p) p ≠ .ok f :=
      hstat (s.prune p) rfl hguard.2 (lookup_prune p s.entries)
    split at h
    · simp at h
    · simp only [Prod.mk.injEq, true_and] at h
      rw [← h]
      exact hprune
    · split at h
      · simp only [Prod.mk.injEq, true_and] at h
        rw [← h]
        exact hprune
      · simp at h

/-- The listings of `specStore` name single path elements. -/
theorem specStore_listsValidNames : ListsValidNames specStore := by
  intro s p files h f hf
  simp only [specStore, SpecFS.ReadDir] at h
  split at h
  · simp at h
  · split at h
    · simp at h
    · simp at h
    · simp only [Except.ok.injEq] at h
      subst h
      simp only [List.mem_map, SpecFS.children, List.mem_filter] at hf
      obtain ⟨e, ⟨-, he⟩, hfe⟩ := hf
      simp only [Bool.and_eq_true, decide_eq_true_eq] at he
      have hname : f.name = path.Base e.1 := by
        rw [← hfe]
        cases e.2 <;> rfl
      rw [hname]
      exact he.1.2

/-- The guard on a concrete store: the rename of `/s/sub/b` to `/d/sub/b`
fails because `/d/sub` is a file; the failure count is 1, no `Remove` of `/s`
is issued, and the file is still at the source. -/
theorem move_failure_takes_no_source_example :
    ListsValidNames specStore ∧ CleanAbs srcS.path ∧
    ∃ w1, copyOrMoveRepoDir specStore false 5 .Move srcS ⟨"/d", none⟩
        (World.init fsFail fsLocal none) = .done (0, 1, none) w1 ∧
      0 < 1 ∧
      Call.Remove "/s" ∉ newCalls (World.init fsFail fsLocal none) w1 ∧
      w1.remote.find? "/s/sub/b" = some (.file [4] 420) := by
  have hclean : CleanAbs srcS.path := ⟨[['s']], by decide, by decide⟩
  have hres : (copyOrMoveRepoDir specStore false 5 .Move srcS ⟨"/d", none⟩
      (World.init fsFail fsLocal none)).result? = some (0, 1, none) := by decide
  have hfile : (copyOrMoveRepoDir specStore false 5 .Move srcS ⟨"/d", none⟩
      (World.init fsFail fsLocal none)).world?.map (fun w => w.remote.find? "/s/sub/b")
      = some (some (.file [4] 420)) := by decide
  refine ⟨specStore_listsValidNames, hclean, ?_⟩
  cases h : copyOrMoveRepoDir specStore false 5 .Move srcS ⟨"/d", none⟩
      (World.init fsFail fsLocal none) with
  | done r w1 =>
    rw [h] at hres hfile
    simp only [Run.result?, Option.some.injEq] at hres
    simp only [Run.world?, Option.map_some', Option.some.injEq] at hfile
    subst hres
    exact ⟨w1, rfl, by decide,
      (move_failure_takes_no_source specStore false 5 srcS ⟨"/d", none⟩
        (World.init fsFail fsLocal none) w1 0 1 none specStore_listsValidNames hclean h
        (by decide)).1, hfile⟩
  | panic w1 =>
    rw [h] at hres
    simp [Run.result?] at hres
  | outOfFuel =>
    rw [h] at hres
    simp [Run.result?] at hres

/-- C6 as stated fails. On the store of the specification, the move of `/s`
(holding the file `a`) to `/d` (holding a file `a`) with `overwrite = false`
ends with `failed = 0`: the rename is a no-op success, the remove of `/s` is
refused because the directory is not empty, and `/s` and `/s/a` still
exist. -/
theorem move_failed_zero_source_remains :
    (copyOrMoveRepoDir specStore false 5 .Move srcS ⟨"/d", none⟩
      (World.init fsSkip fsLocal none)).result?
      = some (1, 0, some "directory not empty: /s") ∧
    (copyOrMoveRepoDir specStore false 5 .Move srcS ⟨"/d", none⟩
      (World.init fsSkip fsLocal none)).world?.map (fun w => specStore.Stat w.remote "/s")
      = some (.ok ⟨"s", 0, true, 493⟩) ∧
    (copyOrMoveRepoDir specStore false 5 .Move srcS ⟨"/d", none⟩
      (World.init fsSkip fsLocal none)).world?.map (fun w => w.remote.find? "/s/a")
      = some (some (.file [1, 2, 3] 420)) := by
  decide

/-- C6, amended. When a move of a directory finishes with `failed = 0` and no
error, its last call is the `Remove` of the source directory, that remove
succeeded, and on a store whose successful `Remove` deletes the entry the
source directory no longer exists. -/
theorem move_removes_source_when_no_error (cli : DavClient σ) (overwrite : Bool) (fuel : Nat)
    (src dst : pathFileInfo) (w w1 : World σ τ) (cntOk : Nat) (hrem : RemoveDeletes cli)
    (hrun : copyOrMoveRepoDir cli overwrite fuel .Move src dst w = .done (cntOk, 0, none) w1) :
    (∀ f, cli.Stat w1.remote src.path ≠ .ok f) ∧
    ∃ calls, w1.log = calls ++ [.Remove src.path] := by
  cases fuel with
  | zero => simp [copyOrMoveRepoDir] at hrun
  | succ fuel =>
    rw [copyOrMoveRepoDir] at hrun
    simp only [World.cliReadDir] at hrun
    cases hlist : cli.ReadDir w.remote src.path with
    | error e => simp [hlist] at hrun
    | ok files =>
      simp only [hlist] at hrun
      cases hinfo : src.info with
      | none => simp [hinfo] at hrun
      | some info =>
        simp only [hinfo] at hrun
        split at hrun
        · rename_i c w4 hloop
          split at hrun
          · simp only [World.cliRemove, Run.done.injEq, Prod.mk.injEq] at hrun
            obtain ⟨⟨-, -, herr⟩, hw⟩ := hrun
            have hpair : cli.Remove w4.remote src.path
                = (none, (cli.Remove w4.remote src.path).2) := by
              rw [← herr]
            refine ⟨?_, ⟨w4.log, by rw [← hw]; rfl⟩⟩
            intro f
            rw [← hw]
            exact hrem _ _ _ hpair f
          · rename_i hno
            simp only [Run.done.injEq, Prod.mk.injEq] at hrun
            exact absurd ⟨trivial, hrun.1.2.1⟩ hno
        · exact absurd hrun (by simp)
        · exact absurd hrun (by simp)

/-- The amended C6 on the concrete store: the move of `/s` to the empty `/d`
ends with `(2, 0, nil)` and `/s` is gone. -/
theorem move_removes_source_when_no_error_witness :
    RemoveDeletes specStore ∧
    ∃ w1, copyOrMoveRepoDir specStore false 5 .Move srcS ⟨"/d", none⟩
        (World.init fsMove fsLocal none) = .done (2, 0, none) w1 ∧
      (∀ f, specStore.Stat w1.remote "/s" ≠ .ok f) ∧
      w1.remote.find? "/d/sub/b" = some (.file [4] 420) := by
  have hres : (copyOrMoveRepoDir specStore false 5 .Move srcS ⟨"/d", none⟩
      (World.init fsMove fsLocal none)).result? = some (2, 0, none) := by decide
  have hfile : (copyOrMoveRepoDir specStore false 5 .Move srcS ⟨"/d", none⟩
      (World.init fsMove fsLocal none)).world?.map (fun w => w.remote.find? "/d/sub/b")
      = some (some (.file [4] 420)) := by decide
  refine ⟨specStore_removeDeletes, ?_⟩
  cases h : copyOrMoveRepoDir specStore false 5 .Move srcS ⟨"/d", none⟩
      (World.init fsMove fsLocal none) with
  | done r w1 =>
    rw [h] at hres hfile
    simp only [Run.result?, Option.some.injEq] at hres
    simp only [Run.world?, Option.map_some', Option.some.injEq] at hfile
    subst hres
    exact ⟨w1, rfl,
      (move_removes_source_when_no_error specStore false 5 srcS ⟨"/d", none⟩
        (World.init fsMove fsLocal none) w1 2 specStore_removeDeletes h).1, hfile⟩
  | panic w1 =>
    rw [h] at hres
    simp [Run.result?] at hres
  | outOfFuel =>
    rw [h] at hres
    simp [Run.result?] at hres

/-- C7, run on failing inputs. In three moves of `/s` to `/d` the failure
count is 0 although a file was not moved, and `Remove` is issued on the source
directory that still holds it: (1) `/d/a` exists and `overwrite = false`, so
`/s/a` is skipped; (2) the sub-directory `/s/sub` cannot be listed; (3) the
context is cancelled before the walk.  On the store of the specification the
remove is refused; on a store whose remove deletes a directory with its
content, as the `DELETE` of WebDAV does, the unmoved file is lost: it is
neither at the source nor at the destination. -/
theorem move_removes_source_holding_unmoved_files :
    ((copyOrMoveRepoDir specStore false 5 .Move srcS ⟨"/d", none⟩
        (World.init fsSkip fsLocal none)).world?.map (fun w => w.log)
      = some [.ReadDir "/s", .pbarChangeMax 2, .MkdirAll "/d", .Rename "/s/a" "/d/a" false,
          .pbarAdd 1, .Remove "/s"] ∧
     (copyOrMoveRepoDir davStore false 5 .Move srcS ⟨"/d", none⟩
        (World.init fsSkip fsLocal none)).result? = some (1, 0, none) ∧
     (copyOrMoveRepoDir davStore false 5 .Move srcS ⟨"/d", none⟩
        (World.init fsSkip fsLocal none)).world?.map
          (fun w => (w.remote.find? "/s/a", w.remote.find? "/d/a"))
      = some (none, some (.file [9] 420))) ∧
    ((copyOrMoveRepoDir specStore false 5 .Move srcS ⟨"/d", none⟩
        (World.init { fsMove with denied := ["/s/sub"] } fsLocal none)).world?.map (fun w => w.log)
      = some [.ReadDir "/s", .pbarChangeMax 2, .MkdirAll "/d", .Rename "/s/a" "/d/a" false,
          .pbarAdd 1, .ReadDir "/s/sub", .Remove "/s"] ∧
     (copyOrMoveRepoDir davStore false 5 .Move srcS ⟨"/d", none⟩
        (World.init { fsMove with denied := ["/s/sub"] } fsLocal none)).result?
      = some (1, 0, none) ∧
     (copyOrMoveRepoDir davStore false 5 .Move srcS ⟨"/d", none⟩
        (World.init { fsMove with denied := ["/s/sub"] } fsLocal none)).world?.map
          (fun w => (w.remote.find? "/s/sub/b", w.remote.find? "/d/sub/b"))
      = some (none, none)) ∧
    ((copyOrMoveRepoDir specStore false 5 .Move srcS ⟨"/d", none⟩
        (World.init fsMove fsLocal (some 0))).world?.map (fun w => w.log)
      = some [.ReadDir "/s", .pbarChangeMax 2, .MkdirAll "/d", .Remove "/s"] ∧
     (copyOrMoveRepoDir davStore false 5 .Move srcS ⟨"/d", none⟩
        (World.init fsMove fsLocal (some 0))).result? = some (0, 0, none) ∧
     (copyOrMoveRepoDir davStore false 5 .Move srcS ⟨"/d", none⟩
        (World.init fsMove fsLocal (some 0))).world?.map
          (fun w => (w.remote.find? "/s/a", w.remote.find? "/d/a"))
      = some (none, none)) := by
  decide

end Directories

section Scenarios

/-- C14, run on failing inputs. The context is cancelled when the walk of `/s`
begins.  The counts are `(0, 0)` and no file is touched, but `rmRepoDir` still
issues the `Remove` of `/s`, and `copyOrMoveRepoDir` with `Move` does as well
(its failure count is 0); with `Copy` no remove, rename or copy is issued.  On
a store whose remove deletes a directory with its content the cancelled `rm`
and the cancelled `mv` delete the whole source tree. -/
theorem cancelled_walk_still_removes :
    ((rmRepoDir specStore 5 "/s" true (World.init fsMove fsLocal (some 0))).result?
        = some (0, 0, some "directory not empty: /s") ∧
     (rmRepoDir specStore 5 "/s" true (World.init fsMove fsLocal (some 0))).world?.map
        (fun w => w.log) = some [.ReadDir "/s", .pbarChangeMax 2, .Remove "/s"] ∧
     (rmRepoDir davStore 5 "/s" true (World.init fsMove fsLocal (some 0))).result?
        = some (0, 0, none) ∧
     (rmRepoDir davStore 5 "/s" true (World.init fsMove fsLocal (some 0))).world?.map
        (fun w => w.remote.entries) = some [("/d", .dir 493)]) ∧
    ((copyOrMoveRepoDir specStore false 5 .Move srcS ⟨"/d", none⟩
        (World.init fsMove fsLocal (some 0))).result?
        = some (0, 0, some "directory not empty: /s") ∧
     (copyOrMoveRepoDir specStore false 5 .Move srcS ⟨"/d", none⟩
        (World.init fsMove fsLocal (some 0))).world?.map (fun w => w.log)
        = some [.ReadDir "/s", .pbarChangeMax 2, .MkdirAll "/d", .Remove "/s"] ∧
     (copyOrMoveRepoDir davStore false 5 .Move srcS ⟨"/d", none⟩
        (World.init fsMove fsLocal (some 0))).world?.map (fun w => w.remote.entries)
        = some [("/d", .dir 493)]) ∧
    ((copyOrMoveRepoDir specStore false 5 .Copy srcS ⟨"/d", none⟩
        (World.init fsMove fsLocal (some 0))).result? = some (0, 0, none) ∧
     (copyOrMoveRepoDir specStore false 5 .Copy srcS ⟨"/d", none⟩
        (World.init fsMove fsLocal (some 0))).world?.map (fun w => w.log)
        = some [.ReadDir "/s", .pbarChangeMax 2, .MkdirAll "/d"]) := by
  decide

/-- C17, run on a failing input. The value of `nthreads` is never read: the
five commands give the same outcome for every value of it, and `putCmd` and
`getCmd` start `runOp` with 4 workers.  With `nthreads = 0` the command `put`
still transfers both files of `/src`, whereas `runOp` with a pool of 0 workers
transfers none. -/
theorem pool_size_ignores_nthreads {σ τ : Type} (cli : DavClient σ) (os : LocalOS τ) (n : Int)
    (cfg : Config) (fuel : Nat) (a0 a1 : String) (w : World σ τ) :
    (putCmd cli os { cfg with nthreads := n } fuel a0 a1 w = putCmd cli os cfg fuel a0 a1 w ∧
      getCmd cli os { cfg with nthreads := n } fuel a0 a1 w = getCmd cli os cfg fuel a0 a1 w ∧
      cpCmd cli { cfg with nthreads := n } fuel a0 a1 w = cpCmd cli cfg fuel a0 a1 w ∧
      mvCmd cli { cfg with nthreads := n } fuel a0 a1 w = mvCmd cli cfg fuel a0 a1 w ∧
      rmCmd cli { cfg with nthreads := n } fuel a0 w = rmCmd cli cfg fuel a0 w) ∧
    (putCmd specStore posixOS { cfgDefault with nthreads := 0 } 5 "/src/" "/dst"
      (World.init fsPutRemote fsPutLocal none)).result? = some ⟨none, some (2, 0)⟩ ∧
    (runOp specStore posixOS false "" .Put walkPut 0
      (World.init fsPutRemote fsPutLocal none)).result? = some (0, 0) ∧
    (runOp specStore posixOS false "" .Put walkPut 0
      (World.init fsPutRemote fsPutLocal none)).state?.map (fun st => st.world.remote)
      = some fsPutRemote := by
  refine ⟨⟨rfl, rfl, rfl, rfl, rfl⟩, by decide, by decide, by decide⟩

/-- C13 as stated fails for `rm -r`. On the store of the specification the
only failure is the one of the file `/s/a`, whose remove is refused: the
counts are `(1, 1)`, and the command returns the error of the remove of `/s`,
which still holds the file. -/
theorem rm_file_failure_surfaces :
    (rmCmd specStore { cfgDefault with recursive := true } 5 "/s"
      (World.init { fsMove with denied := ["/s/a"] } fsLocal none)).result?
      = some ⟨some "directory not empty: /s", some (1, 1)⟩ ∧
    (rmCmd specStore { cfgDefault with recursive := true } 5 "/s"
      (World.init { fsMove with denied := ["/s/a"] } fsLocal none)).state?.map (fun w => w.log)
      = some [.Stat "/s", .ReadDir "/s", .pbarChangeMax 2, .Remove "/s/a", .pbarAdd 1,
          .ReadDir "/s/sub", .pbarChangeMax 3, .Remove "/s/sub/b", .pbarAdd 1, .Remove "/s/sub",
          .Remove "/s", .pbarChangeMax 2] := by
  decide

end Scenarios

section SkipAndPaths

variable {σ τ : Type}

/-- C20, run on the failing class of inputs. With `overwrite = false`, when
the stat of the destination fails with an error that is not a not-found
result (for `put`: its text does not contain `404 Not Found`; for `get`: it
is not `os.ErrNotExist`), `putRepoFile` and `getRepoFile` return success
after that stat: the source is not opened and nothing is written. -/
theorem skip_on_failed_stat (cli : DavClient σ) (os : LocalOS τ) (src dst : pathFileInfo)
    (showProgress : Bool) (w : World σ τ) :
    (∀ e, cli.Stat w.remote dst.path = .error e → is404NotFountError (some e) = false →
      ∃ w1, putRepoFile cli os false src dst showProgress w = .done none w1 ∧
        w1.remote = w.remote ∧ w1.localfs = w.localfs ∧ w1.log = w.log ++ [.Stat dst.path]) ∧
    (∀ e, os.Stat w.localfs dst.path = .error e → e.notExist = false →
      ∃ w1, getRepoFile cli os false src dst showProgress w = .done none w1 ∧
        w1.remote = w.remote ∧ w1.localfs = w.localfs ∧ w1.log = w.log ++ [.osStat dst.path]) := by
  constructor
  · intro e he h404
    refine ⟨w.emit (.Stat dst.path), ?_, rfl, rfl, rfl⟩
    simp [putRepoFile, World.cliStat, he, errOf, h404]
  · intro e he hne
    refine ⟨w.emit (.osStat dst.path), ?_, rfl, rfl, rfl⟩
    simp [getRepoFile, World.osStat, he, hne]

/-- The skip of C20 on the concrete stores: the stat of the missing
destinations `/r/g` and `/l/g` is refused (403, permission denied); both
transfers return success and the destinations are still missing. -/
theorem skip_on_failed_stat_witness :
    specStore.Stat { fsRemote with denied := ["/r/g"] } "/r/g"
      = .error "403 Forbidden - PROPFIND /r/g" ∧
    is404NotFountError (some "403 Forbidden - PROPFIND /r/g") = false ∧
    posixOS.Stat { fsLocal with denied := ["/l/g"] } "/l/g"
      = .error ⟨"stat /l/g: permission denied", false⟩ ∧
    (∃ w1, putRepoFile specStore posixOS false srcLF ⟨"/r/g", none⟩ false
        (World.init { fsRemote with denied := ["/r/g"] } fsLocal none) = .done none w1 ∧
      w1.remote.find? "/r/g" = none) ∧
    (∃ w1, getRepoFile specStore posixOS false srcRF ⟨"/l/g", none⟩ false
        (World.init fsRemote { fsLocal with denied := ["/l/g"] } none) = .done none w1 ∧
      w1.localfs.find? "/l/g" = none) := by
  have hput := (skip_on_failed_stat specStore posixOS srcLF ⟨"/r/g", none⟩ false
    (World.init { fsRemote with denied := ["/r/g"] } fsLocal none)).1
    "403 Forbidden - PROPFIND /r/g" (by decide) (by decide)
  have hget := (skip_on_failed_stat specStore posixOS srcRF ⟨"/l/g", none⟩ false
    (World.init fsRemote { fsLocal with denied := ["/l/g"] } none)).2
    ⟨"stat /l/g: permission denied", false⟩ (by decide) rfl
  refine ⟨by decide, by decide, by decide, ?_, ?_⟩
  · obtain ⟨w1, h1, hr, -, -⟩ := hput
    exact ⟨w1, h1, by rw [hr]; decide⟩
  · obtain ⟨w1, h1, -, hl, -⟩ := hget
    exact ⟨w1, h1, by rw [hl]; decide⟩

open path in
theorem splitSlash_not_mem (l : List Char) : ∀ seg ∈ splitSlash l, '/' ∉ seg := by
  induction l with
  | nil =>
    intro seg hseg
    simp [splitSlash] at hseg
    simp [hseg]
  | cons c cs ih =>
    intro seg hseg
    by_cases hc : c = '/'
    · simp only [splitSlash, hc, if_true, List.mem_cons] at hseg
      rcases hseg with h | h
      · simp [h]
      · exact ih seg h
    · simp only [splitSlash, hc, if_false] at hseg
      cases hs : splitSlash cs with
      | nil => exact absurd hs (splitSlash_ne_nil cs)
      | cons seg0 rest =>
        rw [hs] at hseg ih
        simp only [List.mem_cons] at hseg
        rcases hseg with h | h
        · rw [h]
          intro hmem
          simp only [List.mem_cons] at hmem
          rcases hmem with h1 | h1
          · exact hc h1.symm
          · exact ih seg0 (by simp) h1
        · exact ih seg (by simp [h])

open path in
theorem cleanStep_rooted_valid (out : List (List Char)) (seg : List Char)
    (hout : ∀ s ∈ out, ValidSeg s) (hseg : '/' ∉ seg) :
    ∀ s ∈ cleanStep true out seg, ValidSeg s := by
  unfold cleanStep
  split
  · exact hout
  · split
    · exact hout
    · split
      · split
        · simp
        · split
          · rename_i top rest htop
            exact absurd htop (hout top (by simp)).2.2.2
          · rename_i top rest htop
            intro s hs
            exact hout s (by simp [hs])
      · rename_i h1 h2 h3
        intro s hs
        simp only [List.mem_cons] at hs
        rcases hs with h | h
        · rw [h]
          exact ⟨h1, hseg, h2, h3⟩
        · exact hout s h

open path in
theorem cleanSegs_rooted_valid (segs : List (List Char)) (hsegs : ∀ seg ∈ segs, '/' ∉ seg) :
    ∀ s ∈ cleanSegs true segs, ValidSeg s := by
  have hfold : ∀ (segs : List (List Char)) (out : List (List Char)),
      (∀ seg ∈ segs, '/' ∉ seg) → (∀ s ∈ out, ValidSeg s) →
      ∀ s ∈ segs.foldl (cleanStep true) out, ValidSeg s := by
    intro segs
    induction segs with
    | nil =>
      intro out _ hout
      simpa using hout
    | cons a rest ih =>
      intro out hs hout
      simp only [List.foldl_cons]
      exact ih _ (fun seg hseg => hs seg (by simp [hseg]))
        (cleanStep_rooted_valid out a hout (hs a (by simp)))
  intro s hs
  simp only [cleanSegs, List.mem_reverse] at hs
  exact hfold segs [] hsegs (by simp) s hs

/-- `path.Clean` of a path that starts with `/` is a clean absolute path. -/
theorem clean_rooted (p : String) (l : List Char) (hp : p.data = '/' :: l) :
    CleanAbs (path.Clean p) := by
  refine ⟨path.cleanSegs true (path.splitSlash ('/' :: l)),
    cleanSegs_rooted_valid _ (splitSlash_not_mem _), ?_⟩
  simp [path.Clean, hp, path.cleanChars]

/-- C18. For every string `p` and every clean absolute `cwd`,
`getCleanRepoPath` returns a clean absolute path: it starts with `/`, and it
is `/` itself or every element between its `/` characters is a path element
(not empty, so that there is no doubled and no trailing `/`, and neither `.`
nor `..`).  It is `path.Clean(p)` when `p` starts with `/`, whatever the
working directory, and `path.Join(cwd, p)` otherwise. -/
theorem getCleanRepoPath_clean (cwd p : String) (hcwd : CleanAbs cwd) :
    CleanAbs (getCleanRepoPath cwd p) ∧
    (getCleanRepoPath cwd p).data.head? = some '/' ∧
    (getCleanRepoPath cwd p = "/" ∨
      ∀ seg ∈ path.splitSlash ((getCleanRepoPath cwd p).data.drop 1), ValidSeg seg) ∧
    (strings.HasPrefix p "/" = true → ∀ cwd1, getCleanRepoPath cwd1 p = path.Clean p) ∧
    (strings.HasPrefix p "/" = false → getCleanRepoPath cwd p = path.Join [cwd, p]) := by
  have hclean : CleanAbs (getCleanRepoPath cwd p) := by
    unfold getCleanRepoPath
    split
    · rename_i h
      cases hd : p.data with
      | nil => simp [strings.HasPrefix, hd] at h
      | cons c l =>
        have hc : c = '/' := by
          simp only [strings.HasPrefix, hd] at h
          have h2 : '/' = c := by simpa [List.isPrefixOf] using h
          exact h2.symm
        subst hc
        exact clean_rooted p l hd
    · obtain ⟨segs, -, hdata⟩ := hcwd
      have hne : cwd ≠ "" := by
        intro h
        rw [h] at hdata
        simp at hdata
      by_cases hp : p = ""
      · have hj : path.Join [cwd, p] = path.Clean ⟨path.joinSlash [cwd.data]⟩ := by
          simp [path.Join, List.filter, hne, hp]
        rw [hj]
        exact clean_rooted _ (path.joinSlash segs) (by simp [path.joinSlash, hdata])
      · have hj : path.Join [cwd, p] = path.Clean ⟨path.joinSlash [cwd.data, p.data]⟩ := by
          simp [path.Join, List.filter, hne, hp]
        rw [hj]
        exact clean_rooted _ (path.joinSlash segs ++ '/' :: p.data)
          (by simp [path.joinSlash, hdata])
  refine ⟨hclean, ?_, ?_, ?_, ?_⟩
  · obtain ⟨segs, -, hdata⟩ := hclean
    rw [hdata]
    rfl
  · obtain ⟨segs, hsegs, hdata⟩ := hclean
    by_cases hs : segs = []
    · left
      apply String.ext
      rw [hdata, hs]
      rfl
    · right
      rw [hdata]
      simp only [List.drop_succ_cons, List.drop_zero]
      rw [splitSlash_joinSlash segs hs (fun seg hseg => (hsegs seg hseg).2.1)]
      exact hsegs
  · intro h cwd1
    simp [getCleanRepoPath, h]
  · intro h
    simp [getCleanRepoPath, h]

/-- The resolution of C18 in the working directory `/x/y`: an absolute
argument is cleaned on its own, a relative one is joined to the working
directory. -/
theorem getCleanRepoPath_clean_witness :
    CleanAbs "/x/y" ∧
    CleanAbs (getCleanRepoPath "/x/y" "../a//b/./c/") ∧
    getCleanRepoPath "/x/y" "../a//b/./c/" = "/x/a/b/c" ∧
    getCleanRepoPath "/x/y" "/../a/.." = "/" ∧
    getCleanRepoPath "/x/y" "" = "/x/y" := by
  have hcwd : CleanAbs "/x/y" := ⟨[['x'], ['y']], by decide, by decide⟩
  exact ⟨hcwd, (getCleanRepoPath_clean "/x/y" "../a//b/./c/" hcwd).1, by decide, by decide,
    by decide⟩

end SkipAndPaths

section Commands

variable {σ τ : Type}

/-- C12. Fatal precondition errors do no partial work: when the stat of the
source fails, or the source is a directory and the destination exists and is
not a directory, `put`, `get`, `cp` and `mv` return an error; the only calls
they issue are the stats of the source and of the destination, and both
stores are left as they were. -/
theorem fatal_preconditions_no_partial_work (cli : DavClient σ) (os : LocalOS τ) (cfg : Config)
    (fuel : Nat) (a0 a1 : String) (w : World σ τ) :
    (∀ e, os.Stat w.localfs (filepath.Abs cfg.lcwd a0) = .error e →
      ∃ w1, putCmd cli os cfg fuel a0 a1 w = .returned ⟨some e.msg, none⟩ w1 ∧
        Untouched w w1 [.osStat (filepath.Abs cfg.lcwd a0)]) ∧
    (∀ e, cli.Stat w.remote (getCleanRepoPath cfg.cwd a0) = .error e →
      (∃ w1, getCmd cli os cfg fuel a0 a1 w = .returned ⟨some e, none⟩ w1 ∧
        Untouched w w1 [.Stat (getCleanRepoPath cfg.cwd a0)]) ∧
      (∃ w1, cpCmd cli cfg fuel a0 a1 w = .returned ⟨some e, none⟩ w1 ∧
        Untouched w w1 [.Stat (getCleanRepoPath cfg.cwd a0)]) ∧
      (∃ w1, mvCmd cli cfg fuel a0 a1 w = .returned ⟨some e, none⟩ w1 ∧
        Untouched w w1 [.Stat (getCleanRepoPath cfg.cwd a0)])) ∧
    (∀ lf f, os.Stat w.localfs (filepath.Abs cfg.lcwd a0) = .ok lf → lf.isDir = true →
      cli.Stat w.remote (getCleanRepoPath cfg.cwd a1) = .ok f → f.isDir = false →
      ∃ w1, putCmd cli os cfg fuel a0 a1 w
          = .returned ⟨some ("destination not a directory: " ++ a1), none⟩ w1 ∧
        Untouched w w1 [.osStat (filepath.Abs cfg.lcwd a0),
          .Stat (getCleanRepoPath cfg.cwd a1)]) ∧
    (∀ f lf, cli.Stat w.remote (getCleanRepoPath cfg.cwd a0) = .ok f → f.isDir = true →
      os.Stat w.localfs (filepath.Abs cfg.lcwd a1) = .ok lf → lf.isDir = false →
      ∃ w1, getCmd cli os cfg fuel a0 a1 w
          = .returned ⟨some ("destination not a directory: " ++ a1), none⟩ w1 ∧
        Untouched w w1 [.Stat (getCleanRepoPath cfg.cwd a0),
          .osStat (filepath.Abs cfg.lcwd a1)]) ∧
    (∀ f g, cli.Stat w.remote (getCleanRepoPath cfg.cwd a0) = .ok f → f.isDir = true →
      cli.Stat w.remote (getCleanRepoPath cfg.cwd a1) = .ok g → g.isDir = false →
      (∃ w1, cpCmd cli cfg fuel a0 a1 w
          = .returned ⟨some ("destination not a directory: " ++ a1), none⟩ w1 ∧
        Untouched w w1 [.Stat (getCleanRepoPath cfg.cwd a0),
          .Stat (getCleanRepoPath cfg.cwd a1)]) ∧
      (∃ w1, mvCmd cli cfg fuel a0 a1 w
          = .returned ⟨some ("destination not a directory: " ++ a1), none⟩ w1 ∧
        Untouched w w1 [.Stat (getCleanRepoPath cfg.cwd a0),
          .Stat (getCleanRepoPath cfg.cwd a1)])) := by
  refine ⟨?_, ?_, ?_, ?_, ?_⟩
  · intro e he
    exact ⟨w.emit (.osStat (filepath.Abs cfg.lcwd a0)), by simp [putCmd, World.osStat, he],
      rfl, rfl, rfl⟩
  · intro e he
    refine ⟨⟨w.emit (.Stat (getCleanRepoPath cfg.cwd a0)),
        by simp [getCmd, World.cliStat, he], rfl, rfl, rfl⟩,
      ⟨w.emit (.Stat (getCleanRepoPath cfg.cwd a0)),
        by simp [cpCmd, cpOrMvCmd, World.cliStat, he], rfl, rfl, rfl⟩,
      ⟨w.emit (.Stat (getCleanRepoPath cfg.cwd a0)),
        by simp [mvCmd, cpOrMvCmd, World.cliStat, he], rfl, rfl, rfl⟩⟩
  · intro lf f hlf hdir hf hfile
    exact ⟨(w.emit (.osStat (filepath.Abs cfg.lcwd a0))).emit
        (.Stat (getCleanRepoPath cfg.cwd a1)),
      by simp [putCmd, World.osStat, World.cliStat, World.emit, hlf, hdir, hf, hfile],
      rfl, rfl, by simp [World.emit]⟩
  · intro f lf hf hdir hlf hfile
    exact ⟨(w.emit (.Stat (getCleanRepoPath cfg.cwd a0))).emit
        (.osStat (filepath.Abs cfg.lcwd a1)),
      by simp [getCmd, World.osStat, World.cliStat, World.emit, hlf, hdir, hf, hfile],
      rfl, rfl, by simp [World.emit]⟩
  · intro f g hf hdir hg hfile
    refine ⟨⟨(w.emit (.Stat (getCleanRepoPath cfg.cwd a0))).emit
          (.Stat (getCleanRepoPath cfg.cwd a1)),
        by simp [cpCmd, cpOrMvCmd, World.cliStat, World.emit, hf, hdir, hg, hfile],
        rfl, rfl, by simp [World.emit]⟩,
      ⟨(w.emit (.Stat (getCleanRepoPath cfg.cwd a0))).emit
          (.Stat (getCleanRepoPath cfg.cwd a1)),
        by simp [mvCmd, cpOrMvCmd, World.cliStat, World.emit, hf, hdir, hg, hfile],
        rfl, rfl, by simp [World.emit]⟩⟩

/-- The preconditions of C12 on the concrete stores: `put` of the missing
local path `/nope`, and `mv` of the directory `/s` onto the file `/d/sub`. -/
theorem fatal_preconditions_no_partial_work_witness :
    posixOS.Stat fsLocal (filepath.Abs cfgDefault.lcwd "/nope")
      = .error ⟨"stat /nope: no such file or directory", true⟩ ∧
    (∃ w1, putCmd specStore posixOS cfgDefault 5 "/nope" "/r" (World.init fsRemote fsLocal none)
        = .returned ⟨some "stat /nope: no such file or directory", none⟩ w1 ∧
      w1.remote = fsRemote ∧ w1.localfs = fsLocal) ∧
    specStore.Stat fsFail (getCleanRepoPath cfgDefault.cwd "/s") = .ok ⟨"s", 0, true, 493⟩ ∧
    specStore.Stat fsFail (getCleanRepoPath cfgDefault.cwd "/d/sub")
      = .ok ⟨"sub", 0, false, 420⟩ ∧
    (∃ w1, mvCmd specStore cfgDefault 5 "/s" "/d/sub" (World.init fsFail fsLocal none)
        = .returned ⟨some "destination not a directory: /d/sub", none⟩ w1 ∧
      w1.remote = fsFail ∧ w1.localfs = fsLocal) := by
  have h := fatal_preconditions_no_partial_work specStore posixOS cfgDefault 5 "/nope" "/r"
    (World.init fsRemote fsLocal none)
  have h2 := fatal_preconditions_no_partial_work specStore posixOS cfgDefault 5 "/s" "/d/sub"
    (World.init fsFail fsLocal none)
  refine ⟨by decide, ?_, by decide, by decide, ?_⟩
  · obtain ⟨w1, hrun, hr, hl, -⟩ := h.1 ⟨"stat /nope: no such file or directory", true⟩ (by decide)
    exact ⟨w1, hrun, hr, hl⟩
  · obtain ⟨w1, hrun, hr, hl, -⟩ := (h2.2.2.2.2 ⟨"s", 0, true, 493⟩ ⟨"sub", 0, false, 420⟩
      (by decide) rfl (by decide) rfl).2
    exact ⟨w1, hrun, hr, hl⟩

end Commands

section Counts

variable {σ τ : Type}

/-- `multiWriterWrite` reads no listing. -/
theorem multiWriterWrite_found (os : LocalOS τ) (localPath : String) (offset : Nat) (b : Bytes)
    (w : World σ τ) : (multiWriterWrite os localPath offset b w).2.found = w.found := by
  unfold multiWriterWrite World.osWrite
  cases h : os.Write w.localfs localPath offset b with
  | mk a t =>
    cases a with
    | mk n err =>
      cases err with
      | some e => simp [World.emit]
      | none =>
        by_cases hn : n = b.length
        · simp [hn, World.emit]
        · simp [hn, World.emit]

/-- `getRepoFileLoop` reads no listing. -/
theorem getRepoFileLoop_found (os : LocalOS τ) (repoPath localPath : String) (reader : Reader) :
    ∀ (offset : Nat) (w : World σ τ),
      (getRepoFileLoop os repoPath localPath reader offset w).2.found = w.found := by
  induction reader with
  | nil =>
    intro offset w
    have hm := multiWriterWrite_found os localPath offset [] w
    simp only [getRepoFileLoop]
    generalize multiWriterWrite os localPath offset [] w = m at hm
    obtain ⟨⟨wlen, werr⟩, w1⟩ := m
    simp only at hm ⊢
    split <;> exact hm
  | cons r rest ih =>
    intro offset w
    have hm := multiWriterWrite_found os localPath offset r.data w
    simp only [getRepoFileLoop]
    generalize multiWriterWrite os localPath offset r.data w = m at hm
    obtain ⟨⟨wlen, werr⟩, w1⟩ := m
    simp only at hm
    split
    · rfl
    · simp only
      split
      · exact hm
      · split
        · exact hm
        · exact (ih (offset + wlen) w1).trans hm

/-- The part of `putRepoFile` after the skip test reads no listing. -/
theorem putRepoFile_tail_found (cli : DavClient σ) (os : LocalOS τ)
    (src dst : pathFileInfo) (w0 w1 : World σ τ) (err : GoError)
    (h : (match w0.osOpen os src.path with
        | (.error e, w2) => Run.done (some ("cannot open local file: " ++ e)) w2
        | (.ok content, w2) =>
          match src.info with
          | none => .panic w2
          | some info =>
            match prettifyProgressbarDesc info.name with
            | none => .panic w2
            | some _ =>
              match w2.cliWriteStream cli dst.path content info.mode with
              | (some e, w3) =>
                .done (some ("cannot write " ++ dst.path ++ " to the repository: " ++ e)) w3
              | (none, w3) =>
                match w3.cliStat cli dst.path with
                | (.error e, w4) =>
                  .done (some ("cannot stat " ++ dst.path ++ " at the repository: " ++ e)) w4
                | (.ok f, w4) =>
                  if f.size ≠ info.size then
                    .done (some ("file size " ++ dst.path ++ " mis-match: " ++ fmtInt f.size
                      ++ " != " ++ fmtInt info.size)) w4
                  else .done none w4) = Run.done err w1) :
    w1.found = w0.found := by
  simp only [World.osOpen, World.cliWriteStream, World.cliStat] at h
  cases hopen : os.Open w0.localfs src.path with
  | error e =>
    simp only [hopen, Run.done.injEq] at h
    rw [← h.2]
    rfl
  | ok content =>
    simp only [hopen] at h
    cases hinfo : src.info with
    | none => simp [hinfo] at h
    | some info =>
      simp only [hinfo] at h
      cases hdesc : prettifyProgressbarDesc info.name with
      | none => simp [hdesc] at h
      | some desc =>
        simp only [hdesc] at h
        cases hws : cli.WriteStream (w0.emit (.osOpen src.path)).remote dst.path content
            info.mode with
        | mk e s3 =>
          cases e with
          | some e =>
            simp only [hws, Run.done.injEq] at h
            rw [← h.2]
            rfl
          | none =>
            simp only [hws] at h
            cases hst : cli.Stat s3 dst.path with
            | error e =>
              simp only [World.emit, hst, Run.done.injEq] at h
              rw [← h.2]
            | ok f =>
              simp only [World.emit, hst] at h
              split at h
              · simp only [Run.done.injEq] at h
                rw [← h.2]
              · simp only [Run.done.injEq] at h
                rw [← h.2]

/-- `putRepoFile` reads no listing. -/
theorem putRepoFile_found (cli : DavClient σ) (os : LocalOS τ) (overwrite : Bool)
    (src dst : pathFileInfo) (showProgress : Bool) (w w1 : World σ τ) (err : GoError)
    (h : putRepoFile cli os overwrite src dst showProgress w = .done err w1) :
    w1.found = w.found := by
  by_cases hns : overwrite = true ∨
      is404NotFountError (errOf (cli.Stat w.remote dst.path)) = true
  · obtain ⟨w0, hw0, hrun⟩ : ∃ w0 : World σ τ, w0.found = w.found ∧
        putRepoFile cli os overwrite src dst showProgress w =
          (match w0.osOpen os src.path with
          | (.error e, w2) => .done (some ("cannot open local file: " ++ e)) w2
          | (.ok content, w2) =>
            match src.info with
            | none => .panic w2
            | some info =>
              match prettifyProgressbarDesc info.name with
              | none => .panic w2
              | some _ =>
                match w2.cliWriteStream cli dst.path content info.mode with
                | (some e, w3) =>
                  .done (some ("cannot write " ++ dst.path ++ " to the repository: " ++ e)) w3
                | (none, w3) =>
                  match w3.cliStat cli dst.path with
                  | (.error e, w4) =>
                    .done (some ("cannot stat " ++ dst.path ++ " at the repository: " ++ e)) w4
                  | (.ok f, w4) =>
                    if f.size ≠ info.size then
                      .done (some ("file size " ++ dst.path ++ " mis-match: " ++ fmtInt f.size
                        ++ " != " ++ fmtInt info.size)) w4
                    else .done none w4) := by
      cases overwrite with
      | true => exact ⟨w, rfl, by simp [putRepoFile]⟩
      | false =>
        have h404 : is404NotFountError (errOf (cli.Stat w.remote dst.path)) = true := by
          rcases hns with h1 | h1
          · exact absurd h1 (by decide)
          · exact h1
        exact ⟨w.emit (.Stat dst.path), rfl, by simp [putRepoFile, World.cliStat, h404]⟩
    rw [hrun] at h
    exact (putRepoFile_tail_found cli os src dst w0 w1 err h).trans hw0
  · have hov : overwrite = false := by
      cases overwrite with
      | true => exact absurd (Or.inl rfl) hns
      | false => rfl
    have h404 : is404NotFountError (errOf (cli.Stat w.remote dst.path)) = false := by
      cases hb : is404NotFountError (errOf (cli.Stat w.remote dst.path)) with
      | true => exact absurd (Or.inr hb) hns
      | false => rfl
    subst hov
    simp only [putRepoFile, World.cliStat, h404, Bool.not_false, if_true, Run.done.injEq] at h
    rw [← h.2]
    rfl

/-- `getRepoFile` reads no listing. -/
theorem getRepoFile_found (cli : DavClient σ) (os : LocalOS τ) (overwrite : Bool)
    (src dst : pathFileInfo) (showProgress : Bool) (w w1 : World σ τ) (err : GoError)
    (h : getRepoFile cli os overwrite src dst showProgress w = .done err w1) :
    w1.found = w.found := by
  have htail : ∀ w0 : World σ τ,
      (match src.info with
        | none => Run.panic w0
        | some info =>
          match w0.osOpenFile os dst.path info.mode with
          | (some e, w2) => .done (some ("cannot create/write local file: " ++ e)) w2
          | (none, w2) =>
            match prettifyProgressbarDesc (path.Base src.path) with
            | none => .panic w2
            | some _ =>
              match w2.cliReadStream cli src.path with
              | (.error e, w3) => .done (some ("cannot open file in repository: " ++ e)) w3
              | (.ok reader, w3) =>
                Run.done (getRepoFileLoop os src.path dst.path reader 0 w3).1
                  (getRepoFileLoop os src.path dst.path reader 0 w3).2) = Run.done err w1 →
      w1.found = w0.found := by
    intro w0 h0
    simp only [World.osOpenFile, World.cliReadStream] at h0
    cases hinfo : src.info with
    | none => simp [hinfo] at h0
    | some info =>
      simp only [hinfo] at h0
      cases hof : os.OpenFile w0.localfs dst.path info.mode with
      | mk e t =>
        cases e with
        | some e =>
          simp only [hof, Run.done.injEq] at h0
          rw [← h0.2]
          rfl
        | none =>
          simp only [hof] at h0
          cases hdesc : prettifyProgressbarDesc (path.Base src.path) with
          | none => simp [hdesc] at h0
          | some desc =>
            simp only [hdesc] at h0
            split at h0
            · simp only [Run.done.injEq] at h0
              rename_i e w3 heq
              simp only [Prod.mk.injEq] at heq
              rw [← h0.2, ← heq.2]
              rfl
            · simp only [Run.done.injEq] at h0
              rename_i reader w3 heq
              simp only [Prod.mk.injEq] at heq
              rw [← h0.2, getRepoFileLoop_found, ← heq.2]
              rfl
  unfold getRepoFile at h
  cases overwrite with
  | true => exact htail w (by simpa using h)
  | false =>
    simp only [Bool.not_false, if_true] at h
    split at h
    · simp only [Run.done.injEq] at h
      rw [← h.2]
      rfl
    · exact (htail _ h).trans rfl

/-- A task of `runOp` increases one of the two counters by one and reads no
listing. -/
theorem runOpTask_counts (cli : DavClient σ) (os : LocalOS τ) (overwrite errWriterValid : Bool)
    (op : Op) (inputs : opInput) (cnt cnt1 : Nat × Nat) (w w1 : World σ τ)
    (h : runOpTask cli os overwrite errWriterValid op inputs cnt w = .done cnt1 w1) :
    cnt1.1 + cnt1.2 = cnt.1 + cnt.2 + 1 ∧ w1.found = w.found := by
  have hacc : ∀ (err : GoError) (pinc : Int) (w0 : World σ τ),
      (match err with
        | some msg =>
          Run.done (cnt.1, cnt.2 + 1)
            ((w0.errWrite errWriterValid (inputs.src.path ++ " error:" ++ msg ++ "\n")).pbarAdd64
              pinc)
        | none => Run.done (cnt.1 + 1, cnt.2) (w0.pbarAdd64 pinc)) = Run.done cnt1 w1 →
      cnt1.1 + cnt1.2 = cnt.1 + cnt.2 + 1 ∧ w1.found = w0.found := by
    intro err pinc w0 h0
    cases err with
    | some msg =>
      simp only [Run.done.injEq] at h0
      rw [← h0.1, ← h0.2]
      refine ⟨by simp only []; omega, ?_⟩
      cases errWriterValid <;> rfl
    | none =>
      simp only [Run.done.injEq] at h0
      rw [← h0.1, ← h0.2]
      exact ⟨by simp only []; omega, rfl⟩
  cases op with
  | Put =>
    simp only [runOpTask] at h
    split at h
    · rename_i err w0 hput
      split at h
      · simp at h
      · obtain ⟨h1, h2⟩ := hacc _ _ _ h
        exact ⟨h1, h2.trans (putRepoFile_found cli os overwrite _ _ _ _ _ _ hput)⟩
    · simp at h
    · simp at h
  | Get =>
    simp only [runOpTask] at h
    split at h
    · rename_i err w0 hget
      split at h
      · simp at h
      · obtain ⟨h1, h2⟩ := hacc _ _ _ h
        exact ⟨h1, h2.trans (getRepoFile_found cli os overwrite _ _ _ _ _ _ hget)⟩
    · simp at h
    · simp at h
  | Move =>
    simp only [runOpTask, World.cliRename] at h
    obtain ⟨h1, h2⟩ := hacc _ _ _ h
    exact ⟨h1, h2.trans rfl⟩
  | Remove =>
    simp only [runOpTask, World.cliRemove] at h
    obtain ⟨h1, h2⟩ := hacc _ _ _ h
    exact ⟨h1, h2.trans rfl⟩
  | Copy =>
    simp only [runOpTask, World.cliCopy] at h
    obtain ⟨h1, h2⟩ := hacc none _ _ h
    exact ⟨h1, h2.trans rfl⟩

/-- The non-directory entries of a listing, entry by entry. -/
theorem countNonDir_cons (f : FileInfo) (rest : List FileInfo) :
    countNonDir (f :: rest) = (if f.isDir then 0 else 1) + countNonDir rest := by
  cases hd : f.isDir <;> simp [countNonDir, List.filter, hd]
  omega

/-- A poll of the context reads no listing. -/
theorem ctxDone_found (w : World σ τ) : w.ctxDone.2.found = w.found := rfl

/-- A send on `ichan` lets the workers count at most one more file and reads
no listing. -/
theorem chanSend_counts (cli : DavClient σ) (os : LocalOS τ) (overwrite errWriterValid : Bool)
    (op : Op) (inputs : opInput) (st st1 : Pool σ τ)
    (h : (chanSend cli os overwrite errWriterValid op inputs st).endState? = some st1) :
    st1.cntOk + st1.cntErr ≤ st.cntOk + st.cntErr + 1 ∧ st1.world.found = st.world.found := by
  unfold chanSend at h
  split at h
  · simp [Exec.endState?] at h
  · split at h
    · simp only [Exec.endState?, Option.some.injEq] at h
      subst h
      exact ⟨by omega, rfl⟩
    · cases hc : st.world.ctxDone with
      | mk b w1 =>
        have hw1 : w1.found = st.world.found := by
          have := ctxDone_found st.world
          rw [hc] at this
          exact this
        simp only [hc] at h
        cases b with
        | true =>
          simp only [Exec.endState?, Option.some.injEq] at h
          subst h
          exact ⟨by simp only []; omega, hw1⟩
        | false =>
          simp only at h
          cases ht : runOpTask cli os overwrite errWriterValid op inputs (st.cntOk, st.cntErr) w1 with
          | done cnt w2 =>
            simp only [ht, Exec.endState?, Option.some.injEq] at h
            subst h
            obtain ⟨h1, h2⟩ := runOpTask_counts cli os overwrite errWriterValid op inputs _ _ _ _ ht
            exact ⟨by simp only [] at h1 ⊢; omega, h2.trans hw1⟩
          | panic w2 => simp [ht, Exec.endState?] at h
          | outOfFuel => simp [ht, Exec.endState?] at h

/-- The loop of `walkLocalDirForPut` lets the workers count at most the
non-directory entries of the listing it walks, plus what the nested calls
list. -/
theorem walkLocalDirForPutLoop_counts (cli : DavClient σ)
    (send : opInput → Pool σ τ → Exec Unit (Pool σ τ)) (pfinfoLocal pfinfoRepo : pathFileInfo)
    (recur : pathFileInfo → pathFileInfo → Pool σ τ → Exec Unit (Pool σ τ))
    (hsend : ∀ inp st st1, (send inp st).endState? = some st1 →
      st1.cntOk + st1.cntErr ≤ st.cntOk + st.cntErr + 1 ∧ st1.world.found = st.world.found)
    (hrecur : ∀ a b st st1, (recur a b st).endState? = some st1 →
      st1.cntOk + st1.cntErr + st.world.found ≤ st.cntOk + st.cntErr + st1.world.found) :
    ∀ (files : List FileInfo) (st st1 : Pool σ τ),
      (walkLocalDirForPutLoop cli send pfinfoLocal pfinfoRepo recur files st).endState? = some st1 →
      st1.cntOk + st1.cntErr + st.world.found
        ≤ st.cntOk + st.cntErr + countNonDir files + st1.world.found := by
  intro files
  induction files with
  | nil =>
    intro st st1 h
    simp only [walkLocalDirForPutLoop, Exec.endState?, Option.some.injEq] at h
    subst h
    omega
  | cons finfo rest ih =>
    intro st st1 h
    rw [countNonDir_cons]
    simp only [walkLocalDirForPutLoop] at h
    cases hc : st.world.ctxDone with
    | mk b w1 =>
      have hw1 : w1.found = st.world.found := by
        have := ctxDone_found st.world
        rw [hc] at this
        exact this
      simp only [hc] at h
      cases b with
      | true =>
        simp only [Exec.endState?, Option.some.injEq] at h
        subst h
        simp only [hw1]
        omega
      | false =>
        simp only at h
        cases hd : finfo.isDir with
        | true =>
          simp only [hd, if_true] at h
          cases hm : w1.cliMkdir cli (path.Join [pfinfoRepo.path, finfo.name]) finfo.mode with
          | mk e w2 =>
            have hw2 : w2.found = w1.found := by
              simp only [World.cliMkdir, Prod.mk.injEq] at hm
              rw [← hm.2]
              rfl
            simp only [hm] at h
            cases e with
            | some e =>
              simp only at h
              have := ih _ _ h
              simp only [hw2, hw1] at this
              simp only [if_true]
              omega
            | none =>
              simp only at h
              cases hr : recur ⟨path.Join [pfinfoLocal.path, finfo.name], some finfo⟩
                  ⟨path.Join [pfinfoRepo.path, finfo.name], none⟩ { st with world := w2 } with
              | returned u st2 =>
                simp only [hr] at h
                have h1 := hrecur _ _ _ st2 (by rw [hr]; rfl)
                have h2 := ih _ _ h
                simp only [hw2, hw1] at h1
                simp only [if_true]
                omega
              | blocked st2 =>
                simp only [hr, Exec.endState?, Option.some.injEq] at h
                subst h
                have h1 := hrecur _ _ _ st2 (by rw [hr]; rfl)
                simp only [hw2, hw1] at h1
                omega
              | panic st2 => simp [hr, Exec.endState?] at h
              | outOfFuel => simp [hr, Exec.endState?] at h
        | false =>
          simp only [hd, Bool.false_eq_true, if_false] at h ⊢
          cases hs : send ⟨⟨path.Join [pfinfoLocal.path, finfo.name], some finfo⟩,
              ⟨path.Join [pfinfoRepo.path, finfo.name], none⟩⟩ { st with world := w1 } with
          | returned u st2 =>
            simp only [hs] at h
            obtain ⟨h1, h1f⟩ := hsend _ _ st2 (by rw [hs]; rfl)
            have h2 := ih _ _ h
            simp only [hw1] at h1 h1f
            omega
          | blocked st2 =>
            simp only [hs, Exec.endState?, Option.some.injEq] at h
            subst h
            obtain ⟨h1, h1f⟩ := hsend _ _ st2 (by rw [hs]; rfl)
            simp only [hw1] at h1 h1f
            omega
          | panic st2 => simp [hs, Exec.endState?] at h
          | outOfFuel => simp [hs, Exec.endState?] at h

/-- The loop of `walkRepoDirForGet` lets the workers count at most the
non-directory entries of the listing it walks, plus what the nested calls
list. -/
theorem walkRepoDirForGetLoop_counts (os : LocalOS τ)
    (send : opInput → Pool σ τ → Exec Unit (Pool σ τ)) (pfinfoRepo pfinfoLocal : pathFileInfo)
    (recur : pathFileInfo → pathFileInfo → Pool σ τ → Exec Unit (Pool σ τ))
    (hsend : ∀ inp st st1, (send inp st).endState? = some st1 →
      st1.cntOk + st1.cntErr ≤ st.cntOk + st.cntErr + 1 ∧ st1.world.found = st.world.found)
    (hrecur : ∀ a b st st1, (recur a b st).endState? = some st1 →
      st1.cntOk + st1.cntErr + st.world.found ≤ st.cntOk + st.cntErr + st1.world.found) :
    ∀ (files : List FileInfo) (st st1 : Pool σ τ),
      (walkRepoDirForGetLoop os send pfinfoRepo pfinfoLocal recur files st).endState? = some st1 →
      st1.cntOk + st1.cntErr + st.world.found
        ≤ st.cntOk + st.cntErr + countNonDir files + st1.world.found := by
  intro files
  induction files with
  | nil =>
    intro st st1 h
    simp only [walkRepoDirForGetLoop, Exec.endState?, Option.some.injEq] at h
    subst h
    omega
  | cons finfo rest ih =>
    intro st st1 h
    rw [countNonDir_cons]
    simp only [walkRepoDirForGetLoop] at h
    cases hc : st.world.ctxDone with
    | mk b w1 =>
      have hw1 : w1.found = st.world.found := by
        have := ctxDone_found st.world
        rw [hc] at this
        exact this
      simp only [hc] at h
      cases b with
      | true =>
        simp only [Exec.endState?, Option.some.injEq] at h
        subst h
        simp only [hw1]
        omega
      | false =>
        simp only at h
        cases hd : finfo.isDir with
        | true =>
          simp only [hd, if_true] at h
          cases hm : w1.osMkdirAll os (filepath.Join [pfinfoLocal.path, finfo.name]) finfo.mode with
          | mk e w2 =>
            have hw2 : w2.found = w1.found := by
              simp only [World.osMkdirAll, Prod.mk.injEq] at hm
              rw [← hm.2]
              rfl
            simp only [hm] at h
            cases e with
            | some e =>
              simp only at h
              have := ih _ _ h
              simp only [hw2, hw1] at this
              simp only [if_true]
              omega
            | none =>
              simp only at h
              cases hr : recur ⟨path.Join [pfinfoRepo.path, finfo.name], some finfo⟩
                  ⟨filepath.Join [pfinfoLocal.path, finfo.name], none⟩ { st with world := w2 } with
              | returned u st2 =>
                simp only [hr] at h
                have h1 := hrecur _ _ _ st2 (by rw [hr]; rfl)
                have h2 := ih _ _ h
                simp only [hw2, hw1] at h1
                simp only [if_true]
                omega
              | blocked st2 =>
                simp only [hr, Exec.endState?, Option.some.injEq] at h
                subst h
                have h1 := hrecur _ _ _ st2 (by rw [hr]; rfl)
                simp only [hw2, hw1] at h1
                omega
              | panic st2 => simp [hr, Exec.endState?] at h
              | outOfFuel => simp [hr, Exec.endState?] at h
        | false =>
          simp only [hd, Bool.false_eq_true, if_false] at h ⊢
          cases hs : send ⟨⟨path.Join [pfinfoRepo.path, finfo.name], some finfo⟩,
              ⟨filepath.Join [pfinfoLocal.path, finfo.name], none⟩⟩ { st with world := w1 } with
          | returned u st2 =>
            simp only [hs] at h
            obtain ⟨h1, h1f⟩ := hsend _ _ st2 (by rw [hs]; rfl)
            have h2 := ih _ _ h
            simp only [hw1] at h1 h1f
            omega
          | blocked st2 =>
            simp only [hs, Exec.endState?, Option.some.injEq] at h
            subst h
            obtain ⟨h1, h1f⟩ := hsend _ _ st2 (by rw [hs]; rfl)
            simp only [hw1] at h1 h1f
            omega
          | panic st2 => simp [hs, Exec.endState?] at h
          | outOfFuel => simp [hs, Exec.endState?] at h

/-- Closing `ichan` changes neither the counters nor the world. -/
theorem closeChan_counts (st st1 : Pool σ τ) (h : (closeChan st).endState? = some st1) :
    st1.cntOk = st.cntOk ∧ st1.cntErr = st.cntErr ∧ st1.world = st.world := by
  unfold closeChan at h
  split at h
  · simp only [Exec.endState?, Option.some.injEq] at h
    subst h
    exact ⟨rfl, rfl, rfl⟩
  · simp [Exec.endState?] at h

/-- The workers fed by `walkLocalDirForPut` count at most the non-directory
entries of the listings the walk reads. -/
theorem walkLocalDirForPut_counts (cli : DavClient σ) (os : LocalOS τ)
    (send : opInput → Pool σ τ → Exec Unit (Pool σ τ))
    (hsend : ∀ inp st st1, (send inp st).endState? = some st1 →
      st1.cntOk + st1.cntErr ≤ st.cntOk + st.cntErr + 1 ∧ st1.world.found = st.world.found) :
    ∀ (fuel : Nat) (pfinfoLocal pfinfoRepo : pathFileInfo) (closeChanOnComplete : Bool)
      (st st1 : Pool σ τ),
      (walkLocalDirForPut cli os send fuel pfinfoLocal pfinfoRepo closeChanOnComplete st).endState?
        = some st1 →
      st1.cntOk + st1.cntErr + st.world.found ≤ st.cntOk + st.cntErr + st1.world.found := by
  intro fuel
  induction fuel with
  | zero =>
    intro l r c st st1 h
    simp [walkLocalDirForPut, Exec.endState?] at h
  | succ fuel ih =>
    intro l r c st st1 h
    simp only [walkLocalDirForPut] at h
    cases hrd : st.world.osReadDir os l.path with
    | mk res w1 =>
      have hw1 : w1.found = st.world.found + countListed res := by
        simp only [World.osReadDir, Prod.mk.injEq] at hrd
        rw [← hrd.2, ← hrd.1]
      simp only [hrd] at h
      cases res with
      | error e =>
        simp only [Exec.endState?, Option.some.injEq] at h
        subst h
        simp only [hw1]
        omega
      | ok files =>
        simp only at h
        have hloop := walkLocalDirForPutLoop_counts cli send l r
          (fun a b s0 => walkLocalDirForPut cli os send fuel a b false s0) hsend
          (fun a b s s1 hs => ih a b false s s1 hs) files
          { st with world := w1.pbarChangeMax64 (wrapInt64 (w1.pbarMax + countSize files)) }
        have hf0 : (w1.pbarChangeMax64 (wrapInt64 (w1.pbarMax + countSize files))).found
            = st.world.found + countNonDir files := hw1
        simp only [hf0] at hloop
        generalize walkLocalDirForPutLoop cli send l r _ files _ = run at h hloop
        cases run with
        | returned u st2 =>
          have h1 := hloop st2 rfl
          cases c with
          | true =>
            simp only [if_true] at h
            obtain ⟨c1, c2, c3⟩ := closeChan_counts _ _ h
            rw [c1, c2, c3]
            omega
          | false =>
            simp only [Bool.false_eq_true, if_false, Exec.endState?, Option.some.injEq] at h
            subst h
            omega
        | blocked st2 =>
          have h1 := hloop st2 rfl
          simp only [Exec.endState?, Option.some.injEq] at h
          subst h
          omega
        | panic st2 => simp [Exec.endState?] at h
        | outOfFuel => simp [Exec.endState?] at h

/-- The workers fed by `walkRepoDirForGet` count at most the non-directory
entries of the listings the walk reads. -/
theorem walkRepoDirForGet_counts (cli : DavClient σ) (os : LocalOS τ)
    (send : opInput → Pool σ τ → Exec Unit (Pool σ τ))
    (hsend : ∀ inp st st1, (send inp st).endState? = some st1 →
      st1.cntOk + st1.cntErr ≤ st.cntOk + st.cntErr + 1 ∧ st1.world.found = st.world.found) :
    ∀ (fuel : Nat) (pfinfoRepo pfinfoLocal : pathFileInfo) (closeChanOnComplete : Bool)
      (st st1 : Pool σ τ),
      (walkRepoDirForGet cli os send fuel pfinfoRepo pfinfoLocal closeChanOnComplete st).endState?
        = some st1 →
      st1.cntOk + st1.cntErr + st.world.found ≤ st.cntOk + st.cntErr + st1.world.found := by
  intro fuel
  induction fuel with
  | zero =>
    intro l r c st st1 h
    simp [walkRepoDirForGet, Exec.endState?] at h
  | succ fuel ih =>
    intro l r c st st1 h
    simp only [walkRepoDirForGet] at h
    cases hrd : st.world.cliReadDir cli l.path with
    | mk res w1 =>
      have hw1 : w1.found = st.world.found + countListed res := by
        simp only [World.cliReadDir, Prod.mk.injEq] at hrd
        rw [← hrd.2, ← hrd.1]
      simp only [hrd] at h
      cases res with
      | error e =>
        simp only [Exec.endState?, Option.some.injEq] at h
        subst h
        simp only [hw1]
        omega
      | ok files =>
        simp only at h
        have hloop := walkRepoDirForGetLoop_counts os send l r
          (fun a b s0 => walkRepoDirForGet cli os send fuel a b false s0) hsend
          (fun a b s s1 hs => ih a b false s s1 hs) files
          { st with world := w1.pbarChangeMax64 (wrapInt64 (w1.pbarMax + countSize files)) }
        have hf0 : (w1.pbarChangeMax64 (wrapInt64 (w1.pbarMax + countSize files))).found
            = st.world.found + countNonDir files := hw1
        simp only [hf0] at hloop
        generalize walkRepoDirForGetLoop os send l r _ files _ = run at h hloop
        cases run with
        | returned u st2 =>
          have h1 := hloop st2 rfl
          cases c with
          | true =>
            simp only [if_true] at h
            obtain ⟨c1, c2, c3⟩ := closeChan_counts _ _ h
            rw [c1, c2, c3]
            omega
          | false =>
            simp only [Bool.false_eq_true, if_false, Exec.endState?, Option.some.injEq] at h
            subst h
            omega
        | blocked st2 =>
          have h1 := hloop st2 rfl
          simp only [Exec.endState?, Option.some.injEq] at h
          subst h
          omega
        | panic st2 => simp [Exec.endState?] at h
        | outOfFuel => simp [Exec.endState?] at h

/-- The counts `runOp` returns are at most the number of non-directory
entries listed while it ran, when its producer sends at most that many
tasks. -/
theorem runOp_counts (cli : DavClient σ) (os : LocalOS τ) (overwrite : Bool) (errfile : String)
    (op : Op)
    (producer : (opInput → Pool σ τ → Exec Unit (Pool σ τ)) → Pool σ τ → Exec Unit (Pool σ τ))
    (hprod : ∀ send : opInput → Pool σ τ → Exec Unit (Pool σ τ),
      (∀ inp st st1, (send inp st).endState? = some st1 →
        st1.cntOk + st1.cntErr ≤ st.cntOk + st.cntErr + 1 ∧ st1.world.found = st.world.found) →
      ∀ st st1, (producer send st).endState? = some st1 →
        st1.cntOk + st1.cntErr + st.world.found ≤ st.cntOk + st.cntErr + st1.world.found)
    (nworkers : Int) (w : World σ τ) (cnt : Nat × Nat) (st1 : Pool σ τ)
    (h : runOp cli os overwrite errfile op producer nworkers w = .returned cnt st1) :
    cnt.1 + cnt.2 + w.found ≤ st1.world.found := by
  have htail : ∀ (b : Bool) (w0 : World σ τ), w0.found = w.found →
      (match producer (chanSend cli os overwrite b op) ⟨w0, 0, 0, nworkers.toNat, [], 0⟩ with
        | .returned _ st =>
          if 0 < st.closes ∨ st.alive = 0 then
            Exec.returned (st.cntOk, st.cntErr) { st with alive := 0 }
          else
            match st.world.cancelAt with
            | some k =>
              .returned (st.cntOk, st.cntErr)
                { st with alive := 0, world := { st.world with polls := max st.world.polls k } }
            | none => .blocked st
        | .blocked st => .returned (st.cntOk, st.cntErr) st
        | .panic st => .panic st
        | .outOfFuel => .outOfFuel) = Exec.returned cnt st1 →
      cnt.1 + cnt.2 + w.found ≤ st1.world.found := by
    intro b w0 hw0 h0
    have hp := hprod (chanSend cli os overwrite b op)
      (fun inp st st1 hs => chanSend_counts cli os overwrite b op inp st st1 hs)
      ⟨w0, 0, 0, nworkers.toNat, [], 0⟩
    simp only [hw0] at hp
    generalize producer (chanSend cli os overwrite b op)
      ⟨w0, 0, 0, nworkers.toNat, [], 0⟩ = run at h0 hp
    cases run with
    | returned u st =>
      have h1 := hp st rfl
      simp only at h0
      split at h0
      · simp only [Exec.returned.injEq] at h0
        rw [← h0.1, ← h0.2]
        simp only []
        omega
      · split at h0
        · simp only [Exec.returned.injEq] at h0
          rw [← h0.1, ← h0.2]
          simp only []
          omega
        · simp at h0
    | blocked st =>
      have h1 := hp st rfl
      simp only [Exec.returned.injEq] at h0
      rw [← h0.1, ← h0.2]
      simp only []
      omega
    | panic st => simp at h0
    | outOfFuel => simp at h0
  by_cases he : errfile = ""
  · refine htail true w rfl ?_
    simpa [runOp, he] using h
  · cases ho : w.osOpenFile os errfile 384 with
    | mk e w1 =>
      have hw1 : w1.found = w.found := by
        simp only [World.osOpenFile, Prod.mk.injEq] at ho
        rw [← ho.2]
        rfl
      cases e with
      | some e =>
        refine htail false w1 hw1 ?_
        simpa [runOp, he, ho] using h
      | none =>
        refine htail true w1 hw1 ?_
        simpa [runOp, he, ho] using h

/-- `cliCopyOrRename` reads no listing. -/
theorem cliCopyOrRename_found (cli : DavClient σ) (overwrite : Bool) (op : Op) (src dst : String)
    (w : World σ τ) : (cliCopyOrRename cli overwrite op src dst w).2.found = w.found := by
  unfold cliCopyOrRename
  split <;> rfl

/-- The loop of `copyOrMoveRepoDir` counts at most the non-directory entries
of the listing it walks, plus what the nested calls list. -/
theorem copyOrMoveLoop_counts (cli : DavClient σ) (overwrite : Bool) (op : Op)
    (src dst : pathFileInfo)
    (recur : pathFileInfo → pathFileInfo → World σ τ → Run (Nat × Nat × GoError) (World σ τ))
    (hrecur : ∀ s d w r w1, recur s d w = .done r w1 → r.1 + r.2.1 + w.found ≤ w1.found) :
    ∀ (files : List FileInfo) (c c1 : DirCounts) (w w1 : World σ τ),
      copyOrMoveLoop cli overwrite op src dst recur files c w = .done c1 w1 →
      c1.cntOk + c1.cntErr + c1.cntOkFiles + c1.cntErrFiles + w.found
        ≤ c.cntOk + c.cntErr + c.cntOkFiles + c.cntErrFiles + countNonDir files + w1.found := by
  intro files
  induction files with
  | nil =>
    intro c c1 w w1 h
    simp only [copyOrMoveLoop, Run.done.injEq] at h
    rw [← h.1, ← h.2]
    omega
  | cons finfo rest ih =>
    intro c c1 w w1 h
    rw [countNonDir_cons]
    simp only [copyOrMoveLoop] at h
    cases hc : w.ctxDone with
    | mk b wa =>
      have hwa : wa.found = w.found := by
        have := ctxDone_found w
        rw [hc] at this
        exact this
      simp only [hc] at h
      cases b with
      | true =>
        simp only [Run.done.injEq] at h
        rw [← h.1, ← h.2, hwa]
        omega
      | false =>
        simp only at h
        cases hd : finfo.isDir with
        | true =>
          simp only [hd, if_true] at h ⊢
          cases hr : recur ⟨path.Join [src.path, finfo.name], some finfo⟩
              ⟨path.Join [dst.path, path.Base finfo.name], none⟩ wa with
          | done r w2 =>
            simp only [hr] at h
            have h1 := hrecur _ _ _ _ _ hr
            have h2 := ih _ _ _ _ h
            simp only [hwa] at h1
            simp only [] at h2
            omega
          | panic w2 => simp [hr] at h
          | outOfFuel => simp [hr] at h
        | false =>
          simp only [hd, Bool.false_eq_true, if_false] at h ⊢
          cases hc2 : wa.ctxDone with
          | mk b2 wb =>
            have hwb : wb.found = w.found := by
              have := ctxDone_found wa
              rw [hc2] at this
              exact this.trans hwa
            simp only [hc2] at h
            cases b2 with
            | true =>
              simp only at h
              have h2 := ih _ _ _ _ h
              simp only [hwb] at h2
              omega
            | false =>
              simp only at h
              have hcr := cliCopyOrRename_found cli overwrite op
                (path.Join [src.path, finfo.name]) (path.Join [dst.path, finfo.name]) wb
              generalize cliCopyOrRename cli overwrite op (path.Join [src.path, finfo.name])
                (path.Join [dst.path, finfo.name]) wb = res at h hcr
              obtain ⟨e, w3⟩ := res
              simp only at hcr
              have hw3 : (w3.pbarAdd64 1).found = w.found := hcr.trans hwb
              cases e with
              | some e =>
                simp only at h
                have h2 := ih _ _ _ _ h
                simp only [hw3] at h2
                omega
              | none =>
                simp only at h
                have h2 := ih _ _ _ _ h
                simp only [hw3] at h2
                omega

/-- The counts of `copyOrMoveRepoDir` are at most the number of non-directory
entries of the listings it reads. -/
theorem copyOrMoveRepoDir_counts (cli : DavClient σ) (overwrite : Bool) :
    ∀ (fuel : Nat) (op : Op) (src dst : pathFileInfo) (w w1 : World σ τ)
      (r : Nat × Nat × GoError),
      copyOrMoveRepoDir cli overwrite fuel op src dst w = .done r w1 →
      r.1 + r.2.1 + w.found ≤ w1.found := by
  intro fuel
  induction fuel with
  | zero =>
    intro op src dst w w1 r h
    simp [copyOrMoveRepoDir] at h
  | succ fuel ih =>
    intro op src dst w w1 r h
    simp only [copyOrMoveRepoDir] at h
    cases hrd : w.cliReadDir cli src.path with
    | mk res wa =>
      have hwa : wa.found = w.found + countListed res := by
        simp only [World.cliReadDir, Prod.mk.injEq] at hrd
        rw [← hrd.2, ← hrd.1]
      simp only [hrd] at h
      cases res with
      | error e =>
        simp only [Run.done.injEq] at h
        rw [← h.1, ← h.2, hwa]
        simp only []
        omega
      | ok files =>
        simp only at h
        cases hinfo : src.info with
        | none => simp [hinfo] at h
        | some info =>
          simp only [hinfo] at h
          have hloop := copyOrMoveLoop_counts cli overwrite op src dst
            (fun s d w0 => copyOrMoveRepoDir cli overwrite fuel op s d w0)
            (fun s d w0 r0 w2 h0 => ih op s d w0 w2 r0 h0) files ⟨0, 0, 0, 0⟩
          generalize hw3 : ((wa.pbarChangeMax64 (wrapInt64 (wa.pbarMax + countFiles files))).cliMkdirAll
            cli dst.path info.mode).2 = w3 at h
          have hf3 : w3.found = w.found + countNonDir files := by
            rw [← hw3]
            exact hwa
          cases hl : copyOrMoveLoop cli overwrite op src dst
              (fun s d w0 => copyOrMoveRepoDir cli overwrite fuel op s d w0) files ⟨0, 0, 0, 0⟩
              w3 with
          | done c w4 =>
            have h1 := hloop c w3 w4 hl
            simp only [hf3] at h1
            simp only [hl] at h
            split at h
            · simp only [World.cliRemove, Run.done.injEq] at h
              rw [← h.1, ← h.2]
              simp only [World.emit]
              omega
            · simp only [Run.done.injEq] at h
              rw [← h.1, ← h.2]
              simp only []
              omega
          | panic w4 => simp [hl] at h
          | outOfFuel => simp [hl] at h

/-- The loop of `rmRepoDir` counts at most the non-directory entries of the
listing it walks, plus what the nested calls list. -/
theorem rmLoop_counts (cli : DavClient σ) (repoPath : String)
    (recur : String → World σ τ → Run (Nat × Nat × GoError) (World σ τ))
    (hrecur : ∀ p w r w1, recur p w = .done r w1 → r.1 + r.2.1 + w.found ≤ w1.found) :
    ∀ (files : List FileInfo) (c c1 : DirCounts) (w w1 : World σ τ),
      rmLoop cli repoPath recur files c w = .done c1 w1 →
      c1.cntOk + c1.cntErr + c1.cntOkFiles + c1.cntErrFiles + w.found
        ≤ c.cntOk + c.cntErr + c.cntOkFiles + c.cntErrFiles + countNonDir files + w1.found := by
  intro files
  induction files with
  | nil =>
    intro c c1 w w1 h
    simp only [rmLoop, Run.done.injEq] at h
    rw [← h.1, ← h.2]
    omega
  | cons finfo rest ih =>
    intro c c1 w w1 h
    rw [countNonDir_cons]
    simp only [rmLoop] at h
    cases hc : w.ctxDone with
    | mk b wa =>
      have hwa : wa.found = w.found := by
        have := ctxDone_found w
        rw [hc] at this
        exact this
      simp only [hc] at h
      cases b with
      | true =>
        simp only [Run.done.injEq] at h
        rw [← h.1, ← h.2, hwa]
        omega
      | false =>
        simp only at h
        cases hd : finfo.isDir with
        | true =>
          simp only [hd, if_true] at h ⊢
          cases hr : recur (path.Join [repoPath, finfo.name]) wa with
          | done r w2 =>
            simp only [hr] at h
            have h1 := hrecur _ _ _ _ hr
            have h2 := ih _ _ _ _ h
            simp only [hwa] at h1
            simp only [] at h2
            omega
          | panic w2 => simp [hr] at h
          | outOfFuel => simp [hr] at h
        | false =>
          simp only [hd, Bool.false_eq_true, if_false] at h ⊢
          cases hc2 : wa.ctxDone with
          | mk b2 wb =>
            have hwb : wb.found = w.found := by
              have := ctxDone_found wa
              rw [hc2] at this
              exact this.trans hwa
            simp only [hc2] at h
            cases b2 with
            | true =>
              simp only at h
              have h2 := ih _ _ _ _ h
              simp only [hwb] at h2
              omega
            | false =>
              simp only at h
              cases hrm : wb.cliRemove cli (path.Join [repoPath, finfo.name]) with
              | mk e w3 =>
                have hw3 : (w3.pbarAdd64 1).found = w.found := by
                  simp only [World.cliRemove, Prod.mk.injEq] at hrm
                  rw [← hrm.2]
                  exact hwb
                simp only [hrm] at h
                cases e with
                | some e =>
                  simp only at h
                  have h2 := ih _ _ _ _ h
                  simp only [hw3] at h2
                  omega
                | none =>
                  simp only at h
                  have h2 := ih _ _ _ _ h
                  simp only [hw3] at h2
                  omega

/-- The counts of `rmRepoDir` are at most the number of non-directory entries
of the listings it reads. -/
theorem rmRepoDir_counts (cli : DavClient σ) (recursive : Bool) :
    ∀ (fuel : Nat) (repoPath : String) (w w1 : World σ τ) (r : Nat × Nat × GoError),
      rmRepoDir cli fuel repoPath recursive w = .done r w1 →
      r.1 + r.2.1 + w.found ≤ w1.found := by
  intro fuel
  induction fuel with
  | zero =>
    intro p w w1 r h
    simp [rmRepoDir] at h
  | succ fuel ih =>
    intro p w w1 r h
    simp only [rmRepoDir] at h
    split at h
    · simp only [Run.done.injEq] at h
      rw [← h.1, ← h.2]
      simp only []
      omega
    · cases hrd : w.cliReadDir cli p with
      | mk res wa =>
        have hwa : wa.found = w.found + countListed res := by
          simp only [World.cliReadDir, Prod.mk.injEq] at hrd
          rw [← hrd.2, ← hrd.1]
        simp only [hrd] at h
        cases res with
        | error e =>
          simp only [Run.done.injEq] at h
          rw [← h.1, ← h.2, hwa]
          simp only []
          omega
        | ok files =>
          simp only at h
          split at h
          · simp only [Run.done.injEq] at h
            rw [← h.1, ← h.2, hwa]
            simp only []
            omega
          · have hloop := rmLoop_counts cli p (fun q w0 => rmRepoDir cli fuel q recursive w0)
              (fun q w0 r0 w2 h0 => ih q w0 w2 r0 h0) files ⟨0, 0, 0, 0⟩
            generalize hw2 : wa.pbarChangeMax64 (wrapInt64 (wa.pbarMax + countFiles files)) = w2
              at h
            have hf2 : w2.found = w.found + countNonDir files := by
              rw [← hw2]
              exact hwa
            cases hl : rmLoop cli p (fun q w0 => rmRepoDir cli fuel q recursive w0) files
                ⟨0, 0, 0, 0⟩ w2 with
            | done c w3 =>
              have h1 := hloop c w2 w3 hl
              simp only [hf2] at h1
              simp only [hl, World.cliRemove, Run.done.injEq] at h
              rw [← h.1, ← h.2]
              simp only [World.emit]
              omega
            | panic w3 => simp [hl] at h
            | outOfFuel => simp [hl] at h

/-- Dropping the placeholder of the progress bar after a walk changes
neither the counters nor the number of entries listed. -/
theorem dropPlaceholder_counts (run : Exec Unit (Pool σ τ)) (st st1 : Pool σ τ)
    (hrun : ∀ s, run.endState? = some s →
      s.cntOk + s.cntErr + st.world.found ≤ st.cntOk + st.cntErr + s.world.found)
    (h : (match run with
        | .returned _ s1 => Exec.returned () { s1 with world := pbarDropPlaceholder s1.world }
        | other => other).endState? = some st1) :
    st1.cntOk + st1.cntErr + st.world.found ≤ st.cntOk + st.cntErr + st1.world.found := by
  cases run with
  | returned u s1 =>
    simp only [Exec.endState?, Option.some.injEq] at h
    subst h
    exact hrun s1 rfl
  | blocked s1 =>
    simp only [Exec.endState?, Option.some.injEq] at h
    subst h
    exact hrun _ rfl
  | panic s1 => simp [Exec.endState?] at h
  | outOfFuel => simp [Exec.endState?] at h

/-- A bulk `put` returns no error, and its counts are at most the number of
non-directory entries listed. -/
theorem putCmd_counts (cli : DavClient σ) (os : LocalOS τ) (cfg : Config) (fuel : Nat)
    (a0 a1 : String) (w w1 : World σ τ) (out : CmdOut) (cnt : Nat × Nat)
    (h : putCmd cli os cfg fuel a0 a1 w = .returned out w1) (hc : out.counts = some cnt) :
    out.err = none ∧ cnt.1 + cnt.2 + w.found ≤ w1.found := by
  unfold putCmd at h
  simp only at h
  cases hs : w.osStat os (filepath.Abs cfg.lcwd a0) with
  | mk r wa =>
    simp only [hs] at h
    cases r with
    | error e =>
      simp only [Exec.returned.injEq] at h
      rw [← h.1] at hc
      simp at hc
    | ok lfinfo =>
      simp only at h
      cases hs2 : wa.cliStat cli (getCleanRepoPath cfg.cwd a1) with
      | mk rstat wb =>
        have hwb : wb.found = w.found := by
          simp only [World.osStat, Prod.mk.injEq] at hs
          simp only [World.cliStat, Prod.mk.injEq] at hs2
          rw [← hs2.2, ← hs.2]
          rfl
        simp only [hs2] at h
        cases hd : lfinfo.isDir with
        | false =>
          simp only [hd, Bool.false_eq_true, if_false] at h
          split at h
          · simp only [Exec.returned.injEq] at h
            rw [← h.1] at hc
            simp at hc
          · simp at h
          · simp at h
        | true =>
          simp only [hd, if_true] at h
          split at h
          · simp only [Exec.returned.injEq] at h
            rw [← h.1] at hc
            simp at hc
          · split at h
            · simp at h
            · split at h
              · rename_i c0 st hrun
                simp only [Exec.returned.injEq] at h
                rw [← h.1] at hc
                simp only [Option.some.injEq] at hc
                subst hc
                rw [← h.1, ← h.2]
                refine ⟨rfl, ?_⟩
                have := runOp_counts cli os cfg.overwrite cfg.errfile .Put _
                  (fun send hsend s s1 hs1 =>
                    dropPlaceholder_counts _ s s1
                      (fun s2 h2 => walkLocalDirForPut_counts cli os send hsend fuel _ _ true s s2 h2)
                      hs1)
                  4 _ c0 st hrun
                exact (Nat.add_le_add_left (le_of_eq hwb.symm) _).trans this
              · simp at h
              · simp at h
              · simp at h

/-- A bulk `get` returns no error, and its counts are at most the number of
non-directory entries listed. -/
theorem getCmd_counts (cli : DavClient σ) (os : LocalOS τ) (cfg : Config) (fuel : Nat)
    (a0 a1 : String) (w w1 : World σ τ) (out : CmdOut) (cnt : Nat × Nat)
    (h : getCmd cli os cfg fuel a0 a1 w = .returned out w1) (hc : out.counts = some cnt) :
    out.err = none ∧ cnt.1 + cnt.2 + w.found ≤ w1.found := by
  unfold getCmd at h
  simp only at h
  cases hs : w.cliStat cli (getCleanRepoPath cfg.cwd a0) with
  | mk r wa =>
    simp only [hs] at h
    cases r with
    | error e =>
      simp only [Exec.returned.injEq] at h
      rw [← h.1] at hc
      simp at hc
    | ok f =>
      simp only at h
      cases hs2 : wa.osStat os (filepath.Abs cfg.lcwd a1) with
      | mk lstat wb =>
        have hwb : wb.found = w.found := by
          simp only [World.cliStat, Prod.mk.injEq] at hs
          simp only [World.osStat, Prod.mk.injEq] at hs2
          rw [← hs2.2, ← hs.2]
          rfl
        simp only [hs2] at h
        cases hd : f.isDir with
        | false =>
          simp only [hd, Bool.false_eq_true, if_false] at h
          split at h
          · simp only [Exec.returned.injEq] at h
            rw [← h.1] at hc
            simp at hc
          · simp at h
          · simp at h
        | true =>
          simp only [hd, if_true] at h
          split at h
          · simp only [Exec.returned.injEq] at h
            rw [← h.1] at hc
            simp at hc
          · split at h
            · simp at h
            · rename_i dst hdst
              cases hmk : wb.osMkdirAll os dst f.mode with
              | mk e wc =>
                have hwc : wc.found = w.found := by
                  simp only [World.osMkdirAll, Prod.mk.injEq] at hmk
                  rw [← hmk.2]
                  exact hwb
                simp only [hmk] at h
                cases e with
                | some e =>
                  simp only [Exec.returned.injEq] at h
                  rw [← h.1] at hc
                  simp at hc
                | none =>
                  simp only at h
                  split at h
                  · rename_i c0 st hrun
                    simp only [Exec.returned.injEq] at h
                    rw [← h.1] at hc
                    simp only [Option.some.injEq] at hc
                    subst hc
                    rw [← h.1, ← h.2]
                    refine ⟨rfl, ?_⟩
                    have := runOp_counts cli os cfg.overwrite cfg.errfile .Get _
                      (fun send hsend s s1 hs1 =>
                        dropPlaceholder_counts _ s s1
                          (fun s2 h2 =>
                            walkRepoDirForGet_counts cli os send hsend fuel _ _ true s s2 h2)
                          hs1)
                      4 _ c0 st hrun
                    exact (Nat.add_le_add_left (le_of_eq hwc.symm) _).trans this
                  · simp at h
                  · simp at h
                  · simp at h

/-- A directory copy or move that counts a failure returns no error. -/
theorem copyOrMoveRepoDir_failed_no_error (cli : DavClient σ) (overwrite : Bool) (fuel : Nat)
    (op : Op) (src dst : pathFileInfo) (w w1 : World σ τ) (r : Nat × Nat × GoError)
    (h : copyOrMoveRepoDir cli overwrite fuel op src dst w = .done r w1) (hf : 0 < r.2.1) :
    r.2.2 = none := by
  cases fuel with
  | zero => simp [copyOrMoveRepoDir] at h
  | succ fuel =>
    simp only [copyOrMoveRepoDir] at h
    split at h
    · simp only [Run.done.injEq] at h
      rw [← h.1] at hf
      simp at hf
    · split at h
      · simp at h
      · split at h
        · split at h
          · rename_i hcond
            simp only [Run.done.injEq] at h
            rw [← h.1] at hf
            simp only [] at hf
            omega
          · simp only [Run.done.injEq] at h
            rw [← h.1]
        · simp at h
        · simp at h

/-- A directory removal that counts a failure returns what the final remove
of the directory itself returns. -/
theorem rmRepoDir_failed_error (cli : DavClient σ) (fuel : Nat) (repoPath : String)
    (recursive : Bool) (w w1 : World σ τ) (r : Nat × Nat × GoError)
    (h : rmRepoDir cli fuel repoPath recursive w = .done r w1) (hf : 0 < r.2.1) :
    ∃ w0 : World σ τ, w0.cliRemove cli repoPath = (r.2.2, w1) := by
  cases fuel with
  | zero => simp [rmRepoDir] at h
  | succ fuel =>
    simp only [rmRepoDir] at h
    split at h
    · simp only [Run.done.injEq] at h
      rw [← h.1] at hf
      simp at hf
    · split at h
      · simp only [Run.done.injEq] at h
        rw [← h.1] at hf
        simp at hf
      · split at h
        · simp only [Run.done.injEq] at h
          rw [← h.1] at hf
          simp at hf
        · split at h
          · rename_i c w3 hl
            simp only [Run.done.injEq] at h
            rw [← h.1, ← h.2]
            exact ⟨w3, rfl⟩
          · simp at h
          · simp at h

/-- A bulk `cp` or `mv` that counts a failure returns no error, and its counts
are at most the number of non-directory entries listed. -/
theorem cpOrMvCmd_counts (cli : DavClient σ) (cfg : Config) (op : Op) (fuel : Nat)
    (a0 a1 : String) (dirDst : Option String) (w w1 : World σ τ) (out : CmdOut) (cnt : Nat × Nat)
    (h : cpOrMvCmd cli cfg op fuel a0 a1 dirDst w = .returned out w1)
    (hc : out.counts = some cnt) :
    (0 < cnt.2 → out.err = none) ∧ cnt.1 + cnt.2 + w.found ≤ w1.found := by
  unfold cpOrMvCmd at h
  simp only at h
  cases hs : w.cliStat cli (getCleanRepoPath cfg.cwd a0) with
  | mk r wa =>
    simp only [hs] at h
    cases r with
    | error e =>
      simp only [Exec.returned.injEq] at h
      rw [← h.1] at hc
      simp at hc
    | ok fsrc =>
      simp only at h
      cases hs2 : wa.cliStat cli (getCleanRepoPath cfg.cwd a1) with
      | mk dstat wb =>
        have hwb : wb.found = w.found := by
          simp only [World.cliStat, Prod.mk.injEq] at hs hs2
          rw [← hs2.2, ← hs.2]
          rfl
        simp only [hs2] at h
        cases hd : fsrc.isDir with
        | false =>
          simp only [hd, Bool.false_eq_true, if_false, Exec.returned.injEq] at h
          rw [← h.1] at hc
          simp at hc
        | true =>
          simp only [hd, if_true] at h
          split at h
          · simp only [Exec.returned.injEq] at h
            rw [← h.1] at hc
            simp at hc
          · split at h
            · simp at h
            · rename_i root
              cases hmk : wb.cliMkdirAll cli root fsrc.mode with
              | mk e wc =>
                have hwc : wc.found = w.found := by
                  simp only [World.cliMkdirAll, Prod.mk.injEq] at hmk
                  rw [← hmk.2]
                  exact hwb
                simp only [hmk] at h
                cases e with
                | some e =>
                  simp only [Exec.returned.injEq] at h
                  rw [← h.1] at hc
                  simp at hc
                | none =>
                  simp only at h
                  split at h
                  · rename_i r0 w5 hrun
                    simp only [Exec.returned.injEq] at h
                    rw [← h.1] at hc
                    simp only [Option.some.injEq] at hc
                    subst hc
                    rw [← h.1, ← h.2]
                    refine ⟨fun hf => copyOrMoveRepoDir_failed_no_error cli _ _ _ _ _ _ _ _ hrun hf,
                      ?_⟩
                    have := copyOrMoveRepoDir_counts cli _ _ _ _ _ _ _ _ hrun
                    exact (Nat.add_le_add_left (le_of_eq hwc.symm) _).trans this
                  · simp at h
                  · simp at h

/-- A bulk `rm` that counts a failure returns what the final remove of the
directory returns, and its counts are at most the number of non-directory
entries listed. -/
theorem rmCmd_counts (cli : DavClient σ) (cfg : Config) (fuel : Nat) (a0 : String)
    (w w1 : World σ τ) (out : CmdOut) (cnt : Nat × Nat)
    (h : rmCmd cli cfg fuel a0 w = .returned out w1) (hc : out.counts = some cnt) :
    (0 < cnt.2 → ∃ s : σ, out.err = (cli.Remove s (getCleanRepoPath cfg.cwd a0)).1 ∧
      w1.remote = (cli.Remove s (getCleanRepoPath cfg.cwd a0)).2) ∧
    cnt.1 + cnt.2 + w.found ≤ w1.found := by
  unfold rmCmd at h
  simp only at h
  cases hs : w.cliStat cli (getCleanRepoPath cfg.cwd a0) with
  | mk r wa =>
    have hwa : wa.found = w.found := by
      simp only [World.cliStat, Prod.mk.injEq] at hs
      rw [← hs.2]
      rfl
    simp only [hs] at h
    cases r with
    | error e =>
      simp only [Exec.returned.injEq] at h
      rw [← h.1] at hc
      simp at hc
    | ok f =>
      simp only at h
      cases hd : f.isDir with
      | false =>
        simp only [hd, Bool.false_eq_true, if_false, Exec.returned.injEq] at h
        rw [← h.1] at hc
        simp at hc
      | true =>
        simp only [hd, if_true] at h
        split at h
        · rename_i r0 w3 hrun
          simp only [Exec.returned.injEq] at h
          rw [← h.1] at hc
          simp only [Option.some.injEq] at hc
          subst hc
          rw [← h.1, ← h.2]
          refine ⟨fun hf => ?_, ?_⟩
          · obtain ⟨w0, hw0⟩ := rmRepoDir_failed_error cli _ _ _ _ _ _ hrun hf
            simp only [World.cliRemove, Prod.mk.injEq] at hw0
            refine ⟨w0.remote, hw0.1.symm, ?_⟩
            rw [← hw0.2]
            rfl
          · have := rmRepoDir_counts cli _ _ _ _ _ _ hrun
            exact (Nat.add_le_add_left (le_of_eq hwa.symm) _).trans this
        · simp at h
        · simp at h

/-- C15. Bounded counts under cancellation: when a bulk `put`, `get`, `cp`,
`mv` or `rm` returns the statistics `(ok, failed)`, whenever and whether the
context is cancelled, `ok + failed` is at most the number of non-directory
entries in the listings read during the run (`found` counts them). -/
theorem counts_bounded_by_files_discovered (cli : DavClient σ) (os : LocalOS τ) (cfg : Config)
    (fuel : Nat) (a0 a1 : String) (w w1 : World σ τ) (out : CmdOut) (ok failed : Nat)
    (hrun : putCmd cli os cfg fuel a0 a1 w = .returned out w1 ∨
      getCmd cli os cfg fuel a0 a1 w = .returned out w1 ∨
      cpCmd cli cfg fuel a0 a1 w = .returned out w1 ∨
      mvCmd cli cfg fuel a0 a1 w = .returned out w1 ∨
      rmCmd cli cfg fuel a0 w = .returned out w1)
    (hcnt : out.counts = some (ok, failed)) :
    ok + failed + w.found ≤ w1.found := by
  rcases hrun with h | h | h | h | h
  · exact (putCmd_counts cli os cfg fuel a0 a1 w w1 out (ok, failed) h hcnt).2
  · exact (getCmd_counts cli os cfg fuel a0 a1 w w1 out (ok, failed) h hcnt).2
  · exact (cpOrMvCmd_counts cli cfg .Copy fuel a0 a1 _ w w1 out (ok, failed) h hcnt).2
  · exact (cpOrMvCmd_counts cli cfg .Move fuel a0 a1 _ w w1 out (ok, failed) h hcnt).2
  · exact (rmCmd_counts cli cfg fuel a0 w w1 out (ok, failed) h hcnt).2

/-- The bound of C15 on a cancelled run: `put` of `/src` (two files) into
`/dst`, cancelled at the fourth poll of the context, returns the counts
`(1, 0)` after listings with two files were read. -/
theorem counts_bounded_by_files_discovered_witness :
    ∃ w1, putCmd specStore posixOS cfgDefault 5 "/src" "/dst"
        (World.init fsPutRemote fsPutLocal (some 3)) = .returned ⟨none, some (1, 0)⟩ w1 ∧
      w1.found = 2 ∧
      1 + 0 + (World.init fsPutRemote fsPutLocal (some 3)).found ≤ w1.found := by
  have hres : (putCmd specStore posixOS cfgDefault 5 "/src" "/dst"
      (World.init fsPutRemote fsPutLocal (some 3))).result? = some ⟨none, some (1, 0)⟩ := by
    decide
  have hfound : (putCmd specStore posixOS cfgDefault 5 "/src" "/dst"
      (World.init fsPutRemote fsPutLocal (some 3))).state?.map (fun w => w.found) = some 2 := by
    decide
  cases h : putCmd specStore posixOS cfgDefault 5 "/src" "/dst"
      (World.init fsPutRemote fsPutLocal (some 3)) with
  | returned out w1 =>
    rw [h] at hres hfound
    simp only [Exec.result?, Option.some.injEq] at hres
    simp only [Exec.state?, Option.map_some', Option.some.injEq] at hfound
    subst hres
    exact ⟨w1, rfl, hfound,
      counts_bounded_by_files_discovered specStore posixOS cfgDefault 5 "/src" "/dst"
        (World.init fsPutRemote fsPutLocal (some 3)) w1 ⟨none, some (1, 0)⟩ 1 0 (Or.inl h) rfl⟩
  | blocked w1 =>
    rw [h] at hres
    simp [Exec.result?] at hres
  | panic w1 =>
    rw [h] at hres
    simp [Exec.result?] at hres
  | outOfFuel =>
    rw [h] at hres
    simp [Exec.result?] at hres

/-- C13, amended. Per-file failures are not fatal in `put`, `get`, `cp` and
`mv`: a bulk `put` or `get` returns no error, and a bulk `cp` or `mv` that
reports a non-zero failed count returns no error.  A bulk `rm` that reports a
non-zero failed count returns the outcome of the final remove of the directory
itself. -/
theorem per_file_failures_not_fatal (cli : DavClient σ) (os : LocalOS τ) (cfg : Config)
    (fuel : Nat) (a0 a1 : String) (w w1 : World σ τ) (out : CmdOut) (ok failed : Nat)
    (hcnt : out.counts = some (ok, failed)) :
    (putCmd cli os cfg fuel a0 a1 w = .returned out w1 → out.err = none) ∧
    (getCmd cli os cfg fuel a0 a1 w = .returned out w1 → out.err = none) ∧
    (cpCmd cli cfg fuel a0 a1 w = .returned out w1 → 0 < failed → out.err = none) ∧
    (mvCmd cli cfg fuel a0 a1 w = .returned out w1 → 0 < failed → out.err = none) ∧
    (rmCmd cli cfg fuel a0 w = .returned out w1 → 0 < failed →
      ∃ s : σ, out.err = (cli.Remove s (getCleanRepoPath cfg.cwd a0)).1 ∧
        w1.remote = (cli.Remove s (getCleanRepoPath cfg.cwd a0)).2) := by
  refine ⟨fun h => ?_, fun h => ?_, fun h hf => ?_, fun h hf => ?_, fun h hf => ?_⟩
  · exact (putCmd_counts cli os cfg fuel a0 a1 w w1 out (ok, failed) h hcnt).1
  · exact (getCmd_counts cli os cfg fuel a0 a1 w w1 out (ok, failed) h hcnt).1
  · exact (cpOrMvCmd_counts cli cfg .Copy fuel a0 a1 _ w w1 out (ok, failed) h hcnt).1 hf
  · exact (cpOrMvCmd_counts cli cfg .Move fuel a0 a1 _ w w1 out (ok, failed) h hcnt).1 hf
  · exact (rmCmd_counts cli cfg fuel a0 w w1 out (ok, failed) h hcnt).1 hf

/-- The amended C13 on a run with a per-file failure: `mv` of `/s/` into `/d`
cannot rename `/s/sub/b` because `/d/sub` is a file; it reports the counts
`(0, 1)` and returns no error. -/
theorem per_file_failures_not_fatal_witness :
    ∃ w1, mvCmd specStore cfgDefault 5 "/s/" "/d" (World.init fsFail fsLocal none)
        = .returned ⟨none, some (0, 1)⟩ w1 ∧
      (0 : Nat) < 1 ∧ (⟨none, some (0, 1)⟩ : CmdOut).err = none := by
  have hres : (mvCmd specStore cfgDefault 5 "/s/" "/d"
      (World.init fsFail fsLocal none)).result? = some ⟨none, some (0, 1)⟩ := by
    decide
  cases h : mvCmd specStore cfgDefault 5 "/s/" "/d" (World.init fsFail fsLocal none) with
  | returned out w1 =>
    rw [h] at hres
    simp only [Exec.result?, Option.some.injEq] at hres
    subst hres
    exact ⟨w1, rfl, by decide,
      (per_file_failures_not_fatal specStore posixOS cfgDefault 5 "/s/" "/d"
        (World.init fsFail fsLocal none) w1 ⟨none, some (0, 1)⟩ 0 1 rfl).2.2.2.1 h (by decide)⟩
  | blocked w1 =>
    rw [h] at hres
    simp [Exec.result?] at hres
  | panic w1 =>
    rw [h] at hres
    simp [Exec.result?] at hres
  | outOfFuel =>
    rw [h] at hres
    simp [Exec.result?] at hres

end Counts

section Schedules

/-- C16, run on a failing schedule. A copy of the directory `/s` with five
files: each of the four workers receives a file, the walker passes the `select`
of its loop for the fifth file, the context is cancelled, and the workers then
reach their `select`, find the context cancelled and leave their loops.  The
walker stands at its send on `fchan`, all workers have exited and `fchan` is
not closed: no actor can take a step, so the call never returns.  With the
workers at work as soon as they received, the same call returns `(4, 0)`. -/
theorem cancelled_copy_hangs :
    (∃ st, runSchedule stepFive scheduleHang
        (copyOrMoveStart specStore srcS ⟨"/d", none⟩ (World.init fsFive fsLocal none)) = some st ∧
      st.walker = .sending ⟨"f5", 1, false, 420⟩ ∧
      st.workers = [.exited, .exited, .exited, .exited] ∧
      st.closed = false ∧
      st.world.cancelAt = some 0 ∧
      ∀ a, stepFive a st = none) ∧
    (runSchedule stepFive scheduleEager
        (copyOrMoveStart specStore srcS ⟨"/d", none⟩ (World.init fsFive fsLocal none))).map
      (fun st => st.walker) = some (.returned (4, 0, none)) := by
  have hfacts : (runSchedule stepFive scheduleHang
      (copyOrMoveStart specStore srcS ⟨"/d", none⟩ (World.init fsFive fsLocal none))).map
      (fun st => (st.walker, st.workers, st.closed, st.world.cancelAt))
      = some (.sending ⟨"f5", 1, false, 420⟩, [.exited, .exited, .exited, .exited], false,
          some 0) := by
    decide
  refine ⟨?_, by decide⟩
  cases h : runSchedule stepFive scheduleHang
      (copyOrMoveStart specStore srcS ⟨"/d", none⟩ (World.init fsFive fsLocal none)) with
  | none =>
    rw [h] at hfacts
    simp at hfacts
  | some st =>
    rw [h] at hfacts
    simp only [Option.map_some', Option.some.injEq, Prod.mk.injEq] at hfacts
    obtain ⟨hw, hk, hc, hx⟩ := hfacts
    refine ⟨st, rfl, hw, hk, hc, hx, ?_⟩
    intro a
    cases a with
    | cancel => simp [stepFive, copyOrMoveStep, hx]
    | walker => simp [stepFive, copyOrMoveStep, hw]
    | worker id =>
      rcases id with _ | _ | _ | _ | _ | n <;> simp [stepFive, copyOrMoveStep, hk]

end Schedules

section Descriptions

/-- The number of bytes of a string of ASCII characters is its number of
characters. -/
theorem utf8ByteSize_ascii : ∀ l : List Char, (∀ c ∈ l, c.toNat < 128) →
    (String.mk l).utf8ByteSize = l.length
  | [] => by intro _; rfl
  | c :: cs => by
    intro h
    have ih := utf8ByteSize_ascii cs (fun d hd => h d (List.mem_cons_of_mem _ hd))
    have hc : c.toNat < 128 := h c (List.mem_cons_self _ _)
    have hsize : c.utf8Size = 1 := by
      have hv : c.val.toNat < 128 := hc
      have h127 : c.val ≤ 127 := by
        rw [UInt32.le_def]
        show c.val.val ≤ (127 : UInt32).val
        have : ((127 : UInt32).val : Nat) = 127 := rfl
        exact Fin.le_def.mpr (by rw [this]; exact Nat.le_of_lt_succ hv)
      simp [Char.utf8Size, h127]
    simp only [String.utf8ByteSize, String.utf8ByteSize.go, List.length_cons] at ih ⊢
    rw [ih, hsize]

/-- C29, the failing class of inputs. For a string of more than 33 characters
whose length in bytes exceeds its number of characters by more than 15, the
lower bound `len(origin)-15` of the slice `chars[len(origin)-15:]` is beyond
the end of `chars`: `prettifyProgressbarDesc` panics. -/
theorem prettifyProgressbarDesc_out_of_range (origin : String)
    (hlen : 33 < origin.data.length) (hbytes : origin.data.length + 15 < origin.utf8ByteSize) :
    prettifyProgressbarDesc origin = none := by
  unfold prettifyProgressbarDesc
  simp only
  rw [if_neg (by omega), if_neg (by omega)]

/-- The panic of C29 on a name of 34 characters `é` (68 bytes). -/
theorem prettifyProgressbarDesc_out_of_range_witness :
    33 < (String.mk (List.replicate 34 (Char.ofNat 233))).data.length ∧
    (String.mk (List.replicate 34 (Char.ofNat 233))).data.length + 15
      < (String.mk (List.replicate 34 (Char.ofNat 233))).utf8ByteSize ∧
    prettifyProgressbarDesc (String.mk (List.replicate 34 (Char.ofNat 233))) = none :=
  ⟨by decide, by decide,
    prettifyProgressbarDesc_out_of_range (String.mk (List.replicate 34 (Char.ofNat 233)))
      (by decide) (by decide)⟩

/-- C30. Width of `prettifyProgressbarDesc`: for every string of ASCII
characters the result has exactly 33 characters; an input of at most 33
characters is returned followed by spaces up to 33, a longer input is returned
as its first 15 characters, then `...`, then its last 15 characters. -/
theorem prettifyProgressbarDesc_width (origin : String) (hascii : ∀ c ∈ origin.data, c.toNat < 128) :
    ∃ r, prettifyProgressbarDesc origin = some r ∧ r.data.length = 33 ∧
      (origin.data.length ≤ 33 →
        r.data = origin.data ++ List.replicate (33 - origin.data.length) ' ') ∧
      (33 < origin.data.length →
        r.data = origin.data.take 15 ++ ['.', '.', '.'] ++
          origin.data.drop (origin.data.length - 15) ∧
        (origin.data.drop (origin.data.length - 15)).length = 15) := by
  have hsize : origin.utf8ByteSize = origin.data.length := by
    have := utf8ByteSize_ascii origin.data hascii
    simpa using this
  unfold prettifyProgressbarDesc
  simp only [hsize]
  by_cases hle : origin.data.length ≤ 33
  · rw [if_pos hle]
    refine ⟨_, rfl, ?_, fun _ => rfl, fun h => absurd hle (by omega)⟩
    simp only [padRight, List.length_append, List.length_replicate]
    omega
  · rw [if_neg hle, if_pos (by omega)]
    have htake : (origin.data.take 15).length = 15 := by
      rw [List.length_take]
      omega
    have hdrop : (origin.data.drop (origin.data.length - 15)).length = 15 := by
      rw [List.length_drop]
      omega
    refine ⟨_, rfl, ?_, fun h => absurd h hle, fun _ => ⟨?_, hdrop⟩⟩
    · simp only [padRight, List.length_append, List.length_replicate, htake, hdrop]
      rfl
    · simp only [padRight, htake, hdrop, Nat.sub_self, List.replicate_zero, List.append_nil]

/-- The width of C30 on two names: a short one is padded, a name of 40
characters keeps its first and its last 15 characters. -/
theorem prettifyProgressbarDesc_width_witness :
    (∀ c ∈ "0123456789012345678901234567890123456789".data, c.toNat < 128) ∧
    prettifyProgressbarDesc "a.txt" = some "a.txt                            " ∧
    prettifyProgressbarDesc "0123456789012345678901234567890123456789"
      = some "012345678901234...567890123456789" ∧
    ∃ r, prettifyProgressbarDesc "0123456789012345678901234567890123456789" = some r ∧
      r.data.length = 33 := by
  obtain ⟨r, h1, h2, -⟩ := prettifyProgressbarDesc_width "0123456789012345678901234567890123456789"
    (by decide)
  exact ⟨by decide, by decide, by decide, r, h1, h2⟩

end Descriptions

section EmptyArgument

variable {σ τ : Type}

/-- C26, the failing class of inputs. The empty source argument resolves to
the current directory; when that is an existing directory and the destination
is not an existing non-directory, `put`, `get`, `cp` and `mv` reach the test
`cpath[len(cpath)-1]` with an empty `cpath` and panic (index out of range). -/
theorem empty_source_argument_panics (cli : DavClient σ) (os : LocalOS τ) (cfg : Config)
    (fuel : Nat) (a1 : String) (w : World σ τ) :
    (∀ lf, os.Stat w.localfs (filepath.Abs cfg.lcwd "") = .ok lf → lf.isDir = true →
      (∀ f, cli.Stat w.remote (getCleanRepoPath cfg.cwd a1) = .ok f → f.isDir = true) →
      ∃ w1, putCmd cli os cfg fuel "" a1 w = .panic w1) ∧
    (∀ f, cli.Stat w.remote (getCleanRepoPath cfg.cwd "") = .ok f → f.isDir = true →
      ((∀ lf, os.Stat w.localfs (filepath.Abs cfg.lcwd a1) = .ok lf → lf.isDir = true) →
        ∃ w1, getCmd cli os cfg fuel "" a1 w = .panic w1) ∧
      ((∀ g, cli.Stat w.remote (getCleanRepoPath cfg.cwd a1) = .ok g → g.isDir = true) →
        (∃ w1, cpCmd cli cfg fuel "" a1 w = .panic w1) ∧
        (∃ w1, mvCmd cli cfg fuel "" a1 w = .panic w1))) := by
  constructor
  · intro lf hlf hdir hdst
    cases hr : cli.Stat w.remote (getCleanRepoPath cfg.cwd a1) with
    | error e =>
      exact ⟨(w.emit (.osStat (filepath.Abs cfg.lcwd ""))).emit
        (.Stat (getCleanRepoPath cfg.cwd a1)), by simp [putCmd, World.osStat, World.cliStat, World.emit, hlf, hdir, hr,
        putDirDst, lastRune]⟩
    | ok f =>
      have hf := hdst f hr
      exact ⟨(w.emit (.osStat (filepath.Abs cfg.lcwd ""))).emit
        (.Stat (getCleanRepoPath cfg.cwd a1)), by simp [putCmd, World.osStat, World.cliStat, World.emit, hlf, hdir, hr, hf,
        putDirDst, lastRune]⟩
  · intro f hf hdir
    constructor
    · intro hdst
      cases hr : os.Stat w.localfs (filepath.Abs cfg.lcwd a1) with
      | error e =>
        exact ⟨(w.emit (.Stat (getCleanRepoPath cfg.cwd ""))).emit
          (.osStat (filepath.Abs cfg.lcwd a1)), by simp [getCmd, World.osStat, World.cliStat, World.emit, hf, hdir, hr,
          getDirDst, lastRune]⟩
      | ok lf =>
        have hlf := hdst lf hr
        exact ⟨(w.emit (.Stat (getCleanRepoPath cfg.cwd ""))).emit
          (.osStat (filepath.Abs cfg.lcwd a1)), by simp [getCmd, World.osStat, World.cliStat, World.emit, hf, hdir, hr, hlf,
          getDirDst, lastRune]⟩
    · intro hdst
      cases hr : cli.Stat w.remote (getCleanRepoPath cfg.cwd a1) with
      | error e =>
        exact ⟨⟨(w.emit (.Stat (getCleanRepoPath cfg.cwd ""))).emit
            (.Stat (getCleanRepoPath cfg.cwd a1)), by simp [cpCmd, cpOrMvCmd, World.cliStat, World.emit, hf, hdir, hr, cpDirDst,
            lastRune]⟩,
          ⟨(w.emit (.Stat (getCleanRepoPath cfg.cwd ""))).emit
            (.Stat (getCleanRepoPath cfg.cwd a1)), by simp [mvCmd, cpOrMvCmd, World.cliStat, World.emit, hf, hdir, hr, mvDirDst,
            lastRune]⟩⟩
      | ok g =>
        have hg := hdst g hr
        exact ⟨⟨(w.emit (.Stat (getCleanRepoPath cfg.cwd ""))).emit
            (.Stat (getCleanRepoPath cfg.cwd a1)), by simp [cpCmd, cpOrMvCmd, World.cliStat, World.emit, hf, hdir, hr, hg,
            cpDirDst, lastRune]⟩,
          ⟨(w.emit (.Stat (getCleanRepoPath cfg.cwd ""))).emit
            (.Stat (getCleanRepoPath cfg.cwd a1)), by simp [mvCmd, cpOrMvCmd, World.cliStat, World.emit, hf, hdir, hr, hg, mvDirDst,
            lastRune]⟩⟩

/-- The panic of C26 on the concrete stores: `put "" /dst` with the local
working directory `/`, and `cp "" /d` with the remote working directory `/`. -/
theorem empty_source_argument_panics_witness :
    posixOS.Stat fsPutLocal (filepath.Abs cfgDefault.lcwd "") = .ok ⟨"/", 0, true, 493⟩ ∧
    specStore.Stat fsPutRemote (getCleanRepoPath cfgDefault.cwd "/dst")
      = .ok ⟨"dst", 0, true, 493⟩ ∧
    (∃ w1, putCmd specStore posixOS cfgDefault 5 "" "/dst"
      (World.init fsPutRemote fsPutLocal none) = .panic w1) ∧
    specStore.Stat fsMove (getCleanRepoPath cfgDefault.cwd "") = .ok ⟨"/", 0, true, 493⟩ ∧
    (∃ w1, cpCmd specStore cfgDefault 5 "" "/d" (World.init fsMove fsLocal none) = .panic w1) := by
  have h1 := (empty_source_argument_panics specStore posixOS cfgDefault 5 "/dst"
    (World.init fsPutRemote fsPutLocal none)).1 ⟨"/", 0, true, 493⟩ (by decide) rfl
    (fun f hf => by
      have h : specStore.Stat fsPutRemote (getCleanRepoPath cfgDefault.cwd "/dst")
          = .ok ⟨"dst", 0, true, 493⟩ := by decide
      have e : (World.init fsPutRemote fsPutLocal none).remote = fsPutRemote := rfl
      rw [e, h] at hf
      cases hf
      rfl)
  have h2 := ((empty_source_argument_panics specStore posixOS cfgDefault 5 "/d"
    (World.init fsMove fsLocal none)).2 ⟨"/", 0, true, 493⟩ (by decide) rfl).2
    (fun g hg => by
      have h : specStore.Stat fsMove (getCleanRepoPath cfgDefault.cwd "/d")
          = .ok ⟨"d", 0, true, 493⟩ := by decide
      have e : (World.init fsMove fsLocal none).remote = fsMove := rfl
      rw [e, h] at hg
      cases hg
      rfl)
  exact ⟨by decide, by decide, h1, by decide, h2.1⟩

end EmptyArgument

section Metrics

/-- The wrap-around of a value is an `int64` value. -/
theorem wrapInt64_fits (x : Int) : -2 ^ 63 ≤ wrapInt64 x ∧ wrapInt64 x < 2 ^ 63 := by
  unfold wrapInt64
  omega

/-- The wrap-around of a sum does not depend on a wrap-around of a summand. -/
theorem wrapInt64_add_left (a b : Int) : wrapInt64 (wrapInt64 a + b) = wrapInt64 (a + b) := by
  unfold wrapInt64
  omega

/-- The loop of `countSize`, started at an `int64` value. -/
theorem countSize_loop (paths : List FileInfo) :
    ∀ acc : Int,
      paths.foldl (fun size p => if !p.isDir then wrapInt64 (size + p.size) else size)
          (wrapInt64 acc)
        = wrapInt64 (acc + ((paths.filter (fun p => !p.isDir)).map (fun p => p.size)).sum) := by
  induction paths with
  | nil =>
    intro acc
    simp
  | cons p rest ih =>
    intro acc
    cases hd : p.isDir with
    | true => simpa [hd] using ih acc
    | false =>
      simp only [List.foldl_cons, hd, Bool.not_false, if_true, List.filter_cons, List.map_cons,
        List.sum_cons]
      rw [wrapInt64_add_left, ih (acc + p.size), add_assoc]

/-- `countSize` is the sum of the sizes of the non-directory entries, in
`int64` arithmetic. -/
theorem countSize_eq (paths : List FileInfo) :
    countSize paths
      = wrapInt64 ((paths.filter (fun p => !p.isDir)).map (fun p => p.size)).sum := by
  have h := countSize_loop paths 0
  have h0 : wrapInt64 0 = 0 := by decide
  rw [h0, zero_add] at h
  exact h

end Metrics

section WorkingDirectory

variable {σ τ : Type}

/-- The path `getCleanRepoPath` resolves to in a clean absolute working
directory is clean and absolute. -/
theorem getCleanRepoPath_cleanAbs (cwd p : String) (hcwd : CleanAbs cwd) :
    CleanAbs (getCleanRepoPath cwd p) := by
  unfold getCleanRepoPath
  split
  · rename_i h
    cases hd : p.data with
    | nil => simp [strings.HasPrefix, hd] at h
    | cons c l =>
      have hc : c = '/' := by
        simp only [strings.HasPrefix, hd] at h
        have h2 : '/' = c := by simpa [List.isPrefixOf] using h
        exact h2.symm
      subst hc
      exact clean_rooted p l hd
  · obtain ⟨segs, -, hdata⟩ := hcwd
    have hne : cwd ≠ "" := by
      intro h
      rw [h] at hdata
      simp at hdata
    by_cases hp : p = ""
    · have hj : path.Join [cwd, p] = path.Clean ⟨path.joinSlash [cwd.data]⟩ := by
        simp [path.Join, List.filter, hne, hp]
      rw [hj]
      exact clean_rooted _ (path.joinSlash segs) (by simp [path.joinSlash, hdata])
    · have hj : path.Join [cwd, p] = path.Clean ⟨path.joinSlash [cwd.data, p.data]⟩ := by
        simp [path.Join, List.filter, hne, hp]
      rw [hj]
      exact clean_rooted _ (path.joinSlash segs ++ '/' :: p.data)
        (by simp [path.joinSlash, hdata])

/-- C28. The invariant of `cwd`: it starts as `/`, which is a clean absolute
path, and a `cd` in a clean absolute `cwd` leaves a clean absolute `cwd`: it
either returns no error, after a stat of the resolved path that reported a
directory, and sets `cwd` to `getCleanRepoPath` of its argument; or it returns
the error `invalid directory`, after a stat that failed or reported something
else, and leaves every package variable as it was.  The store is not
changed. -/
theorem cwd_invariant (cli : DavClient σ) (cfg : Config) (args0 : String) (w : World σ τ)
    (hcwd : CleanAbs cfg.cwd) :
    (∀ lcwd, (Config.initial lcwd).cwd = "/" ∧ CleanAbs (Config.initial lcwd).cwd) ∧
    CleanAbs (cdCmd cli cfg args0 w).1.2.cwd ∧
    (((cdCmd cli cfg args0 w).1.1 = none ∧
        (cdCmd cli cfg args0 w).1.2 = { cfg with cwd := getCleanRepoPath cfg.cwd args0 } ∧
        ∃ f, cli.Stat w.remote (getCleanRepoPath cfg.cwd args0) = .ok f ∧ f.isDir = true) ∨
      ((cdCmd cli cfg args0 w).1.1
          = some ("invalid directory: " ++ getCleanRepoPath cfg.cwd args0) ∧
        (cdCmd cli cfg args0 w).1.2 = cfg ∧
        ¬ ∃ f, cli.Stat w.remote (getCleanRepoPath cfg.cwd args0) = .ok f ∧ f.isDir = true)) ∧
    (cdCmd cli cfg args0 w).2.remote = w.remote ∧
    (cdCmd cli cfg args0 w).2.localfs = w.localfs := by
  have hroot : CleanAbs "/" := ⟨[], by simp, rfl⟩
  have hp := getCleanRepoPath_cleanAbs cfg.cwd args0 hcwd
  refine ⟨fun lcwd => ⟨rfl, hroot⟩, ?_⟩
  cases hs : cli.Stat w.remote (getCleanRepoPath cfg.cwd args0) with
  | error e =>
    have hcd : cdCmd cli cfg args0 w
        = ((some ("invalid directory: " ++ getCleanRepoPath cfg.cwd args0), cfg),
            w.emit (.Stat (getCleanRepoPath cfg.cwd args0))) := by
      simp [cdCmd, World.cliStat, hs]
    rw [hcd]
    refine ⟨hcwd, Or.inr ⟨rfl, rfl, ?_⟩, rfl, rfl⟩
    rintro ⟨f, hf, -⟩
    cases hf
  | ok f =>
    cases hd : f.isDir with
    | true =>
      have hcd : cdCmd cli cfg args0 w
          = ((none, { cfg with cwd := getCleanRepoPath cfg.cwd args0 }),
              w.emit (.Stat (getCleanRepoPath cfg.cwd args0))) := by
        simp [cdCmd, World.cliStat, hs, hd]
      rw [hcd]
      exact ⟨hp, Or.inl ⟨rfl, rfl, f, rfl, hd⟩, rfl, rfl⟩
    | false =>
      have hcd : cdCmd cli cfg args0 w
          = ((some ("invalid directory: " ++ getCleanRepoPath cfg.cwd args0), cfg),
              w.emit (.Stat (getCleanRepoPath cfg.cwd args0))) := by
        simp [cdCmd, World.cliStat, hs, hd]
      rw [hcd]
      refine ⟨hcwd, Or.inr ⟨rfl, rfl, ?_⟩, rfl, rfl⟩
      rintro ⟨g, hg, hgd⟩
      cases hg
      rw [hd] at hgd
      cases hgd

/-- The invariant of C28 on a session: from `/`, `cd s` sets `cwd` to `/s`;
then `cd a`, the name of a file, and `cd ../nope` fail and leave `/s`; then
`cd sub/..//` resolves to `/s` again. -/
theorem cwd_invariant_witness :
    CleanAbs (Config.initial "/").cwd ∧
    (cdCmd specStore (Config.initial "/") "s" (World.init fsMove fsLocal none)).1
      = (none, { Config.initial "/" with cwd := "/s" }) ∧
    CleanAbs (cdCmd specStore (Config.initial "/") "s" (World.init fsMove fsLocal none)).1.2.cwd ∧
    (cdCmd specStore { Config.initial "/" with cwd := "/s" } "a"
        (World.init fsMove fsLocal none)).1
      = (some "invalid directory: /s/a", { Config.initial "/" with cwd := "/s" }) ∧
    (cdCmd specStore { Config.initial "/" with cwd := "/s" } "../nope"
        (World.init fsMove fsLocal none)).1
      = (some "invalid directory: /nope", { Config.initial "/" with cwd := "/s" }) ∧
    (cdCmd specStore { Config.initial "/" with cwd := "/s" } "sub/..//"
        (World.init fsMove fsLocal none)).1
      = (none, { Config.initial "/" with cwd := "/s" }) := by
  have hroot : CleanAbs (Config.initial "/").cwd := ⟨[], by simp, rfl⟩
  exact ⟨hroot, by decide,
    (cwd_invariant specStore (Config.initial "/") "s" (World.init fsMove fsLocal none) hroot).2.1,
    by decide, by decide, by decide⟩

end WorkingDirectory

section Closure

variable {σ τ : Type}

/-- A send that returns does not close `ichan`. -/
theorem chanSend_closes (cli : DavClient σ) (os : LocalOS τ) (overwrite errWriterValid : Bool)
    (op : Op) (inputs : opInput) (st st1 : Pool σ τ)
    (h : chanSend cli os overwrite errWriterValid op inputs st = .returned () st1) :
    st1.closes = st.closes := by
  unfold chanSend at h
  split at h
  · simp at h
  · split at h
    · simp at h
    · cases hc : st.world.ctxDone with
      | mk b w1 =>
        simp only [hc] at h
        cases b with
        | true => simp at h
        | false =>
          simp only at h
          split at h
          · simp only [Exec.returned.injEq, true_and] at h
            rw [← h]
          · simp at h
          · simp at h

/-- The loop of `walkLocalDirForPut` does not close `ichan`. -/
theorem walkLocalDirForPutLoop_closes (cli : DavClient σ)
    (send : opInput → Pool σ τ → Exec Unit (Pool σ τ)) (pfinfoLocal pfinfoRepo : pathFileInfo)
    (recur : pathFileInfo → pathFileInfo → Pool σ τ → Exec Unit (Pool σ τ))
    (hsend : ∀ inp st st1, send inp st = .returned () st1 → st1.closes = st.closes)
    (hrecur : ∀ a b st st1, recur a b st = .returned () st1 → st1.closes = st.closes) :
    ∀ (files : List FileInfo) (st st1 : Pool σ τ),
      walkLocalDirForPutLoop cli send pfinfoLocal pfinfoRepo recur files st = .returned () st1 →
      st1.closes = st.closes := by
  intro files
  induction files with
  | nil =>
    intro st st1 h
    simp only [walkLocalDirForPutLoop, Exec.returned.injEq, true_and] at h
    rw [← h]
  | cons finfo rest ih =>
    intro st st1 h
    simp only [walkLocalDirForPutLoop] at h
    cases hc : st.world.ctxDone with
    | mk b w1 =>
      simp only [hc] at h
      cases b with
      | true =>
        simp only [Exec.returned.injEq, true_and] at h
        rw [← h]
      | false =>
        simp only at h
        cases hd : finfo.isDir with
        | true =>
          simp only [hd, if_true] at h
          cases hm : w1.cliMkdir cli (path.Join [pfinfoRepo.path, finfo.name]) finfo.mode with
          | mk e w2 =>
            simp only [hm] at h
            cases e with
            | some e =>
              simp only at h
              have h2 := ih _ _ h
              exact h2
            | none =>
              simp only at h
              cases hr : recur ⟨path.Join [pfinfoLocal.path, finfo.name], some finfo⟩
                  ⟨path.Join [pfinfoRepo.path, finfo.name], none⟩ { st with world := w2 } with
              | returned u st2 =>
                simp only [hr] at h
                have h1 := hrecur _ _ _ _ hr
                have h2 := ih _ _ h
                exact h2.trans h1
              | blocked st2 => simp [hr] at h
              | panic st2 => simp [hr] at h
              | outOfFuel => simp [hr] at h
        | false =>
          simp only [hd, Bool.false_eq_true, if_false] at h
          cases hs : send ⟨⟨path.Join [pfinfoLocal.path, finfo.name], some finfo⟩,
              ⟨path.Join [pfinfoRepo.path, finfo.name], none⟩⟩ { st with world := w1 } with
          | returned u st2 =>
            simp only [hs] at h
            have h1 := hsend _ _ _ hs
            have h2 := ih _ _ h
            exact h2.trans h1
          | blocked st2 => simp [hs] at h
          | panic st2 => simp [hs] at h
          | outOfFuel => simp [hs] at h

/-- The loop of `walkRepoDirForGet` does not close `ichan`. -/
theorem walkRepoDirForGetLoop_closes (os : LocalOS τ)
    (send : opInput → Pool σ τ → Exec Unit (Pool σ τ)) (pfinfoRepo pfinfoLocal : pathFileInfo)
    (recur : pathFileInfo → pathFileInfo → Pool σ τ → Exec Unit (Pool σ τ))
    (hsend : ∀ inp st st1, send inp st = .returned () st1 → st1.closes = st.closes)
    (hrecur : ∀ a b st st1, recur a b st = .returned () st1 → st1.closes = st.closes) :
    ∀ (files : List FileInfo) (st st1 : Pool σ τ),
      walkRepoDirForGetLoop os send pfinfoRepo pfinfoLocal recur files st = .returned () st1 →
      st1.closes = st.closes := by
  intro files
  induction files with
  | nil =>
    intro st st1 h
    simp only [walkRepoDirForGetLoop, Exec.returned.injEq, true_and] at h
    rw [← h]
  | cons finfo rest ih =>
    intro st st1 h
    simp only [walkRepoDirForGetLoop] at h
    cases hc : st.world.ctxDone with
    | mk b w1 =>
      simp only [hc] at h
      cases b with
      | true =>
        simp only [Exec.returned.injEq, true_and] at h
        rw [← h]
      | false =>
        simp only at h
        cases hd : finfo.isDir with
        | true =>
          simp only [hd, if_true] at h
          cases hm : w1.osMkdirAll os (filepath.Join [pfinfoLocal.path, finfo.name])
              finfo.mode with
          | mk e w2 =>
            simp only [hm] at h
            cases e with
            | some e =>
              simp only at h
              have h2 := ih _ _ h
              exact h2
            | none =>
              simp only at h
              cases hr : recur ⟨path.Join [pfinfoRepo.path, finfo.name], some finfo⟩
                  ⟨filepath.Join [pfinfoLocal.path, finfo.name], none⟩
                  { st with world := w2 } with
              | returned u st2 =>
                simp only [hr] at h
                have h1 := hrecur _ _ _ _ hr
                have h2 := ih _ _ h
                exact h2.trans h1
              | blocked st2 => simp [hr] at h
              | panic st2 => simp [hr] at h
              | outOfFuel => simp [hr] at h
        | false =>
          simp only [hd, Bool.false_eq_true, if_false] at h
          cases hs : send ⟨⟨path.Join [pfinfoRepo.path, finfo.name], some finfo⟩,
              ⟨filepath.Join [pfinfoLocal.path, finfo.name], none⟩⟩ { st with world := w1 } with
          | returned u st2 =>
            simp only [hs] at h
            have h1 := hsend _ _ _ hs
            have h2 := ih _ _ h
            exact h2.trans h1
          | blocked st2 => simp [hs] at h
          | panic st2 => simp [hs] at h
          | outOfFuel => simp [hs] at h

/-- When a call of `walkLocalDirForPut` returns, it has closed `ichan` once if
it is a top-level call whose listing succeeded, and not at all otherwise. -/
theorem walkLocalDirForPut_closes (cli : DavClient σ) (os : LocalOS τ)
    (send : opInput → Pool σ τ → Exec Unit (Pool σ τ))
    (hsend : ∀ inp st st1, send inp st = .returned () st1 → st1.closes = st.closes) :
    ∀ (fuel : Nat) (pfinfoLocal pfinfoRepo : pathFileInfo) (closeChanOnComplete : Bool)
      (st st1 : Pool σ τ),
      walkLocalDirForPut cli os send fuel pfinfoLocal pfinfoRepo closeChanOnComplete st
        = .returned () st1 →
      if closeChanOnComplete = true ∧ countFailedListing (os.ReadDir st.world.localfs
          pfinfoLocal.path) = 0 then st.closes = 0 ∧ st1.closes = 1
      else st1.closes = st.closes := by
  intro fuel
  induction fuel with
  | zero =>
    intro l r c st st1 h
    simp [walkLocalDirForPut] at h
  | succ fuel ih =>
    intro l r c st st1 h
    simp only [walkLocalDirForPut, World.osReadDir] at h
    cases hrd : os.ReadDir st.world.localfs l.path with
    | error e =>
      simp only [hrd, Exec.returned.injEq, true_and] at h
      rw [← h]
      simp [countFailedListing]
    | ok files =>
      simp only [hrd] at h
      have hloop := walkLocalDirForPutLoop_closes cli send l r
        (fun a b s0 => walkLocalDirForPut cli os send fuel a b false s0) hsend
        (fun a b s s1 hs => by simpa using ih a b false s s1 hs) files
      split at h
      · rename_i u st2 hl
        have h2 := hloop _ _ hl
        simp only at h2
        cases c with
        | true =>
          simp only [if_true, closeChan] at h
          split at h
          · rename_i h0
            simp only [Exec.returned.injEq, true_and] at h
            rw [← h]
            simp only [countFailedListing, and_self, if_true]
            exact ⟨h2 ▸ h0, trivial⟩
          · simp at h
        | false =>
          simp only [Bool.false_eq_true, if_false, Exec.returned.injEq, true_and] at h
          rw [← h]
          simpa using h2
      · rename_i hne
        cases hl : walkLocalDirForPutLoop cli send l r
            (fun a b s0 => walkLocalDirForPut cli os send fuel a b false s0) files _ with
        | returned u st2 => exact absurd hl (hne u st2)
        | blocked st2 => rw [hl] at h; simp at h
        | panic st2 => rw [hl] at h; simp at h
        | outOfFuel => rw [hl] at h; simp at h

/-- When a call of `walkRepoDirForGet` returns, it has closed `ichan` once if
it is a top-level call whose listing succeeded, and not at all otherwise. -/
theorem walkRepoDirForGet_closes (cli : DavClient σ) (os : LocalOS τ)
    (send : opInput → Pool σ τ → Exec Unit (Pool σ τ))
    (hsend : ∀ inp st st1, send inp st = .returned () st1 → st1.closes = st.closes) :
    ∀ (fuel : Nat) (pfinfoRepo pfinfoLocal : pathFileInfo) (closeChanOnComplete : Bool)
      (st st1 : Pool σ τ),
      walkRepoDirForGet cli os send fuel pfinfoRepo pfinfoLocal closeChanOnComplete st
        = .returned () st1 →
      if closeChanOnComplete = true ∧ countFailedListing (cli.ReadDir st.world.remote
          pfinfoRepo.path) = 0 then st.closes = 0 ∧ st1.closes = 1
      else st1.closes = st.closes := by
  intro fuel
  induction fuel with
  | zero =>
    intro l r c st st1 h
    simp [walkRepoDirForGet] at h
  | succ fuel ih =>
    intro l r c st st1 h
    simp only [walkRepoDirForGet, World.cliReadDir] at h
    cases hrd : cli.ReadDir st.world.remote l.path with
    | error e =>
      simp only [hrd, Exec.returned.injEq, true_and] at h
      rw [← h]
      simp [countFailedListing]
    | ok files =>
      simp only [hrd] at h
      have hloop := walkRepoDirForGetLoop_closes os send l r
        (fun a b s0 => walkRepoDirForGet cli os send fuel a b false s0) hsend
        (fun a b s s1 hs => by simpa using ih a b false s s1 hs) files
      split at h
      · rename_i u st2 hl
        have h2 := hloop _ _ hl
        simp only at h2
        cases c with
        | true =>
          simp only [if_true, closeChan] at h
          split at h
          · rename_i h0
            simp only [Exec.returned.injEq, true_and] at h
            rw [← h]
            simp only [countFailedListing, and_self, if_true]
            exact ⟨h2 ▸ h0, trivial⟩
          · simp at h
        | false =>
          simp only [Bool.false_eq_true, if_false, Exec.returned.injEq, true_and] at h
          rw [← h]
          simpa using h2
      · rename_i hne
        cases hl : walkRepoDirForGetLoop os send l r
            (fun a b s0 => walkRepoDirForGet cli os send fuel a b false s0) files _ with
        | returned u st2 => exact absurd hl (hne u st2)
        | blocked st2 => rw [hl] at h; simp at h
        | panic st2 => rw [hl] at h; simp at h
        | outOfFuel => rw [hl] at h; simp at h

/-- C22, with the case in which it fails. When the listing of the root fails,
the top-level call of `walkLocalDirForPut` or `walkRepoDirForGet` returns
without closing `ichan` and without a task.  In every other case the claim
holds: a top-level call that returns has closed `ichan` exactly once (it was
not closed before and is closed once afterwards), and a nested call that
returns has not closed it. -/
theorem queue_closure (cli : DavClient σ) (os : LocalOS τ) (overwrite errWriterValid : Bool)
    (fuel : Nat) (src dst : pathFileInfo) (st : Pool σ τ) :
    (∀ e, os.ReadDir st.world.localfs src.path = .error e →
      ∃ st1, walkLocalDirForPut cli os (chanSend cli os overwrite errWriterValid .Put) (fuel + 1)
          src dst true st = .returned () st1 ∧
        st1.closes = st.closes ∧ st1.sent = st.sent) ∧
    (∀ e, cli.ReadDir st.world.remote src.path = .error e →
      ∃ st1, walkRepoDirForGet cli os (chanSend cli os overwrite errWriterValid .Get) (fuel + 1)
          src dst true st = .returned () st1 ∧
        st1.closes = st.closes ∧ st1.sent = st.sent) ∧
    (∀ (c : Bool) (st1 : Pool σ τ),
      walkLocalDirForPut cli os (chanSend cli os overwrite errWriterValid .Put) fuel src dst c st
        = .returned () st1 →
      if c = true ∧ countFailedListing (os.ReadDir st.world.localfs src.path) = 0 then
        st.closes = 0 ∧ st1.closes = 1
      else st1.closes = st.closes) ∧
    (∀ (c : Bool) (st1 : Pool σ τ),
      walkRepoDirForGet cli os (chanSend cli os overwrite errWriterValid .Get) fuel src dst c st
        = .returned () st1 →
      if c = true ∧ countFailedListing (cli.ReadDir st.world.remote src.path) = 0 then
        st.closes = 0 ∧ st1.closes = 1
      else st1.closes = st.closes) := by
  refine ⟨fun e he => ?_, fun e he => ?_, fun c st1 h => ?_, fun c st1 h => ?_⟩
  · exact ⟨{ st with world := (st.world.osReadDir os src.path).2 },
      by simp [walkLocalDirForPut, World.osReadDir, he], rfl, rfl⟩
  · exact ⟨{ st with world := (st.world.cliReadDir cli src.path).2 },
      by simp [walkRepoDirForGet, World.cliReadDir, he], rfl, rfl⟩
  · exact walkLocalDirForPut_closes cli os _
      (fun inp s s1 hs => chanSend_closes cli os overwrite errWriterValid .Put inp s s1 hs)
      fuel src dst c st st1 h
  · exact walkRepoDirForGet_closes cli os _
      (fun inp s s1 hs => chanSend_closes cli os overwrite errWriterValid .Get inp s s1 hs)
      fuel src dst c st st1 h

/-- The failure of C22 on a local directory `/src` that cannot be listed: the
walker of `put /src /dst` returns with `ichan` open, and the command, whose
workers wait for the close, never returns; it returns only when the context is
cancelled. -/
theorem queue_closure_witness :
    (unlistableOS "/src").ReadDir fsPutLocal srcPut.path
      = .error "open /src: permission denied" ∧
    (∃ st1, walkLocalDirForPut specStore (unlistableOS "/src")
        (chanSend specStore (unlistableOS "/src") false true .Put) 5 srcPut ⟨"/dst/src", none⟩
        true ⟨World.init fsPutRemote fsPutLocal none, 0, 0, 4, [], 0⟩ = .returned () st1 ∧
      st1.closes = 0 ∧ st1.sent = []) ∧
    (∃ w1, putCmd specStore (unlistableOS "/src") cfgDefault 5 "/src" "/dst"
      (World.init fsPutRemote fsPutLocal none) = .blocked w1) ∧
    (putCmd specStore (unlistableOS "/src") cfgDefault 5 "/src" "/dst"
      (World.init fsPutRemote fsPutLocal (some 7))).result? = some ⟨none, some (0, 0)⟩ := by
  have h := (queue_closure specStore (unlistableOS "/src") false true 4 srcPut
    ⟨"/dst/src", none⟩ ⟨World.init fsPutRemote fsPutLocal none, 0, 0, 4, [], 0⟩).1
    "open /src: permission denied" (by decide)
  have hb : (putCmd specStore (unlistableOS "/src") cfgDefault 5 "/src" "/dst"
      (World.init fsPutRemote fsPutLocal none)).result? = none ∧
      (putCmd specStore (unlistableOS "/src") cfgDefault 5 "/src" "/dst"
      (World.init fsPutRemote fsPutLocal none)).endState?.isSome = true := by decide
  refine ⟨by decide, h, ?_, by decide⟩
  cases hrun : putCmd specStore (unlistableOS "/src") cfgDefault 5 "/src" "/dst"
      (World.init fsPutRemote fsPutLocal none) with
  | returned out w1 =>
    rw [hrun] at hb
    simp [Exec.result?] at hb
  | blocked w1 => exact ⟨w1, rfl⟩
  | panic w1 =>
    rw [hrun] at hb
    simp [Exec.endState?] at hb
  | outOfFuel =>
    rw [hrun] at hb
    simp [Exec.endState?] at hb

end Closure

section ListingErrors

variable {σ τ : Type}

/-- A call of `walkLocalDirForPut` whose listing fails returns at once. -/
theorem walkLocalDirForPut_listing_failed (cli : DavClient σ) (os : LocalOS τ)
    (send : opInput → Pool σ τ → Exec Unit (Pool σ τ)) (fuel : Nat) (l r : pathFileInfo)
    (c : Bool) (st : Pool σ τ) (e : String) (h : os.ReadDir st.world.localfs l.path = .error e) :
    walkLocalDirForPut cli os send (fuel + 1) l r c st
      = .returned () { st with world := (st.world.osReadDir os l.path).2 } := by
  simp [walkLocalDirForPut, World.osReadDir, h]

/-- A call of `walkRepoDirForGet` whose listing fails returns at once. -/
theorem walkRepoDirForGet_listing_failed (cli : DavClient σ) (os : LocalOS τ)
    (send : opInput → Pool σ τ → Exec Unit (Pool σ τ)) (fuel : Nat) (r l : pathFileInfo)
    (c : Bool) (st : Pool σ τ) (e : String) (h : cli.ReadDir st.world.remote r.path = .error e) :
    walkRepoDirForGet cli os send (fuel + 1) r l c st
      = .returned () { st with world := (st.world.cliReadDir cli r.path).2 } := by
  simp [walkRepoDirForGet, World.cliReadDir, h]

/-- A call of `copyOrMoveRepoDir` whose listing fails returns at once, with
the counts `(0, 0)`. -/
theorem copyOrMoveRepoDir_listing_failed (cli : DavClient σ) (overwrite : Bool) (fuel : Nat)
    (op : Op) (src dst : pathFileInfo) (w : World σ τ) (e : String)
    (h : cli.ReadDir w.remote src.path = .error e) :
    copyOrMoveRepoDir cli overwrite (fuel + 1) op src dst w
      = .done (0, 0, some e) (w.cliReadDir cli src.path).2 := by
  simp [copyOrMoveRepoDir, World.cliReadDir, h]

/-- A call of `rmRepoDir` whose listing fails returns at once, with the counts
`(0, 0)`. -/
theorem rmRepoDir_listing_failed (cli : DavClient σ) (fuel : Nat) (repoPath : String)
    (recursive : Bool) (w : World σ τ) (e : String) (habs : path.IsAbs repoPath = true)
    (h : cli.ReadDir w.remote repoPath = .error e) :
    rmRepoDir cli (fuel + 1) repoPath recursive w
      = .done (0, 0, some e) (w.cliReadDir cli repoPath).2 := by
  simp [rmRepoDir, World.cliReadDir, h, habs]

/-- The loop of `walkLocalDirForPut` at a directory entry whose nested call
returns. -/
theorem walkLocalDirForPutLoop_dir (cli : DavClient σ)
    (send : opInput → Pool σ τ → Exec Unit (Pool σ τ)) (l r : pathFileInfo)
    (recur : pathFileInfo → pathFileInfo → Pool σ τ → Exec Unit (Pool σ τ))
    (finfo : FileInfo) (rest : List FileInfo) (st st2 : Pool σ τ) (w1 w2 : World σ τ)
    (hdir : finfo.isDir = true) (hc : st.world.ctxDone = (false, w1))
    (hmk : w1.cliMkdir cli (path.Join [r.path, finfo.name]) finfo.mode = (none, w2))
    (hrec : recur ⟨path.Join [l.path, finfo.name], some finfo⟩
      ⟨path.Join [r.path, finfo.name], none⟩ { st with world := w2 } = .returned () st2) :
    walkLocalDirForPutLoop cli send l r recur (finfo :: rest) st
      = walkLocalDirForPutLoop cli send l r recur rest st2 := by
  simp only [walkLocalDirForPutLoop, hc, hdir, if_true, hmk, hrec]

/-- The loop of `walkRepoDirForGet` at a directory entry whose nested call
returns. -/
theorem walkRepoDirForGetLoop_dir (os : LocalOS τ)
    (send : opInput → Pool σ τ → Exec Unit (Pool σ τ)) (r l : pathFileInfo)
    (recur : pathFileInfo → pathFileInfo → Pool σ τ → Exec Unit (Pool σ τ))
    (finfo : FileInfo) (rest : List FileInfo) (st st2 : Pool σ τ) (w1 w2 : World σ τ)
    (hdir : finfo.isDir = true) (hc : st.world.ctxDone = (false, w1))
    (hmk : w1.osMkdirAll os (filepath.Join [l.path, finfo.name]) finfo.mode = (none, w2))
    (hrec : recur ⟨path.Join [r.path, finfo.name], some finfo⟩
      ⟨filepath.Join [l.path, finfo.name], none⟩ { st with world := w2 } = .returned () st2) :
    walkRepoDirForGetLoop os send r l recur (finfo :: rest) st
      = walkRepoDirForGetLoop os send r l recur rest st2 := by
  simp only [walkRepoDirForGetLoop, hc, hdir, if_true, hmk, hrec]

/-- The loop of `copyOrMoveRepoDir` at a directory entry whose nested call
returns. -/
theorem copyOrMoveLoop_dir (cli : DavClient σ) (overwrite : Bool) (op : Op)
    (src dst : pathFileInfo)
    (recur : pathFileInfo → pathFileInfo → World σ τ → Run (Nat × Nat × GoError) (World σ τ))
    (finfo : FileInfo) (rest : List FileInfo) (c : DirCounts) (w w1 w2 : World σ τ)
    (res : Nat × Nat × GoError)
    (hdir : finfo.isDir = true) (hc : w.ctxDone = (false, w1))
    (hrec : recur ⟨path.Join [src.path, finfo.name], some finfo⟩
      ⟨path.Join [dst.path, path.Base finfo.name], none⟩ w1 = .done res w2) :
    copyOrMoveLoop cli overwrite op src dst recur (finfo :: rest) c w
      = copyOrMoveLoop cli overwrite op src dst recur rest
          { c with cntErr := c.cntErr + res.2.1, cntOk := c.cntOk + res.1 } w2 := by
  simp only [copyOrMoveLoop, hc, hdir, if_true, hrec]

/-- The loop of `rmRepoDir` at a directory entry whose nested call returns. -/
theorem rmLoop_dir (cli : DavClient σ) (repoPath : String)
    (recur : String → World σ τ → Run (Nat × Nat × GoError) (World σ τ))
    (finfo : FileInfo) (rest : List FileInfo) (c : DirCounts) (w w1 w2 : World σ τ)
    (res : Nat × Nat × GoError)
    (hdir : finfo.isDir = true) (hc : w.ctxDone = (false, w1))
    (hrec : recur (path.Join [repoPath, finfo.name]) w1 = .done res w2) :
    rmLoop cli repoPath recur (finfo :: rest) c w
      = rmLoop cli repoPath recur rest
          { c with cntOk := c.cntOk + res.1, cntErr := c.cntErr + res.2.1 } w2 := by
  simp only [rmLoop, hc, hdir, if_true, hrec]

/-- C23. Lenient listing errors: when the walk of a directory reaches, without
the context being cancelled, a sub-directory whose listing fails, it goes on
with the remaining entries in a state in which the counters, the tasks sent,
the progress bar and both stores are what they were (`put`, `get`: after the
creation of the directory at the destination; `cp`, `mv`, `rm -r`: with the
store untouched), the failed listing being the only call of the nested call. -/
theorem lenient_listing_errors (cli : DavClient σ) (os : LocalOS τ) (overwrite : Bool)
    (fuel : Nat) (finfo : FileInfo) (rest : List FileInfo) (hdir : finfo.isDir = true) :
    (∀ (send : opInput → Pool σ τ → Exec Unit (Pool σ τ)) (l r : pathFileInfo) (st : Pool σ τ)
        (e : String),
      st.world.ctxDone.1 = false →
      (cli.Mkdir st.world.remote (path.Join [r.path, finfo.name]) finfo.mode).1 = none →
      os.ReadDir st.world.localfs (path.Join [l.path, finfo.name]) = .error e →
      ∃ w2 : World σ τ,
        walkLocalDirForPutLoop cli send l r
            (fun a b s0 => walkLocalDirForPut cli os send (fuel + 1) a b false s0)
            (finfo :: rest) st
          = walkLocalDirForPutLoop cli send l r
            (fun a b s0 => walkLocalDirForPut cli os send (fuel + 1) a b false s0)
            rest { st with world := w2 } ∧
        w2.pbarMax = st.world.pbarMax ∧ w2.pbarCurrent = st.world.pbarCurrent ∧
        w2.localfs = st.world.localfs ∧
        w2.log = st.world.log ++ [.Mkdir (path.Join [r.path, finfo.name]),
          .osReadDir (path.Join [l.path, finfo.name])]) ∧
    (∀ (send : opInput → Pool σ τ → Exec Unit (Pool σ τ)) (r l : pathFileInfo) (st : Pool σ τ)
        (e : String),
      st.world.ctxDone.1 = false →
      (os.MkdirAll st.world.localfs (filepath.Join [l.path, finfo.name]) finfo.mode).1 = none →
      cli.ReadDir st.world.remote (path.Join [r.path, finfo.name]) = .error e →
      ∃ w2 : World σ τ,
        walkRepoDirForGetLoop os send r l
            (fun a b s0 => walkRepoDirForGet cli os send (fuel + 1) a b false s0)
            (finfo :: rest) st
          = walkRepoDirForGetLoop os send r l
            (fun a b s0 => walkRepoDirForGet cli os send (fuel + 1) a b false s0)
            rest { st with world := w2 } ∧
        w2.pbarMax = st.world.pbarMax ∧ w2.pbarCurrent = st.world.pbarCurrent ∧
        w2.remote = st.world.remote ∧
        w2.log = st.world.log ++ [.osMkdirAll (filepath.Join [l.path, finfo.name]),
          .ReadDir (path.Join [r.path, finfo.name])]) ∧
    (∀ (op : Op) (src dst : pathFileInfo) (c : DirCounts) (w : World σ τ) (e : String),
      w.ctxDone.1 = false →
      cli.ReadDir w.remote (path.Join [src.path, finfo.name]) = .error e →
      ∃ w2 : World σ τ,
        copyOrMoveLoop cli overwrite op src dst
            (fun s d w0 => copyOrMoveRepoDir cli overwrite (fuel + 1) op s d w0)
            (finfo :: rest) c w
          = copyOrMoveLoop cli overwrite op src dst
            (fun s d w0 => copyOrMoveRepoDir cli overwrite (fuel + 1) op s d w0) rest c w2 ∧
        w2.pbarMax = w.pbarMax ∧ w2.pbarCurrent = w.pbarCurrent ∧
        w2.remote = w.remote ∧ w2.localfs = w.localfs ∧
        w2.log = w.log ++ [.ReadDir (path.Join [src.path, finfo.name])]) ∧
    (∀ (repoPath : String) (recursive : Bool) (c : DirCounts) (w : World σ τ) (e : String),
      w.ctxDone.1 = false →
      path.IsAbs (path.Join [repoPath, finfo.name]) = true →
      cli.ReadDir w.remote (path.Join [repoPath, finfo.name]) = .error e →
      ∃ w2 : World σ τ,
        rmLoop cli repoPath (fun p w0 => rmRepoDir cli (fuel + 1) p recursive w0)
            (finfo :: rest) c w
          = rmLoop cli repoPath (fun p w0 => rmRepoDir cli (fuel + 1) p recursive w0) rest c w2 ∧
        w2.pbarMax = w.pbarMax ∧ w2.pbarCurrent = w.pbarCurrent ∧
        w2.remote = w.remote ∧ w2.localfs = w.localfs ∧
        w2.log = w.log ++ [.ReadDir (path.Join [repoPath, finfo.name])]) := by
  refine ⟨?_, ?_, ?_, ?_⟩
  · intro send l r st e hc hmk hrd
    refine ⟨(((st.world.ctxDone.2).cliMkdir cli (path.Join [r.path, finfo.name])
      finfo.mode).2.osReadDir os (path.Join [l.path, finfo.name])).2, ?_, rfl, rfl, rfl, ?_⟩
    · exact walkLocalDirForPutLoop_dir cli send l r _ finfo rest st _ st.world.ctxDone.2
        ((st.world.ctxDone.2).cliMkdir cli (path.Join [r.path, finfo.name]) finfo.mode).2 hdir
        (Prod.ext hc rfl) (Prod.ext hmk rfl)
        (walkLocalDirForPut_listing_failed cli os send fuel _ _ false _ e hrd)
    · simp [World.osReadDir, World.cliMkdir, World.emit, World.ctxDone]
  · intro send r l st e hc hmk hrd
    refine ⟨(((st.world.ctxDone.2).osMkdirAll os (filepath.Join [l.path, finfo.name])
      finfo.mode).2.cliReadDir cli (path.Join [r.path, finfo.name])).2, ?_, rfl, rfl, rfl, ?_⟩
    · exact walkRepoDirForGetLoop_dir os send r l _ finfo rest st _ st.world.ctxDone.2
        ((st.world.ctxDone.2).osMkdirAll os (filepath.Join [l.path, finfo.name]) finfo.mode).2
        hdir (Prod.ext hc rfl) (Prod.ext hmk rfl)
        (walkRepoDirForGet_listing_failed cli os send fuel _ _ false _ e hrd)
    · simp [World.osMkdirAll, World.cliReadDir, World.emit, World.ctxDone]
  · intro op src dst c w e hc hrd
    refine ⟨((w.ctxDone.2).cliReadDir cli (path.Join [src.path, finfo.name])).2, ?_, rfl, rfl,
      rfl, rfl, rfl⟩
    exact copyOrMoveLoop_dir cli overwrite op src dst
      (fun s d w0 => copyOrMoveRepoDir cli overwrite (fuel + 1) op s d w0) finfo rest c w
      w.ctxDone.2 _ _ hdir (Prod.ext hc rfl)
      (copyOrMoveRepoDir_listing_failed cli overwrite fuel op _ _ w.ctxDone.2 e hrd)
  · intro repoPath recursive c w e hc habs hrd
    refine ⟨((w.ctxDone.2).cliReadDir cli (path.Join [repoPath, finfo.name])).2, ?_, rfl, rfl,
      rfl, rfl, rfl⟩
    exact rmLoop_dir cli repoPath (fun p w0 => rmRepoDir cli (fuel + 1) p recursive w0) finfo
      rest c w w.ctxDone.2 _ _ hdir (Prod.ext hc rfl)
      (rmRepoDir_listing_failed cli fuel _ recursive w.ctxDone.2 e habs hrd)

/-- The leniency of C23 on a copy of `/s` whose sub-directory `/s/sub` cannot
be listed: the walk goes on after the failed listing with the counters and the
progress maximum unchanged, and the command copies the file `a` and reports
`(1, 0)`. -/
theorem lenient_listing_errors_witness :
    (World.init { fsMove with denied := ["/s/sub"] } fsLocal none : World SpecFS SpecFS).ctxDone.1
      = false ∧
    specStore.ReadDir { fsMove with denied := ["/s/sub"] } (path.Join ["/s", "sub"])
      = .error "403 Forbidden - PROPFIND /s/sub" ∧
    (∃ w2 : World SpecFS SpecFS,
      copyOrMoveLoop specStore false .Copy srcS ⟨"/d", none⟩
          (fun s d w0 => copyOrMoveRepoDir specStore false 5 .Copy s d w0)
          [⟨"sub", 0, true, 493⟩, ⟨"a", 3, false, 420⟩] ⟨0, 0, 0, 0⟩
          (World.init { fsMove with denied := ["/s/sub"] } fsLocal none)
        = copyOrMoveLoop specStore false .Copy srcS ⟨"/d", none⟩
          (fun s d w0 => copyOrMoveRepoDir specStore false 5 .Copy s d w0)
          [⟨"a", 3, false, 420⟩] ⟨0, 0, 0, 0⟩ w2 ∧
      w2.pbarMax = 1 ∧ w2.log = [.ReadDir "/s/sub"]) ∧
    (cpCmd specStore cfgDefault 5 "/s/" "/d"
      (World.init { fsMove with denied := ["/s/sub"] } fsLocal none)).result?
      = some ⟨none, some (1, 0)⟩ := by
  obtain ⟨w2, h1, h2, -, -, -, h3⟩ :=
    (lenient_listing_errors specStore posixOS false 4 ⟨"sub", 0, true, 493⟩
      [⟨"a", 3, false, 420⟩] rfl).2.2.1 .Copy srcS ⟨"/d", none⟩ ⟨0, 0, 0, 0⟩
      (World.init { fsMove with denied := ["/s/sub"] } fsLocal none)
      "403 Forbidden - PROPFIND /s/sub" (by decide) (by decide)
  exact ⟨by decide, by decide, ⟨w2, h1, h2, h3⟩, by decide⟩

end ListingErrors

section Frames

variable {σ τ : Type}

/-- `putRepoFile` changes the repository and the log only. -/
theorem putRepoFile_frame (cli : DavClient σ) (os : LocalOS τ) (overwrite : Bool)
    (src dst : pathFileInfo) (showProgress : Bool) (w w1 : World σ τ) (err : GoError)
    (h : putRepoFile cli os overwrite src dst showProgress w = .done err w1) :
    w1 = { w with remote := w1.remote, log := w1.log } := by
  unfold putRepoFile at h
  simp only [World.cliStat, World.osOpen, World.cliWriteStream, World.emit] at h
  cases overwrite <;> simp only [Bool.not_false, Bool.not_true, if_true, Bool.false_eq_true,
    if_false] at h
  all_goals repeat' (split at h)
  all_goals first
    | (simp at h; done)
    | (simp only [Run.done.injEq, Prod.mk.injEq] at *
       casesm* _ ∧ _
       subst_vars
       rfl)

/-- `multiWriterWrite` changes the local file system and the log only. -/
theorem multiWriterWrite_frame (os : LocalOS τ) (localPath : String) (offset : Nat) (b : Bytes)
    (w : World σ τ) :
    (multiWriterWrite os localPath offset b w).2
      = { w with localfs := (multiWriterWrite os localPath offset b w).2.localfs,
                 log := (multiWriterWrite os localPath offset b w).2.log } := by
  unfold multiWriterWrite World.osWrite
  cases h : os.Write w.localfs localPath offset b with
  | mk a t =>
    cases a with
    | mk n err =>
      cases err with
      | some e => rfl
      | none =>
        by_cases hn : n = b.length
        · simp [hn, World.emit]
        · simp [hn, World.emit]

/-- `getRepoFileLoop` changes the local file system and the log only. -/
theorem getRepoFileLoop_frame (os : LocalOS τ) (repoPath localPath : String) (reader : Reader) :
    ∀ (offset : Nat) (w : World σ τ),
      (getRepoFileLoop os repoPath localPath reader offset w).2
        = { w with localfs := (getRepoFileLoop os repoPath localPath reader offset w).2.localfs,
                   log := (getRepoFileLoop os repoPath localPath reader offset w).2.log } := by
  induction reader with
  | nil =>
    intro offset w
    have hm := multiWriterWrite_frame os localPath offset [] w
    simp only [getRepoFileLoop]
    generalize multiWriterWrite os localPath offset [] w = m at hm
    obtain ⟨⟨wlen, werr⟩, w1⟩ := m
    simp only at hm ⊢
    split
    · rw [hm]
    · rw [hm]
  | cons r rest ih =>
    intro offset w
    have hm := multiWriterWrite_frame os localPath offset r.data w
    simp only [getRepoFileLoop]
    generalize multiWriterWrite os localPath offset r.data w = m at hm
    obtain ⟨⟨wlen, werr⟩, w1⟩ := m
    simp only at hm
    split
    · rfl
    · simp only
      split
      · rw [hm]
      · split
        · rw [hm]
        · have h2 := ih (offset + wlen) w1
          rw [h2, hm]

/-- `getRepoFile` changes the local file system and the log only. -/
theorem getRepoFile_frame (cli : DavClient σ) (os : LocalOS τ) (overwrite : Bool)
    (src dst : pathFileInfo) (showProgress : Bool) (w w1 : World σ τ) (err : GoError)
    (h : getRepoFile cli os overwrite src dst showProgress w = .done err w1) :
    w1 = { w with localfs := w1.localfs, log := w1.log } := by
  unfold getRepoFile at h
  simp only [World.osStat, World.osOpenFile, World.cliReadStream, World.emit] at h
  cases overwrite <;> simp only [Bool.not_false, Bool.not_true, if_true, Bool.false_eq_true,
    if_false] at h
  all_goals repeat' (split at h)
  all_goals first
    | (simp at h; done)
    | (simp only [Run.done.injEq, Prod.mk.injEq] at *
       casesm* _ ∧ _
       subst_vars
       first
         | rfl
         | (rw [getRepoFileLoop_frame]))

/-- A task of `Put` that completes had a source with its `FileInfo`; it
changes the repository, the log and the error sink, and advances the progress
by the size of the source. -/
theorem runOpTask_put_frame (cli : DavClient σ) (os : LocalOS τ) (overwrite errWriterValid : Bool)
    (inputs : opInput) (cnt cnt1 : Nat × Nat) (w w1 : World σ τ)
    (h : runOpTask cli os overwrite errWriterValid .Put inputs cnt w = .done cnt1 w1) :
    ∃ info, inputs.src.info = some info ∧
      w1 = { w with remote := w1.remote, log := w1.log, errSink := w1.errSink,
                    pbarCurrent := w.pbarCurrent + info.size } := by
  simp only [runOpTask] at h
  split at h
  · rename_i err w0 hput
    have hw0 := putRepoFile_frame cli os overwrite _ _ _ _ _ _ hput
    split at h
    · simp at h
    · rename_i info hinfo
      refine ⟨info, hinfo, ?_⟩
      cases err with
      | some msg =>
        simp only [Run.done.injEq] at h
        obtain ⟨-, rfl⟩ := h
        rw [hw0]
        cases errWriterValid <;> rfl
      | none =>
        simp only [Run.done.injEq] at h
        obtain ⟨-, rfl⟩ := h
        rw [hw0]
        rfl
  · simp at h
  · simp at h

/-- A task of `Get` that completes had a source with its `FileInfo`; it
changes the local file system, the log and the error sink, and advances the
progress by the size of the source. -/
theorem runOpTask_get_frame (cli : DavClient σ) (os : LocalOS τ) (overwrite errWriterValid : Bool)
    (inputs : opInput) (cnt cnt1 : Nat × Nat) (w w1 : World σ τ)
    (h : runOpTask cli os overwrite errWriterValid .Get inputs cnt w = .done cnt1 w1) :
    ∃ info, inputs.src.info = some info ∧
      w1 = { w with localfs := w1.localfs, log := w1.log, errSink := w1.errSink,
                    pbarCurrent := w.pbarCurrent + info.size } := by
  simp only [runOpTask] at h
  split at h
  · rename_i err w0 hget
    have hw0 := getRepoFile_frame cli os overwrite _ _ _ _ _ _ hget
    split at h
    · simp at h
    · rename_i info hinfo
      refine ⟨info, hinfo, ?_⟩
      cases err with
      | some msg =>
        simp only [Run.done.injEq] at h
        obtain ⟨-, rfl⟩ := h
        rw [hw0]
        cases errWriterValid <;> rfl
      | none =>
        simp only [Run.done.injEq] at h
        obtain ⟨-, rfl⟩ := h
        rw [hw0]
        rfl
  · simp at h
  · simp at h

/-- A poll of a context that is not cancelled. -/
theorem ctxDone_of_not_cancelled (w : World σ τ) (h : w.cancelAt = none) :
    w.ctxDone = (false, { w with polls := w.polls + 1 }) := by
  simp [World.ctxDone, h]

/-- Two steps in a row: the sizes add up, and the tasks are those of the first
step followed by those of the second. -/
theorem Walked.trans {α : Type} (listed : World σ τ → α) (s s1 s2 : Int)
    (t t1 t2 : Option (List opInput)) (st st2 : Pool σ τ) (e : Exec Unit (Pool σ τ))
    (h1 : Walked listed s1 t1 st (.returned () st2)) (h2 : Walked listed s2 t2 st2 e)
    (hs : s = s1 + s2) (ht : ∀ a b, t1 = some a → t2 = some b → t = some (a ++ b)) :
    Walked listed s t st e := by
  cases e with
  | blocked st1 => exact h2
  | panic st1 => trivial
  | outOfFuel => trivial
  | returned u st1 =>
    obtain ⟨a1, a2, a3, a4, a5, a6, a7⟩ := h1
    obtain ⟨b1, b2, b3, b4, b5, b6, b7⟩ := h2
    refine ⟨b1.trans a1, b2.trans a2, b3, b4.trans a4, a5.trans b5, ?_, ?_⟩
    · subst hs
      omega
    · intro hf
      obtain ⟨ts1, hts1, hsent1⟩ := a7 (by omega)
      obtain ⟨ts2, hts2, hsent2⟩ := b7 (by omega)
      exact ⟨ts1 ++ ts2, ht ts1 ts2 hts1 hts2, by rw [hsent2, hsent1, List.append_assoc]⟩

/-- A send of a task of `Put` in a ready pool. -/
theorem chanSend_put_walked (cli : DavClient σ) (os : LocalOS τ) (overwrite errWriterValid : Bool)
    (inputs : opInput) (info : FileInfo) (st : Pool σ τ) (hinfo : inputs.src.info = some info)
    (hr : st.Ready) :
    Walked (fun w => w.localfs) info.size (some [inputs]) st
      (chanSend cli os overwrite errWriterValid .Put inputs st) := by
  obtain ⟨hc, ha, hcl⟩ := hr
  unfold chanSend
  rw [if_neg (by omega), if_neg (by omega), ctxDone_of_not_cancelled _ hc]
  simp only
  cases ht : runOpTask cli os overwrite errWriterValid .Put inputs (st.cntOk, st.cntErr)
      { st.world with polls := st.world.polls + 1 } with
  | done cnt w2 =>
    obtain ⟨info1, hinfo1, hw2⟩ := runOpTask_put_frame cli os overwrite errWriterValid _ _ _ _ _ ht
    rw [hinfo] at hinfo1
    cases hinfo1
    refine ⟨rfl, rfl, ?_, ?_, ?_, ?_, fun _ => ⟨[inputs], rfl, rfl⟩⟩
    · show w2.cancelAt = none
      rw [hw2]
      exact hc
    · show w2.localfs = st.world.localfs
      rw [hw2]
    · show st.world.faults ≤ w2.faults
      rw [hw2]
    · show (w2.pbarMax - w2.pbarCurrent + info.size) % 2 ^ 64
        = (st.world.pbarMax - st.world.pbarCurrent) % 2 ^ 64
      rw [hw2]
      simp only
      congr 1
      omega
  | panic w2 => trivial
  | outOfFuel => trivial

/-- A send of a task of `Get` in a ready pool. -/
theorem chanSend_get_walked (cli : DavClient σ) (os : LocalOS τ) (overwrite errWriterValid : Bool)
    (inputs : opInput) (info : FileInfo) (st : Pool σ τ) (hinfo : inputs.src.info = some info)
    (hr : st.Ready) :
    Walked (fun w => w.remote) info.size (some [inputs]) st
      (chanSend cli os overwrite errWriterValid .Get inputs st) := by
  obtain ⟨hc, ha, hcl⟩ := hr
  unfold chanSend
  rw [if_neg (by omega), if_neg (by omega), ctxDone_of_not_cancelled _ hc]
  simp only
  cases ht : runOpTask cli os overwrite errWriterValid .Get inputs (st.cntOk, st.cntErr)
      { st.world with polls := st.world.polls + 1 } with
  | done cnt w2 =>
    obtain ⟨info1, hinfo1, hw2⟩ := runOpTask_get_frame cli os overwrite errWriterValid _ _ _ _ _ ht
    rw [hinfo] at hinfo1
    cases hinfo1
    refine ⟨rfl, rfl, ?_, ?_, ?_, ?_, fun _ => ⟨[inputs], rfl, rfl⟩⟩
    · show w2.cancelAt = none
      rw [hw2]
      exact hc
    · show w2.remote = st.world.remote
      rw [hw2]
    · show st.world.faults ≤ w2.faults
      rw [hw2]
    · show (w2.pbarMax - w2.pbarCurrent + info.size) % 2 ^ 64
        = (st.world.pbarMax - st.world.pbarCurrent) % 2 ^ 64
      rw [hw2]
      simp only
      congr 1
      omega
  | panic w2 => trivial
  | outOfFuel => trivial

end Frames

section Walks

variable {σ τ : Type}

/-- The size of a listing, entry by entry. -/
theorem totalSize_cons (f : FileInfo) (rest : List FileInfo) :
    totalSize (f :: rest) = (if f.isDir then 0 else f.size) + totalSize rest := by
  cases hd : f.isDir <;> simp [totalSize, List.filter, hd]

/-- The task of an entry below a sub-directory is its task in the walk of the
sub-directory. -/
theorem taskOf_cons (join : List String → String) (srcRoot dstRoot n : String)
    (e : List String × FileInfo) :
    taskOf join srcRoot dstRoot (n :: e.1, e.2)
      = taskOf join (path.Join [srcRoot, n]) (join [dstRoot, n]) e := rfl

/-- The loop of `walkLocalDirForPut` in a ready pool, given what the sends and
the nested calls do. -/
theorem walkLocalDirForPutLoop_walked (cli : DavClient σ)
    (send : opInput → Pool σ τ → Exec Unit (Pool σ τ))
    (sub : String → Option (List (List String × FileInfo))) (l r : pathFileInfo)
    (recur : pathFileInfo → pathFileInfo → Pool σ τ → Exec Unit (Pool σ τ)) (fs0 : τ)
    (hsend : ∀ inp info st, inp.src.info = some info → st.Ready →
      Walked (fun w => w.localfs) info.size (some [inp]) st (send inp st))
    (hrecur : ∀ a b st, st.Ready → st.world.localfs = fs0 →
      Walked (fun w => w.localfs) 0
        ((sub a.path).map (List.map (taskOf path.Join a.path b.path))) st (recur a b st)) :
    ∀ (files : List FileInfo) (st : Pool σ τ), st.Ready → st.world.localfs = fs0 →
      Walked (fun w => w.localfs) (totalSize files)
        ((treeFilesLoop sub l.path files).map (List.map (taskOf path.Join l.path r.path))) st
        (walkLocalDirForPutLoop cli send l r recur files st) := by
  intro files
  induction files with
  | nil =>
    intro st hr hfs
    exact ⟨rfl, rfl, hr.1, rfl, le_refl _, by simp [totalSize], fun _ => ⟨[], rfl, by simp⟩⟩
  | cons finfo rest ih =>
    intro st hr hfs
    obtain ⟨hc, ha, hcl⟩ := hr
    simp only [walkLocalDirForPutLoop, ctxDone_of_not_cancelled _ hc]
    cases hd : finfo.isDir with
    | true =>
      simp only [if_true]
      cases hm : World.cliMkdir cli { st.world with polls := st.world.polls + 1 }
          (path.Join [r.path, finfo.name]) finfo.mode with
      | mk e w2 =>
        have hw2 : w2 =
            { st.world with
              polls := st.world.polls + 1, remote := w2.remote, log := w2.log,
              faults := st.world.faults + countFailed e } := by
          simp only [World.cliMkdir, Prod.mk.injEq] at hm
          obtain ⟨rfl, rfl⟩ := hm
          rfl
        cases e with
        | some e =>
          simp only
          have hstep : Walked (fun w : World σ τ => w.localfs) 0 none st
              (.returned () { st with world := w2 }) := by
            refine ⟨rfl, rfl, ?_, ?_, ?_, ?_, ?_⟩
            · show w2.cancelAt = none
              rw [hw2]; exact hc
            · show w2.localfs = st.world.localfs
              rw [hw2]
            · show st.world.faults ≤ w2.faults
              rw [hw2]; simp
            · show (w2.pbarMax - w2.pbarCurrent + 0) % 2 ^ 64 = _
              rw [hw2]; simp
            · intro hf
              have : w2.faults = st.world.faults + 1 := by rw [hw2]; rfl
              have hf2 : w2.faults = st.world.faults := hf
              omega
          have hr2 : Pool.Ready { st with world := w2 } := by
            refine ⟨?_, ha, hcl⟩
            show w2.cancelAt = none
            rw [hw2]; exact hc
          have hfs2 : ({ st with world := w2 } : Pool σ τ).world.localfs = fs0 := by
            show w2.localfs = fs0
            rw [hw2]; exact hfs
          refine Walked.trans _ _ 0 (totalSize rest) _ none _ st _ _ hstep (ih _ hr2 hfs2) ?_ ?_
          · rw [totalSize_cons, hd]; simp
          · intro a b h1
            cases h1
        | none =>
          simp only
          have hstep : Walked (fun w : World σ τ => w.localfs) 0 (some []) st
              (.returned () { st with world := w2 }) := by
            refine ⟨rfl, rfl, ?_, ?_, ?_, ?_, fun _ => ⟨[], rfl, by simp⟩⟩
            · show w2.cancelAt = none
              rw [hw2]; exact hc
            · show w2.localfs = st.world.localfs
              rw [hw2]
            · show st.world.faults ≤ w2.faults
              rw [hw2]; simp
            · show (w2.pbarMax - w2.pbarCurrent + 0) % 2 ^ 64 = _
              rw [hw2]; simp
          have hr2 : Pool.Ready { st with world := w2 } := by
            refine ⟨?_, ha, hcl⟩
            show w2.cancelAt = none
            rw [hw2]; exact hc
          have hfs2 : ({ st with world := w2 } : Pool σ τ).world.localfs = fs0 := by
            show w2.localfs = fs0
            rw [hw2]; exact hfs
          have hrec := hrecur ⟨path.Join [l.path, finfo.name], some finfo⟩
            ⟨path.Join [r.path, finfo.name], none⟩ _ hr2 hfs2
          cases hrun : recur ⟨path.Join [l.path, finfo.name], some finfo⟩
              ⟨path.Join [r.path, finfo.name], none⟩ { st with world := w2 } with
          | blocked st3 =>
            rw [hrun] at hrec
            exact hrec.elim
          | panic st3 => trivial
          | outOfFuel => trivial
          | returned u st3 =>
            rw [hrun] at hrec
            simp only
            have hr3 : st3.Ready := ⟨hrec.2.2.1, by rw [hrec.1]; exact ha, by rw [hrec.2.1]; exact hcl⟩
            have hfs3 : st3.world.localfs = fs0 := hrec.2.2.2.1.trans hfs2
            have h12 := Walked.trans (fun w : World σ τ => w.localfs) 0 0 0
              ((sub (path.Join [l.path, finfo.name])).map
                (List.map (taskOf path.Join (path.Join [l.path, finfo.name])
                  (path.Join [r.path, finfo.name]))))
              (some []) _ st _ _ hstep hrec (by simp)
              (fun a b h1 h2 => by cases h1; rw [h2]; simp)
            refine Walked.trans _ _ 0 (totalSize rest) _ _ _ st st3 _ h12 (ih _ hr3 hfs3) ?_ ?_
            · rw [totalSize_cons, hd]; simp
            · intro a b h1 h2
              simp only [treeFilesLoop, hd, if_true]
              cases hsub : sub (path.Join [l.path, finfo.name]) with
              | none => simp [hsub] at h1
              | some es =>
                cases hrest : treeFilesLoop sub l.path rest with
                | none => simp [hrest] at h2
                | some es2 =>
                  simp only [hsub, Option.map_some', Option.some.injEq] at h1
                  simp only [hrest, Option.map_some', Option.some.injEq] at h2
                  subst h1 h2
                  simp only [Option.map_some', List.map_append, List.map_map, Option.some.injEq]
                  congr 1
    | false =>
      simp only [Bool.false_eq_true, if_false]
      have hr1 : Pool.Ready { st with world := { st.world with polls := st.world.polls + 1 } } :=
        ⟨hc, ha, hcl⟩
      have hsnd := hsend ⟨⟨path.Join [l.path, finfo.name], some finfo⟩,
        ⟨path.Join [r.path, finfo.name], none⟩⟩ finfo
        { st with world := { st.world with polls := st.world.polls + 1 } } rfl hr1
      cases hrun : send ⟨⟨path.Join [l.path, finfo.name], some finfo⟩,
          ⟨path.Join [r.path, finfo.name], none⟩⟩
          { st with world := { st.world with polls := st.world.polls + 1 } } with
      | blocked st3 =>
        rw [hrun] at hsnd
        exact hsnd.elim
      | panic st3 => trivial
      | outOfFuel => trivial
      | returned u st3 =>
        rw [hrun] at hsnd
        simp only
        have hr3 : st3.Ready := ⟨hsnd.2.2.1, by rw [hsnd.1]; exact ha, by rw [hsnd.2.1]; exact hcl⟩
        have hfs3 : st3.world.localfs = fs0 := hsnd.2.2.2.1.trans hfs
        have h1 : Walked (fun w : World σ τ => w.localfs) finfo.size
            (some [⟨⟨path.Join [l.path, finfo.name], some finfo⟩,
              ⟨path.Join [r.path, finfo.name], none⟩⟩]) st (.returned () st3) := hsnd
        refine Walked.trans _ _ finfo.size (totalSize rest) _ _ _ st st3 _ h1 (ih _ hr3 hfs3)
          ?_ ?_
        · rw [totalSize_cons, hd]; simp
        · intro a b h1 h2
          simp only [treeFilesLoop, hd, Bool.false_eq_true, if_false]
          cases hrest : treeFilesLoop sub l.path rest with
          | none => simp [hrest] at h2
          | some es2 =>
            simp only [hrest, Option.map_some', Option.some.injEq] at h2
            cases h1
            subst h2
            rfl

/-- The result of a nested call is the result of its loop. -/
theorem exec_match_id (e : Exec Unit (Pool σ τ)) :
    (match e with
      | .returned _ st1 => if false = true then closeChan st1 else Exec.returned () st1
      | other => other) = e := by
  cases e <;> rfl

/-- What a local listing changes in the world. -/
theorem osReadDir_frame (os : LocalOS τ) (w : World σ τ) (p : String) :
    (w.osReadDir os p).1 = os.ReadDir w.localfs p ∧
    (w.osReadDir os p).2.localfs = w.localfs ∧
    (w.osReadDir os p).2.remote = w.remote ∧
    (w.osReadDir os p).2.cancelAt = w.cancelAt ∧
    (w.osReadDir os p).2.pbarMax = w.pbarMax ∧
    (w.osReadDir os p).2.pbarCurrent = w.pbarCurrent ∧
    (w.osReadDir os p).2.faults = w.faults + countFailedListing (os.ReadDir w.localfs p) :=
  ⟨rfl, rfl, rfl, rfl, rfl, rfl, rfl⟩

/-- What a listing of the repository changes in the world. -/
theorem cliReadDir_frame (cli : DavClient σ) (w : World σ τ) (p : String) :
    (w.cliReadDir cli p).1 = cli.ReadDir w.remote p ∧
    (w.cliReadDir cli p).2.localfs = w.localfs ∧
    (w.cliReadDir cli p).2.remote = w.remote ∧
    (w.cliReadDir cli p).2.cancelAt = w.cancelAt ∧
    (w.cliReadDir cli p).2.pbarMax = w.pbarMax ∧
    (w.cliReadDir cli p).2.pbarCurrent = w.pbarCurrent ∧
    (w.cliReadDir cli p).2.faults = w.faults + countFailedListing (cli.ReadDir w.remote p) :=
  ⟨rfl, rfl, rfl, rfl, rfl, rfl, rfl⟩

/-- A nested call of `walkLocalDirForPut` in a ready pool: it leaves the
progress maximum as far from the progress as it was, and the tasks it sends
are those of the tree below its directory. -/
theorem walkLocalDirForPut_walked (cli : DavClient σ) (os : LocalOS τ)
    (send : opInput → Pool σ τ → Exec Unit (Pool σ τ)) (fs0 : τ)
    (hsend : ∀ inp info st, inp.src.info = some info → st.Ready →
      Walked (fun w => w.localfs) info.size (some [inp]) st (send inp st)) :
    ∀ (fuel : Nat) (l r : pathFileInfo) (st : Pool σ τ), st.Ready → st.world.localfs = fs0 →
      Walked (fun w => w.localfs) 0
        ((treeFiles (os.ReadDir fs0) fuel l.path).map
          (List.map (taskOf path.Join l.path r.path))) st
        (walkLocalDirForPut cli os send fuel l r false st) := by
  intro fuel
  induction fuel with
  | zero =>
    intro l r st hr hfs
    simp only [walkLocalDirForPut]
    trivial
  | succ fuel ih =>
    intro l r st hr hfs
    obtain ⟨hc, ha, hcl⟩ := hr
    simp only [walkLocalDirForPut, treeFiles]
    have hfr := osReadDir_frame os st.world l.path
    cases hrd : st.world.osReadDir os l.path with
    | mk res w1 =>
      rw [hrd] at hfr
      simp only [hfs] at hfr
      obtain ⟨hres, hl, -, hca, hm, hcu, hfa⟩ := hfr
      rw [← hres] at hfa ⊢
      clear hres hrd
      cases res with
      | error e =>
        simp only
        refine ⟨rfl, rfl, hca.trans hc, hl.trans hfs.symm, ?_, ?_, ?_⟩
        · show st.world.faults ≤ w1.faults
          omega
        · show (w1.pbarMax - w1.pbarCurrent + 0) % 2 ^ 64 = _
          rw [hm, hcu]
          simp
        · intro hf
          have hf2 : w1.faults = st.world.faults := hf
          clear hf
          simp [countFailedListing] at hfa
          omega
      | ok files =>
        simp only
        have hsize : countSize files = wrapInt64 (totalSize files) := countSize_eq files
        have hstep : Walked (fun w : World σ τ => w.localfs) (- totalSize files) (some []) st
            (.returned ()
              { st with world := w1.pbarChangeMax64 (wrapInt64 (w1.pbarMax + countSize files)) }) := by
          refine ⟨rfl, rfl, hca.trans hc, hl.trans hfs.symm, ?_, ?_, fun _ => ⟨[], rfl, by simp⟩⟩
          · show st.world.faults ≤ w1.faults
            omega
          · show (wrapInt64 (w1.pbarMax + countSize files) - w1.pbarCurrent
              + - totalSize files) % 2 ^ 64 = (st.world.pbarMax - st.world.pbarCurrent) % 2 ^ 64
            rw [hsize, hm, hcu]
            unfold wrapInt64
            omega
        have hloop := walkLocalDirForPutLoop_walked cli send (treeFiles (os.ReadDir fs0) fuel) l r
          (fun a b s0 => walkLocalDirForPut cli os send fuel a b false s0) fs0 hsend
          (fun a b s hs hf => ih a b s hs hf) files
          { st with world := w1.pbarChangeMax64 (wrapInt64 (w1.pbarMax + countSize files)) }
          ⟨hca.trans hc, ha, hcl⟩ hl
        revert hloop
        generalize walkLocalDirForPutLoop cli send l r _ files _ = e
        intro hloop
        have htr := Walked.trans _ 0 (- totalSize files) (totalSize files)
          ((treeFilesLoop (treeFiles (os.ReadDir fs0) fuel) l.path files).map
            (List.map (taskOf path.Join l.path r.path))) (some []) _ st _ e hstep
          hloop (by omega) (by
            intro a b h1 h2
            cases h1
            rw [h2]
            rfl)
        cases e <;> exact htr

end Walks

section WalksGet

variable {σ τ : Type}

/-- The loop of `walkRepoDirForGet` in a ready pool, given what the sends and
the nested calls do. -/
theorem walkRepoDirForGetLoop_walked (os : LocalOS τ)
    (send : opInput → Pool σ τ → Exec Unit (Pool σ τ))
    (sub : String → Option (List (List String × FileInfo))) (l r : pathFileInfo)
    (recur : pathFileInfo → pathFileInfo → Pool σ τ → Exec Unit (Pool σ τ)) (fs0 : σ)
    (hsend : ∀ inp info st, inp.src.info = some info → st.Ready →
      Walked (fun w => w.remote) info.size (some [inp]) st (send inp st))
    (hrecur : ∀ a b st, st.Ready → st.world.remote = fs0 →
      Walked (fun w => w.remote) 0
        ((sub a.path).map (List.map (taskOf filepath.Join a.path b.path))) st (recur a b st)) :
    ∀ (files : List FileInfo) (st : Pool σ τ), st.Ready → st.world.remote = fs0 →
      Walked (fun w => w.remote) (totalSize files)
        ((treeFilesLoop sub l.path files).map (List.map (taskOf filepath.Join l.path r.path))) st
        (walkRepoDirForGetLoop os send l r recur files st) := by
  intro files
  induction files with
  | nil =>
    intro st hr hfs
    exact ⟨rfl, rfl, hr.1, rfl, le_refl _, by simp [totalSize], fun _ => ⟨[], rfl, by simp⟩⟩
  | cons finfo rest ih =>
    intro st hr hfs
    obtain ⟨hc, ha, hcl⟩ := hr
    simp only [walkRepoDirForGetLoop, ctxDone_of_not_cancelled _ hc]
    cases hd : finfo.isDir with
    | true =>
      simp only [if_true]
      cases hm : World.osMkdirAll os { st.world with polls := st.world.polls + 1 }
          (filepath.Join [r.path, finfo.name]) finfo.mode with
      | mk e w2 =>
        have hw2 : w2 =
            { st.world with
              polls := st.world.polls + 1, localfs := w2.localfs, log := w2.log,
              faults := st.world.faults + countFailed e } := by
          simp only [World.osMkdirAll, Prod.mk.injEq] at hm
          obtain ⟨rfl, rfl⟩ := hm
          rfl
        cases e with
        | some e =>
          simp only
          have hstep : Walked (fun w : World σ τ => w.remote) 0 none st
              (.returned () { st with world := w2 }) := by
            refine ⟨rfl, rfl, ?_, ?_, ?_, ?_, ?_⟩
            · show w2.cancelAt = none
              rw [hw2]; exact hc
            · show w2.remote = st.world.remote
              rw [hw2]
            · show st.world.faults ≤ w2.faults
              rw [hw2]; simp
            · show (w2.pbarMax - w2.pbarCurrent + 0) % 2 ^ 64 = _
              rw [hw2]; simp
            · intro hf
              have : w2.faults = st.world.faults + 1 := by rw [hw2]; rfl
              have hf2 : w2.faults = st.world.faults := hf
              omega
          have hr2 : Pool.Ready { st with world := w2 } := by
            refine ⟨?_, ha, hcl⟩
            show w2.cancelAt = none
            rw [hw2]; exact hc
          have hfs2 : ({ st with world := w2 } : Pool σ τ).world.remote = fs0 := by
            show w2.remote = fs0
            rw [hw2]; exact hfs
          refine Walked.trans _ _ 0 (totalSize rest) _ none _ st _ _ hstep (ih _ hr2 hfs2) ?_ ?_
          · rw [totalSize_cons, hd]; simp
          · intro a b h1
            cases h1
        | none =>
          simp only
          have hstep : Walked (fun w : World σ τ => w.remote) 0 (some []) st
              (.returned () { st with world := w2 }) := by
            refine ⟨rfl, rfl, ?_, ?_, ?_, ?_, fun _ => ⟨[], rfl, by simp⟩⟩
            · show w2.cancelAt = none
              rw [hw2]; exact hc
            · show w2.remote = st.world.remote
              rw [hw2]
            · show st.world.faults ≤ w2.faults
              rw [hw2]; simp
            · show (w2.pbarMax - w2.pbarCurrent + 0) % 2 ^ 64 = _
              rw [hw2]; simp
          have hr2 : Pool.Ready { st with world := w2 } := by
            refine ⟨?_, ha, hcl⟩
            show w2.cancelAt = none
            rw [hw2]; exact hc
          have hfs2 : ({ st with world := w2 } : Pool σ τ).world.remote = fs0 := by
            show w2.remote = fs0
            rw [hw2]; exact hfs
          have hrec := hrecur ⟨path.Join [l.path, finfo.name], some finfo⟩
            ⟨filepath.Join [r.path, finfo.name], none⟩ _ hr2 hfs2
          cases hrun : recur ⟨path.Join [l.path, finfo.name], some finfo⟩
              ⟨filepath.Join [r.path, finfo.name], none⟩ { st with world := w2 } with
          | blocked st3 =>
            rw [hrun] at hrec
            exact hrec.elim
          | panic st3 => trivial
          | outOfFuel => trivial
          | returned u st3 =>
            rw [hrun] at hrec
            simp only
            have hr3 : st3.Ready := ⟨hrec.2.2.1, by rw [hrec.1]; exact ha, by rw [hrec.2.1]; exact hcl⟩
            have hfs3 : st3.world.remote = fs0 := hrec.2.2.2.1.trans hfs2
            have h12 := Walked.trans (fun w : World σ τ => w.remote) 0 0 0
              ((sub (path.Join [l.path, finfo.name])).map
                (List.map (taskOf filepath.Join (path.Join [l.path, finfo.name])
                  (filepath.Join [r.path, finfo.name]))))
              (some []) _ st _ _ hstep hrec (by simp)
              (fun a b h1 h2 => by cases h1; rw [h2]; simp)
            refine Walked.trans _ _ 0 (totalSize rest) _ _ _ st st3 _ h12 (ih _ hr3 hfs3) ?_ ?_
            · rw [totalSize_cons, hd]; simp
            · intro a b h1 h2
              simp only [treeFilesLoop, hd, if_true]
              cases hsub : sub (path.Join [l.path, finfo.name]) with
              | none => simp [hsub] at h1
              | some es =>
                cases hrest : treeFilesLoop sub l.path rest with
                | none => simp [hrest] at h2
                | some es2 =>
                  simp only [hsub, Option.map_some', Option.some.injEq] at h1
                  simp only [hrest, Option.map_some', Option.some.injEq] at h2
                  subst h1 h2
                  simp only [Option.map_some', List.map_append, List.map_map, Option.some.injEq]
                  congr 1
    | false =>
      simp only [Bool.false_eq_true, if_false]
      have hr1 : Pool.Ready { st with world := { st.world with polls := st.world.polls + 1 } } :=
        ⟨hc, ha, hcl⟩
      have hsnd := hsend ⟨⟨path.Join [l.path, finfo.name], some finfo⟩,
        ⟨filepath.Join [r.path, finfo.name], none⟩⟩ finfo
        { st with world := { st.world with polls := st.world.polls + 1 } } rfl hr1
      cases hrun : send ⟨⟨path.Join [l.path, finfo.name], some finfo⟩,
          ⟨filepath.Join [r.path, finfo.name], none⟩⟩
          { st with world := { st.world with polls := st.world.polls + 1 } } with
      | blocked st3 =>
        rw [hrun] at hsnd
        exact hsnd.elim
      | panic st3 => trivial
      | outOfFuel => trivial
      | returned u st3 =>
        rw [hrun] at hsnd
        simp only
        have hr3 : st3.Ready := ⟨hsnd.2.2.1, by rw [hsnd.1]; exact ha, by rw [hsnd.2.1]; exact hcl⟩
        have hfs3 : st3.world.remote = fs0 := hsnd.2.2.2.1.trans hfs
        have h1 : Walked (fun w : World σ τ => w.remote) finfo.size
            (some [⟨⟨path.Join [l.path, finfo.name], some finfo⟩,
              ⟨filepath.Join [r.path, finfo.name], none⟩⟩]) st (.returned () st3) := hsnd
        refine Walked.trans _ _ finfo.size (totalSize rest) _ _ _ st st3 _ h1 (ih _ hr3 hfs3)
          ?_ ?_
        · rw [totalSize_cons, hd]; simp
        · intro a b h1 h2
          simp only [treeFilesLoop, hd, Bool.false_eq_true, if_false]
          cases hrest : treeFilesLoop sub l.path rest with
          | none => simp [hrest] at h2
          | some es2 =>
            simp only [hrest, Option.map_some', Option.some.injEq] at h2
            cases h1
            subst h2
            rfl

/-- A nested call of `walkRepoDirForGet` in a ready pool: it leaves the
progress maximum as far from the progress as it was, and the tasks it sends
are those of the tree below its directory. -/
theorem walkRepoDirForGet_walked (cli : DavClient σ) (os : LocalOS τ)
    (send : opInput → Pool σ τ → Exec Unit (Pool σ τ)) (fs0 : σ)
    (hsend : ∀ inp info st, inp.src.info = some info → st.Ready →
      Walked (fun w => w.remote) info.size (some [inp]) st (send inp st)) :
    ∀ (fuel : Nat) (l r : pathFileInfo) (st : Pool σ τ), st.Ready → st.world.remote = fs0 →
      Walked (fun w => w.remote) 0
        ((treeFiles (cli.ReadDir fs0) fuel l.path).map
          (List.map (taskOf filepath.Join l.path r.path))) st
        (walkRepoDirForGet cli os send fuel l r false st) := by
  intro fuel
  induction fuel with
  | zero =>
    intro l r st hr hfs
    simp only [walkRepoDirForGet]
    trivial
  | succ fuel ih =>
    intro l r st hr hfs
    obtain ⟨hc, ha, hcl⟩ := hr
    simp only [walkRepoDirForGet, treeFiles]
    have hfr := cliReadDir_frame cli st.world l.path
    cases hrd : st.world.cliReadDir cli l.path with
    | mk res w1 =>
      rw [hrd] at hfr
      simp only [hfs] at hfr
      obtain ⟨hres, -, hl, hca, hm, hcu, hfa⟩ := hfr
      rw [← hres] at hfa ⊢
      clear hres hrd
      cases res with
      | error e =>
        simp only
        refine ⟨rfl, rfl, hca.trans hc, hl.trans hfs.symm, ?_, ?_, ?_⟩
        · show st.world.faults ≤ w1.faults
          omega
        · show (w1.pbarMax - w1.pbarCurrent + 0) % 2 ^ 64 = _
          rw [hm, hcu]
          simp
        · intro hf
          have hf2 : w1.faults = st.world.faults := hf
          clear hf
          simp [countFailedListing] at hfa
          omega
      | ok files =>
        simp only
        have hsize : countSize files = wrapInt64 (totalSize files) := countSize_eq files
        have hstep : Walked (fun w : World σ τ => w.remote) (- totalSize files) (some []) st
            (.returned ()
              { st with world := w1.pbarChangeMax64 (wrapInt64 (w1.pbarMax + countSize files)) }) := by
          refine ⟨rfl, rfl, hca.trans hc, hl.trans hfs.symm, ?_, ?_, fun _ => ⟨[], rfl, by simp⟩⟩
          · show st.world.faults ≤ w1.faults
            omega
          · show (wrapInt64 (w1.pbarMax + countSize files) - w1.pbarCurrent
              + - totalSize files) % 2 ^ 64 = (st.world.pbarMax - st.world.pbarCurrent) % 2 ^ 64
            rw [hsize, hm, hcu]
            unfold wrapInt64
            omega
        have hloop := walkRepoDirForGetLoop_walked os send (treeFiles (cli.ReadDir fs0) fuel) l r
          (fun a b s0 => walkRepoDirForGet cli os send fuel a b false s0) fs0 hsend
          (fun a b s hs hf => ih a b s hs hf) files
          { st with world := w1.pbarChangeMax64 (wrapInt64 (w1.pbarMax + countSize files)) }
          ⟨hca.trans hc, ha, hcl⟩ hl
        revert hloop
        generalize walkRepoDirForGetLoop os send l r _ files _ = e
        intro hloop
        have htr := Walked.trans _ 0 (- totalSize files) (totalSize files)
          ((treeFilesLoop (treeFiles (cli.ReadDir fs0) fuel) l.path files).map
            (List.map (taskOf filepath.Join l.path r.path))) (some []) _ st _ e hstep
          hloop (by omega) (by
            intro a b h1 h2
            cases h1
            rw [h2]
            rfl)
        cases e <;> exact htr

end WalksGet

section Output

variable {σ τ : Type}

/-- The top-level call of `walkLocalDirForPut` does what a nested call does,
and may close the channel at the end. -/
theorem walkLocalDirForPut_top (cli : DavClient σ) (os : LocalOS τ)
    (send : opInput → Pool σ τ → Exec Unit (Pool σ τ)) (fuel : Nat) (l r : pathFileInfo)
    (st : Pool σ τ) :
    (∀ st1, walkLocalDirForPut cli os send fuel l r true st = .blocked st1 →
      walkLocalDirForPut cli os send fuel l r false st = .blocked st1) ∧
    (∀ st1, walkLocalDirForPut cli os send fuel l r true st = .returned () st1 →
      ∃ st0, walkLocalDirForPut cli os send fuel l r false st = .returned () st0 ∧
        st1.world = st0.world ∧ st1.sent = st0.sent ∧ st1.alive = st0.alive) := by
  cases fuel with
  | zero => simp [walkLocalDirForPut]
  | succ fuel =>
    simp only [walkLocalDirForPut]
    generalize st.world.osReadDir os l.path = res
    obtain ⟨ls, w1⟩ := res
    cases ls with
    | error e => exact ⟨fun st1 h => h, fun st1 h => ⟨st1, h, rfl, rfl, rfl⟩⟩
    | ok files =>
      simp only
      generalize walkLocalDirForPutLoop cli send l r _ files _ = e
      cases e with
      | returned u st2 =>
        simp only [if_true, Bool.false_eq_true, if_false, closeChan]
        constructor
        · intro st1 h
          split at h <;> simp at h
        · intro st1 h
          split at h
          · simp only [Exec.returned.injEq, true_and] at h
            exact ⟨st2, rfl, by rw [← h], by rw [← h], by rw [← h]⟩
          · simp at h
      | blocked st2 => exact ⟨fun st1 h => h, fun st1 h => by simp at h⟩
      | panic st2 => exact ⟨fun st1 h => by simp at h, fun st1 h => by simp at h⟩
      | outOfFuel => exact ⟨fun st1 h => by simp at h, fun st1 h => by simp at h⟩

/-- The top-level call of `walkRepoDirForGet` does what a nested call does,
and may close the channel at the end. -/
theorem walkRepoDirForGet_top (cli : DavClient σ) (os : LocalOS τ)
    (send : opInput → Pool σ τ → Exec Unit (Pool σ τ)) (fuel : Nat) (l r : pathFileInfo)
    (st : Pool σ τ) :
    (∀ st1, walkRepoDirForGet cli os send fuel l r true st = .blocked st1 →
      walkRepoDirForGet cli os send fuel l r false st = .blocked st1) ∧
    (∀ st1, walkRepoDirForGet cli os send fuel l r true st = .returned () st1 →
      ∃ st0, walkRepoDirForGet cli os send fuel l r false st = .returned () st0 ∧
        st1.world = st0.world ∧ st1.sent = st0.sent ∧ st1.alive = st0.alive) := by
  cases fuel with
  | zero => simp [walkRepoDirForGet]
  | succ fuel =>
    simp only [walkRepoDirForGet]
    generalize st.world.cliReadDir cli l.path = res
    obtain ⟨ls, w1⟩ := res
    cases ls with
    | error e => exact ⟨fun st1 h => h, fun st1 h => ⟨st1, h, rfl, rfl, rfl⟩⟩
    | ok files =>
      simp only
      generalize walkRepoDirForGetLoop os send l r _ files _ = e
      cases e with
      | returned u st2 =>
        simp only [if_true, Bool.false_eq_true, if_false, closeChan]
        constructor
        · intro st1 h
          split at h <;> simp at h
        · intro st1 h
          split at h
          · simp only [Exec.returned.injEq, true_and] at h
            exact ⟨st2, rfl, by rw [← h], by rw [← h], by rw [← h]⟩
          · simp at h
      | blocked st2 => exact ⟨fun st1 h => h, fun st1 h => by simp at h⟩
      | panic st2 => exact ⟨fun st1 h => by simp at h, fun st1 h => by simp at h⟩
      | outOfFuel => exact ⟨fun st1 h => by simp at h, fun st1 h => by simp at h⟩

/-- The entries the loop of a source tree collects are not directories. -/
theorem treeFilesLoop_files (sub : String → Option (List (List String × FileInfo)))
    (dir : String) (hsub : ∀ p es, sub p = some es → ∀ e ∈ es, e.2.isDir = false) :
    ∀ (files : List FileInfo) (es : List (List String × FileInfo)),
      treeFilesLoop sub dir files = some es → ∀ e ∈ es, e.2.isDir = false := by
  intro files
  induction files with
  | nil =>
    intro es h e he
    simp only [treeFilesLoop, Option.some.injEq] at h
    subst h
    simp at he
  | cons f rest ih =>
    intro es h e he
    simp only [treeFilesLoop] at h
    cases hrest : treeFilesLoop sub dir rest with
    | none =>
      rw [hrest] at h
      split at h
      · rename_i heq
        cases heq
      · cases h
    | some others =>
      rw [hrest] at h
      cases hd : f.isDir with
      | true =>
        simp only [hd, if_true] at h
        cases hs : sub (path.Join [dir, f.name]) with
        | none => simp [hs] at h
        | some sube =>
          simp only [hs, Option.map_some', Option.some.injEq] at h
          subst h
          rcases List.mem_append.1 he with h1 | h1
          · obtain ⟨e0, he0, rfl⟩ := List.mem_map.1 h1
            exact hsub _ _ hs e0 he0
          · exact ih _ hrest e h1
      | false =>
        simp only [hd, Bool.false_eq_true, if_false, Option.some.injEq] at h
        subst h
        rcases List.mem_append.1 he with h1 | h1
        · simp only [List.mem_singleton] at h1
          subst h1
          exact hd
        · exact ih _ hrest e h1

/-- The entries of a source tree are not directories. -/
theorem treeFiles_files (list : String → Except String (List FileInfo)) :
    ∀ (depth : Nat) (dir : String) (es : List (List String × FileInfo)),
      treeFiles list depth dir = some es → ∀ e ∈ es, e.2.isDir = false := by
  intro depth
  induction depth with
  | zero =>
    intro dir es h
    simp [treeFiles] at h
  | succ depth ih =>
    intro dir es h
    simp only [treeFiles] at h
    cases hl : list dir with
    | error e => simp [hl] at h
    | ok files =>
      simp only [hl] at h
      exact treeFilesLoop_files _ dir (fun p es0 hp => ih p es0 hp) files es h

/-- What a walk that returned without a fault has sent. -/
theorem sent_of_walked {α : Type} (listed : World σ τ → α)
    (tree : Option (List (List String × FileInfo))) (f : List String × FileInfo → opInput)
    (st st0 : Pool σ τ)
    (hw : Walked listed 0 (tree.map (List.map f)) st (.returned () st0))
    (hf : st0.world.faults = st.world.faults) :
    ∃ entries, tree = some entries ∧ st0.sent = st.sent ++ entries.map f := by
  obtain ⟨ts, hts, hsent⟩ := hw.2.2.2.2.2.2 hf
  cases tree with
  | none => simp at hts
  | some entries =>
    simp only [Option.map_some', Option.some.injEq] at hts
    exact ⟨entries, rfl, by rw [hsent, ← hts]⟩

/-- C21. Walker output: started in a pool whose context is not cancelled, with
a worker in its loop and `ichan` open, a call of `walkLocalDirForPut` or of
`walkRepoDirForGet` that returns without a failed listing and without a failed
directory creation has walked the whole source tree: the tree below the source
root has no failing listing and is within the depth of the walk, and the tasks
received from `ichan` during the walk are, in the order of the listings, one
for each non-directory entry of that tree and no other.  The source of a task
is the entry, its destination path is the destination root joined in turn with
the names that lead from the source root to the entry (with `path.Join` for
the repository, with `filepath.Join` for the local file system). -/
theorem walker_output (cli : DavClient σ) (os : LocalOS τ) (overwrite errWriterValid : Bool)
    (fuel : Nat) :
    (∀ (src dst : pathFileInfo) (closeChanOnComplete : Bool) (st st1 : Pool σ τ), st.Ready →
      walkLocalDirForPut cli os (chanSend cli os overwrite errWriterValid .Put) fuel src dst
        closeChanOnComplete st = .returned () st1 →
      st1.world.faults = st.world.faults →
      ∃ entries, treeFiles (os.ReadDir st.world.localfs) fuel src.path = some entries ∧
        (∀ e ∈ entries, e.2.isDir = false) ∧
        st1.sent = st.sent ++ entries.map (taskOf path.Join src.path dst.path)) ∧
    (∀ (src dst : pathFileInfo) (closeChanOnComplete : Bool) (st st1 : Pool σ τ), st.Ready →
      walkRepoDirForGet cli os (chanSend cli os overwrite errWriterValid .Get) fuel src dst
        closeChanOnComplete st = .returned () st1 →
      st1.world.faults = st.world.faults →
      ∃ entries, treeFiles (cli.ReadDir st.world.remote) fuel src.path = some entries ∧
        (∀ e ∈ entries, e.2.isDir = false) ∧
        st1.sent = st.sent ++ entries.map (taskOf filepath.Join src.path dst.path)) := by
  constructor
  · intro src dst c st st1 hr hrun hf
    have hfalse : ∃ st0, walkLocalDirForPut cli os (chanSend cli os overwrite errWriterValid .Put)
        fuel src dst false st = .returned () st0 ∧ st1.world = st0.world ∧
        st1.sent = st0.sent := by
      cases c with
      | false => exact ⟨st1, hrun, rfl, rfl⟩
      | true =>
        obtain ⟨st0, h0, h1, h2, -⟩ := (walkLocalDirForPut_top cli os _ fuel src dst st).2 st1 hrun
        exact ⟨st0, h0, h1, h2⟩
    obtain ⟨st0, h0, hw0, hs0⟩ := hfalse
    have hw := walkLocalDirForPut_walked cli os _ st.world.localfs
      (fun inp info s hi hs => chanSend_put_walked cli os overwrite errWriterValid inp info s hi hs)
      fuel src dst st hr rfl
    rw [h0] at hw
    obtain ⟨entries, he, hsent⟩ := sent_of_walked _ _ _ st st0 hw (by rw [← hw0]; exact hf)
    exact ⟨entries, he, treeFiles_files _ _ _ _ he, by rw [hs0]; exact hsent⟩
  · intro src dst c st st1 hr hrun hf
    have hfalse : ∃ st0, walkRepoDirForGet cli os (chanSend cli os overwrite errWriterValid .Get)
        fuel src dst false st = .returned () st0 ∧ st1.world = st0.world ∧
        st1.sent = st0.sent := by
      cases c with
      | false => exact ⟨st1, hrun, rfl, rfl⟩
      | true =>
        obtain ⟨st0, h0, h1, h2, -⟩ := (walkRepoDirForGet_top cli os _ fuel src dst st).2 st1 hrun
        exact ⟨st0, h0, h1, h2⟩
    obtain ⟨st0, h0, hw0, hs0⟩ := hfalse
    have hw := walkRepoDirForGet_walked cli os _ st.world.remote
      (fun inp info s hi hs => chanSend_get_walked cli os overwrite errWriterValid inp info s hi hs)
      fuel src dst st hr rfl
    rw [h0] at hw
    obtain ⟨entries, he, hsent⟩ := sent_of_walked _ _ _ st st0 hw (by rw [← hw0]; exact hf)
    exact ⟨entries, he, treeFiles_files _ _ _ _ he, by rw [hs0]; exact hsent⟩

/-- C21 on two trees: the upload of `/src`, which holds `a.txt` and `sub/b.txt`,
to `/dst` sends the tasks for `/dst/a.txt` and `/dst/sub/b.txt`, and the
download of `/s`, which holds `a` and `sub/b`, to `/l` sends the tasks for
`/l/a` and `/l/sub/b`. -/
theorem walker_output_witness :
    (∃ st1 entries,
      walkLocalDirForPut specStore posixOS (chanSend specStore posixOS false true .Put) 5 srcPut
        ⟨"/dst", none⟩ true ⟨World.init fsPutRemote fsPutLocal none, 0, 0, 4, [], 0⟩
          = .returned () st1 ∧
      treeFiles (posixOS.ReadDir fsPutLocal) 5 "/src" = some entries ∧
      st1.sent = entries.map (taskOf path.Join "/src" "/dst") ∧
      st1.sent.map (fun t => (t.src.path, t.dst.path))
        = [("/src/a.txt", "/dst/a.txt"), ("/src/sub/b.txt", "/dst/sub/b.txt")]) ∧
    (∃ st1 entries,
      walkRepoDirForGet specStore posixOS (chanSend specStore posixOS false true .Get) 5 srcS
        ⟨"/l", none⟩ false ⟨World.init fsMove fsLocal none, 0, 0, 4, [], 0⟩ = .returned () st1 ∧
      treeFiles (specStore.ReadDir fsMove) 5 "/s" = some entries ∧
      st1.sent = entries.map (taskOf filepath.Join "/s" "/l") ∧
      st1.sent.map (fun t => (t.src.path, t.dst.path))
        = [("/s/a", "/l/a"), ("/s/sub/b", "/l/sub/b")]) := by
  have hp : (walkLocalDirForPut specStore posixOS (chanSend specStore posixOS false true .Put) 5
      srcPut ⟨"/dst", none⟩ true ⟨World.init fsPutRemote fsPutLocal none, 0, 0, 4, [], 0⟩).state?.map
      (fun st => (st.sent.map (fun t => (t.src.path, t.dst.path)), st.world.faults))
      = some ([("/src/a.txt", "/dst/a.txt"), ("/src/sub/b.txt", "/dst/sub/b.txt")], 0) := by
    decide
  have hg : (walkRepoDirForGet specStore posixOS (chanSend specStore posixOS false true .Get) 5
      srcS ⟨"/l", none⟩ false ⟨World.init fsMove fsLocal none, 0, 0, 4, [], 0⟩).state?.map
      (fun st => (st.sent.map (fun t => (t.src.path, t.dst.path)), st.world.faults))
      = some ([("/s/a", "/l/a"), ("/s/sub/b", "/l/sub/b")], 0) := by
    decide
  constructor
  · cases hrun : walkLocalDirForPut specStore posixOS
        (chanSend specStore posixOS false true .Put) 5 srcPut ⟨"/dst", none⟩ true
        ⟨World.init fsPutRemote fsPutLocal none, 0, 0, 4, [], 0⟩ with
    | returned u st1 =>
      rw [hrun] at hp
      simp only [Exec.state?, Option.map_some', Option.some.injEq, Prod.mk.injEq] at hp
      obtain ⟨entries, he, -, hsent⟩ := (walker_output specStore posixOS false true 5).1 srcPut
        ⟨"/dst", none⟩ true ⟨World.init fsPutRemote fsPutLocal none, 0, 0, 4, [], 0⟩ st1
        ⟨rfl, by decide, rfl⟩ hrun hp.2
      exact ⟨st1, entries, rfl, he, hsent, hp.1⟩
    | blocked st1 =>
      rw [hrun] at hp
      simp [Exec.state?] at hp
    | panic st1 =>
      rw [hrun] at hp
      simp [Exec.state?] at hp
    | outOfFuel =>
      rw [hrun] at hp
      simp [Exec.state?] at hp
  · cases hrun : walkRepoDirForGet specStore posixOS
        (chanSend specStore posixOS false true .Get) 5 srcS ⟨"/l", none⟩ false
        ⟨World.init fsMove fsLocal none, 0, 0, 4, [], 0⟩ with
    | returned u st1 =>
      rw [hrun] at hg
      simp only [Exec.state?, Option.map_some', Option.some.injEq, Prod.mk.injEq] at hg
      obtain ⟨entries, he, -, hsent⟩ := (walker_output specStore posixOS false true 5).2 srcS
        ⟨"/l", none⟩ false ⟨World.init fsMove fsLocal none, 0, 0, 4, [], 0⟩ st1
        ⟨rfl, by decide, rfl⟩ hrun hg.2
      exact ⟨st1, entries, rfl, he, hsent, hg.1⟩
    | blocked st1 =>
      rw [hrun] at hg
      simp [Exec.state?] at hg
    | panic st1 =>
      rw [hrun] at hg
      simp [Exec.state?] at hg
    | outOfFuel =>
      rw [hrun] at hg
      simp [Exec.state?] at hg

end Output

section Complete

variable {σ τ : Type}

end Complete

section Converge

variable {σ τ : Type}

end Converge

section Convergence

variable {σ τ : Type}

end Convergence

section Trees

variable {σ τ : Type}

/-- A path joined to an absolute path is absolute. -/
theorem isAbs_join (p n : String) (hp : path.IsAbs p = true) :
    path.IsAbs (path.Join [p, n]) = true := by
  obtain ⟨pd⟩ := p
  cases pd with
  | nil => simp [path.IsAbs] at hp
  | cons c cs =>
    simp only [path.IsAbs, decide_eq_true_eq] at hp
    subst hp
    have hne : (⟨'/' :: cs⟩ : String) ≠ "" := by
      intro h
      have := congrArg String.data h
      simp at this
    by_cases hn : n = ""
    · subst hn
      simp [path.Join, List.filter, hne, path.Clean, path.cleanChars, path.joinSlash,
        path.IsAbs]
    · simp [path.Join, List.filter, hne, hn, path.Clean, path.cleanChars, path.joinSlash,
        path.IsAbs]

/-- The entries below a listing that begins with a directory. -/
theorem treeFilesLoop_cons_dir (sub : String → Option (List (List String × FileInfo)))
    (dir : String) (f : FileInfo) (rest : List FileInfo) (es : List (List String × FileInfo))
    (hd : f.isDir = true) (h : treeFilesLoop sub dir (f :: rest) = some es) :
    ∃ es1 es2, sub (path.Join [dir, f.name]) = some es1 ∧
      treeFilesLoop sub dir rest = some es2 ∧ es.length = es1.length + es2.length := by
  simp only [treeFilesLoop, hd, if_true] at h
  cases hs : sub (path.Join [dir, f.name]) with
  | none => simp [hs] at h
  | some es1 =>
    cases hr : treeFilesLoop sub dir rest with
    | none => simp [hs, hr] at h
    | some es2 =>
      simp only [hs, hr, Option.map_some', Option.some.injEq] at h
      exact ⟨es1, es2, rfl, rfl, by rw [← h]; simp⟩

/-- The entries below a listing that begins with a file. -/
theorem treeFilesLoop_cons_file (sub : String → Option (List (List String × FileInfo)))
    (dir : String) (f : FileInfo) (rest : List FileInfo) (es : List (List String × FileInfo))
    (hd : f.isDir = false) (h : treeFilesLoop sub dir (f :: rest) = some es) :
    ∃ es2, treeFilesLoop sub dir rest = some es2 ∧ es.length = 1 + es2.length := by
  simp only [treeFilesLoop, hd, Bool.false_eq_true, if_false] at h
  cases hr : treeFilesLoop sub dir rest with
  | none => simp [hr] at h
  | some es2 =>
    simp only [hr, Option.some.injEq] at h
    exact ⟨es2, rfl, by rw [← h]; simp; omega⟩

/-- The loop of `rmRepoDir` over the listing of a tree, when the context is
not cancelled: when the listings it reads are those of the tree, it counts
every non-directory entry below the listing once. -/
theorem rmLoop_tree (cli : DavClient σ) (repoPath : String)
    (list : String → Except String (List FileInfo))
    (sub : String → Option (List (List String × FileInfo)))
    (recur : String → World σ τ → Run (Nat × Nat × GoError) (World σ τ))
    (habs : path.IsAbs repoPath = true)
    (hrecur : ∀ p w r w1, w.cancelAt = none → path.IsAbs p = true → recur p w = .done r w1 →
      w1.cancelAt = none ∧ ∃ t, w1.listings = w.listings ++ t ∧
        ((∀ e ∈ t, e.2 = list e.1) → ∀ es, sub p = some es → r.1 + r.2.1 = es.length)) :
    ∀ (files : List FileInfo) (c c1 : DirCounts) (w w1 : World σ τ), w.cancelAt = none →
      rmLoop cli repoPath recur files c w = .done c1 w1 →
      w1.cancelAt = none ∧ ∃ t, w1.listings = w.listings ++ t ∧
        ((∀ e ∈ t, e.2 = list e.1) → ∀ es, treeFilesLoop sub repoPath files = some es →
          c1.cntOk + c1.cntErr + c1.cntOkFiles + c1.cntErrFiles
            = c.cntOk + c.cntErr + c.cntOkFiles + c.cntErrFiles + es.length) := by
  intro files
  induction files with
  | nil =>
    intro c c1 w w1 hc h
    simp only [rmLoop, Run.done.injEq] at h
    rw [← h.1, ← h.2]
    refine ⟨hc, [], by simp, ?_⟩
    intro _ es hes
    simp only [treeFilesLoop, Option.some.injEq] at hes
    rw [← hes]
    rfl
  | cons f rest ih =>
    intro c c1 w w1 hc h
    simp only [rmLoop, ctxDone_of_not_cancelled _ hc] at h
    cases hd : f.isDir with
    | true =>
      simp only [hd, if_true] at h
      cases hr : recur (path.Join [repoPath, f.name]) { w with polls := w.polls + 1 } with
      | done r w2 =>
        simp only [hr] at h
        obtain ⟨a1, t1, a2, a3⟩ := hrecur _ { w with polls := w.polls + 1 } _ _ hc
          (isAbs_join repoPath f.name habs) hr
        obtain ⟨b1, t2, b2, b3⟩ := ih _ _ _ _ a1 h
        refine ⟨b1, t1 ++ t2, ?_, ?_⟩
        · rw [b2, a2, List.append_assoc]
        · intro hobs es hes
          obtain ⟨es1, es2, h1, h2, h3⟩ := treeFilesLoop_cons_dir sub repoPath f rest es hd hes
          have e1 := a3 (fun e he => hobs e (List.mem_append_left _ he)) es1 h1
          have e2 := b3 (fun e he => hobs e (List.mem_append_right _ he)) es2 h2
          simp only at e2
          omega
      | panic w2 => simp [hr] at h
      | outOfFuel => simp [hr] at h
    | false =>
      have hc2 : ({ w with polls := w.polls + 1 } : World σ τ).cancelAt = none := hc
      simp only [hd, Bool.false_eq_true, if_false, ctxDone_of_not_cancelled _ hc2] at h
      have hk : (World.cliRemove cli { w with polls := w.polls + 1 + 1 }
            (path.Join [repoPath, f.name])).2.cancelAt = w.cancelAt ∧
          (World.cliRemove cli { w with polls := w.polls + 1 + 1 }
            (path.Join [repoPath, f.name])).2.listings = w.listings := ⟨rfl, rfl⟩
      generalize World.cliRemove cli { w with polls := w.polls + 1 + 1 }
        (path.Join [repoPath, f.name]) = res at h hk
      obtain ⟨e, w3⟩ := res
      obtain ⟨k1, k2⟩ := hk
      simp only at k1 k2
      have hc3 : (w3.pbarAdd64 1).cancelAt = none := k1.trans hc
      have hl3 : (w3.pbarAdd64 1).listings = w.listings := k2
      cases e with
      | some e =>
        simp only at h
        obtain ⟨b1, t2, b2, b3⟩ := ih _ _ _ _ hc3 h
        refine ⟨b1, t2, by rw [b2, hl3], ?_⟩
        intro hobs es hes
        obtain ⟨es2, h2, h3⟩ := treeFilesLoop_cons_file sub repoPath f rest es hd hes
        have e2 := b3 hobs es2 h2
        simp only at e2
        omega
      | none =>
        simp only at h
        obtain ⟨b1, t2, b2, b3⟩ := ih _ _ _ _ hc3 h
        refine ⟨b1, t2, by rw [b2, hl3], ?_⟩
        intro hobs es hes
        obtain ⟨es2, h2, h3⟩ := treeFilesLoop_cons_file sub repoPath f rest es hd hes
        have e2 := b3 hobs es2 h2
        simp only at e2
        omega

/-- A recursive call of `rmRepoDir` on a tree, when the context is not
cancelled: when the listings it reads are those of the tree, its counts add up
to the number of non-directory entries of the tree. -/
theorem rmRepoDir_tree (cli : DavClient σ) (list : String → Except String (List FileInfo)) :
    ∀ (fuel : Nat) (repoPath : String) (w w1 : World σ τ) (r : Nat × Nat × GoError),
      w.cancelAt = none → path.IsAbs repoPath = true →
      rmRepoDir cli fuel repoPath true w = .done r w1 →
      w1.cancelAt = none ∧ ∃ t, w1.listings = w.listings ++ t ∧
        ((∀ e ∈ t, e.2 = list e.1) → ∀ es, treeFiles list fuel repoPath = some es →
          r.1 + r.2.1 = es.length) := by
  intro fuel
  induction fuel with
  | zero =>
    intro p w w1 r hc habs h
    simp [rmRepoDir] at h
  | succ fuel ih =>
    intro p w w1 r hc habs h
    simp only [rmRepoDir, habs, Bool.not_true, Bool.false_eq_true, if_false, Bool.and_false] at h
    have hk : (w.cliReadDir cli p).2.cancelAt = w.cancelAt ∧
        (w.cliReadDir cli p).2.listings = w.listings ++ [(p, (w.cliReadDir cli p).1)] :=
      ⟨rfl, rfl⟩
    generalize w.cliReadDir cli p = res at h hk
    obtain ⟨ls, wa⟩ := res
    obtain ⟨k1, k2⟩ := hk
    simp only at k1 k2
    cases ls with
    | error e =>
      simp only [Run.done.injEq] at h
      rw [← h.2]
      refine ⟨k1.trans hc, _, k2, ?_⟩
      intro hobs es hes
      have hl := hobs (p, .error e) (by simp)
      simp only at hl
      simp [treeFiles, ← hl] at hes
    | ok files =>
      simp only at h
      cases hl : rmLoop cli p (fun q w0 => rmRepoDir cli fuel q true w0) files
          ⟨0, 0, 0, 0⟩ (wa.pbarChangeMax64 (wrapInt64 (wa.pbarMax + countFiles files))) with
      | panic w4 => simp [hl] at h
      | outOfFuel => simp [hl] at h
      | done c w4 =>
        simp only [hl] at h
        obtain ⟨b1, t2, b2, b3⟩ := rmLoop_tree cli p list (treeFiles list fuel) _ habs
          (fun q w0 r0 w2 h0 hq hr0 => ih q w0 w2 r0 h0 hq hr0) files _ _
          (wa.pbarChangeMax64 (wrapInt64 (wa.pbarMax + countFiles files))) _
          (k1.trans hc) hl
        have hr : (w4.cliRemove cli p).2.cancelAt = w4.cancelAt ∧
            (w4.cliRemove cli p).2.listings = w4.listings := ⟨rfl, rfl⟩
        generalize w4.cliRemove cli p = rr at h hr
        obtain ⟨er, w5⟩ := rr
        obtain ⟨r1, r2⟩ := hr
        simp only at r1 r2 h
        simp only [Run.done.injEq] at h
        rw [← h.1, ← h.2]
        refine ⟨r1.trans b1, (p, .ok files) :: t2, ?_, ?_⟩
        · rw [r2, b2]
          show wa.listings ++ t2 = _
          rw [k2]
          simp
        · intro hobs es hes
          have hlist := hobs (p, .ok files) (by simp)
          simp only at hlist
          simp only [treeFiles, ← hlist] at hes
          have e2 := b3 (fun e he => hobs e (List.mem_cons_of_mem _ he)) es hes
          simp only [zero_add] at e2
          show c.cntOk + c.cntOkFiles + (c.cntErr + c.cntErrFiles) = es.length
          omega

/-- The loop of `copyOrMoveRepoDir` over the listing of a tree, when the
context is not cancelled: when the listings it reads are those of the tree, it
counts every non-directory entry below the listing once. -/
theorem copyOrMoveLoop_tree (cli : DavClient σ) (overwrite : Bool) (op : Op)
    (src dst : pathFileInfo) (list : String → Except String (List FileInfo))
    (sub : String → Option (List (List String × FileInfo)))
    (recur : pathFileInfo → pathFileInfo → World σ τ → Run (Nat × Nat × GoError) (World σ τ))
    (hrecur : ∀ s d w r w1, w.cancelAt = none → recur s d w = .done r w1 →
      w1.cancelAt = none ∧ ∃ t, w1.listings = w.listings ++ t ∧
        ((∀ e ∈ t, e.2 = list e.1) → ∀ es, sub s.path = some es → r.1 + r.2.1 = es.length)) :
    ∀ (files : List FileInfo) (c c1 : DirCounts) (w w1 : World σ τ), w.cancelAt = none →
      copyOrMoveLoop cli overwrite op src dst recur files c w = .done c1 w1 →
      w1.cancelAt = none ∧ ∃ t, w1.listings = w.listings ++ t ∧
        ((∀ e ∈ t, e.2 = list e.1) → ∀ es, treeFilesLoop sub src.path files = some es →
          c1.cntOk + c1.cntErr + c1.cntOkFiles + c1.cntErrFiles
            = c.cntOk + c.cntErr + c.cntOkFiles + c.cntErrFiles + es.length) := by
  intro files
  induction files with
  | nil =>
    intro c c1 w w1 hc h
    simp only [copyOrMoveLoop, Run.done.injEq] at h
    rw [← h.1, ← h.2]
    refine ⟨hc, [], by simp, ?_⟩
    intro _ es hes
    simp only [treeFilesLoop, Option.some.injEq] at hes
    rw [← hes]
    rfl
  | cons f rest ih =>
    intro c c1 w w1 hc h
    simp only [copyOrMoveLoop, ctxDone_of_not_cancelled _ hc] at h
    cases hd : f.isDir with
    | true =>
      simp only [hd, if_true] at h
      cases hr : recur ⟨path.Join [src.path, f.name], some f⟩
          ⟨path.Join [dst.path, path.Base f.name], none⟩ { w with polls := w.polls + 1 } with
      | done r w2 =>
        simp only [hr] at h
        obtain ⟨a1, t1, a2, a3⟩ := hrecur _ _ { w with polls := w.polls + 1 } _ _ hc hr
        obtain ⟨b1, t2, b2, b3⟩ := ih _ _ _ _ a1 h
        refine ⟨b1, t1 ++ t2, ?_, ?_⟩
        · rw [b2, a2, List.append_assoc]
        · intro hobs es hes
          obtain ⟨es1, es2, h1, h2, h3⟩ := treeFilesLoop_cons_dir sub src.path f rest es hd hes
          have e1 := a3 (fun e he => hobs e (List.mem_append_left _ he)) es1 h1
          have e2 := b3 (fun e he => hobs e (List.mem_append_right _ he)) es2 h2
          simp only at e2
          omega
      | panic w2 => simp [hr] at h
      | outOfFuel => simp [hr] at h
    | false =>
      have hc2 : ({ w with polls := w.polls + 1 } : World σ τ).cancelAt = none := hc
      simp only [hd, Bool.false_eq_true, if_false, ctxDone_of_not_cancelled _ hc2] at h
      have hk : (cliCopyOrRename cli overwrite op (path.Join [src.path, f.name])
            (path.Join [dst.path, f.name]) { w with polls := w.polls + 1 + 1 }).2.cancelAt
            = w.cancelAt ∧
          (cliCopyOrRename cli overwrite op (path.Join [src.path, f.name])
            (path.Join [dst.path, f.name]) { w with polls := w.polls + 1 + 1 }).2.listings
            = w.listings := by
        unfold cliCopyOrRename
        split <;> exact ⟨rfl, rfl⟩
      generalize cliCopyOrRename cli overwrite op (path.Join [src.path, f.name])
        (path.Join [dst.path, f.name]) { w with polls := w.polls + 1 + 1 } = res at h hk
      obtain ⟨e, w3⟩ := res
      obtain ⟨k1, k2⟩ := hk
      simp only at k1 k2
      have hc3 : (w3.pbarAdd64 1).cancelAt = none := k1.trans hc
      have hl3 : (w3.pbarAdd64 1).listings = w.listings := k2
      cases e with
      | some e =>
        simp only at h
        obtain ⟨b1, t2, b2, b3⟩ := ih _ _ _ _ hc3 h
        refine ⟨b1, t2, by rw [b2, hl3], ?_⟩
        intro hobs es hes
        obtain ⟨es2, h2, h3⟩ := treeFilesLoop_cons_file sub src.path f rest es hd hes
        have e2 := b3 hobs es2 h2
        simp only at e2
        omega
      | none =>
        simp only at h
        obtain ⟨b1, t2, b2, b3⟩ := ih _ _ _ _ hc3 h
        refine ⟨b1, t2, by rw [b2, hl3], ?_⟩
        intro hobs es hes
        obtain ⟨es2, h2, h3⟩ := treeFilesLoop_cons_file sub src.path f rest es hd hes
        have e2 := b3 hobs es2 h2
        simp only at e2
        omega

/-- A call of `copyOrMoveRepoDir` on a tree, when the context is not
cancelled: when the listings it reads are those of the tree, its counts add up
to the number of non-directory entries of the tree. -/
theorem copyOrMoveRepoDir_tree (cli : DavClient σ) (overwrite : Bool)
    (list : String → Except String (List FileInfo)) :
    ∀ (fuel : Nat) (op : Op) (src dst : pathFileInfo) (w w1 : World σ τ)
      (r : Nat × Nat × GoError), w.cancelAt = none →
      copyOrMoveRepoDir cli overwrite fuel op src dst w = .done r w1 →
      w1.cancelAt = none ∧ ∃ t, w1.listings = w.listings ++ t ∧
        ((∀ e ∈ t, e.2 = list e.1) → ∀ es, treeFiles list fuel src.path = some es →
          r.1 + r.2.1 = es.length) := by
  intro fuel
  induction fuel with
  | zero =>
    intro op src dst w w1 r hc h
    simp [copyOrMoveRepoDir] at h
  | succ fuel ih =>
    intro op src dst w w1 r hc h
    simp only [copyOrMoveRepoDir] at h
    have hk : (w.cliReadDir cli src.path).2.cancelAt = w.cancelAt ∧
        (w.cliReadDir cli src.path).2.listings
          = w.listings ++ [(src.path, (w.cliReadDir cli src.path).1)] := ⟨rfl, rfl⟩
    generalize w.cliReadDir cli src.path = res at h hk
    obtain ⟨ls, wa⟩ := res
    obtain ⟨k1, k2⟩ := hk
    simp only at k1 k2
    cases ls with
    | error e =>
      simp only [Run.done.injEq] at h
      rw [← h.2]
      refine ⟨k1.trans hc, _, k2, ?_⟩
      intro hobs es hes
      have hl := hobs (src.path, .error e) (by simp)
      simp only at hl
      simp [treeFiles, ← hl] at hes
    | ok files =>
      simp only at h
      cases hinfo : src.info with
      | none => simp [hinfo] at h
      | some info =>
        simp only [hinfo] at h
        have hm : (World.cliMkdirAll cli
              (wa.pbarChangeMax64 (wrapInt64 (wa.pbarMax + countFiles files))) dst.path
              info.mode).2.cancelAt = wa.cancelAt ∧
            (World.cliMkdirAll cli
              (wa.pbarChangeMax64 (wrapInt64 (wa.pbarMax + countFiles files))) dst.path
              info.mode).2.listings = wa.listings := ⟨rfl, rfl⟩
        generalize World.cliMkdirAll cli
          (wa.pbarChangeMax64 (wrapInt64 (wa.pbarMax + countFiles files))) dst.path info.mode
          = rm at h hm
        obtain ⟨em, w3⟩ := rm
        obtain ⟨m1, m2⟩ := hm
        simp only at m1 m2 h
        cases hl : copyOrMoveLoop cli overwrite op src dst
            (fun s d w0 => copyOrMoveRepoDir cli overwrite fuel op s d w0) files ⟨0, 0, 0, 0⟩ w3 with
        | panic w4 => simp [hl] at h
        | outOfFuel => simp [hl] at h
        | done c w4 =>
          simp only [hl] at h
          obtain ⟨b1, t2, b2, b3⟩ := copyOrMoveLoop_tree cli overwrite op src dst list
            (treeFiles list fuel) _
            (fun s d w0 r0 w2 h0 hr0 => ih op s d w0 w2 r0 h0 hr0) files _ _ _ _
            (m1.trans (k1.trans hc)) hl
          have hfin : ∀ w5 : World σ τ, w5.cancelAt = w4.cancelAt → w5.listings = w4.listings →
              w5.cancelAt = none ∧ ∃ t, w5.listings = w.listings ++ t ∧
                ((∀ e ∈ t, e.2 = list e.1) →
                  ∀ es, treeFiles list (fuel + 1) src.path = some es →
                    c.cntOk + c.cntOkFiles + (c.cntErr + c.cntErrFiles) = es.length) := by
            intro w5 r1 r2
            refine ⟨r1.trans b1, (src.path, .ok files) :: t2, ?_, ?_⟩
            · rw [r2, b2, m2, k2]
              simp
            · intro hobs es hes
              have hlist := hobs (src.path, .ok files) (by simp)
              simp only at hlist
              simp only [treeFiles, ← hlist] at hes
              have e2 := b3 (fun e he => hobs e (List.mem_cons_of_mem _ he)) es hes
              simp only [zero_add] at e2
              omega
          by_cases hmv : op = .Move ∧ c.cntErr + c.cntErrFiles = 0
          · rw [if_pos hmv] at h
            have hr : (w4.cliRemove cli src.path).2.cancelAt = w4.cancelAt ∧
                (w4.cliRemove cli src.path).2.listings = w4.listings := ⟨rfl, rfl⟩
            generalize w4.cliRemove cli src.path = rr at h hr
            obtain ⟨er, w5⟩ := rr
            simp only [Run.done.injEq] at h
            rw [← h.1, ← h.2]
            exact hfin w5 hr.1 hr.2
          · rw [if_neg hmv] at h
            simp only [Run.done.injEq] at h
            rw [← h.1, ← h.2]
            exact hfin w4 rfl rfl

/-- C27. Complete counts: take a recursive `rmRepoDir` on an absolute path, or a
`copyOrMoveRepoDir` (copy or move), whose context is not cancelled and which
returns the counts `(succeeded, failed)`.  Let the listings the call read be
those of a source tree `list` (each listing read for a path is the listing the
tree has at that path) in which every listing succeeds.  Then
`succeeded + failed` is the number of non-directory entries of the whole tree
below the source: every file is counted once, those of nested directories
through the counts the nested calls return. -/
theorem complete_counts (cli : DavClient σ) (list : String → Except String (List FileInfo))
    (fuel : Nat) (entries : List (List String × FileInfo)) :
    (∀ (repoPath : String) (w w1 : World σ τ) (r : Nat × Nat × GoError),
      w.cancelAt = none → path.IsAbs repoPath = true →
      rmRepoDir cli fuel repoPath true w = .done r w1 →
      (∀ e ∈ w1.listings.drop w.listings.length, e.2 = list e.1) →
      treeFiles list fuel repoPath = some entries →
      r.1 + r.2.1 = entries.length) ∧
    (∀ (overwrite : Bool) (op : Op) (src dst : pathFileInfo) (w w1 : World σ τ)
      (r : Nat × Nat × GoError),
      w.cancelAt = none →
      copyOrMoveRepoDir cli overwrite fuel op src dst w = .done r w1 →
      (∀ e ∈ w1.listings.drop w.listings.length, e.2 = list e.1) →
      treeFiles list fuel src.path = some entries →
      r.1 + r.2.1 = entries.length) := by
  constructor
  · intro p w w1 r hc habs hrun hobs htree
    obtain ⟨-, t, ht, hcount⟩ := rmRepoDir_tree cli list fuel p w w1 r hc habs hrun
    rw [ht, List.drop_left] at hobs
    exact hcount hobs entries htree
  · intro overwrite op src dst w w1 r hc hrun hobs htree
    obtain ⟨-, t, ht, hcount⟩ :=
      copyOrMoveRepoDir_tree cli overwrite list fuel op src dst w w1 r hc hrun
    rw [ht, List.drop_left] at hobs
    exact hcount hobs entries htree

/-- C27 on the tree `/s`, which holds `a` and `sub/b`: the recursive removal of
`/s` and the move of `/s` to `/d` each read the listings of `/s` and of
`/s/sub` as the tree has them, and their counts add up to 2. -/
theorem complete_counts_witness :
    treeFiles (specStore.ReadDir fsMove) 5 "/s"
      = some [(["a"], ⟨"a", 3, false, 420⟩), (["sub", "b"], ⟨"b", 1, false, 420⟩)] ∧
    (∃ r w1, rmRepoDir specStore 5 "/s" true (World.init fsMove fsLocal none) = .done r w1 ∧
      w1.listings.map (fun e => e.1) = ["/s", "/s/sub"] ∧ r.1 + r.2.1 = 2) ∧
    (∃ r w1, copyOrMoveRepoDir specStore false 5 .Move srcS ⟨"/d", none⟩
        (World.init fsMove fsLocal none) = .done r w1 ∧
      w1.listings.map (fun e => e.1) = ["/s", "/s/sub"] ∧ r.1 + r.2.1 = 2) := by
  have htree : treeFiles (specStore.ReadDir fsMove) 5 "/s"
      = some [(["a"], ⟨"a", 3, false, 420⟩), (["sub", "b"], ⟨"b", 1, false, 420⟩)] := by decide
  have hrm : (rmRepoDir specStore 5 "/s" true (World.init fsMove fsLocal none)).world?.map
      (fun w => (w.listings.map (fun e => e.1),
        decide (∀ e ∈ w.listings, e.2 = specStore.ReadDir fsMove e.1)))
      = some (["/s", "/s/sub"], true) := by decide
  have hmv : (copyOrMoveRepoDir specStore false 5 .Move srcS ⟨"/d", none⟩
      (World.init fsMove fsLocal none)).world?.map
      (fun w => (w.listings.map (fun e => e.1),
        decide (∀ e ∈ w.listings, e.2 = specStore.ReadDir fsMove e.1)))
      = some (["/s", "/s/sub"], true) := by decide
  refine ⟨htree, ?_, ?_⟩
  · cases hrun : rmRepoDir specStore 5 "/s" true (World.init fsMove fsLocal none) with
    | done r w1 =>
      rw [hrun] at hrm
      simp only [Run.world?, Option.map_some', Option.some.injEq, Prod.mk.injEq,
        decide_eq_true_eq] at hrm
      exact ⟨r, w1, rfl, hrm.1,
        (complete_counts specStore (specStore.ReadDir fsMove) 5 _).1 "/s"
          (World.init fsMove fsLocal none) w1 r rfl (by decide) hrun hrm.2 htree⟩
    | panic w1 =>
      rw [hrun] at hrm
      simp [Run.world?] at hrm
    | outOfFuel =>
      rw [hrun] at hrm
      simp [Run.world?] at hrm
  · cases hrun : copyOrMoveRepoDir specStore false 5 .Move srcS ⟨"/d", none⟩
        (World.init fsMove fsLocal none) with
    | done r w1 =>
      rw [hrun] at hmv
      simp only [Run.world?, Option.map_some', Option.some.injEq, Prod.mk.injEq,
        decide_eq_true_eq] at hmv
      exact ⟨r, w1, rfl, hmv.1,
        (complete_counts specStore (specStore.ReadDir fsMove) 5 _).2 false .Move srcS
          ⟨"/d", none⟩ (World.init fsMove fsLocal none) w1 r rfl hrun hmv.2 htree⟩
    | panic w1 =>
      rw [hrun] at hmv
      simp [Run.world?] at hmv
    | outOfFuel =>
      rw [hrun] at hmv
      simp [Run.world?] at hmv

end Trees

section Roots

variable {σ τ : Type}

/-- The last character of a non-empty argument. -/
theorem lastRune_of_ne_empty (s : String) (hs : s ≠ "") : ∃ c, lastRune s = some c := by
  have hne : s.data ≠ [] := by
    intro h
    apply hs
    cases s
    simp_all
  unfold lastRune
  cases h : s.data.getLast? with
  | none => exact absurd (List.getLast?_eq_none_iff.mp h) hne
  | some c => exact ⟨c, rfl⟩

/-- The root `putCmd` chooses is the root of the rule. -/
theorem putDirDst_eq (cwd s d : String) (lfinfo : FileInfo) (hs : s ≠ "") :
    putDirDst cwd s d lfinfo
      = some (transferRoot path.Join s (getCleanRepoPath cwd d) lfinfo.name) := by
  obtain ⟨c, hc⟩ := lastRune_of_ne_empty s hs
  by_cases h : c = '/'
  · subst h
    simp [putDirDst, transferRoot, hc, osPathSeparator]
  · simp [putDirDst, transferRoot, hc, osPathSeparator, h]

/-- The root `getCmd` chooses is the root of the rule. -/
theorem getDirDst_eq (cwd lcwd s d : String) (hs : s ≠ "") :
    getDirDst cwd lcwd s d
      = some (transferRoot filepath.Join s (filepath.Abs lcwd d)
          (path.Base (getCleanRepoPath cwd s))) := by
  obtain ⟨c, hc⟩ := lastRune_of_ne_empty s hs
  by_cases h : c = '/'
  · subst h
    simp [getDirDst, transferRoot, hc]
  · simp [getDirDst, transferRoot, hc, h]

/-- The root `cpCmd` chooses is the root of the rule. -/
theorem cpDirDst_eq (cwd s d : String) (hs : s ≠ "") :
    cpDirDst cwd s d
      = some (transferRoot path.Join s (getCleanRepoPath cwd d)
          (path.Base (getCleanRepoPath cwd s))) := by
  obtain ⟨c, hc⟩ := lastRune_of_ne_empty s hs
  by_cases h : c = '/'
  · subst h
    simp [cpDirDst, transferRoot, hc]
  · simp [cpDirDst, transferRoot, hc, h]

/-- The root `mvCmd` chooses is the root of the rule. -/
theorem mvDirDst_eq (cwd s d : String) (hs : s ≠ "") :
    mvDirDst cwd s d
      = some (transferRoot path.Join s (getCleanRepoPath cwd d)
          (path.Base (getCleanRepoPath cwd s))) := by
  obtain ⟨c, hc⟩ := lastRune_of_ne_empty s hs
  by_cases h : c = '/'
  · subst h
    simp [mvDirDst, transferRoot, hc]
  · simp [mvDirDst, transferRoot, hc, h]

/-- The commands `cp` and `mv` of a directory: the stats, the creation of the
destination root, and the recursive copy or move to it. -/
theorem cpOrMvCmd_root (cli : DavClient σ) (cfg : Config) (op : Op) (fuel : Nat)
    (s d root : String) (w : World σ τ) (fsrc : FileInfo)
    (hstat : cli.Stat w.remote (getCleanRepoPath cfg.cwd s) = .ok fsrc)
    (hdir : fsrc.isDir = true)
    (hdst : ∀ f, cli.Stat w.remote (getCleanRepoPath cfg.cwd d) = .ok f → f.isDir = true) :
    cpOrMvCmd cli cfg op fuel s d (some root) w =
      match ((w.cliStat cli (getCleanRepoPath cfg.cwd s)).2.cliStat cli
          (getCleanRepoPath cfg.cwd d)).2.cliMkdirAll cli root fsrc.mode with
      | (some e, w3) => .returned ⟨some e, none⟩ w3
      | (none, w3) =>
        match copyOrMoveRepoDir cli cfg.overwrite fuel op
            ⟨getCleanRepoPath cfg.cwd s, some fsrc⟩ ⟨root, none⟩
            (initDynamicMaxProgressbar w3) with
        | .done r w5 => .returned ⟨r.2.2, some (r.1, r.2.1)⟩ (pbarDropPlaceholder w5)
        | .panic w5 => .panic w5
        | .outOfFuel => .outOfFuel := by
  unfold cpOrMvCmd
  simp only [World.cliStat, World.emit, hstat, hdir, if_true]
  cases hr : cli.Stat w.remote (getCleanRepoPath cfg.cwd d) with
  | error e =>
    simp only [Bool.false_eq_true, if_false]
  | ok f =>
    have hf := hdst f hr
    simp only [hf, Bool.not_true, Bool.false_eq_true, if_false]

/-- C1. Trailing-separator rule: take `put`, `get`, `cp` or `mv` with a
non-empty source argument `s` that resolves to a directory and a destination
argument `d` that does not resolve to an existing non-directory.  The command
is then the transfer of the source to the destination root of the rule: the
resolved `d` itself when the last character of `s` as typed is the separator,
and otherwise the resolved `d` joined with the base name of the resolved
source.  The command creates this root and starts its walk there: `put` and
`get` run `runOp` with the walker from the source to the root, `cp` and `mv`
run `copyOrMoveRepoDir` from the source to the root.  For `put` the name held
by the `FileInfo` of the resolved source is its base name. -/
theorem trailing_separator_rule (cli : DavClient σ) (os : LocalOS τ) (cfg : Config)
    (fuel : Nat) (s d : String) (w : World σ τ) (hs : s ≠ "") :
    (∀ lfinfo : FileInfo,
      os.Stat w.localfs (filepath.Abs cfg.lcwd s) = .ok lfinfo → lfinfo.isDir = true →
      lfinfo.name = path.Base (filepath.Abs cfg.lcwd s) →
      (∀ f, cli.Stat w.remote (getCleanRepoPath cfg.cwd d) = .ok f → f.isDir = true) →
      putCmd cli os cfg fuel s d w =
        match runOp cli os cfg.overwrite cfg.errfile .Put
            (fun send st =>
              match walkLocalDirForPut cli os send fuel
                  ⟨filepath.Abs cfg.lcwd s, some lfinfo⟩
                  ⟨transferRoot path.Join s (getCleanRepoPath cfg.cwd d)
                    (path.Base (filepath.Abs cfg.lcwd s)), none⟩
                  true st with
              | .returned _ st1 =>
                .returned () { st1 with world := pbarDropPlaceholder st1.world }
              | other => other)
            4
            (initDynamicMaxProgressbar
              ((((w.osStat os (filepath.Abs cfg.lcwd s)).2.cliStat cli
                (getCleanRepoPath cfg.cwd d)).2.cliMkdirAll cli
                (transferRoot path.Join s (getCleanRepoPath cfg.cwd d)
                  (path.Base (filepath.Abs cfg.lcwd s)))
                lfinfo.mode).2)) with
        | .returned cnt st => .returned ⟨none, some cnt⟩ st.world
        | .blocked st => .blocked st.world
        | .panic st => .panic st.world
        | .outOfFuel => .outOfFuel) ∧
    (∀ f : FileInfo,
      cli.Stat w.remote (getCleanRepoPath cfg.cwd s) = .ok f → f.isDir = true →
      (∀ lf, os.Stat w.localfs (filepath.Abs cfg.lcwd d) = .ok lf → lf.isDir = true) →
      getCmd cli os cfg fuel s d w =
        match ((w.cliStat cli (getCleanRepoPath cfg.cwd s)).2.osStat os
            (filepath.Abs cfg.lcwd d)).2.osMkdirAll os
            (transferRoot filepath.Join s (filepath.Abs cfg.lcwd d)
              (path.Base (getCleanRepoPath cfg.cwd s))) f.mode with
        | (some e, w3) => .returned ⟨some e, none⟩ w3
        | (none, w3) =>
          match runOp cli os cfg.overwrite cfg.errfile .Get
              (fun send st =>
                match walkRepoDirForGet cli os send fuel
                    ⟨getCleanRepoPath cfg.cwd s, some f⟩
                    ⟨transferRoot filepath.Join s (filepath.Abs cfg.lcwd d)
                      (path.Base (getCleanRepoPath cfg.cwd s)), none⟩
                    true st with
                | .returned _ st1 =>
                  .returned () { st1 with world := pbarDropPlaceholder st1.world }
                | other => other)
              4 (initDynamicMaxProgressbar w3) with
          | .returned cnt st => .returned ⟨none, some cnt⟩ st.world
          | .blocked st => .blocked st.world
          | .panic st => .panic st.world
          | .outOfFuel => .outOfFuel) ∧
    (∀ fsrc : FileInfo,
      cli.Stat w.remote (getCleanRepoPath cfg.cwd s) = .ok fsrc → fsrc.isDir = true →
      (∀ f, cli.Stat w.remote (getCleanRepoPath cfg.cwd d) = .ok f → f.isDir = true) →
      cpCmd cli cfg fuel s d w =
        match ((w.cliStat cli (getCleanRepoPath cfg.cwd s)).2.cliStat cli
            (getCleanRepoPath cfg.cwd d)).2.cliMkdirAll cli
            (transferRoot path.Join s (getCleanRepoPath cfg.cwd d)
              (path.Base (getCleanRepoPath cfg.cwd s))) fsrc.mode with
        | (some e, w3) => .returned ⟨some e, none⟩ w3
        | (none, w3) =>
          match copyOrMoveRepoDir cli cfg.overwrite fuel .Copy
              ⟨getCleanRepoPath cfg.cwd s, some fsrc⟩
              ⟨transferRoot path.Join s (getCleanRepoPath cfg.cwd d)
                (path.Base (getCleanRepoPath cfg.cwd s)), none⟩
              (initDynamicMaxProgressbar w3) with
          | .done r w5 => .returned ⟨r.2.2, some (r.1, r.2.1)⟩ (pbarDropPlaceholder w5)
          | .panic w5 => .panic w5
          | .outOfFuel => .outOfFuel) ∧
    (∀ fsrc : FileInfo,
      cli.Stat w.remote (getCleanRepoPath cfg.cwd s) = .ok fsrc → fsrc.isDir = true →
      (∀ f, cli.Stat w.remote (getCleanRepoPath cfg.cwd d) = .ok f → f.isDir = true) →
      mvCmd cli cfg fuel s d w =
        match ((w.cliStat cli (getCleanRepoPath cfg.cwd s)).2.cliStat cli
            (getCleanRepoPath cfg.cwd d)).2.cliMkdirAll cli
            (transferRoot path.Join s (getCleanRepoPath cfg.cwd d)
              (path.Base (getCleanRepoPath cfg.cwd s))) fsrc.mode with
        | (some e, w3) => .returned ⟨some e, none⟩ w3
        | (none, w3) =>
          match copyOrMoveRepoDir cli cfg.overwrite fuel .Move
              ⟨getCleanRepoPath cfg.cwd s, some fsrc⟩
              ⟨transferRoot path.Join s (getCleanRepoPath cfg.cwd d)
                (path.Base (getCleanRepoPath cfg.cwd s)), none⟩
              (initDynamicMaxProgressbar w3) with
          | .done r w5 => .returned ⟨r.2.2, some (r.1, r.2.1)⟩ (pbarDropPlaceholder w5)
          | .panic w5 => .panic w5
          | .outOfFuel => .outOfFuel) ∧
    (transferRoot path.Join "/a/dir" "/b" "dir" = "/b/dir" ∧
      transferRoot path.Join "/a/dir/" "/b" "dir" = "/b") := by
  refine ⟨?_, ?_, ?_, ?_, by decide⟩
  · intro lfinfo hstat hdir hname hdst
    have hroot := putDirDst_eq cfg.cwd s d lfinfo hs
    rw [hname] at hroot
    unfold putCmd
    simp only [World.osStat, hstat, hdir, if_true]
    cases hr : cli.Stat w.remote (getCleanRepoPath cfg.cwd d) with
    | error e =>
      simp only [World.cliStat, World.emit, hr, hroot, Bool.false_eq_true, if_false]
    | ok f =>
      have hf := hdst f hr
      simp only [World.cliStat, World.emit, hr, hroot, hf, Bool.not_true, Bool.false_eq_true,
        if_false]
  · intro f hstat hdir hdst
    have hroot := getDirDst_eq cfg.cwd cfg.lcwd s d hs
    unfold getCmd
    simp only [World.cliStat, hstat, hdir, if_true]
    cases hr : os.Stat w.localfs (filepath.Abs cfg.lcwd d) with
    | error e =>
      simp only [World.osStat, World.emit, hr, hroot, Bool.false_eq_true, if_false]
    | ok lf =>
      have hf := hdst lf hr
      simp only [World.osStat, World.emit, hr, hroot, hf, Bool.not_true, Bool.false_eq_true,
        if_false]
  · intro fsrc hstat hdir hdst
    unfold cpCmd
    rw [cpDirDst_eq cfg.cwd s d hs]
    exact cpOrMvCmd_root cli cfg .Copy fuel s d _ w fsrc hstat hdir hdst
  · intro fsrc hstat hdir hdst
    unfold mvCmd
    rw [mvDirDst_eq cfg.cwd s d hs]
    exact cpOrMvCmd_root cli cfg .Move fuel s d _ w fsrc hstat hdir hdst

/-- The rule of C1 on the tree with the directory `/a/dir`, which holds the
file `f`, and the empty directory `/b`: `cp /a/dir /b` is the copy to the root
`/b/dir` and leaves the file at `/b/dir/f`; `cp /a/dir/ /b` is the copy to the
root `/b` and leaves the file at `/b/f`; `put` does the same from the local
tree, and `put /a/dir/ /b` is the upload by `runOp` with the walker to the root
`/b`. -/
theorem trailing_separator_rule_witness :
    (cpCmd specStore cfgDefault 5 "/a/dir" "/b" (World.init fsRule fsRule none) =
      match (((World.init fsRule fsRule none : World SpecFS SpecFS).cliStat specStore
          (getCleanRepoPath cfgDefault.cwd "/a/dir")).2.cliStat specStore
          (getCleanRepoPath cfgDefault.cwd "/b")).2.cliMkdirAll specStore "/b/dir" 493 with
      | (some e, w3) => .returned ⟨some e, none⟩ w3
      | (none, w3) =>
        match copyOrMoveRepoDir specStore cfgDefault.overwrite 5 .Copy
            ⟨getCleanRepoPath cfgDefault.cwd "/a/dir", some ⟨"dir", 0, true, 493⟩⟩
            ⟨"/b/dir", none⟩ (initDynamicMaxProgressbar w3) with
        | .done r w5 => .returned ⟨r.2.2, some (r.1, r.2.1)⟩ (pbarDropPlaceholder w5)
        | .panic w5 => .panic w5
        | .outOfFuel => .outOfFuel) ∧
    (cpCmd specStore cfgDefault 5 "/a/dir/" "/b" (World.init fsRule fsRule none) =
      match (((World.init fsRule fsRule none : World SpecFS SpecFS).cliStat specStore
          (getCleanRepoPath cfgDefault.cwd "/a/dir/")).2.cliStat specStore
          (getCleanRepoPath cfgDefault.cwd "/b")).2.cliMkdirAll specStore "/b" 493 with
      | (some e, w3) => .returned ⟨some e, none⟩ w3
      | (none, w3) =>
        match copyOrMoveRepoDir specStore cfgDefault.overwrite 5 .Copy
            ⟨getCleanRepoPath cfgDefault.cwd "/a/dir/", some ⟨"dir", 0, true, 493⟩⟩
            ⟨"/b", none⟩ (initDynamicMaxProgressbar w3) with
        | .done r w5 => .returned ⟨r.2.2, some (r.1, r.2.1)⟩ (pbarDropPlaceholder w5)
        | .panic w5 => .panic w5
        | .outOfFuel => .outOfFuel) ∧
    (cpCmd specStore cfgDefault 5 "/a/dir" "/b" (World.init fsRule fsRule none)).state?.map
        (fun w => (w.remote.find? "/b/dir/f", w.remote.find? "/b/f"))
      = some (some (.file [1, 2] 420), none) ∧
    (cpCmd specStore cfgDefault 5 "/a/dir/" "/b" (World.init fsRule fsRule none)).state?.map
        (fun w => (w.remote.find? "/b/dir/f", w.remote.find? "/b/f"))
      = some (none, some (.file [1, 2] 420)) ∧
    (putCmd specStore posixOS cfgDefault 5 "/a/dir" "/b"
        (World.init fsRule fsRule none)).state?.map
        (fun w => (w.remote.find? "/b/dir/f", w.remote.find? "/b/f"))
      = some (some (.file [1, 2] 420), none) ∧
    (putCmd specStore posixOS cfgDefault 5 "/a/dir/" "/b"
        (World.init fsRule fsRule none)).state?.map
        (fun w => (w.remote.find? "/b/dir/f", w.remote.find? "/b/f"))
      = some (none, some (.file [1, 2] 420)) ∧
    (posixOS.Stat fsRule (filepath.Abs cfgDefault.lcwd "/a/dir/") = .ok ⟨"dir", 0, true, 493⟩ ∧
      transferRoot path.Join "/a/dir/" (getCleanRepoPath cfgDefault.cwd "/b")
        (path.Base (filepath.Abs cfgDefault.lcwd "/a/dir/")) = "/b" ∧
      putCmd specStore posixOS cfgDefault 5 "/a/dir/" "/b" (World.init fsRule fsRule none) =
        match runOp specStore posixOS cfgDefault.overwrite cfgDefault.errfile .Put
            (fun send st =>
              match walkLocalDirForPut specStore posixOS send 5
                  ⟨filepath.Abs cfgDefault.lcwd "/a/dir/", some ⟨"dir", 0, true, 493⟩⟩
                  ⟨transferRoot path.Join "/a/dir/" (getCleanRepoPath cfgDefault.cwd "/b")
                    (path.Base (filepath.Abs cfgDefault.lcwd "/a/dir/")), none⟩
                  true st with
              | .returned _ st1 =>
                .returned () { st1 with world := pbarDropPlaceholder st1.world }
              | other => other)
            4
            (initDynamicMaxProgressbar
              (((((World.init fsRule fsRule none : World SpecFS SpecFS).osStat posixOS
                (filepath.Abs cfgDefault.lcwd "/a/dir/")).2.cliStat specStore
                (getCleanRepoPath cfgDefault.cwd "/b")).2.cliMkdirAll specStore
                (transferRoot path.Join "/a/dir/" (getCleanRepoPath cfgDefault.cwd "/b")
                  (path.Base (filepath.Abs cfgDefault.lcwd "/a/dir/")))
                493).2)) with
        | .returned cnt st => .returned ⟨none, some cnt⟩ st.world
        | .blocked st => .blocked st.world
        | .panic st => .panic st.world
        | .outOfFuel => .outOfFuel) := by
  have hb : ∀ f, specStore.Stat (World.init fsRule fsRule none : World SpecFS SpecFS).remote
      (getCleanRepoPath cfgDefault.cwd "/b") = .ok f → f.isDir = true := by
    intro f hf
    have h : specStore.Stat fsRule (getCleanRepoPath cfgDefault.cwd "/b")
        = .ok ⟨"b", 0, true, 493⟩ := by decide
    have e : (World.init fsRule fsRule none : World SpecFS SpecFS).remote = fsRule := rfl
    rw [e, h] at hf
    cases hf
    rfl
  have h1 := (trailing_separator_rule specStore posixOS cfgDefault 5 "/a/dir" "/b"
    (World.init fsRule fsRule none) (by decide)).2.2.1 ⟨"dir", 0, true, 493⟩ (by decide) rfl hb
  have h2 := (trailing_separator_rule specStore posixOS cfgDefault 5 "/a/dir/" "/b"
    (World.init fsRule fsRule none) (by decide)).2.2.1 ⟨"dir", 0, true, 493⟩ (by decide) rfl hb
  have v1 : transferRoot path.Join "/a/dir" (getCleanRepoPath cfgDefault.cwd "/b")
      (path.Base (getCleanRepoPath cfgDefault.cwd "/a/dir")) = "/b/dir" := by decide
  have v2 : transferRoot path.Join "/a/dir/" (getCleanRepoPath cfgDefault.cwd "/b")
      (path.Base (getCleanRepoPath cfgDefault.cwd "/a/dir/")) = "/b" := by decide
  rw [v1] at h1
  rw [v2] at h2
  have h3 := (trailing_separator_rule specStore posixOS cfgDefault 5 "/a/dir/" "/b"
    (World.init fsRule fsRule none) (by decide)).1 ⟨"dir", 0, true, 493⟩ (by decide) rfl
    (by decide) hb
  exact ⟨h1, h2, by decide, by decide, by decide, by decide, by decide, by decide, h3⟩

end Roots

section Overlap

/-- C5, run on a failing input. The guard of the terminal rule works: on every
store whose listings name single path elements and for every clean absolute
source path, when `copyOrMoveRepoDir` with `op = Move` returns a failure count
greater than zero, none of the calls it issued is a `Remove` of the source
directory or a `Rename` of it to another place.  The source directory is lost
all the same when one of its entries bears the name under which the
destination holds the source directory.  For `mv -f /s/ /`, with `/s` holding
the files `a` and `s` and the rename of `/s/a` refused, the failure count is 1
and no `Remove` is issued, but the rename of `/s/s` to `/s` with
`overwrite = true` replaces the directory `/s` by the file: afterwards `/s` is
a file and `/s/a`, whose rename failed, is gone. -/
theorem move_source_replaced_on_failure :
    (∀ (σ τ : Type) (cli : DavClient σ) (overwrite : Bool) (fuel : Nat) (src dst : pathFileInfo)
        (w w1 : World σ τ) (cntOk cntErr : Nat) (err : GoError),
        ListsValidNames cli → CleanAbs src.path →
        copyOrMoveRepoDir cli overwrite fuel .Move src dst w = .done (cntOk, cntErr, err) w1 →
        0 < cntErr →
        Call.Remove src.path ∉ newCalls w w1 ∧
          ∀ c ∈ newCalls w w1, c.takesAway ≠ some src.path) ∧
    (specStore.Stat fsOverlap "/s" = .ok ⟨"s", 0, true, 493⟩ ∧
      fsOverlap.find? "/s/a" = some (.file [1, 2, 3] 420) ∧
      (specStore.ReadDir fsOverlap "/s").map (fun l => l.map (fun f => (f.name, f.isDir)))
        = .ok [("a", false), ("s", false)] ∧
      (specStore.Rename fsOverlap "/s/a" "/a" true).1 = some "403 Forbidden - MOVE /s/a") ∧
    ((copyOrMoveRepoDir specStore true 5 .Move srcS ⟨"/", none⟩
        (World.init fsOverlap fsLocal none)).result? = some (1, 1, none) ∧
      (copyOrMoveRepoDir specStore true 5 .Move srcS ⟨"/", none⟩
        (World.init fsOverlap fsLocal none)).world?.map (fun w => w.log)
        = some [.ReadDir "/s", .pbarChangeMax 3, .MkdirAll "/", .Rename "/s/a" "/a" true,
            .pbarAdd 1, .Rename "/s/s" "/s" true, .pbarAdd 1] ∧
      (copyOrMoveRepoDir specStore true 5 .Move srcS ⟨"/", none⟩
        (World.init fsOverlap fsLocal none)).world?.map
          (fun w => (specStore.Stat w.remote "/s", w.remote.find? "/s/a", w.remote.find? "/a"))
        = some (.ok ⟨"s", 1, false, 420⟩, none, none)) ∧
    ((mvCmd specStore { cfgDefault with overwrite := true } 5 "/s/" "/"
        (World.init fsOverlap fsLocal none)).result? = some ⟨none, some (1, 1)⟩ ∧
      (mvCmd specStore { cfgDefault with overwrite := true } 5 "/s/" "/"
        (World.init fsOverlap fsLocal none)).state?.map
          (fun w => (specStore.Stat w.remote "/s", w.remote.find? "/s/a", w.remote.find? "/a",
            decide (Call.Remove "/s" ∈ w.log)))
        = some (.ok ⟨"s", 1, false, 420⟩, none, none, false)) := by
  refine ⟨?_, ⟨?_, ?_, ?_, ?_⟩, ⟨?_, ?_, ?_⟩, ?_, ?_⟩
  · intro σ τ cli overwrite fuel src dst w w1 cntOk cntErr err hnames hsrc hrun hfail
    have h := move_failure_takes_no_source cli overwrite fuel src dst w w1 cntOk cntErr err
      hnames hsrc hrun hfail
    exact ⟨h.1, h.2.1⟩
  all_goals decide

/-- The guard of C5 on the failing input: the move of `/s` to `/` on
`fsOverlap` returns the failure count 1, and no `Remove` of `/s` and no
`Rename` of `/s` to another place is among its calls. -/
theorem move_source_replaced_on_failure_witness :
    ListsValidNames specStore ∧ CleanAbs srcS.path ∧
    ∃ w1, copyOrMoveRepoDir specStore true 5 .Move srcS ⟨"/", none⟩
        (World.init fsOverlap fsLocal none) = .done (1, 1, none) w1 ∧
      0 < 1 ∧
      Call.Remove srcS.path ∉ newCalls (World.init fsOverlap fsLocal none) w1 ∧
      ∀ c ∈ newCalls (World.init fsOverlap fsLocal none) w1, c.takesAway ≠ some srcS.path := by
  have hclean : CleanAbs srcS.path := ⟨[['s']], by decide, by decide⟩
  have hres : (copyOrMoveRepoDir specStore true 5 .Move srcS ⟨"/", none⟩
      (World.init fsOverlap fsLocal none)).result? = some (1, 1, none) := by decide
  refine ⟨specStore_listsValidNames, hclean, ?_⟩
  cases h : copyOrMoveRepoDir specStore true 5 .Move srcS ⟨"/", none⟩
      (World.init fsOverlap fsLocal none) with
  | done r w1 =>
    rw [h] at hres
    simp only [Run.result?, Option.some.injEq] at hres
    subst hres
    exact ⟨w1, rfl, by decide,
      move_source_replaced_on_failure.1 SpecFS SpecFS specStore true 5 srcS ⟨"/", none⟩
        (World.init fsOverlap fsLocal none) w1 1 1 none specStore_listsValidNames hclean h
        (by decide)⟩
  | panic w1 =>
    rw [h] at hres
    simp [Run.result?] at hres
  | outOfFuel =>
    rw [h] at hres
    simp [Run.result?] at hres

end Overlap

section Increments

variable {σ τ : Type}

/-- A call of `putRepoFile` that returns has left the dynamic progress bar
alone. -/
theorem putRepoFile_done_pbar (cli : DavClient σ) (os : LocalOS τ) (overwrite : Bool)
    (src dst : pathFileInfo) (showProgress : Bool) (w w1 : World σ τ) (err : GoError)
    (h : putRepoFile cli os overwrite src dst showProgress w = .done err w1) :
    pbarAdds w1.log = pbarAdds w.log ∧ w1.pbarCurrent = w.pbarCurrent := by
  unfold putRepoFile at h
  simp only [World.cliStat, World.osOpen, World.cliWriteStream, World.emit] at h
  cases overwrite <;> simp only [Bool.not_false, Bool.not_true, if_true, Bool.false_eq_true,
    if_false] at h
  all_goals repeat' (split at h)
  all_goals first
    | (simp at h; done)
    | (simp only [Run.done.injEq, Prod.mk.injEq] at *
       casesm* _ ∧ _
       subst_vars
       simp [pbarAdds])

/-- A call of `putRepoFile` ends: it returns, or it panics. A panic on a source
that has its `FileInfo` is the panic of `prettifyProgressbarDesc`. -/
theorem putRepoFile_ends (cli : DavClient σ) (os : LocalOS τ) (overwrite : Bool)
    (src dst : pathFileInfo) (showProgress : Bool) (w : World σ τ) (info : FileInfo)
    (hinfo : src.info = some info) :
    (∃ err w1, putRepoFile cli os overwrite src dst showProgress w = .done err w1) ∨
    ((∃ w1, putRepoFile cli os overwrite src dst showProgress w = .panic w1) ∧
      prettifyProgressbarDesc info.name = none) := by
  cases hdesc : prettifyProgressbarDesc info.name with
  | some d =>
    obtain ⟨err, w1, h, -⟩ := putRepoFile_pbar cli os overwrite src dst showProgress w info hinfo
      (by rw [hdesc]; simp)
    exact Or.inl ⟨err, w1, h⟩
  | none =>
    have htail : ∀ w0 : World σ τ,
        (∃ err w1, (match w0.osOpen os src.path with
          | (.error e, w2) => Run.done (some ("cannot open local file: " ++ e)) w2
          | (.ok _, w2) => (Run.panic w2 : Run GoError (World σ τ))) = .done err w1) ∨
        (∃ w1, (match w0.osOpen os src.path with
          | (.error e, w2) => Run.done (some ("cannot open local file: " ++ e)) w2
          | (.ok _, w2) => (Run.panic w2 : Run GoError (World σ τ))) = .panic w1) := by
      intro w0
      cases w0.osOpen os src.path with
      | mk r w2 =>
        cases r with
        | error e => exact Or.inl ⟨_, _, rfl⟩
        | ok c => exact Or.inr ⟨_, rfl⟩
    unfold putRepoFile
    simp only [hinfo, hdesc]
    cases overwrite with
    | true =>
      simp only [Bool.not_true, Bool.false_eq_true, if_false]
      rcases htail w with h | h
      · exact Or.inl h
      · exact Or.inr ⟨h, trivial⟩
    | false =>
      simp only [Bool.not_false, if_true]
      by_cases hskip : (!is404NotFountError (errOf (w.cliStat cli dst.path).1)) = true
      · rw [if_pos hskip]
        exact Or.inl ⟨_, _, rfl⟩
      · rw [if_neg hskip]
        rcases htail (w.cliStat cli dst.path).2 with h | h
        · exact Or.inl h
        · exact Or.inr ⟨h, trivial⟩

/-- A call of `getRepoFile` that returns has left the dynamic progress bar
alone. -/
theorem getRepoFile_done_pbar (cli : DavClient σ) (os : LocalOS τ) (overwrite : Bool)
    (src dst : pathFileInfo) (showProgress : Bool) (w w1 : World σ τ) (err : GoError)
    (h : getRepoFile cli os overwrite src dst showProgress w = .done err w1) :
    pbarAdds w1.log = pbarAdds w.log ∧ w1.pbarCurrent = w.pbarCurrent := by
  unfold getRepoFile at h
  simp only [World.osStat, World.osOpenFile, World.cliReadStream, World.emit] at h
  cases overwrite <;> simp only [Bool.not_false, Bool.not_true, if_true, Bool.false_eq_true,
    if_false] at h
  all_goals repeat' (split at h)
  all_goals first
    | (simp at h; done)
    | (simp only [Run.done.injEq, Prod.mk.injEq] at *
       casesm* _ ∧ _
       subst_vars
       first
         | (simp [pbarAdds]; done)
         | (rw [(getRepoFileLoop_pbar _ _ _ _ _ _).1, (getRepoFileLoop_pbar _ _ _ _ _ _).2]
            simp [pbarAdds]))

/-- A call of `getRepoFile` ends: it returns, or it panics. A panic on a source
that has its `FileInfo` is the panic of `prettifyProgressbarDesc`. -/
theorem getRepoFile_ends (cli : DavClient σ) (os : LocalOS τ) (overwrite : Bool)
    (src dst : pathFileInfo) (showProgress : Bool) (w : World σ τ) (info : FileInfo)
    (hinfo : src.info = some info) :
    (∃ err w1, getRepoFile cli os overwrite src dst showProgress w = .done err w1) ∨
    ((∃ w1, getRepoFile cli os overwrite src dst showProgress w = .panic w1) ∧
      prettifyProgressbarDesc (path.Base src.path) = none) := by
  cases hdesc : prettifyProgressbarDesc (path.Base src.path) with
  | some d =>
    obtain ⟨err, w1, h, -⟩ := getRepoFile_pbar cli os overwrite src dst showProgress w info hinfo
      (by rw [hdesc]; simp)
    exact Or.inl ⟨err, w1, h⟩
  | none =>
    have htail : ∀ w0 : World σ τ,
        (∃ err w1, (match w0.osOpenFile os dst.path info.mode with
          | (some e, w2) => Run.done (some ("cannot create/write local file: " ++ e)) w2
          | (none, w2) => (Run.panic w2 : Run GoError (World σ τ))) = .done err w1) ∨
        (∃ w1, (match w0.osOpenFile os dst.path info.mode with
          | (some e, w2) => Run.done (some ("cannot create/write local file: " ++ e)) w2
          | (none, w2) => (Run.panic w2 : Run GoError (World σ τ))) = .panic w1) := by
      intro w0
      cases w0.osOpenFile os dst.path info.mode with
      | mk r w2 =>
        cases r with
        | some e => exact Or.inl ⟨_, _, rfl⟩
        | none => exact Or.inr ⟨_, rfl⟩
    unfold getRepoFile
    simp only [hinfo, hdesc]
    cases overwrite with
    | true =>
      simp only [Bool.not_true, Bool.false_eq_true, if_false]
      rcases htail w with h | h
      · exact Or.inl h
      · exact Or.inr ⟨h, trivial⟩
    | false =>
      simp only [Bool.not_false, if_true]
      split
      · exact Or.inl ⟨_, _, rfl⟩
      · rcases htail (w.osStat os dst.path).2 with h | h
        · exact Or.inl h
        · exact Or.inr ⟨h, trivial⟩

/-- C10, with the input on which it fails. A task of `Move`, `Remove` or
`Copy` always completes and advances the progress bar exactly once, by 1,
whether it succeeded or failed.  A task of `Put` or `Get` whose source entry
carries its `FileInfo` either completes and has advanced the progress bar
exactly once, by the size of the source, whatever it returned (also when the
file was skipped), or it ends in the panic of `prettifyProgressbarDesc` on the
name of the file, and then the progress bar is not advanced; there is no third
outcome.  The panic is met by `put /l /r` on a directory that holds a file
whose name is 34 characters `é`: the task of the file is dispatched, the worker
panics, and the command ends without an `Add64`. -/
theorem progress_increment (cli : DavClient σ) (os : LocalOS τ) (overwrite errWriterValid : Bool)
    (op : Op) (inputs : opInput) (cnt : Nat × Nat) (w : World σ τ) :
    ((op = .Move ∨ op = .Remove ∨ op = .Copy) →
      ∃ r w1, runOpTask cli os overwrite errWriterValid op inputs cnt w = .done r w1 ∧
        pbarAdds w1.log = pbarAdds w.log ++ [1] ∧ w1.pbarCurrent = w.pbarCurrent + 1) ∧
    (∀ info, inputs.src.info = some info → (op = .Put ∨ op = .Get) →
      (∃ r w1, runOpTask cli os overwrite errWriterValid op inputs cnt w = .done r w1 ∧
        pbarAdds w1.log = pbarAdds w.log ++ [info.size] ∧
        w1.pbarCurrent = w.pbarCurrent + info.size) ∨
      ((∃ w1, runOpTask cli os overwrite errWriterValid op inputs cnt w = .panic w1) ∧
        (op = .Put ∧ prettifyProgressbarDesc info.name = none ∨
          op = .Get ∧ prettifyProgressbarDesc (path.Base inputs.src.path) = none))) ∧
    ((posixOS.ReadDir fsWide "/l" = .ok [⟨nameWide, 7, false, 420⟩] ∧
        specStore.ReadDir fsWide "/r" = .ok []) ∧
      (∃ w1, runOpTask specStore posixOS false true .Put (taskWide "/r/l") (0, 0)
          (World.init fsWide fsWide none) = .panic w1 ∧ pbarAdds w1.log = []) ∧
      (∃ st, putCmd specStore posixOS cfgDefault 5 "/l" "/r" (World.init fsWide fsWide none)
          = .panic st ∧ pbarAdds st.log = [] ∧ Call.MkdirAll "/r/l" ∈ st.log)) := by
  refine ⟨?_, ?_, ⟨by decide, by decide⟩, ?_, ?_⟩
  rotate_left 2
  · have hdec : (match runOpTask specStore posixOS false true .Put (taskWide "/r/l") (0, 0)
        (World.init fsWide fsWide none) with
        | .panic w1 => decide (pbarAdds w1.log = [])
        | _ => false) = true := by decide
    revert hdec
    cases runOpTask specStore posixOS false true .Put (taskWide "/r/l") (0, 0)
        (World.init fsWide fsWide none) with
    | panic w1 => exact fun h => ⟨w1, rfl, of_decide_eq_true h⟩
    | done r w1 => exact fun h => absurd h (by simp)
    | outOfFuel => exact fun h => absurd h (by simp)
  · have hdec : (match putCmd specStore posixOS cfgDefault 5 "/l" "/r"
        (World.init fsWide fsWide none) with
        | .panic st => decide (pbarAdds st.log = []) && decide (Call.MkdirAll "/r/l" ∈ st.log)
        | _ => false) = true := by decide
    revert hdec
    cases putCmd specStore posixOS cfgDefault 5 "/l" "/r" (World.init fsWide fsWide none) with
    | panic st =>
      intro h
      simp only [Bool.and_eq_true, decide_eq_true_eq] at h
      exact ⟨st, rfl, h.1, h.2⟩
    | returned a st => exact fun h => absurd h (by simp)
    | blocked st => exact fun h => absurd h (by simp)
    | outOfFuel => exact fun h => absurd h (by simp)
  · intro hop
    rcases hop with h | h | h
    · subst h
      simp only [runOpTask, World.cliRename]
      cases cli.Rename w.remote inputs.src.path inputs.dst.path overwrite with
      | mk err s1 =>
        cases err with
        | some e =>
          refine ⟨_, _, rfl, ?_, ?_⟩
          · cases errWriterValid <;> simp [World.pbarAdd64, World.errWrite, World.emit, pbarAdds]
          · cases errWriterValid <;> simp [World.pbarAdd64, World.errWrite, World.emit]
        | none =>
          exact ⟨_, _, rfl, by simp [World.pbarAdd64, World.emit, pbarAdds],
            by simp [World.pbarAdd64, World.emit]⟩
    · subst h
      simp only [runOpTask, World.cliRemove]
      cases cli.Remove w.remote inputs.src.path with
      | mk err s1 =>
        cases err with
        | some e =>
          refine ⟨_, _, rfl, ?_, ?_⟩
          · cases errWriterValid <;> simp [World.pbarAdd64, World.errWrite, World.emit, pbarAdds]
          · cases errWriterValid <;> simp [World.pbarAdd64, World.errWrite, World.emit]
        | none =>
          exact ⟨_, _, rfl, by simp [World.pbarAdd64, World.emit, pbarAdds],
            by simp [World.pbarAdd64, World.emit]⟩
    · subst h
      exact ⟨_, _, rfl, by simp [World.cliCopy, World.pbarAdd64, World.emit, pbarAdds],
        by simp [World.cliCopy, World.pbarAdd64, World.emit]⟩
  · intro info hinfo hop
    rcases hop with h | h
    · subst h
      rcases putRepoFile_ends cli os overwrite inputs.src inputs.dst false w info hinfo with
        ⟨err, w1, hrun⟩ | ⟨⟨w1, hrun⟩, hnone⟩
      · obtain ⟨hadds, hcur⟩ := putRepoFile_done_pbar cli os overwrite _ _ _ _ _ _ hrun
        left
        simp only [runOpTask, hrun, hinfo]
        cases err with
        | some e =>
          refine ⟨_, _, rfl, ?_, ?_⟩
          · cases errWriterValid <;>
              simp [World.pbarAdd64, World.errWrite, World.emit, pbarAdds] <;>
              simpa [pbarAdds] using hadds
          · cases errWriterValid <;> simp [World.pbarAdd64, World.errWrite, World.emit, hcur]
        | none =>
          refine ⟨_, _, rfl, ?_, ?_⟩
          · simp [World.pbarAdd64, World.emit, pbarAdds]
            simpa [pbarAdds] using hadds
          · simp [World.pbarAdd64, World.emit, hcur]
      · right
        exact ⟨⟨w1, by simp only [runOpTask, hrun]⟩, Or.inl ⟨rfl, hnone⟩⟩
    · subst h
      rcases getRepoFile_ends cli os overwrite inputs.src inputs.dst false w info hinfo with
        ⟨err, w1, hrun⟩ | ⟨⟨w1, hrun⟩, hnone⟩
      · obtain ⟨hadds, hcur⟩ := getRepoFile_done_pbar cli os overwrite _ _ _ _ _ _ hrun
        left
        simp only [runOpTask, hrun, hinfo]
        cases err with
        | some e =>
          refine ⟨_, _, rfl, ?_, ?_⟩
          · cases errWriterValid <;>
              simp [World.pbarAdd64, World.errWrite, World.emit, pbarAdds] <;>
              simpa [pbarAdds] using hadds
          · cases errWriterValid <;> simp [World.pbarAdd64, World.errWrite, World.emit, hcur]
        | none =>
          refine ⟨_, _, rfl, ?_, ?_⟩
          · simp [World.pbarAdd64, World.emit, pbarAdds]
            simpa [pbarAdds] using hadds
          · simp [World.pbarAdd64, World.emit, hcur]
      · right
        exact ⟨⟨w1, by simp only [runOpTask, hrun]⟩, Or.inr ⟨rfl, hnone⟩⟩

/-- The increments of C10 on the concrete stores: a `Move` that fails advances
the bar by 1; a `Put` that fails with a size mis-match advances it by the size
7 of its source entry; a `Get` that succeeds advances it by the size 3 of its
source; the `Put` of the file named `nameWide` to a directory that holds a file
of that name is skipped and advances the bar by the size 7; the same `Put` to
a directory that does not hold one panics. -/
theorem progress_increment_witness :
    (∃ r w1, runOpTask specStore posixOS false true .Move ⟨⟨"/r/nope", none⟩, ⟨"/r/x", none⟩⟩
        (0, 0) (World.init fsRemote fsLocal none) = .done r w1 ∧
      pbarAdds w1.log = pbarAdds (World.init fsRemote fsLocal none).log ++ [1] ∧
      w1.pbarCurrent = (World.init fsRemote fsLocal none).pbarCurrent + 1) ∧
    (runOpTask specStore posixOS false true .Move ⟨⟨"/r/nope", none⟩, ⟨"/r/x", none⟩⟩
        (0, 0) (World.init fsRemote fsLocal none)).result? = some (0, 1) ∧
    (∃ r w1, runOpTask specStore posixOS false true .Put
        ⟨⟨"/l/f", some ⟨"f", 7, false, 420⟩⟩, ⟨"/r/g", none⟩⟩
        (0, 0) (World.init fsRemote fsLocal none) = .done r w1 ∧
      pbarAdds w1.log = pbarAdds (World.init fsRemote fsLocal none).log ++ [7] ∧
      w1.pbarCurrent = (World.init fsRemote fsLocal none).pbarCurrent + 7) ∧
    (runOpTask specStore posixOS false true .Put
        ⟨⟨"/l/f", some ⟨"f", 7, false, 420⟩⟩, ⟨"/r/g", none⟩⟩
        (0, 0) (World.init fsRemote fsLocal none)).result? = some (0, 1) ∧
    (∃ r w1, runOpTask specStore posixOS true true .Get ⟨srcRF, ⟨"/l/g", none⟩⟩
        (0, 0) (World.init fsRemote fsLocal none) = .done r w1 ∧
      pbarAdds w1.log = pbarAdds (World.init fsRemote fsLocal none).log ++ [3] ∧
      w1.pbarCurrent = (World.init fsRemote fsLocal none).pbarCurrent + 3) ∧
    (runOpTask specStore posixOS true true .Get ⟨srcRF, ⟨"/l/g", none⟩⟩
        (0, 0) (World.init fsRemote fsLocal none)).result? = some (1, 0) ∧
    (∃ r w1, runOpTask specStore posixOS false true .Put (taskWide "/l")
        (0, 0) (World.init fsWide fsWide none) = .done r w1 ∧
      pbarAdds w1.log = pbarAdds (World.init fsWide fsWide none).log ++ [7] ∧
      w1.pbarCurrent = (World.init fsWide fsWide none).pbarCurrent + 7) ∧
    (runOpTask specStore posixOS false true .Put (taskWide "/l")
        (0, 0) (World.init fsWide fsWide none)).result? = some (1, 0) ∧
    ((∃ w1, runOpTask specStore posixOS false true .Put (taskWide "/r")
        (0, 0) (World.init fsWide fsWide none) = .panic w1) ∧
      prettifyProgressbarDesc nameWide = none) := by
  have hput : (runOpTask specStore posixOS false true .Put
      ⟨⟨"/l/f", some ⟨"f", 7, false, 420⟩⟩, ⟨"/r/g", none⟩⟩
      (0, 0) (World.init fsRemote fsLocal none)).result? = some (0, 1) := by decide
  have hget : (runOpTask specStore posixOS true true .Get ⟨srcRF, ⟨"/l/g", none⟩⟩
      (0, 0) (World.init fsRemote fsLocal none)).result? = some (1, 0) := by decide
  have hskip : (runOpTask specStore posixOS false true .Put (taskWide "/l")
      (0, 0) (World.init fsWide fsWide none)).result? = some (1, 0) := by decide
  have hpanic : (runOpTask specStore posixOS false true .Put (taskWide "/r")
      (0, 0) (World.init fsWide fsWide none)).result? = none := by decide
  refine ⟨(progress_increment specStore posixOS false true .Move
      ⟨⟨"/r/nope", none⟩, ⟨"/r/x", none⟩⟩ (0, 0) (World.init fsRemote fsLocal none)).1
      (Or.inl rfl), by decide, ?_, hput, ?_, hget, ?_, hskip, ?_⟩
  · rcases (progress_increment specStore posixOS false true .Put
      ⟨⟨"/l/f", some ⟨"f", 7, false, 420⟩⟩, ⟨"/r/g", none⟩⟩ (0, 0)
      (World.init fsRemote fsLocal none)).2.1 ⟨"f", 7, false, 420⟩ rfl (Or.inl rfl) with
      h | ⟨⟨w1, hp⟩, -⟩
    · exact h
    · rw [hp] at hput
      simp [Run.result?] at hput
  · rcases (progress_increment specStore posixOS true true .Get ⟨srcRF, ⟨"/l/g", none⟩⟩ (0, 0)
      (World.init fsRemote fsLocal none)).2.1 ⟨"f", 3, false, 420⟩ rfl (Or.inr rfl) with
      h | ⟨⟨w1, hp⟩, -⟩
    · exact h
    · rw [hp] at hget
      simp [Run.result?] at hget
  · rcases (progress_increment specStore posixOS false true .Put (taskWide "/l") (0, 0)
      (World.init fsWide fsWide none)).2.1 ⟨nameWide, 7, false, 420⟩ rfl (Or.inl rfl) with
      h | ⟨⟨w1, hp⟩, -⟩
    · exact h
    · rw [hp] at hskip
      simp [Run.result?] at hskip
  · rcases (progress_increment specStore posixOS false true .Put (taskWide "/r") (0, 0)
      (World.init fsWide fsWide none)).2.1 ⟨nameWide, 7, false, 420⟩ rfl (Or.inl rfl) with
      ⟨r, w1, hd, -⟩ | ⟨hp, hnone⟩
    · rw [hd] at hpanic
      simp [Run.result?] at hpanic
    · rcases hnone with ⟨-, hn⟩ | ⟨h, -⟩
      · exact ⟨hp, hn⟩
      · cases h

end Increments

section OpLinks

variable {σ τ : Type}

/-- The body of a worker for one task is the `switch` on the operation
followed by the update of the counter and of the progress bar. -/
theorem runOpTask_eq_call (cli : DavClient σ) (os : LocalOS τ) (overwrite errWriterValid : Bool)
    (op : Op) (inputs : opInput) (cnt : Nat × Nat) (w : World σ τ) :
    runOpTask cli os overwrite errWriterValid op inputs cnt w =
      match runOpCall cli os overwrite op inputs w with
      | .done (some msg, pinc) w1 =>
        .done (cnt.1, cnt.2 + 1)
          ((w1.errWrite errWriterValid
            (inputs.src.path ++ " error:" ++ msg ++ "\n")).pbarAdd64 pinc)
      | .done (none, pinc) w1 => .done (cnt.1 + 1, cnt.2) (w1.pbarAdd64 pinc)
      | .panic w1 => .panic w1
      | .outOfFuel => .outOfFuel := by
  cases op with
  | Put =>
    simp only [runOpTask, runOpCall]
    cases putRepoFile cli os overwrite inputs.src inputs.dst false w with
    | done err w1 =>
      cases inputs.src.info with
      | none => rfl
      | some info => cases err <;> rfl
    | panic w1 => rfl
    | outOfFuel => rfl
  | Get =>
    simp only [runOpTask, runOpCall]
    cases getRepoFile cli os overwrite inputs.src inputs.dst false w with
    | done err w1 =>
      cases inputs.src.info with
      | none => rfl
      | some info => cases err <;> rfl
    | panic w1 => rfl
    | outOfFuel => rfl
  | Move =>
    simp only [runOpTask, runOpCall]
    cases w.cliRename cli inputs.src.path inputs.dst.path overwrite with
    | mk err w1 => cases err <;> rfl
  | Remove =>
    simp only [runOpTask, runOpCall]
    cases w.cliRemove cli inputs.src.path with
    | mk err w1 => cases err <;> rfl
  | Copy => simp only [runOpTask, runOpCall]

/-- A worker that takes its four steps for a task in a row, no other worker
writing a counter meanwhile, does what `runOpTask` does. -/
theorem opWorker_in_turn (cli : DavClient σ) (os : LocalOS τ) (overwrite errWriterValid : Bool)
    (op : Op) (id : Nat) (inputs : opInput) (st : OpRun σ τ) (cnt : Nat × Nat) (w1 : World σ τ)
    (hw : st.workers.get? id = some (.working inputs))
    (htask : runOpTask cli os overwrite errWriterValid op inputs (st.cntOk, st.cntErr) st.world
      = .done cnt w1) :
    (((opWorkerStep cli os overwrite errWriterValid op id st).bind
        (opWorkerStep cli os overwrite errWriterValid op id)).bind
        (opWorkerStep cli os overwrite errWriterValid op id)).bind
        (opWorkerStep cli os overwrite errWriterValid op id)
      = some { st with world := w1, cntOk := cnt.1, cntErr := cnt.2,
                       workers := st.workers.set id .selecting } := by
  have hlt : id < st.workers.length := by
    rcases Nat.lt_or_ge id st.workers.length with h | h
    · exact h
    · rw [List.get?_eq_none.mpr h] at hw
      cases hw
  have hget : ∀ (l : List OpWorkerAt) (x : OpWorkerAt), l.length = st.workers.length →
      (l.set id x).get? id = some x := by
    intro l x hl
    simp [List.get?_eq_getElem?, List.getElem?_set, hl, hlt]
  have hsteps : ∀ (failed : Bool) (pinc : Int) (w0 : World σ τ),
      (((some ({ st with world := w0, workers := st.workers.set id (.reading failed pinc) } :
          OpRun σ τ)).bind
        (opWorkerStep cli os overwrite errWriterValid op id)).bind
        (opWorkerStep cli os overwrite errWriterValid op id)).bind
        (opWorkerStep cli os overwrite errWriterValid op id)
      = some { st with
          world := w0.pbarAdd64 pinc
          cntOk := if failed then st.cntOk else st.cntOk + 1
          cntErr := if failed then st.cntErr + 1 else st.cntErr
          workers := st.workers.set id .selecting } := by
    intro failed pinc w0
    have h2 : opWorkerStep cli os overwrite errWriterValid op id
        ({ st with world := w0, workers := st.workers.set id (.reading failed pinc) } :
          OpRun σ τ)
        = some { st with
            world := w0
            workers := st.workers.set id
              (.writing failed (if failed then st.cntErr else st.cntOk) pinc) } := by
      unfold opWorkerStep
      simp only [hget st.workers _ rfl, List.set_set]
    have h3 : opWorkerStep cli os overwrite errWriterValid op id
        ({ st with
            world := w0
            workers := st.workers.set id
              (.writing failed (if failed then st.cntErr else st.cntOk) pinc) } : OpRun σ τ)
        = some { st with
            world := w0
            cntOk := if failed then st.cntOk else st.cntOk + 1
            cntErr := if failed then st.cntErr + 1 else st.cntErr
            workers := st.workers.set id (.adding pinc) } := by
      unfold opWorkerStep
      simp only [hget st.workers _ rfl, List.set_set]
      cases failed <;> simp
    have h4 : opWorkerStep cli os overwrite errWriterValid op id
        ({ st with
            world := w0
            cntOk := if failed then st.cntOk else st.cntOk + 1
            cntErr := if failed then st.cntErr + 1 else st.cntErr
            workers := st.workers.set id (.adding pinc) } : OpRun σ τ)
        = some { st with
            world := w0.pbarAdd64 pinc
            cntOk := if failed then st.cntOk else st.cntOk + 1
            cntErr := if failed then st.cntErr + 1 else st.cntErr
            workers := st.workers.set id .selecting } := by
      unfold opWorkerStep
      simp only [hget st.workers _ rfl, List.set_set]
    simp only [Option.some_bind, h2, h3, h4]
  rw [runOpTask_eq_call] at htask
  have h1 : opWorkerStep cli os overwrite errWriterValid op id st
      = match runOpCall cli os overwrite op inputs st.world with
        | .done (some msg, pinc) w1 =>
          some { st with
            world := w1.errWrite errWriterValid (inputs.src.path ++ " error:" ++ msg ++ "\n")
            workers := st.workers.set id (.reading true pinc) }
        | .done (none, pinc) w1 =>
          some { st with world := w1, workers := st.workers.set id (.reading false pinc) }
        | .panic w1 => some { st with world := w1, crashed := true }
        | .outOfFuel => none := by
    unfold opWorkerStep
    simp only [hw]
  rw [h1]
  cases hcall : runOpCall cli os overwrite op inputs st.world with
  | done r w0 =>
    obtain ⟨err, pinc⟩ := r
    rw [hcall] at htask
    cases err with
    | some msg =>
      simp only [Run.done.injEq] at htask
      obtain ⟨rfl, rfl⟩ := htask
      exact hsteps true pinc _
    | none =>
      simp only [Run.done.injEq] at htask
      obtain ⟨rfl, rfl⟩ := htask
      exact hsteps false pinc _
  | panic w0 =>
    rw [hcall] at htask
    cases htask
  | outOfFuel =>
    rw [hcall] at htask
    cases htask

end OpLinks

section LostUpdate

/-- C11, run on the failing schedule. The scenario is the upload of `/src`,
holding `a.txt` (10 bytes) and `sub/b.txt` (20 bytes), to the empty
destination `/dst` with `overwrite = false` and 2 workers.  In every run
below the walker returns, the channel is closed, every worker leaves its loop,
the sub-directory `/dst/sub` is created and the destination holds `a.txt` of
size 10 and `sub/b.txt` of size 20.  When each worker finishes its task before
the other receives one, `runOp` returns `(2, 0)`, and so does the sequential
run `runOp`.  When both workers read `cntOk` before either of them writes it,
which the unsynchronised `cntOk += 1` allows, one update is lost and `runOp`
returns `(1, 0)`. -/
theorem put_scenario_lost_update :
    ((runOpSchedule stepPut scheduleRace
        (OpRun.start srcPut ⟨"/dst", none⟩ 2 (World.init fsPutRemote fsPutLocal none))).map
        (fun st => (st.result?, st.walker, st.workers, st.closed, st.crashed))
        = some (some (1, 0), .returned, [.exited, .exited], true, false) ∧
      (runOpSchedule stepPut scheduleRace
        (OpRun.start srcPut ⟨"/dst", none⟩ 2 (World.init fsPutRemote fsPutLocal none))).map
        (fun st => (specStore.Stat st.world.remote "/dst/a.txt",
          specStore.Stat st.world.remote "/dst/sub/b.txt",
          specStore.Stat st.world.remote "/dst/sub"))
        = some (.ok ⟨"a.txt", 10, false, 420⟩, .ok ⟨"b.txt", 20, false, 420⟩,
            .ok ⟨"sub", 0, true, 493⟩)) ∧
    ((runOpSchedule stepPut scheduleInTurn
        (OpRun.start srcPut ⟨"/dst", none⟩ 2 (World.init fsPutRemote fsPutLocal none))).map
        (fun st => (st.result?, st.walker, st.workers, st.closed, st.crashed))
        = some (some (2, 0), .returned, [.exited, .exited], true, false) ∧
      (runOpSchedule stepPut scheduleInTurn
        (OpRun.start srcPut ⟨"/dst", none⟩ 2 (World.init fsPutRemote fsPutLocal none))).map
        (fun st => (specStore.Stat st.world.remote "/dst/a.txt",
          specStore.Stat st.world.remote "/dst/sub/b.txt",
          specStore.Stat st.world.remote "/dst/sub"))
        = some (.ok ⟨"a.txt", 10, false, 420⟩, .ok ⟨"b.txt", 20, false, 420⟩,
            .ok ⟨"sub", 0, true, 493⟩)) ∧
    ((runOp specStore posixOS false "" .Put walkPut 2
        (World.init fsPutRemote fsPutLocal none)).result? = some (2, 0) ∧
      (runOp specStore posixOS false "" .Put walkPut 2
        (World.init fsPutRemote fsPutLocal none)).state?.map
          (fun st => (specStore.Stat st.world.remote "/dst/a.txt",
            specStore.Stat st.world.remote "/dst/sub/b.txt",
            specStore.Stat st.world.remote "/dst/sub"))
        = some (.ok ⟨"a.txt", 10, false, 420⟩, .ok ⟨"b.txt", 20, false, 420⟩,
            .ok ⟨"sub", 0, true, 493⟩) ∧
      (runOp specStore posixOS false "" .Put walkPut 2
        (World.init fsPutRemote fsPutLocal none)).state?.map
          (fun st => decide (Call.Mkdir "/dst/sub" ∈ st.world.log)) = some true) ∧
    specStore.ReadDir fsPutRemote "/dst" = .ok [] ∧
    (posixOS.ReadDir fsPutLocal "/src").map (fun l => l.map (fun f => (f.name, f.size, f.isDir)))
      = .ok [("a.txt", 10, false), ("sub", 0, true)] ∧
    (posixOS.ReadDir fsPutLocal "/src/sub").map
      (fun l => l.map (fun f => (f.name, f.size, f.isDir))) = .ok [("b.txt", 20, false)] := by
  refine ⟨⟨?_, ?_⟩, ⟨?_, ?_⟩, ⟨?_, ?_, ?_⟩, ?_, ?_, ?_⟩ <;> decide

end LostUpdate

end Repocli

/-! ## The bookkeeping store of `repoadm` -/

namespace Repoadm

/-- No key comes before itself. -/
theorem runesLess_irrefl : ∀ a : List Char, runesLess a a = false
  | [] => rfl
  | c :: cs => by simp [runesLess, runesLess_irrefl cs]

/-- Of two keys at most one comes before the other. -/
theorem runesLess_asymm : ∀ a b : List Char, runesLess a b = true → runesLess b a = false
  | _, [] => by simp [runesLess]
  | [], _ :: _ => by simp [runesLess]
  | c :: cs, d :: ds => by
    intro h
    simp only [runesLess, Bool.or_eq_true, Bool.and_eq_true, decide_eq_true_eq] at h
    simp only [runesLess, Bool.or_eq_false_iff, Bool.and_eq_false_iff, decide_eq_false_iff_not]
    rcases h with h | ⟨h1, h2⟩
    · exact ⟨by omega, Or.inl (by omega)⟩
    · exact ⟨by omega, Or.inr (runesLess_asymm cs ds h2)⟩

/-- Of two different keys one comes before the other. -/
theorem runesLess_total : ∀ a b : List Char, a ≠ b → runesLess a b = true ∨ runesLess b a = true
  | [], [] => by simp
  | [], _ :: _ => by simp [runesLess]
  | _ :: _, [] => by simp [runesLess]
  | c :: cs, d :: ds => by
    intro h
    simp only [runesLess, Bool.or_eq_true, Bool.and_eq_true, decide_eq_true_eq]
    by_cases hcd : c.toNat = d.toNat
    · have hc : c = d := by
        rw [← Char.ofNat_toNat c, ← Char.ofNat_toNat d, hcd]
      subst hc
      have hne : cs ≠ ds := fun e => h (by rw [e])
      rcases runesLess_total cs ds hne with h1 | h1
      · exact Or.inl (Or.inr ⟨rfl, h1⟩)
      · exact Or.inr (Or.inr ⟨rfl, h1⟩)
    · rcases Nat.lt_or_gt_of_ne hcd with h1 | h1
      · exact Or.inl (Or.inl h1)
      · exact Or.inr (Or.inl h1)

/-- A key with one entry is found with the value of that entry. -/
theorem lookup_of_filter (key : String) (v : JDoc) :
    ∀ l : List (String × JDoc), l.filter (fun e => e.1 == key) = [(key, v)] →
      l.lookup key = some v
  | [] => by simp
  | (k, x) :: rest => by
    intro h
    by_cases hk : k = key
    · subst hk
      simp only [List.filter_cons, beq_self_eq_true, if_true, List.cons.injEq, Prod.mk.injEq,
        true_and] at h
      simp [List.lookup, h.1]
    · have hb : (k == key) = false := by simpa using hk
      have hb2 : (key == k) = false := by simpa using fun e : key = k => hk e.symm
      simp only [List.filter_cons, hb, Bool.false_eq_true, if_false] at h
      simp only [List.lookup, hb2]
      exact lookup_of_filter key v rest h

/-- After `Put` the key has one entry, with the value put. -/
theorem filter_put_same (key : String) (v : JDoc) (l : List (String × JDoc)) :
    (l.filter (fun e => keyLess e.1 key) ++ (key, v) :: l.filter (fun e => keyLess key e.1)).filter
      (fun e => e.1 == key) = [(key, v)] := by
  have h1 : (l.filter (fun e => keyLess e.1 key)).filter (fun e => e.1 == key) = [] := by
    rw [List.filter_filter, List.filter_eq_nil_iff]
    intro e _ he
    simp only [Bool.and_eq_true, beq_iff_eq] at he
    rw [he.1] at he
    simp [keyLess, runesLess_irrefl] at he
  have h2 : (l.filter (fun e => keyLess key e.1)).filter (fun e => e.1 == key) = [] := by
    rw [List.filter_filter, List.filter_eq_nil_iff]
    intro e _ he
    simp only [Bool.and_eq_true, beq_iff_eq] at he
    rw [he.1] at he
    simp [keyLess, runesLess_irrefl] at he
  simp [List.filter_append, List.filter_cons, h1, h2]

/-- A `Put` of another key keeps the entries of a key. -/
theorem filter_put_other (key key1 : String) (v : JDoc) (hne : key1 ≠ key)
    (l : List (String × JDoc)) :
    (l.filter (fun e => keyLess e.1 key1) ++ (key1, v) :: l.filter (fun e => keyLess key1 e.1)).filter
      (fun e => e.1 == key) = l.filter (fun e => e.1 == key) := by
  have hb : (key1 == key) = false := by simpa using hne
  have hd : key.data ≠ key1.data := fun e => hne (String.ext e.symm)
  simp only [List.filter_append, List.filter_cons, hb, Bool.false_eq_true, if_false,
    List.filter_filter]
  rcases runesLess_total key.data key1.data hd with h | h
  · have h2 := runesLess_asymm _ _ h
    have e1 : (fun e : String × JDoc => (e.1 == key && keyLess e.1 key1))
        = fun e => e.1 == key := by
      funext e
      by_cases he : e.1 = key
      · simp [he, keyLess, h]
      · simp [he]
    have e2 : (l.filter fun e : String × JDoc => (e.1 == key && keyLess key1 e.1)) = [] := by
      rw [List.filter_eq_nil_iff]
      intro e _ he
      simp only [Bool.and_eq_true, beq_iff_eq] at he
      rw [he.1] at he
      simp [keyLess, h2] at he
    rw [e1, e2, List.append_nil]
  · have h2 := runesLess_asymm _ _ h
    have e1 : (fun e : String × JDoc => (e.1 == key && keyLess key1 e.1))
        = fun e => e.1 == key := by
      funext e
      by_cases he : e.1 = key
      · simp [he, keyLess, h]
      · simp [he]
    have e2 : (l.filter fun e : String × JDoc => (e.1 == key && keyLess e.1 key1)) = [] := by
      rw [List.filter_eq_nil_iff]
      intro e _ he
      simp only [Bool.and_eq_true, beq_iff_eq] at he
      rw [he.1] at he
      simp [keyLess, h2] at he
    rw [e1, e2, List.nil_append]

/-- The bucket put into the database is the one found under its name. -/
theorem withBucket_same (name : String) (b1 : Bucket) :
    ∀ (l : List (String × Bucket)) (b : Bucket), l.lookup name = some b →
      (l.map (fun e => if e.1 = name then (name, b1) else e)).lookup name = some b1
  | [], _ => by simp
  | (k, x) :: rest, b => by
    intro h
    by_cases hk : k = name
    · have e : (if (k, x).1 = name then (name, b1) else (k, x)) = (name, b1) := if_pos hk
      rw [List.map_cons, e]
      simp [List.lookup]
    · have e : (if (k, x).1 = name then (name, b1) else (k, x)) = (k, x) := if_neg hk
      have hb2 : (name == k) = false := by simpa using fun e : name = k => hk e.symm
      simp only [List.lookup, hb2] at h
      rw [List.map_cons, e]
      simp only [List.lookup, hb2]
      exact withBucket_same name b1 rest b h

/-- The buckets of other names are as they were. -/
theorem withBucket_other (name name1 : String) (b1 : Bucket) (hne : name1 ≠ name) :
    ∀ l : List (String × Bucket),
      (l.map (fun e => if e.1 = name1 then (name1, b1) else e)).lookup name = l.lookup name
  | [] => by simp
  | (k, x) :: rest => by
    by_cases hk : k = name1
    · have e : (if (k, x).1 = name1 then (name1, b1) else (k, x)) = (name1, b1) := if_pos hk
      have hb : (name == name1) = false := by simpa using fun e : name = name1 => hne e.symm
      have hb2 : (name == k) = false := by rw [hk]; exact hb
      rw [List.map_cons, e]
      simp only [List.lookup, hb, hb2]
      exact withBucket_other name name1 b1 hne rest
    · have e : (if (k, x).1 = name1 then (name1, b1) else (k, x)) = (k, x) := if_neg hk
      rw [List.map_cons, e]
      simp only [List.lookup]
      rw [withBucket_other name name1 b1 hne rest]

/-- A string without invalid bytes is read back as it was written. -/
theorem ofJSONString_toValidUTF8 : ∀ s : GoString, validUTF8 s = true →
    ofJSONString (toValidUTF8 s) = s
  | [] => by simp [ofJSONString, toValidUTF8]
  | u :: rest => by
    intro h
    have ih := ofJSONString_toValidUTF8 rest
    cases u with
    | rune c =>
      simp only [validUTF8, List.all_cons, Bool.true_and] at h
      simp only [ofJSONString, toValidUTF8, List.map_cons, List.cons.injEq, true_and] at ih ⊢
      exact ih h
    | badByte b => simp [validUTF8] at h

/-- Strings without invalid bytes are read back as they were written. -/
theorem map_ofJSONString_toValidUTF8 : ∀ xs : List GoString, (∀ x ∈ xs, validUTF8 x = true) →
    (xs.map toValidUTF8).map ofJSONString = xs
  | [] => by simp
  | x :: rest => by
    intro h
    simp only [List.map_cons, List.cons.injEq]
    exact ⟨ofJSONString_toValidUTF8 x (h x (List.mem_cons_self _ _)),
      map_ofJSONString_toValidUTF8 rest (fun y hy => h y (List.mem_cons_of_mem _ hy))⟩

/-- Decoding the document of a valid value into a target of its type gives the
value. -/
theorem Unmarshal_Marshal (v target : Obj) (hv : v.Valid) (ht : target.SameType v) :
    ∃ d, Marshal v = .ok d ∧ Unmarshal d target = (v, none) := by
  cases v with
  | nil => exact absurd hv (by simp [Obj.Valid])
  | umap u =>
    cases target with
    | nil => exact absurd ht (by simp [Obj.SameType])
    | coll c => exact absurd ht (by simp [Obj.SameType])
    | umap t =>
      obtain ⟨h1, h2, h3⟩ := hv
      refine ⟨_, rfl, ?_⟩
      have i0 : fieldIndex ["email", "uidLocal", "uidRepo"] "email" = some 0 := by decide
      have i1 : fieldIndex ["email", "uidLocal", "uidRepo"] "uidLocal" = some 1 := by decide
      have i2 : fieldIndex ["email", "uidLocal", "uidRepo"] "uidRepo" = some 2 := by decide
      simp only [Unmarshal, List.foldl_cons, List.foldl_nil, decodeUmapField, i0, i1, i2,
        decodeString, firstErr, ofJSONString_toValidUTF8 _ h1, ofJSONString_toValidUTF8 _ h2,
        ofJSONString_toValidUTF8 _ h3]
  | coll c =>
    cases target with
    | nil => exact absurd ht (by simp [Obj.SameType])
    | umap t => exact absurd ht (by simp [Obj.SameType])
    | coll t =>
      obtain ⟨h1, h2, h3⟩ := hv
      refine ⟨_, rfl, ?_⟩
      have i0 : fieldIndex ["path", "ou", "viewersRepo"] "path" = some 0 := by decide
      have i1 : fieldIndex ["path", "ou", "viewersRepo"] "ou" = some 1 := by decide
      have i2 : fieldIndex ["path", "ou", "viewersRepo"] "viewersRepo" = some 2 := by decide
      cases hvr : c.ViewersRepo with
      | none =>
        simp only [Unmarshal, List.foldl_cons, List.foldl_nil, decodeCollField, i0, i1, i2,
          decodeString, decodeStrings, firstErr, ofJSONString_toValidUTF8 _ h1,
          ofJSONString_toValidUTF8 _ h2, hvr]
        cases c
        simp only at hvr
        simp [hvr]
      | some xs =>
        rw [hvr] at h3
        simp only [Unmarshal, List.foldl_cons, List.foldl_nil, decodeCollField, i0, i1, i2,
          decodeString, decodeStrings, firstErr, ofJSONString_toValidUTF8 _ h1,
          ofJSONString_toValidUTF8 _ h2, hvr, map_ofJSONString_toValidUTF8 xs h3]
        cases c
        simp only at hvr
        simp [hvr]

/-- Removing the entries of another key from a Go map keeps what a key
maps to. -/
theorem lookup_filter_ne (key k : String) (hne : key ≠ k) :
    ∀ m : List (String × Obj), (m.filter (fun e => e.1 != k)).lookup key = m.lookup key
  | [] => by simp
  | (a, x) :: rest => by
    by_cases ha : a = k
    · have hb : (key == a) = false := by rw [ha]; simpa using hne
      simp only [List.filter_cons, ha, bne_self_eq_false, Bool.false_eq_true, if_false]
      rw [lookup_filter_ne key k hne rest]
      rw [ha] at hb
      simp only [List.lookup, hb]
    · have hb : (a != k) = true := by simpa using ha
      simp only [List.filter_cons, hb, if_true, List.lookup]
      rw [lookup_filter_ne key k hne rest]

/-- The map after `objs[k] = v`. -/
theorem lookup_mapSet (objs : List (String × Obj)) (k key : String) (v : Obj) :
    (mapSet objs k v).lookup key = if key = k then some v else objs.lookup key := by
  by_cases h : key = k
  · simp [mapSet, List.lookup, h]
  · have hb : (key == k) = false := by simpa using h
    simp only [mapSet, List.lookup, hb, h, if_false]
    exact lookup_filter_ne key k h objs

/-- One turn of the loop of `getAll` maps the key of the entry to what its
value decodes to. -/
theorem getAllStep_fst (bucket : String) (st : List (String × Obj) × List String)
    (kv : String × JDoc) :
    (getAllStep bucket st kv).1 = mapSet st.1 kv.1
      (Unmarshal kv.2 (if bucket = "umap" then .umap ⟨[], [], []⟩
        else if bucket = "cmap" then .coll ⟨[], [], none⟩ else .nil)).1 := by
  unfold getAllStep
  simp only
  generalize Unmarshal kv.2 (if bucket = "umap" then .umap ⟨[], [], []⟩
        else if bucket = "cmap" then .coll ⟨[], [], none⟩ else .nil) = r
  obtain ⟨o, e⟩ := r
  cases e <;> rfl

/-- The loop of `getAll` leaves a key without entry in the bucket as it is in
the map. -/
theorem getAll_loop_other (bucket key : String) :
    ∀ (l : List (String × JDoc)) (st : List (String × Obj) × List String),
      l.filter (fun e => e.1 == key) = [] →
      (l.foldl (getAllStep bucket) st).1.lookup key = st.1.lookup key
  | [], _ => by simp
  | (k, x) :: rest, st => by
    intro h
    by_cases hk : k = key
    · simp [List.filter_cons, hk] at h
    · have hb : (k == key) = false := by simpa using hk
      simp only [List.filter_cons, hb, Bool.false_eq_true, if_false] at h
      rw [List.foldl_cons, getAll_loop_other bucket key rest _ h, getAllStep_fst, lookup_mapSet,
        if_neg (fun e : key = k => hk e.symm)]

/-- The loop of `getAll` maps a key with one entry in the bucket to what the
value of the entry decodes to. -/
theorem getAll_loop_entry (bucket key : String) (v : JDoc) :
    ∀ (l : List (String × JDoc)) (st : List (String × Obj) × List String),
      l.filter (fun e => e.1 == key) = [(key, v)] →
      (l.foldl (getAllStep bucket) st).1.lookup key
        = some (Unmarshal v (if bucket = "umap" then .umap ⟨[], [], []⟩
            else if bucket = "cmap" then .coll ⟨[], [], none⟩ else .nil)).1
  | [], _ => by simp
  | (k, x) :: rest, st => by
    intro h
    by_cases hk : k = key
    · subst hk
      simp only [List.filter_cons, beq_self_eq_true, if_true, List.cons.injEq, Prod.mk.injEq,
        true_and] at h
      rw [List.foldl_cons, getAll_loop_other bucket k rest _ h.2, getAllStep_fst, lookup_mapSet,
        if_pos rfl, h.1]
    · have hb : (k == key) = false := by simpa using hk
      simp only [List.filter_cons, hb, Bool.false_eq_true, if_false] at h
      rw [List.foldl_cons]
      exact getAll_loop_entry bucket key v rest _ h

/-- A store that holds the document of a valid value under a key returns the
value from `get`, and from `getAll` when the value is of the type of the
bucket. -/
theorem get_of_holds (s : store) (bucket key : String) (v : Obj) (d : JDoc) (hv : v.Valid)
    (hd : Marshal v = .ok d) (h : Holds s bucket key d) :
    (∀ target : Obj, target.SameType v → s.get bucket key target = .returned (none, v)) ∧
    (∀ objs, ∃ objs1 logged, s.getAll bucket objs = .returned (none, objs1, logged) ∧
      ∃ e, objs1.lookup key = some e ∧ (v.TypeOfBucket bucket → e = v)) := by
  unfold Holds at h
  cases hdb : s.db with
  | none => simp [hdb] at h
  | some db =>
    simp only [hdb] at h
    cases hb : db.Bucket bucket with
    | none => simp [hb] at h
    | some b =>
      simp only [hb] at h
      constructor
      · intro target ht
        obtain ⟨d1, hd1, hun⟩ := Unmarshal_Marshal v target hv ht
        rw [hd] at hd1
        simp only [Except.ok.injEq] at hd1
        subst hd1
        simp [store.get, hdb, hb, Bucket.Get, lookup_of_filter key d b.entries h, hun]
      · intro objs
        refine ⟨(b.entries.foldl (getAllStep bucket) (objs, [])).1,
          (b.entries.foldl (getAllStep bucket) (objs, [])).2,
          by simp only [store.getAll, hdb, hb], _,
          getAll_loop_entry bucket key d b.entries (objs, []) h, ?_⟩
        intro ht
        cases v with
        | nil => exact absurd hv (by simp [Obj.Valid])
        | umap u =>
          have hbk : bucket = "umap" := ht
          obtain ⟨d1, hd1, hun⟩ := Unmarshal_Marshal (.umap u) (.umap ⟨[], [], []⟩) hv trivial
          rw [hd] at hd1
          simp only [Except.ok.injEq] at hd1
          subst hd1
          simp [hbk, hun]
        | coll c =>
          have hbk : bucket = "cmap" := ht
          obtain ⟨d1, hd1, hun⟩ := Unmarshal_Marshal (.coll c) (.coll ⟨[], [], none⟩) hv trivial
          rw [hd] at hd1
          simp only [Except.ok.injEq] at hd1
          subst hd1
          simp [hbk, hun]

/-- A `set` that succeeds leaves one entry for the key, with the document of
the value. -/
theorem holds_of_set (s s1 : store) (bucket key : String) (v : Obj)
    (hset : s.set bucket key v = .returned (none, s1)) :
    ∃ d, Marshal v = .ok d ∧ Holds s1 bucket key d := by
  unfold store.set at hset
  cases hdb : s.db with
  | none => simp [hdb] at hset
  | some db =>
    simp only [hdb] at hset
    cases hm : Marshal v with
    | error e => simp [hm] at hset
    | ok d =>
      simp only [hm] at hset
      cases hb : db.Bucket bucket with
      | none => simp [hb] at hset
      | some b =>
        simp only [hb, Bucket.Put] at hset
        by_cases h0 : key.utf8ByteSize = 0
        · simp [h0] at hset
        · by_cases h1 : MaxKeySize < key.utf8ByteSize
          · simp [h0, h1] at hset
          · simp only [h0, h1, if_false, Outcome.returned.injEq, Prod.mk.injEq, true_and] at hset
            refine ⟨d, rfl, ?_⟩
            rw [← hset]
            simp only [Holds, DB.Bucket, DB.withBucket]
            rw [withBucket_same bucket _ db.buckets b hb]
            exact filter_put_same key d b.entries

/-- A `set` of another key or in another bucket keeps what the store holds
under a key. -/
theorem holds_after_other_set (s s1 : store) (bucket key bucket1 key1 : String) (v1 : Obj)
    (d : JDoc) (hne : bucket1 ≠ bucket ∨ key1 ≠ key) (h : Holds s bucket key d)
    (hset : s.set bucket1 key1 v1 = .returned (none, s1)) : Holds s1 bucket key d := by
  unfold store.set at hset
  unfold Holds at h
  cases hdb : s.db with
  | none => simp [hdb] at hset
  | some db =>
    simp only [hdb] at hset h
    cases hm : Marshal v1 with
    | error e => simp [hm] at hset
    | ok d1 =>
      simp only [hm] at hset
      cases hb1 : db.Bucket bucket1 with
      | none => simp [hb1] at hset
      | some b1 =>
        simp only [hb1, Bucket.Put] at hset
        by_cases h0 : key1.utf8ByteSize = 0
        · simp [h0] at hset
        · by_cases h1 : MaxKeySize < key1.utf8ByteSize
          · simp [h0, h1] at hset
          · simp only [h0, h1, if_false, Outcome.returned.injEq, Prod.mk.injEq, true_and] at hset
            rw [← hset]
            simp only [Holds, DB.Bucket, DB.withBucket]
            by_cases hbk : bucket1 = bucket
            · subst hbk
              have hk : key1 ≠ key := by
                rcases hne with h1 | h1
                · exact absurd rfl h1
                · exact h1
              rw [withBucket_same bucket1 _ db.buckets b1 hb1]
              simp only [hb1] at h
              simp only
              rw [filter_put_other key key1 d1 hk b1.entries]
              exact h
            · rw [withBucket_other bucket bucket1 _ hbk db.buckets]
              exact h

/-- C19, amended. Store round trip: a `set(bucket, key, v)` that succeeds for
a `Umap` or `CollExport` value `v` leaves the document of `v` under `key`; as
long as the store holds it, and it does after every later `set` of another key
or bucket that succeeds, `get(bucket, key)` into a value of the type of `v`
succeeds and decodes `v`, and `getAll(bucket)` succeeds with an entry for
`key`, which is `v` when `v` is of the type of the bucket (`Umap` for `umap`,
`CollExport` for `cmap`), provided the strings of `v` are valid UTF-8. -/
theorem store_round_trip (s s1 : store) (bucket key : String) (v : Obj) (hv : v.Valid)
    (hset : s.set bucket key v = .returned (none, s1)) :
    ∃ d, Holds s1 bucket key d ∧
      (∀ s2 bucket1 key1 v1 s3, Holds s2 bucket key d → (bucket1 ≠ bucket ∨ key1 ≠ key) →
        s2.set bucket1 key1 v1 = .returned (none, s3) → Holds s3 bucket key d) ∧
      ∀ s2, Holds s2 bucket key d →
        (∀ target : Obj, target.SameType v → s2.get bucket key target = .returned (none, v)) ∧
        (∀ objs, ∃ objs1 logged, s2.getAll bucket objs = .returned (none, objs1, logged) ∧
          ∃ e, objs1.lookup key = some e ∧ (v.TypeOfBucket bucket → e = v)) := by
  obtain ⟨d, hd, hh⟩ := holds_of_set s s1 bucket key v hset
  exact ⟨d, hh,
    fun s2 bucket1 key1 v1 s3 h2 hne hs => holds_after_other_set s2 s3 bucket key bucket1 key1 v1 d
      hne h2 hs,
    fun s2 h2 => get_of_holds s2 bucket key v d hv hd h2⟩

/-- C19 as stated fails on two inputs. (1) A `CollExport` set in the bucket
`umap`: `set` succeeds and `get` decodes the value, but `getAll("umap")`
decodes every entry into a `Umap`, none of whose fields the document names, so
the entry of the key is the zero `Umap`.  (2) A `Umap` whose `Email` is the byte
`0xff`: `set` succeeds, and `get` decodes an `Email` that is the rune `U+FFFD`. -/
theorem store_round_trip_fails :
    (storeInit.init = (none, storeInit) ∧
      storeInit.set "umap" "ds_0" (.coll coll0) = .returned (none, storeCollInUmap) ∧
      storeCollInUmap.get "umap" "ds_0" (.coll ⟨[], [], none⟩) = .returned (none, .coll coll0) ∧
      storeCollInUmap.getAll "umap" []
        = .returned (none, [("ds_0", .umap ⟨[], [], []⟩)], [])) ∧
    (storeInit.set "umap" "u0000000@ru.nl" (.umap umapBad) = .returned (none, storeUmapBad) ∧
      storeUmapBad.get "umap" "u0000000@ru.nl" (.umap ⟨[], [], []⟩)
        = .returned (none, .umap { umapBad with Email := [.rune (Char.ofNat 65533)] }) ∧
      Obj.umap { umapBad with Email := [.rune (Char.ofNat 65533)] } ≠ .umap umapBad) := by
  decide

/-- The round trip of C19 on the first two values of `TestStore`: after
`umap0` is set, and still after `umap1` is set under another key, `get` decodes
`umap0`. -/
theorem store_round_trip_witness :
    (Obj.umap umap0).Valid ∧
    storeInit.set "umap" "u0000000@ru.nl" (.umap umap0) = .returned (none, storeUmap0) ∧
    storeUmap0.get "umap" "u0000000@ru.nl" (.umap ⟨[], [], []⟩) = .returned (none, .umap umap0) ∧
    storeUmap0.set "umap" "u0000001@ru.nl" (.umap umap1) = .returned (none, storeUmap01) ∧
    storeUmap01.get "umap" "u0000000@ru.nl" (.umap ⟨[], [], []⟩)
      = .returned (none, .umap umap0) ∧
    (∃ objs1 logged, storeUmap01.getAll "umap" [] = .returned (none, objs1, logged) ∧
      objs1.lookup "u0000000@ru.nl" = some (.umap umap0)) := by
  have hvalid : (Obj.umap umap0).Valid := ⟨by decide, by decide, by decide⟩
  obtain ⟨d, hh, hkeep, hget⟩ := store_round_trip storeInit storeUmap0 "umap" "u0000000@ru.nl"
    (.umap umap0) hvalid (by decide)
  have h2 := hkeep storeUmap0 "umap" "u0000001@ru.nl" (.umap umap1) storeUmap01 hh
    (Or.inr (by decide)) (by decide)
  obtain ⟨objs1, logged, hall, e, he, hev⟩ := (hget storeUmap01 h2).2 []
  exact ⟨hvalid, by decide, (hget storeUmap0 hh).1 _ trivial, by decide,
    (hget storeUmap01 h2).1 _ trivial, objs1, logged, hall, by rw [he, hev rfl]⟩

end Repoadm
